import Mathlib


/-! # Hypergraph minimum cut (Klimmek–Wagner) — model of `_pywmi/vtree/hypergraph.cpp`

The C++ containers are modelled as follows.

* `std::set<unsigned>` is a list of naturals read in iteration order (ascending, no duplicate);
  `SetWF` states that a list is such a set.  Functions do not require it, theorems assume it
  where the source relies on it.
* `std::map<unsigned, V>` is an association list read in key order; `MapWF` states that the keys
  ascend strictly.  `operator[]` is `mapGetD` (the value, default constructed when absent)
  together with `mapTouch` (the insertion of the default value it performs).
* `int` is `Int` kept in the 32 bit range: every `+` of the source is followed by `wrapInt`
  (two's complement wrap-around; the sum is not representable otherwise).
* heap nodes live in a store indexed by addresses (`Nat`); a null pointer is `none`, and an
  operation that dereferences a null or deleted pointer returns `none`.
-/

abbrev VID := Nat
abbrev EID := Nat
abbrev VertexSet := List VID
abbrev EdgeSet := List EID

/-- The largest value of the C++ type int, `std::numeric_limits<int>::max()`. -/
def INT_MAX : Int := 2147483647

/-- Reduction of an integer to the range of the C++ type int (32 bit two's complement). -/
def wrapInt (x : Int) : Int := (x + 2147483648) % 4294967296 - 2147483648

/-- A list is the iteration sequence of a `std::set`: strictly ascending. -/
def SetWF (s : List Nat) : Prop := s.Pairwise (fun a b => a < b)

instance (s : List Nat) : Decidable (SetWF s) := by unfold SetWF; infer_instance

/-- An association list is the iteration sequence of a `std::map`: keys strictly ascending. -/
def MapWF {V : Type} (m : List (Nat × V)) : Prop := SetWF (m.map Prod.fst)

instance {V : Type} (m : List (Nat × V)) : Decidable (MapWF m) := by unfold MapWF; infer_instance

/-- The operation `std::set::insert`. -/
def setInsert (x : Nat) : List Nat → List Nat
  | [] => [x]
  | y :: ys => if x < y then x :: y :: ys else if x = y then y :: ys else y :: setInsert x ys

/-- The operation `std::set::erase` by value. -/
def setErase (x : Nat) (s : List Nat) : List Nat := s.filter (fun y => y != x)

/-- Range insertion `s.insert(first, last)`. -/
def setInsertAll (xs : List Nat) (s : List Nat) : List Nat := xs.foldl (fun acc x => setInsert x acc) s

/-- The operation `std::map::find`. -/
def mapFind {V : Type} : List (Nat × V) → Nat → Option V
  | [], _ => none
  | (k, v) :: m, x => if k = x then some v else mapFind m x

/-- Assignment through a reference obtained from the map: the entry for `x` becomes `v`. -/
def mapSet {V : Type} : List (Nat × V) → Nat → V → List (Nat × V)
  | [], x, v => [(x, v)]
  | (k, w) :: m, x, v =>
    if x < k then (x, v) :: (k, w) :: m else if x = k then (k, v) :: m else (k, w) :: mapSet m x v

/-- The operation `std::map::erase` by key. -/
def mapErase {V : Type} (m : List (Nat × V)) (x : Nat) : List (Nat × V) :=
  m.filter (fun kv => kv.1 != x)

/-- The value `m[x]` of `operator[]`: the stored value, or a default constructed one. -/
def mapGetD {V : Type} [Inhabited V] (m : List (Nat × V)) (x : Nat) : V :=
  (mapFind m x).getD default

/-- The effect of `operator[]` on the map: an absent key is inserted with a default value. -/
def mapTouch {V : Type} [Inhabited V] (m : List (Nat × V)) (x : Nat) : List (Nat × V) :=
  match mapFind m x with
  | some _ => m
  | none => mapSet m x default

/-- Keys of a map in iteration order. -/
def mapKeys {V : Type} (m : List (Nat × V)) : List Nat := m.map Prod.fst

/-- The scan of `has_intersection`; the first argument bounds the number of iterations. -/
def has_intersection_loop : Nat → List Nat → List Nat → Bool
  | 0, _, _ => false
  | _ + 1, [], _ => false
  | _ + 1, _ :: _, [] => false
  | f + 1, x :: xs, y :: ys =>
    if x = y then true
    else if x < y then has_intersection_loop f xs (y :: ys)
    else has_intersection_loop f (x :: xs) ys

/-- Embedding of `has_intersection(a, b)`: each iteration advances one of the two iterators, so
`a.size() + b.size()` iterations are enough. -/
def has_intersection (a b : List Nat) : Bool :=
  has_intersection_loop (a.length + b.length) a b

/-- The library call `std::set_difference` on two sorted ranges, by its documented result. -/
def set_difference (a b : List Nat) : List Nat := a.filter (fun x => !(b.contains x))

structure Cut where
  value : Int
  left : VertexSet
  right : VertexSet
deriving DecidableEq, Repr

structure Edge where
  vertices : VertexSet := []
  weight : Int := 0
deriving DecidableEq, Repr, Inhabited

structure Vertex where
  edges : EdgeSet := []
  merged_with : List VID := []
deriving DecidableEq, Repr, Inhabited

structure HyperGraph where
  vertices : List (VID × Vertex) := []
  edges : List (EID × Edge) := []
deriving DecidableEq, Repr, Inhabited

namespace Cut

/-- Embedding of `Cut::count_balance`. -/
def count_balance (c : Cut) : Nat := max c.left.length c.right.length

/-- Embedding of `Cut::operator<`. -/
def lt (c other : Cut) : Bool :=
  decide (c.value < other.value) || decide (c.count_balance < other.count_balance)

end Cut

namespace HyperGraph

/-- Embedding of `HyperGraph::add_edge`. -/
def add_edge (G : HyperGraph) (e : EID) (vs : VertexSet) (weight : Int) : HyperGraph :=
  { edges := mapSet G.edges e { vertices := vs, weight := weight }
    vertices := vs.foldl
      (fun m v => mapSet m v { mapGetD m v with edges := setInsert e (mapGetD m v).edges })
      G.vertices }

/-- The accumulation loop of `HyperGraph::cut`. -/
def cut_value (edges : List (EID × Edge)) (left right : VertexSet) : Int :=
  edges.foldl
    (fun value it =>
      if has_intersection it.2.vertices left && has_intersection it.2.vertices right
      then wrapInt (value + it.2.weight) else value)
    0

/-- Embedding of `HyperGraph::cut`; the graph is passed through, as the method is not const. -/
def cut (G : HyperGraph) (left : VertexSet) : Cut × HyperGraph :=
  let right := set_difference (mapKeys G.vertices) left
  ({ value := cut_value G.edges left right, left := left, right := right }, G)

/-- One iteration of the loop over `B.edges` in `HyperGraph::merge`. -/
def merge_step (a b : VID) (G : HyperGraph) (e : EID) : HyperGraph :=
  let E := mapGetD G.edges e
  let vs := setInsert a (setErase b E.vertices)
  if vs.length ≤ 1 then
    { G with edges := mapErase (mapTouch G.edges e) e }
  else
    { edges := mapSet G.edges e { E with vertices := vs }
      vertices := mapSet G.vertices a
        { mapGetD G.vertices a with edges := setInsert e (mapGetD G.vertices a).edges } }

/-- Embedding of `HyperGraph::merge`: `a` is kept, `b` is merged into `a`. -/
def merge (G : HyperGraph) (a b : VID) : HyperGraph :=
  let vs1 := mapTouch (mapTouch G.vertices a) b
  let A := mapGetD vs1 a
  let B := mapGetD vs1 b
  let vs2 := mapSet vs1 a { A with merged_with := A.merged_with ++ [b] ++ B.merged_with }
  let vs3 := mapErase vs2 b
  B.edges.foldl (merge_step a b) { G with vertices := vs3 }

end HyperGraph

namespace Cut

/-- One side of `Cut::unmerge`: every vertex of `side` is looked up with `G.vertices[v]` and
inserted together with its `merged_with`. -/
def unmerge_side (side : VertexSet) (G : HyperGraph) : VertexSet × HyperGraph :=
  side.foldl
    (fun (acc : VertexSet × HyperGraph) v =>
      let vertex := mapGetD acc.2.vertices v
      (setInsertAll vertex.merged_with (setInsert v acc.1),
       { acc.2 with vertices := mapTouch acc.2.vertices v }))
    ([], G)

/-- Embedding of `Cut::unmerge`. -/
def unmerge (c : Cut) (G : HyperGraph) : Cut × HyperGraph :=
  let l := unmerge_side c.left G
  let r := unmerge_side c.right l.2
  ({ value := c.value, left := l.1, right := r.1 }, r.2)

end Cut


/-! ## The Fibonacci heap `FibHeap<int, VID>`

A node is addressed by a natural number (its pointer).  The circular doubly linked sibling
rings of the source are lists:

* the root ring is `roots`, read from `max` following `right`; `max` is its head, and an empty
  list is `max == nullptr`.  Inserting to the left of `max` appends at the end of the list,
  inserting to the right of `max` puts the node in second position, and moving `max` to another
  root rotates the list;
* the child ring of a node is `children`, read from `child` following `right`; `degree` is its
  length.

The counter `n` is not wrapped (it counts the nodes in memory).  The table `A` of `consolidate`
is a list indexed by degree that grows on demand: its allocated size `max_degree + 2`, computed
in floating point by the source, is not modelled.
-/

structure FibNode where
  key : Int
  mark : Bool := false
  p : Option Nat := none
  children : List Nat := []
  payload : VID
deriving DecidableEq, Repr

structure FibHeap where
  n : Int := 0
  roots : List Nat := []
  mem : Nat → Option FibNode := fun _ => none
  next : Nat := 0

namespace FibHeap

/-- The comparator `std::greater<int>`. -/
def comp (a b : Int) : Bool := decide (a > b)

/-- Write access to the node at address `x`. -/
def setNode (mem : Nat → Option FibNode) (x : Nat) (nd : FibNode) : Nat → Option FibNode :=
  fun i => if i = x then some nd else mem i

/-- The statement `delete x`. -/
def freeNode (mem : Nat → Option FibNode) (x : Nat) : Nat → Option FibNode :=
  fun i => if i = x then none else mem i

/-- Insertion of `x` into a root ring to the left of `max`, followed by the update of `max`. -/
def ring_insert (mem : Nat → Option FibNode) (roots : List Nat) (x : Nat) : Option (List Nat) :=
  match roots with
  | [] => some [x]
  | m :: rest => do
    let xn ← mem x
    let mn ← mem m
    if comp xn.key mn.key then some (x :: m :: rest) else some (m :: rest ++ [x])

/-- Embedding of `FibHeap::insert`. -/
def insert (h : FibHeap) (x : Nat) : Option FibHeap := do
  let xn ← h.mem x
  let mem1 := setNode h.mem x { xn with p := none, children := [], mark := false }
  let roots1 ← ring_insert mem1 h.roots x
  some { h with mem := mem1, roots := roots1, n := h.n + 1 }

/-- Embedding of `FibHeap::fib_heap_link`: `y` leaves the root ring and becomes the last child
of `x`. -/
def fib_heap_link (mem : Nat → Option FibNode) (y x : Nat) : Option (Nat → Option FibNode) := do
  let _ ← mem y
  let xn ← mem x
  let mem1 := setNode mem x { xn with children := xn.children ++ [y] }
  let yn ← mem1 y
  some (setNode mem1 y { yn with p := some x, mark := false })

/-- The inner `while (A[d] != nullptr)` loop of `consolidate`; the list is the part of `A`
from index `d` on. -/
def consolidate_link (mem : Nat → Option FibNode) (x : Nat) :
    List (Option Nat) → Option ((Nat → Option FibNode) × List (Option Nat))
  | [] => some (mem, [some x])
  | none :: tbl => some (mem, some x :: tbl)
  | some y :: tbl => do
    let yn ← mem y
    let xn ← mem x
    let x1 := if comp yn.key xn.key then y else x
    let y1 := if comp yn.key xn.key then x else y
    let mem1 ← fib_heap_link mem y1 x1
    let r ← consolidate_link mem1 x1 tbl
    some (r.1, none :: r.2)

/-- Entry of the root `x` of degree `d` into the table `A`. -/
def consolidate_at (mem : Nat → Option FibNode) (x : Nat) :
    Nat → List (Option Nat) → Option ((Nat → Option FibNode) × List (Option Nat))
  | 0, tbl => consolidate_link mem x tbl
  | d + 1, [] => (consolidate_at mem x d []).map (fun r => (r.1, none :: r.2))
  | d + 1, s :: tbl => (consolidate_at mem x d tbl).map (fun r => (r.1, s :: r.2))

/-- The loop of `consolidate` over `rootList`. -/
def consolidate_roots : List Nat → (Nat → Option FibNode) → List (Option Nat) →
    Option ((Nat → Option FibNode) × List (Option Nat))
  | [], mem, tbl => some (mem, tbl)
  | w :: ws, mem, tbl => do
    let wn ← mem w
    let r ← consolidate_at mem w wn.children.length tbl
    consolidate_roots ws r.1 r.2

/-- The last loop of `consolidate`: the root ring is rebuilt from the table `A`. -/
def consolidate_rebuild (mem : Nat → Option FibNode) :
    List (Option Nat) → List Nat → Option (List Nat)
  | [], ring => some ring
  | none :: tbl, ring => consolidate_rebuild mem tbl ring
  | some x :: tbl, ring => do
    let ring1 ← ring_insert mem ring x
    consolidate_rebuild mem tbl ring1

/-- Embedding of `FibHeap::consolidate`. -/
def consolidate (h : FibHeap) : Option FibHeap := do
  let r ← consolidate_roots h.roots h.mem []
  let ring ← consolidate_rebuild r.1 r.2 []
  some { h with mem := r.1, roots := ring }

/-- The statement `x->p = nullptr` for each child moved to the root ring by `extract_max`. -/
def clear_parents : List Nat → (Nat → Option FibNode) → Option (Nat → Option FibNode)
  | [], mem => some mem
  | c :: cs, mem => do
    let cn ← mem c
    clear_parents cs (setNode mem c { cn with p := none })

/-- Embedding of `FibHeap::extract_max`; the first component is the returned pointer `z`. -/
def extract_max (h : FibHeap) : Option (Option Nat × FibHeap) :=
  match h.roots with
  | [] => some (none, h)
  | z :: rest => do
    let zn ← h.mem z
    let mem1 ← clear_parents zn.children h.mem
    match rest ++ zn.children with
    | [] => some (some z, { h with mem := mem1, roots := [], n := h.n - 1 })
    | r :: rs => do
      let h1 ← consolidate { h with mem := mem1, roots := r :: rs }
      some (some z, { h1 with n := h1.n - 1 })

/-- Embedding of `FibHeap::cut`: `x` leaves the child ring of `y` and enters the root ring to
the right of `max`. -/
def cut (h : FibHeap) (x y : Nat) : Option FibHeap := do
  let _ ← h.mem x
  let yn ← h.mem y
  let mem1 := setNode h.mem y { yn with children := yn.children.erase x }
  match h.roots with
  | [] => none
  | m :: rest => do
    let xn ← mem1 x
    some { h with mem := setNode mem1 x { xn with p := none, mark := false },
                  roots := m :: x :: rest }

/-- Embedding of `FibHeap::cascading_cut`; the first argument bounds the recursion depth. -/
def cascading_cut : Nat → FibHeap → Nat → Option FibHeap
  | 0, _, _ => none
  | fuel + 1, h, y => do
    let yn ← h.mem y
    match yn.p with
    | none => some h
    | some z =>
      if yn.mark = false then
        some { h with mem := setNode h.mem y { yn with mark := true } }
      else do
        let h1 ← cut h y z
        cascading_cut fuel h1 z

/-- The assignment `max = x` for a root `x`: the ring is read from `x` on. -/
def set_max (h : FibHeap) (x : Nat) : Option FibHeap :=
  if x ∈ h.roots then
    some { h with roots := h.roots.dropWhile (fun r => r != x) ++ h.roots.takeWhile (fun r => r != x) }
  else none

/-- The statements `y = x->p; if (y != nullptr && comp(x->key, y->key)) { cut(x, y);
cascading_cut(y); }` of `increase_key`.  A cascade of cuts unmarks a node at each level, so it
is no deeper than the number of allocated nodes. -/
def increase_key_cut (h : FibHeap) (x : Nat) : Option FibHeap := do
  let xn ← h.mem x
  match xn.p with
  | none => some h
  | some y => do
    let yn ← h.mem y
    if comp xn.key yn.key then do
      let h3 ← cut h x y
      cascading_cut (h3.next + 1) h3 y
    else some h

/-- The statement `if (comp(x->key, max->key)) max = x;` of `increase_key`. -/
def increase_key_max (h : FibHeap) (x : Nat) : Option FibHeap :=
  match h.roots with
  | [] => none
  | m :: _ => do
    let xn ← h.mem x
    let mn ← h.mem m
    if comp xn.key mn.key then set_max h x else some h

/-- Embedding of `FibHeap::increase_key`. -/
def increase_key (h : FibHeap) (x : Nat) (k : Int) : Option FibHeap := do
  let xn ← h.mem x
  if comp xn.key k then some h
  else do
    let h2 ← increase_key_cut { h with mem := setNode h.mem x { xn with key := k } } x
    increase_key_max h2 x

/-- Embedding of `FibHeap::remove_fibnode`. -/
def remove_fibnode (h : FibHeap) (x : Nat) : Option FibHeap := do
  let h1 ← increase_key h x INT_MAX
  let r ← extract_max h1
  match r.1 with
  | none => some r.2
  | some fn => some { r.2 with mem := freeNode r.2.mem fn }

/-- Embedding of `FibHeap::empty`. -/
def empty (h : FibHeap) : Bool := decide (h.n = 0)

/-- Embedding of `FibHeap::top_node`. -/
def top_node (h : FibHeap) : Option Nat := h.roots.head?

/-- Embedding of `FibHeap::pop`. -/
def pop (h : FibHeap) : Option FibHeap :=
  if h.empty then some h
  else do
    let r ← extract_max h
    match r.1 with
    | none => some r.2
    | some x => some { r.2 with mem := freeNode r.2.mem x }

/-- Embedding of `FibHeap::push`; the second component is the returned pointer. -/
def push (h : FibHeap) (k : Int) (pl : VID) : Option (FibHeap × Nat) := do
  let x := h.next
  let h1 : FibHeap := { h with mem := setNode h.mem x { key := k, payload := pl }, next := h.next + 1 }
  let h2 ← insert h1 x
  some (h2, x)

/-- Embedding of `FibHeap::size`. -/
def size (h : FibHeap) : Int := h.n

end FibHeap


/-! ## The driver `MinCut`

Every function that can dereference a null or deleted heap pointer returns an `Option`.
-/

/-- The fields of `MinCut`. -/
structure MinCut where
  best_cut : Cut
  a : VID
  G : HyperGraph

/-- The graph together with the locals `heap`, `nodes` and `marked` of `MinCut::phase`, which
`add_vertex_to_A` receives by reference. -/
structure PhaseState where
  G : HyperGraph
  heap : FibHeap := {}
  nodes : List (VID × Nat) := []
  marked : List EID := []

namespace MinCut

/-- Embedding of the constructor `MinCut::MinCut`: `a` is the first key of `G.vertices`
(reading `begin()` of an empty map fails), `best_cut` is `Cut(INT_MAX)`. -/
def construct (G : HyperGraph) : Option MinCut :=
  match G.vertices with
  | [] => none
  | it :: _ => some { best_cut := { value := INT_MAX, left := [], right := [] }, a := it.1, G := G }

/-- The loop `for (VID u : G.edges[e].vertices)` of `add_vertex_to_A`. -/
def add_vertex_keys (v : VID) (weight : Int) (nodes : List (VID × Nat)) :
    List VID → FibHeap → Option FibHeap
  | [], heap => some heap
  | u :: us, heap =>
    if u != v then do
      let n ← mapFind nodes u
      let nn ← heap.mem n
      let w := wrapInt (nn.key + weight)
      let heap1 ← heap.increase_key n w
      add_vertex_keys v weight nodes us heap1
    else add_vertex_keys v weight nodes us heap

/-- The body of the loop `for (EID e : V.edges)` of `add_vertex_to_A`. -/
def add_vertex_edge (v : VID) (st : PhaseState) (e : EID) : Option PhaseState :=
  if st.marked.contains e then some st
  else do
    let edges1 := mapTouch st.G.edges e
    let E := mapGetD edges1 e
    let heap1 ← add_vertex_keys v E.weight st.nodes E.vertices st.heap
    some { G := { st.G with edges := edges1 }, heap := heap1, nodes := st.nodes,
           marked := setInsert e st.marked }

/-- The loop `for (EID e : V.edges)` of `add_vertex_to_A`. -/
def add_vertex_edges (v : VID) : List EID → PhaseState → Option PhaseState
  | [], st => some st
  | e :: es, st => do
    let st1 ← add_vertex_edge v st e
    add_vertex_edges v es st1

/-- Embedding of `MinCut::add_vertex_to_A`. -/
def add_vertex_to_A (v : VID) (st : PhaseState) : Option PhaseState :=
  let vs1 := mapTouch st.G.vertices v
  add_vertex_edges v (mapGetD vs1 v).edges { st with G := { st.G with vertices := vs1 } }

/-- The first loop of `phase`: every vertex is pushed with key 0 and its node recorded. -/
def push_all : List VID → FibHeap → List (VID × Nat) → Option (FibHeap × List (VID × Nat))
  | [], heap, nodes => some (heap, nodes)
  | v :: vs, heap, nodes => do
    let r ← heap.push 0 v
    push_all vs r.1 (mapSet nodes v r.2)

/-- The loop `for (size_t i = 0; i < G.vertices.size() - 1; i++)` of `phase`, from iteration
`i` on; the result carries `added_before` and `added_last`.  The first argument bounds the
number of iterations. -/
def phase_loop : Nat → Nat → PhaseState → VID → VID → Option (PhaseState × VID × VID)
  | 0, i, st, added_before, added_last =>
    if i < st.G.vertices.length - 1 then none else some (st, added_before, added_last)
  | fuel + 1, i, st, added_before, added_last =>
    if i < st.G.vertices.length - 1 then do
      let topnode ← st.heap.top_node
      let tn ← st.heap.mem topnode
      let mtc := tn.payload
      let heap1 ← st.heap.pop
      let st1 ← add_vertex_to_A mtc { st with heap := heap1 }
      phase_loop fuel (i + 1) st1 added_last mtc
    else some (st, added_before, added_last)

/-- The statements of `phase` after its loop, on the graph `G` as the loop leaves it: the cut
of the phase, the update of `best_cut`, and the merge of the last two vertices. -/
def phase_end (mc : MinCut) (G : HyperGraph) (added_before added_last : VID) : MinCut :=
  let c := G.cut [added_last]
  let b : Cut × HyperGraph :=
    if c.1.value ≤ mc.best_cut.value then
      let um := c.1.unmerge c.2
      if um.1.lt mc.best_cut then (um.1, um.2) else (mc.best_cut, um.2)
    else (mc.best_cut, c.2)
  { best_cut := b.1, a := mc.a, G := b.2.merge added_before added_last }

/-- The statements of `phase` up to the end of its loop; the result carries the state and the
locals `added_before` and `added_last`.  Each iteration of the loop pops a vertex pushed by the
first loop, so the loop makes no more iterations than there were vertices. -/
def phase_order (mc : MinCut) : Option (PhaseState × VID × VID) := do
  let r ← push_all (mapKeys mc.G.vertices) {} []
  let st0 : PhaseState := { G := mc.G, heap := r.1, nodes := r.2, marked := [] }
  let st1 ← add_vertex_to_A mc.a st0
  let na ← mapFind st1.nodes mc.a
  let heap2 ← st1.heap.remove_fibnode na
  let st2 : PhaseState := { st1 with heap := heap2, nodes := mapErase st1.nodes mc.a }
  phase_loop st2.G.vertices.length 0 st2 9999 mc.a

/-- Embedding of `MinCut::phase`. -/
def phase (mc : MinCut) : Option MinCut := do
  let l ← phase_order mc
  some (phase_end mc l.1.G l.2.1 l.2.2)

/-- The loop of `MinCut::run`; the first argument bounds the number of phases. -/
def run_loop : Nat → MinCut → Option MinCut
  | 0, mc => if mc.G.vertices.length > 1 then none else some mc
  | fuel + 1, mc =>
    if mc.G.vertices.length > 1 then do
      let mc1 ← phase mc
      run_loop fuel mc1
    else some mc

/-- Embedding of `MinCut::run`: a phase removes a vertex, so there are fewer phases than
vertices. -/
def run (mc : MinCut) : Option MinCut := run_loop mc.G.vertices.length mc

end MinCut

/-- Embedding of the binding `mincut`: the returned cut, and the graph as `run` leaves it. -/
def mincut (G : HyperGraph) : Option (Cut × HyperGraph) := do
  let mc ← MinCut.construct G
  let mc1 ← mc.run
  some (mc1.best_cut, mc1.G)


/-! ## Specification side

Predicates and functions in which the properties of the program are stated.
-/

/-- The containers of a graph are the iteration sequences of `std::map` and `std::set`. -/
def HyperGraph.WF (G : HyperGraph) : Prop :=
  MapWF G.vertices ∧ MapWF G.edges ∧
  (∀ it ∈ G.edges, SetWF it.2.vertices) ∧ (∀ it ∈ G.vertices, SetWF it.2.edges)

instance (G : HyperGraph) : Decidable G.WF := by unfold HyperGraph.WF; infer_instance

/-- Edge-to-vertex adjacency: every vertex of an edge is a key of `vertices` and lists the
edge in its incidence set. -/
def HyperGraph.EdgeAdj (G : HyperGraph) : Prop :=
  ∀ e E, mapFind G.edges e = some E → ∀ v ∈ E.vertices,
    ∃ V, mapFind G.vertices v = some V ∧ e ∈ V.edges

/-- Vertex-to-edge adjacency: every edge id of an incidence set is a key of `edges` and the
edge contains the vertex. -/
def HyperGraph.VertexAdj (G : HyperGraph) : Prop :=
  ∀ v V, mapFind G.vertices v = some V → ∀ e ∈ V.edges,
    ∃ E, mapFind G.edges e = some E ∧ v ∈ E.vertices

/-- Vertex-to-edge adjacency up to deleted edges: an edge id of an incidence set that is still
a key of `edges` names an edge containing the vertex. -/
def HyperGraph.VertexAdjLive (G : HyperGraph) : Prop :=
  ∀ v V, mapFind G.vertices v = some V → ∀ e ∈ V.edges,
    ∀ E, mapFind G.edges e = some E → v ∈ E.vertices

/-- Edge arity: every edge of the graph has at least two vertices. -/
def HyperGraph.Arity (G : HyperGraph) : Prop :=
  ∀ e E, mapFind G.edges e = some E → 2 ≤ E.vertices.length

/-- The edge id `e` occurs nowhere in the graph. -/
def HyperGraph.FreshEdge (G : HyperGraph) (e : EID) : Prop :=
  mapFind G.edges e = none ∧ ∀ v V, mapFind G.vertices v = some V → e ∉ V.edges

/-- Graphs obtained from the empty graph by calls of `add_edge` (edge id not a key of `edges`,
at least two vertices) and `merge` (two distinct keys of `vertices`). -/
inductive Built : HyperGraph → Prop
  | empty : Built {}
  | add_edge (G : HyperGraph) (e : EID) (vs : VertexSet) (w : Int) :
      Built G → mapFind G.edges e = none → SetWF vs → 2 ≤ vs.length → Built (G.add_edge e vs w)
  | merge (G : HyperGraph) (a b : VID) :
      Built G → a ≠ b → a ∈ mapKeys G.vertices → b ∈ mapKeys G.vertices → Built (G.merge a b)

/-- The same with edge ids that are never reused: `add_edge` receives an id that occurs nowhere
in the graph. -/
inductive BuiltFresh : HyperGraph → Prop
  | empty : BuiltFresh {}
  | add_edge (G : HyperGraph) (e : EID) (vs : VertexSet) (w : Int) :
      BuiltFresh G → G.FreshEdge e → SetWF vs → 2 ≤ vs.length → BuiltFresh (G.add_edge e vs w)
  | merge (G : HyperGraph) (a b : VID) :
      BuiltFresh G → a ≠ b → a ∈ mapKeys G.vertices → b ∈ mapKeys G.vertices →
      BuiltFresh (G.merge a b)

/-- Graphs obtained from the empty graph by calls of `add_edge` only. -/
inductive AddEdges : HyperGraph → Prop
  | empty : AddEdges {}
  | add_edge (G : HyperGraph) (e : EID) (vs : VertexSet) (w : Int) :
      AddEdges G → mapFind G.edges e = none → SetWF vs → 2 ≤ vs.length →
      AddEdges (G.add_edge e vs w)

/-- Graphs obtained from `G0` by calls of `merge` on two distinct keys of `vertices`. -/
inductive Merges (G0 : HyperGraph) : HyperGraph → Prop
  | refl : Merges G0 G0
  | merge (G : HyperGraph) (a b : VID) :
      Merges G0 G → a ≠ b → a ∈ mapKeys G.vertices → b ∈ mapKeys G.vertices →
      Merges G0 (G.merge a b)

/-- An edge crosses `(left, right)` when it has a vertex on each side. -/
def crosses (E : Edge) (left right : List VID) : Bool :=
  E.vertices.any (fun v => left.contains v) && E.vertices.any (fun v => right.contains v)

/-- Summed weight of the edges crossing `(left, right)`, as a mathematical integer. -/
def crossing_weight (edges : List (EID × Edge)) (left right : List VID) : Int :=
  ((edges.filter (fun it => crosses it.2 left right)).map (fun it => it.2.weight)).sum

/-- Every vertex identifier stored in the graph: the keys with their merge histories. -/
def HyperGraph.all_ids (G : HyperGraph) : List VID :=
  G.vertices.flatMap (fun it => it.1 :: it.2.merged_with)

/-- Vertex set of an edge after `b` has been replaced by `a`, as `merge` computes it. -/
def contracted (a b : VID) (E : Edge) : VertexSet := setInsert a (setErase b E.vertices)

/-- The insertion of `e` into the incidence set of a vertex record. -/
def Vertex.add (V : Vertex) (e : EID) : Vertex := { V with edges := setInsert e V.edges }

/-- The vertex record of `a` after `merge(a, b)` has appended `b` and the history of `b`. -/
def merged_record (A B : Vertex) (b : VID) : Vertex :=
  { A with merged_with := A.merged_with ++ [b] ++ B.merged_with }

/-- The edge record after `merge(a, b)` has replaced `b` by `a` in it. -/
def Edge.contract (E : Edge) (a b : VID) : Edge := { E with vertices := contracted a b E }

/-- The triangle of scenario S1: edges `e1 = {1,2}` of weight 1, `e2 = {2,3}` of weight 2 and
`e3 = {1,3}` of weight 3. -/
def triangle : HyperGraph :=
  ((({} : HyperGraph).add_edge 1 [1, 2] 1).add_edge 2 [2, 3] 2).add_edge 3 [1, 3] 3

/-- Two parallel edges `{1,2}` of weight `2^30` each. -/
def heavy_pair : HyperGraph :=
  (({} : HyperGraph).add_edge 1 [1, 2] 1073741824).add_edge 2 [1, 2] 1073741824

/-- One edge `{1,2}` whose two vertices are then merged. -/
def collapsed_pair : HyperGraph := (({} : HyperGraph).add_edge 1 [1, 2] 1).merge 1 2

/-- The image of an edge record under `merge(a, b)`, given the incidence set of `b`. -/
def merge_edge (a b : VID) (Bedges : List EID) (it : EID × Edge) : Option (EID × Edge) :=
  if it.1 ∈ Bedges then
    (if (contracted a b it.2).length ≤ 1 then none else some (it.1, it.2.contract a b))
  else some it


/-! ## Specification side of the heap

The nodes of a heap are the addresses from which the parent pointers lead to a root of the
ring (`Reach`).  A node that `extract_max` has unlinked is still allocated until the caller
deletes it, but it is no longer a node of the heap.
-/

/-- The address `x` is a root of the ring, or a descendant of one. -/
inductive Reach (mem : Nat → Option FibNode) (roots : List Nat) : Nat → Prop
  | root {x : Nat} : x ∈ roots → Reach mem roots x
  | step {x y : Nat} {nd : FibNode} :
      mem x = some nd → nd.p = some y → Reach mem roots y → Reach mem roots x

/-- The nodes under the roots `roots` form heap-ordered trees: roots are distinct allocated
nodes without parent, parent and child pointers agree, child rings have no duplicate, and a
key is at most the key of the parent, except possibly for the node `ex`. -/
structure Forest (mem : Nat → Option FibNode) (roots : List Nat) (ex : Option Nat) : Prop where
  nodup : roots.Nodup
  root_ok : ∀ r ∈ roots, ∃ nd, mem r = some nd ∧ nd.p = none
  parent_ok : ∀ x nd y, Reach mem roots x → mem x = some nd → nd.p = some y →
    ∃ ny, mem y = some ny ∧ x ∈ ny.children ∧ (some x ≠ ex → nd.key ≤ ny.key)
  child_ok : ∀ x nd c, Reach mem roots x → mem x = some nd → c ∈ nd.children →
    ∃ nc, mem c = some nc ∧ nc.p = some x
  child_nodup : ∀ x nd, Reach mem roots x → mem x = some nd → nd.children.Nodup

/-- The head of the ring has the largest key among the roots. -/
def MaxHead (mem : Nat → Option FibNode) (roots : List Nat) : Prop :=
  ∀ m rest, roots = m :: rest → ∀ r ∈ rest, ∀ nm nr, mem m = some nm → mem r = some nr →
    nr.key ≤ nm.key

/-- Every node other than `x` has a key at most the key of the head of the ring. -/
def Bounded (mem : Nat → Option FibNode) (roots : List Nat) (x : Nat) : Prop :=
  ∀ m rest, roots = m :: rest → ∀ v, Reach mem roots v → v ≠ x → ∀ nm nv,
    mem m = some nm → mem v = some nv → nv.key ≤ nm.key

/-- Key and payload stored at an address. -/
def FibHeap.data (mem : Nat → Option FibNode) (x : Nat) : Option (Int × VID) :=
  (mem x).map (fun nd => (nd.key, nd.payload))

/-- The invariant of the heap: heap-ordered trees under the ring, `max` at a largest root,
every allocated address below `next` and a node of the heap, and `n` the number of nodes. -/
def FibHeap.Inv (h : FibHeap) : Prop :=
  Forest h.mem h.roots none ∧ MaxHead h.mem h.roots ∧
  (∀ x, h.mem x ≠ none → x < h.next ∧ Reach h.mem h.roots x) ∧
  ∃ S : List Nat, S.Nodup ∧ (∀ x, x ∈ S ↔ Reach h.mem h.roots x) ∧ h.n = S.length

/-- The pointers stored in the table `A` of `consolidate`. -/
def table_entries (tbl : List (Option Nat)) : List Nat := tbl.filterMap id

/-- The address holds a marked node. -/
def FibHeap.is_marked (mem : Nat → Option FibNode) (i : Nat) : Bool :=
  match mem i with
  | some nd => nd.mark
  | none => false

/-- Number of marked nodes among the addresses below `next`. -/
def FibHeap.marked_count (mem : Nat → Option FibNode) : Nat → Nat
  | 0 => 0
  | next + 1 => FibHeap.marked_count mem next + (if FibHeap.is_marked mem next then 1 else 0)


/-! ## Specification side of a phase

Maximum adjacency orderings and the weights they are stated with.
-/

/-- Summed weight of the edges whose id and record satisfy `p`. -/
def wsumI (edges : List (EID × Edge)) (p : EID × Edge → Bool) : Int :=
  ((edges.filter p).map (fun it => it.2.weight)).sum

/-- Summed weight of the edges whose record satisfies `p`. -/
def wsum (edges : List (EID × Edge)) (p : Edge → Bool) : Int :=
  wsumI edges (fun it => p it.2)

/-- The edge has a vertex in `A`. -/
def meets (E : Edge) (A : List VID) : Bool := E.vertices.any (fun v => A.contains v)

/-- The edge contains `u` and has a vertex in `A`. -/
def ties (A : List VID) (u : VID) (E : Edge) : Bool := E.vertices.contains u && meets E A

/-- Tightness of `u` with respect to `A`: summed weight of the edges that contain `u` and
have a vertex in `A`, every such edge counted once. -/
def tightness (edges : List (EID × Edge)) (A : List VID) (u : VID) : Int :=
  wsum edges (ties A u)

/-- The edge has, among the vertices of `S`, one on each side of `side`. -/
def splits (side : VID → Bool) (S : List VID) (E : Edge) : Bool :=
  E.vertices.any (fun v => S.contains v && side v) &&
  E.vertices.any (fun v => S.contains v && !side v)

/-- The list `ord` is a maximum adjacency ordering: each vertex is at least as tight with
respect to the vertices before it as every vertex after it. -/
def MaxAdjOrder (edges : List (EID × Edge)) (ord : List VID) : Prop :=
  ∀ pre v post, ord = pre ++ v :: post → ∀ u ∈ post,
    tightness edges pre u ≤ tightness edges pre v

/-- Summed weight of all edges. -/
def total_weight (edges : List (EID × Edge)) : Int := (edges.map (fun it => it.2.weight)).sum

/-- The heap stores the vertices of `R`: the vertex `u` at the node `nodes[u]`, with key
`key u`, and nothing else. -/
def HeapRep (h : FibHeap) (nodes : List (VID × Nat)) (R : VID → Prop) (key : VID → Int) : Prop :=
  h.Inv ∧
  (∀ u, R u → ∃ n nd, mapFind nodes u = some n ∧ h.mem n = some nd ∧ nd.payload = u ∧
    nd.key = key u) ∧
  (∀ x nd, h.mem x = some nd → R nd.payload ∧ mapFind nodes nd.payload = some x)

/-- Vertex-to-edge adjacency up to deleted and empty edges: an edge id of an incidence set
that is a key of `edges` names an edge that contains the vertex or has no vertex at all (the
record that `G.edges[e]` creates for a deleted edge). -/
def HyperGraph.VertexAdjEmpty (G : HyperGraph) : Prop :=
  ∀ v V, mapFind G.vertices v = some V → ∀ e ∈ V.edges,
    ∀ E, mapFind G.edges e = some E → v ∈ E.vertices ∨ E.vertices = []

/-- No edge has a negative weight. -/
def HyperGraph.Nonneg (G : HyperGraph) : Prop := ∀ it ∈ G.edges, 0 ≤ it.2.weight

/-- The invariant of the graph during `MinCut::run`. -/
def HyperGraph.RunInv (G : HyperGraph) : Prop :=
  G.WF ∧ G.EdgeAdj ∧ G.VertexAdjEmpty ∧ G.Nonneg

/-- Valid input graphs: built by calls of `add_edge` with distinct edge ids, at least two
vertices per edge and positive weights. -/
inductive InputGraph : HyperGraph → Prop
  | empty : InputGraph {}
  | add_edge (G : HyperGraph) (e : EID) (vs : VertexSet) (w : Int) :
      InputGraph G → mapFind G.edges e = none → SetWF vs → 2 ≤ vs.length → 0 < w →
      InputGraph (G.add_edge e vs w)

/-- The pair `(L, R)` is a partition of the vertices `K` into two non-empty sides. -/
def Bipartition (K L R : List VID) : Prop :=
  L ≠ [] ∧ R ≠ [] ∧ (∀ v, v ∈ L → v ∉ R) ∧ ∀ v, v ∈ K ↔ (v ∈ L ∨ v ∈ R)

/-- The pair `(X, Y)` keeps every vertex of `G` together with the vertices merged into it on
one side. -/
def Respects (G : HyperGraph) (X Y : List VID) : Prop :=
  ∀ it ∈ G.vertices,
    (it.1 ∈ X ∧ ∀ m ∈ it.2.merged_with, m ∈ X) ∨ (it.1 ∈ Y ∧ ∀ m ∈ it.2.merged_with, m ∈ Y)

/-- Summed weight of the marked edges that contain `u`. -/
def marked_key (edges : List (EID × Edge)) (marked : List EID) (u : VID) : Int :=
  wsumI edges (fun it => marked.contains it.1 && it.2.vertices.contains u)

/-- The marked edge ids are those of the incidence sets of the vertices `A`. -/
def MarkedInv (G : HyperGraph) (A : List VID) (marked : List EID) : Prop :=
  ∀ e, e ∈ marked ↔ ∃ x ∈ A, ∃ V, mapFind G.vertices x = some V ∧ e ∈ V.edges

/-- Every vertex of `A` was, when it was added, at least as tight with respect to the vertices
before it as every vertex of `K` not added yet. -/
def MaxAdjSoFar (edges : List (EID × Edge)) (K A : List VID) : Prop :=
  ∀ pre v post, A = pre ++ v :: post → ∀ u ∈ K, u ∉ pre →
    tightness edges pre u ≤ tightness edges pre v

/-- State of a phase while the vertex `v` is added: the heap stores the vertices of `R`, each
one other than `v` with the summed weight of the marked edges that contain it. -/
def AddInv (T : Int) (R : VID → Prop) (v : VID) (st : PhaseState) : Prop :=
  st.G.RunInv ∧ total_weight st.G.edges ≤ T ∧
  HeapRep st.heap st.nodes R (fun u => if u = v then 0 else marked_key st.G.edges st.marked u)

/-- State of a phase between two additions: the vertices `A` of `K` have been added, the
marked edges are theirs, and the heap stores the other vertices with their tightness. -/
def LoopInv (T : Int) (K A : List VID) (st : PhaseState) : Prop :=
  st.G.RunInv ∧ total_weight st.G.edges ≤ T ∧ mapKeys st.G.vertices = K ∧
  MarkedInv st.G A st.marked ∧
  HeapRep st.heap st.nodes (fun u => u ∈ K ∧ u ∉ A) (fun u => tightness st.G.edges A u)

/-- The cut of a phase that added `t` last, as `phase` computes it: `G.cut({t})` followed by
`unmerge`. -/
def phase_cut (G : HyperGraph) (t : VID) : Cut := ((G.cut [t]).1.unmerge (G.cut [t]).2).1

/-- A cut that is a partition of the vertices `K` into two non-empty sets, valued with its
weight in `edges`. -/
def GoodCut (edges : List (EID × Edge)) (K : List VID) (c : Cut) : Prop :=
  Bipartition K c.left c.right ∧ SetWF c.left ∧ SetWF c.right ∧
  c.value = crossing_weight edges c.left c.right

/-- The invariant of `MinCut::run` on the input graph `G0`. -/
def DriverInv (G0 : HyperGraph) (mc : MinCut) : Prop :=
  mc.G.RunInv ∧ total_weight mc.G.edges ≤ total_weight G0.edges ∧
  mc.a ∈ mapKeys mc.G.vertices ∧ mc.G.all_ids.Perm (mapKeys G0.vertices) ∧
  (∀ X Y, Respects mc.G X Y → (∀ v, v ∈ X → v ∉ Y) →
    crossing_weight mc.G.edges X Y = crossing_weight G0.edges X Y) ∧
  (mc.best_cut.value = INT_MAX ∨ GoodCut G0.edges (mapKeys G0.vertices) mc.best_cut) ∧
  (∀ X Y, Bipartition (mapKeys G0.vertices) X Y →
    Respects mc.G X Y ∨ mc.best_cut.value ≤ crossing_weight G0.edges X Y)

/-- The states of the driver that `run`, started in the first state, goes through. -/
inductive RunsThrough : MinCut → MinCut → Prop
  | here (mc : MinCut) : RunsThrough mc mc
  | next (mc mc1 m : MinCut) :
      1 < mc.G.vertices.length → MinCut.phase mc = some mc1 → RunsThrough mc1 m →
      RunsThrough mc m

/-- The cut of the phase that starts in the state `mc`: the vertex added last against the
others, unmerged.  It is the only candidate that the phase compares with `best_cut`. -/
def examined_cut (mc : MinCut) : Option Cut :=
  (MinCut.phase_order mc).map (fun l => phase_cut l.1.G l.2.2)

/-- The path `2 - 1 - 3 - 4`: the edges `{1,2}`, `{1,3}` and `{3,4}`, of weight 1 each. -/
def path4 : HyperGraph :=
  ((({} : HyperGraph).add_edge 1 [1, 2] 1).add_edge 2 [1, 3] 1).add_edge 3 [3, 4] 1

/-- The cut `a` is no worse than `b`: no heavier, and at equal weight no less balanced. -/
def LexLe (a b : Cut) : Prop :=
  a.value ≤ b.value ∧ (b.value = a.value → a.count_balance ≤ b.count_balance)


/-! ## Specification side of the heap interface and of the run -/

/-- Heaps obtained from the empty heap by calls of `push`, of `increase_key` on a handle of a
node of the heap, and of `pop`. -/
inductive HeapOps : FibHeap → Prop
  | empty : HeapOps {}
  | push (h : FibHeap) (k : Int) (pl : VID) (r : FibHeap × Nat) :
      HeapOps h → FibHeap.push h k pl = some r → HeapOps r.1
  | increase_key (h : FibHeap) (x : Nat) (k : Int) (h' : FibHeap) :
      HeapOps h → h.mem x ≠ none → FibHeap.increase_key h x k = some h' → HeapOps h'
  | pop (h h' : FibHeap) : HeapOps h → FibHeap.pop h = some h' → HeapOps h'

/-- The `(key, payload)` pairs of the nodes of the heap, by ascending address. -/
def FibHeap.pairs (h : FibHeap) : List (Int × VID) :=
  (List.range h.next).filterMap (FibHeap.data h.mem)

/-- The heap after `push(5, 1)` and `push(7, 2)`; the handles are 0 and 1. -/
def heap_5_7 : FibHeap :=
  (((FibHeap.push {} 5 1).bind (fun r => FibHeap.push r.1 7 2)).map Prod.fst).getD {}

/-- The heap after `push(INT_MAX, 1)` and `push(5, 2)`; the handles are 0 and 1. -/
def heap_max_5 : FibHeap :=
  (((FibHeap.push {} INT_MAX 1).bind (fun r => FibHeap.push r.1 5 2)).map Prod.fst).getD {}

/-- The state of the driver after `k` calls of `phase`. -/
def phases : Nat → MinCut → Option MinCut
  | 0, mc => some mc
  | k + 1, mc => (MinCut.phase mc).bind (phases k)

/-- The states of `phase`, started in the driver state `mc`, at the head of its loop, each
with the vertices added to `A` so far in the order of their addition.  The first one is
reached after `a` has been added and removed from the heap; the loop continues while
`i < G.vertices.size() - 1`, where `i + 1` vertices have been added. -/
inductive LoopState (mc : MinCut) : PhaseState → List VID → Prop
  | start (r : FibHeap × List (VID × Nat)) (st1 : PhaseState) (na : Nat) (heap2 : FibHeap) :
      MinCut.push_all (mapKeys mc.G.vertices) {} [] = some r →
      MinCut.add_vertex_to_A mc.a { G := mc.G, heap := r.1, nodes := r.2, marked := [] }
        = some st1 →
      mapFind st1.nodes mc.a = some na →
      st1.heap.remove_fibnode na = some heap2 →
      LoopState mc { st1 with heap := heap2, nodes := mapErase st1.nodes mc.a } [mc.a]
  | step (st : PhaseState) (A : List VID) (topnode : Nat) (tn : FibNode) (heap1 : FibHeap)
      (st1 : PhaseState) :
      LoopState mc st A → A.length - 1 < st.G.vertices.length - 1 →
      st.heap.top_node = some topnode → st.heap.mem topnode = some tn →
      st.heap.pop = some heap1 →
      MinCut.add_vertex_to_A tn.payload { st with heap := heap1 } = some st1 →
      LoopState mc st1 (A ++ [tn.payload])

/-- The graph of a loop state against the graph at the start of the phase: an edge record is
the one of the start, or an empty record created for an id of the incidence set of an added
vertex. -/
def PhaseGraph (G G' : HyperGraph) (A : List VID) : Prop :=
  G'.vertices = G.vertices ∧
  ∀ e, mapFind G'.edges e = mapFind G.edges e ∨
    (mapFind G.edges e = none ∧ mapFind G'.edges e = some default ∧
      ∃ v ∈ A, e ∈ (mapGetD G.vertices v).edges)

/-- The edge records of the graph during `run`, with `a` the start vertex: a record has no
vertex or at least two; a record without vertex is listed in the incidence set of a vertex
other than `a`; every id of the incidence set of `a` names a record that contains `a`. -/
def Tidy (a : VID) (G : HyperGraph) : Prop :=
  (∀ e E, mapFind G.edges e = some E → E.vertices = [] ∨ 2 ≤ E.vertices.length) ∧
  (∀ e E, mapFind G.edges e = some E → E.vertices = [] →
    ∃ v V, v ≠ a ∧ mapFind G.vertices v = some V ∧ e ∈ V.edges) ∧
  (∀ V, mapFind G.vertices a = some V → ∀ e ∈ V.edges,
    ∃ E, mapFind G.edges e = some E ∧ a ∈ E.vertices)


/-! ## Sets and maps -/

theorem mem_setInsert (x y : Nat) (s : List Nat) : y ∈ setInsert x s ↔ y = x ∨ y ∈ s := by
  induction s with
  | nil => simp [setInsert]
  | cons z zs ih =>
    unfold setInsert
    by_cases h1 : x < z
    · simp [h1]
    · by_cases h2 : x = z
      · subst h2; simp
      · simp only [h1, h2, if_false, List.mem_cons, ih]
        tauto

theorem mem_setErase (x y : Nat) (s : List Nat) : y ∈ setErase x s ↔ y ∈ s ∧ y ≠ x := by
  simp [setErase]

theorem SetWF_cons {x : Nat} {s : List Nat} :
    SetWF (x :: s) ↔ (∀ y ∈ s, x < y) ∧ SetWF s := by
  simp [SetWF]

theorem SetWF_nil : SetWF [] := by simp [SetWF]

theorem SetWF_nodup {s : List Nat} (h : SetWF s) : s.Nodup :=
  List.Pairwise.imp (fun hab => Nat.ne_of_lt hab) h

theorem SetWF_setInsert (x : Nat) {s : List Nat} (h : SetWF s) : SetWF (setInsert x s) := by
  induction s with
  | nil => simp [setInsert, SetWF]
  | cons z zs ih =>
    obtain ⟨hz, hzs⟩ := SetWF_cons.mp h
    unfold setInsert
    by_cases h1 : x < z
    · simp only [h1, if_true]
      refine SetWF_cons.mpr ⟨?_, h⟩
      intro y hy
      rcases List.mem_cons.mp hy with rfl | hy
      · exact h1
      · exact lt_trans h1 (hz y hy)
    · by_cases h2 : x = z
      · simp [h2, h]
      · simp only [h1, h2, if_false]
        refine SetWF_cons.mpr ⟨?_, ih hzs⟩
        intro y hy
        rcases (mem_setInsert x y zs).mp hy with rfl | hy
        · omega
        · exact hz y hy

theorem setInsert_of_mem {x : Nat} {s : List Nat} (h : SetWF s) (hx : x ∈ s) :
    setInsert x s = s := by
  induction s with
  | nil => simp at hx
  | cons z zs ih =>
    obtain ⟨hz, hzs⟩ := SetWF_cons.mp h
    unfold setInsert
    rcases List.mem_cons.mp hx with rfl | hx
    · simp
    · have := hz x hx
      have h1 : ¬ x < z := by omega
      have h2 : ¬ x = z := by omega
      simp [h1, h2, ih hzs hx]

theorem SetWF_setErase (x : Nat) {s : List Nat} (h : SetWF s) : SetWF (setErase x s) :=
  List.Pairwise.sublist (List.filter_sublist s) h

theorem SetWF_filter (p : Nat → Bool) {s : List Nat} (h : SetWF s) : SetWF (s.filter p) :=
  List.Pairwise.sublist (List.filter_sublist s) h

theorem mem_setInsertAll (xs s : List Nat) (y : Nat) :
    y ∈ setInsertAll xs s ↔ y ∈ xs ∨ y ∈ s := by
  induction xs generalizing s with
  | nil => simp [setInsertAll]
  | cons x xs ih =>
    have : setInsertAll (x :: xs) s = setInsertAll xs (setInsert x s) := rfl
    rw [this, ih, mem_setInsert]
    simp only [List.mem_cons]
    tauto

theorem SetWF_setInsertAll (xs : List Nat) {s : List Nat} (h : SetWF s) :
    SetWF (setInsertAll xs s) := by
  induction xs generalizing s with
  | nil => simpa [setInsertAll] using h
  | cons x xs ih =>
    have : setInsertAll (x :: xs) s = setInsertAll xs (setInsert x s) := rfl
    rw [this]
    exact ih (SetWF_setInsert x h)

/-- Two sets with the same elements are the same iteration sequence. -/
theorem SetWF_ext {s t : List Nat} (hs : SetWF s) (ht : SetWF t)
    (h : ∀ x, x ∈ s ↔ x ∈ t) : s = t := by
  apply List.eq_of_perm_of_sorted (r := fun a b => a ≤ b)
  · exact (List.perm_ext_iff_of_nodup (SetWF_nodup hs) (SetWF_nodup ht)).mpr h
  · exact List.Pairwise.imp (fun hab => Nat.le_of_lt hab) hs
  · exact List.Pairwise.imp (fun hab => Nat.le_of_lt hab) ht

theorem mapFind_mapSet {V : Type} (m : List (Nat × V)) (x y : Nat) (v : V) :
    mapFind (mapSet m x v) y = if y = x then some v else mapFind m y := by
  induction m with
  | nil =>
    by_cases h : y = x
    · simp [mapSet, mapFind, h]
    · have : ¬ x = y := fun e => h e.symm
      simp [mapSet, mapFind, h, this]
  | cons kv m ih =>
    obtain ⟨k, w⟩ := kv
    unfold mapSet
    by_cases h1 : x < k
    · simp only [h1, if_true]
      by_cases h : y = x
      · simp [mapFind, h]
      · have : ¬ x = y := fun e => h e.symm
        simp [mapFind, h, this]
    · by_cases h2 : x = k
      · subst h2
        by_cases h : y = x
        · simp [mapFind, h]
        · have : ¬ x = y := fun e => h e.symm
          simp [mapFind, h, this]
      · simp only [h1, h2, if_false]
        by_cases h : y = x
        · subst h
          have : ¬ k = y := fun e => h2 e.symm
          simp [mapFind, this, ih]
        · simp [mapFind, ih, h]

theorem mapFind_mapErase {V : Type} (m : List (Nat × V)) (x y : Nat) :
    mapFind (mapErase m x) y = if y = x then none else mapFind m y := by
  induction m with
  | nil => simp [mapErase, mapFind]
  | cons kv m ih =>
    obtain ⟨k, w⟩ := kv
    by_cases hk : k = x
    · subst hk
      have : mapErase ((k, w) :: m) k = mapErase m k := by simp [mapErase]
      rw [this, ih]
      by_cases h : y = k
      · simp [h]
      · have : ¬ k = y := fun e => h e.symm
        simp [mapFind, h, this]
    · have : mapErase ((k, w) :: m) x = (k, w) :: mapErase m x := by simp [mapErase, hk]
      rw [this]
      by_cases h : k = y
      · subst h; simp [mapFind, hk]
      · simp [mapFind, h, ih]

theorem mapFind_mapTouch {V : Type} [Inhabited V] (m : List (Nat × V)) (x y : Nat) :
    mapFind (mapTouch m x) y =
      if y = x then some (mapGetD m x) else mapFind m y := by
  unfold mapTouch mapGetD
  cases h : mapFind m x with
  | some v =>
    by_cases hy : y = x
    · subst hy; simp [h]
    · simp [hy]
  | none => simp [mapFind_mapSet]

theorem mapGetD_mapTouch {V : Type} [Inhabited V] (m : List (Nat × V)) (x y : Nat) :
    mapGetD (mapTouch m x) y = mapGetD m y := by
  unfold mapGetD
  rw [mapFind_mapTouch]
  by_cases hy : y = x
  · subst hy; simp [mapGetD]
  · simp [hy]

theorem mem_mapKeys {V : Type} (m : List (Nat × V)) (x : Nat) :
    x ∈ mapKeys m ↔ ∃ v, mapFind m x = some v := by
  induction m with
  | nil => simp [mapKeys, mapFind]
  | cons kv m ih =>
    obtain ⟨k, w⟩ := kv
    by_cases h : k = x
    · subst h; simp [mapKeys, mapFind]
    · have h' : ¬ x = k := fun e => h e.symm
      have ih' : x ∈ List.map Prod.fst m ↔ ∃ v, mapFind m x = some v := ih
      simp only [mapKeys, List.map_cons, List.mem_cons, h', false_or, mapFind, h, if_false, ih']

theorem not_mem_mapKeys {V : Type} (m : List (Nat × V)) (x : Nat) :
    x ∉ mapKeys m ↔ mapFind m x = none := by
  rw [mem_mapKeys]
  cases mapFind m x <;> simp

theorem mapKeys_mapSet {V : Type} (m : List (Nat × V)) (x : Nat) (v : V) :
    mapKeys (mapSet m x v) = setInsert x (mapKeys m) := by
  induction m with
  | nil => simp [mapSet, mapKeys, setInsert]
  | cons kv m ih =>
    obtain ⟨k, w⟩ := kv
    unfold mapSet
    by_cases h1 : x < k
    · simp [h1, mapKeys, setInsert]
    · by_cases h2 : x = k
      · simp [h2, mapKeys, setInsert]
      · have ih' : List.map Prod.fst (mapSet m x v) = setInsert x (List.map Prod.fst m) := ih
        simp [h1, h2, mapKeys, setInsert, ih']

theorem mapKeys_mapErase {V : Type} (m : List (Nat × V)) (x : Nat) :
    mapKeys (mapErase m x) = setErase x (mapKeys m) := by
  induction m with
  | nil => simp [mapErase, mapKeys, setErase]
  | cons kv m ih =>
    obtain ⟨k, w⟩ := kv
    have ih' : List.map Prod.fst (mapErase m x) = setErase x (List.map Prod.fst m) := ih
    by_cases hk : k = x
    · have : mapErase ((k, w) :: m) x = mapErase m x := by simp [mapErase, hk]
      rw [this]
      simp [mapKeys, setErase, hk]
      simpa [mapKeys, setErase] using ih'
    · have : mapErase ((k, w) :: m) x = (k, w) :: mapErase m x := by simp [mapErase, hk]
      rw [this]
      simp [mapKeys, setErase, hk]
      simpa [mapKeys, setErase] using ih'

theorem mapKeys_mapTouch {V : Type} [Inhabited V] (m : List (Nat × V)) (x : Nat) :
    mapKeys (mapTouch m x) = if x ∈ mapKeys m then mapKeys m else setInsert x (mapKeys m) := by
  unfold mapTouch
  cases h : mapFind m x with
  | some v =>
    have : x ∈ mapKeys m := (mem_mapKeys m x).mpr ⟨v, h⟩
    simp [this]
  | none =>
    have : x ∉ mapKeys m := (not_mem_mapKeys m x).mpr h
    simp [this, mapKeys_mapSet]

theorem mapTouch_of_mem {V : Type} [Inhabited V] (m : List (Nat × V)) (x : Nat)
    (h : x ∈ mapKeys m) : mapTouch m x = m := by
  obtain ⟨v, hv⟩ := (mem_mapKeys m x).mp h
  simp [mapTouch, hv]

theorem MapWF_mapSet {V : Type} {m : List (Nat × V)} (h : MapWF m) (x : Nat) (v : V) :
    MapWF (mapSet m x v) := by
  unfold MapWF
  have := mapKeys_mapSet m x v
  unfold mapKeys at this
  rw [this]
  exact SetWF_setInsert x h

theorem MapWF_mapErase {V : Type} {m : List (Nat × V)} (h : MapWF m) (x : Nat) :
    MapWF (mapErase m x) := by
  unfold MapWF
  have := mapKeys_mapErase m x
  unfold mapKeys at this
  rw [this]
  exact SetWF_setErase x h

theorem MapWF_mapTouch {V : Type} [Inhabited V] {m : List (Nat × V)} (h : MapWF m) (x : Nat) :
    MapWF (mapTouch m x) := by
  unfold mapTouch
  cases mapFind m x with
  | some v => exact h
  | none => exact MapWF_mapSet h x default

theorem MapWF_nil {V : Type} : MapWF ([] : List (Nat × V)) := by simp [MapWF, SetWF]

theorem mapFind_of_mem {V : Type} {m : List (Nat × V)} (h : MapWF m) {k : Nat} {v : V}
    (hm : (k, v) ∈ m) : mapFind m k = some v := by
  induction m with
  | nil => simp at hm
  | cons kv m ih =>
    obtain ⟨k', w⟩ := kv
    have h' : (∀ y ∈ m.map Prod.fst, k' < y) ∧ MapWF m := SetWF_cons.mp h
    rcases List.mem_cons.mp hm with heq | hm
    · cases heq; simp [mapFind]
    · have hk : k' < k := h'.1 k (List.mem_map.mpr ⟨(k, v), hm, rfl⟩)
      have : ¬ k' = k := by omega
      simp [mapFind, this, ih h'.2 hm]

theorem mem_of_mapFind {V : Type} {m : List (Nat × V)} {k : Nat} {v : V}
    (h : mapFind m k = some v) : (k, v) ∈ m := by
  induction m with
  | nil => simp [mapFind] at h
  | cons kv m ih =>
    obtain ⟨k', w⟩ := kv
    by_cases hk : k' = k
    · subst hk
      simp [mapFind] at h
      subst h
      simp
    · simp [mapFind, hk] at h
      exact List.mem_cons_of_mem _ (ih h)

theorem mapGetD_of_find {V : Type} [Inhabited V] {m : List (Nat × V)} {k : Nat} {v : V}
    (h : mapFind m k = some v) : mapGetD m k = v := by
  simp [mapGetD, h]


/-! ## `has_intersection` and `HyperGraph::cut` -/

theorem wrapInt_wrapInt_add (a b : Int) : wrapInt (wrapInt a + b) = wrapInt (a + b) := by
  unfold wrapInt; omega

theorem wrapInt_of_range {x : Int} (h1 : -2147483648 ≤ x) (h2 : x ≤ INT_MAX) : wrapInt x = x := by
  unfold wrapInt; unfold INT_MAX at h2; omega

theorem wrapInt_zero : wrapInt 0 = 0 := by decide

theorem has_intersection_loop_spec (f : Nat) (a b : List Nat) (ha : SetWF a) (hb : SetWF b)
    (hf : a.length + b.length ≤ f) :
    has_intersection_loop f a b = true ↔ ∃ x, x ∈ a ∧ x ∈ b := by
  induction f generalizing a b with
  | zero =>
    have h1 : a = [] := List.length_eq_zero.mp (by omega)
    subst h1
    simp [has_intersection_loop]
  | succ f ih =>
    cases a with
    | nil => simp [has_intersection_loop]
    | cons x xs =>
      cases b with
      | nil => simp [has_intersection_loop]
      | cons y ys =>
        obtain ⟨hx, hxs⟩ := SetWF_cons.mp ha
        obtain ⟨hy, hys⟩ := SetWF_cons.mp hb
        simp only [List.length_cons] at hf
        unfold has_intersection_loop
        by_cases h1 : x = y
        · subst h1
          simp
        · simp only [h1, if_false]
          by_cases h2 : x < y
          · simp only [h2, if_true]
            rw [ih xs (y :: ys) hxs hb (by simp only [List.length_cons]; omega)]
            constructor
            · rintro ⟨z, hz1, hz2⟩
              exact ⟨z, List.mem_cons_of_mem _ hz1, hz2⟩
            · rintro ⟨z, hz1, hz2⟩
              rcases List.mem_cons.mp hz1 with rfl | hz1
              · rcases List.mem_cons.mp hz2 with rfl | hz2
                · exact absurd rfl h1
                · have := hy z hz2; omega
              · exact ⟨z, hz1, hz2⟩
          · simp only [h2, if_false]
            rw [ih (x :: xs) ys ha hys (by simp only [List.length_cons]; omega)]
            constructor
            · rintro ⟨z, hz1, hz2⟩
              exact ⟨z, hz1, List.mem_cons_of_mem _ hz2⟩
            · rintro ⟨z, hz1, hz2⟩
              rcases List.mem_cons.mp hz2 with rfl | hz2
              · rcases List.mem_cons.mp hz1 with rfl | hz1
                · exact absurd rfl h1
                · have := hx z hz1; omega
              · exact ⟨z, hz1, hz2⟩

/-- On two sets, `has_intersection` is true iff they share an element. -/
theorem has_intersection_iff {a b : List Nat} (ha : SetWF a) (hb : SetWF b) :
    has_intersection a b = true ↔ ∃ x, x ∈ a ∧ x ∈ b :=
  has_intersection_loop_spec _ a b ha hb (le_refl _)

theorem has_intersection_eq_any {a b : List Nat} (ha : SetWF a) (hb : SetWF b) :
    has_intersection a b = a.any (fun v => b.contains v) := by
  rw [Bool.eq_iff_iff, has_intersection_iff ha hb]
  simp

theorem mem_set_difference (a b : List Nat) (x : Nat) :
    x ∈ set_difference a b ↔ x ∈ a ∧ x ∉ b := by
  simp [set_difference]

theorem SetWF_set_difference {a : List Nat} (b : List Nat) (ha : SetWF a) :
    SetWF (set_difference a b) :=
  SetWF_filter _ ha

theorem cut_value_fold (edges : List (EID × Edge)) (left right : VertexSet) (init : Int)
    (hw : ∀ it ∈ edges, SetWF it.2.vertices) (hl : SetWF left) (hr : SetWF right) :
    wrapInt (edges.foldl
      (fun value it =>
        if has_intersection it.2.vertices left && has_intersection it.2.vertices right
        then wrapInt (value + it.2.weight) else value) (wrapInt init))
      = wrapInt (init + crossing_weight edges left right) ∧
    edges.foldl
      (fun value it =>
        if has_intersection it.2.vertices left && has_intersection it.2.vertices right
        then wrapInt (value + it.2.weight) else value) (wrapInt init)
      = wrapInt (init + crossing_weight edges left right) := by
  induction edges generalizing init with
  | nil =>
    simp only [List.foldl_nil, crossing_weight, List.filter_nil, List.map_nil, List.sum_nil,
      add_zero, and_true]
    unfold wrapInt; omega
  | cons it edges ih =>
    have hw' : ∀ it ∈ edges, SetWF it.2.vertices := fun i hi => hw i (List.mem_cons_of_mem _ hi)
    have hit : SetWF it.2.vertices := hw it (List.mem_cons_self _ _)
    have hc : (has_intersection it.2.vertices left && has_intersection it.2.vertices right)
        = crosses it.2 left right := by
      unfold crosses
      rw [has_intersection_eq_any hit hl, has_intersection_eq_any hit hr]
    simp only [List.foldl_cons, hc]
    by_cases h : crosses it.2 left right = true
    · simp only [h, if_true]
      have e1 : crossing_weight (it :: edges) left right
          = it.2.weight + crossing_weight edges left right := by
        simp [crossing_weight, h]
      rw [wrapInt_wrapInt_add, e1, ← add_assoc]
      exact ih (init + it.2.weight) hw'
    · simp only [h]
      have e1 : crossing_weight (it :: edges) left right = crossing_weight edges left right := by
        simp [crossing_weight, h]
      rw [e1]
      exact ih init hw'

/-- The value accumulated by `HyperGraph::cut` is the crossing weight reduced to the range of
int. -/
theorem cut_value_eq (edges : List (EID × Edge)) (left right : VertexSet)
    (hw : ∀ it ∈ edges, SetWF it.2.vertices) (hl : SetWF left) (hr : SetWF right) :
    HyperGraph.cut_value edges left right = wrapInt (crossing_weight edges left right) := by
  have := (cut_value_fold edges left right 0 hw hl hr).2
  rw [wrapInt_zero, zero_add] at this
  exact this


/-! ## `add_edge` and `merge` -/

theorem HyperGraph_WF_iff (G : HyperGraph) :
    G.WF ↔ MapWF G.vertices ∧ MapWF G.edges ∧
      (∀ e E, mapFind G.edges e = some E → SetWF E.vertices) ∧
      (∀ v V, mapFind G.vertices v = some V → SetWF V.edges) := by
  unfold HyperGraph.WF
  constructor
  · rintro ⟨h1, h2, h3, h4⟩
    exact ⟨h1, h2, fun e E h => h3 (e, E) (mem_of_mapFind h),
      fun v V h => h4 (v, V) (mem_of_mapFind h)⟩
  · rintro ⟨h1, h2, h3, h4⟩
    exact ⟨h1, h2, fun it h => h3 it.1 it.2 (mapFind_of_mem h2 h),
      fun it h => h4 it.1 it.2 (mapFind_of_mem h1 h)⟩

theorem add_edge_fold_find (e : EID) (vs : List Nat) (hnd : vs.Nodup)
    (m : List (VID × Vertex)) (v : VID) :
    mapFind (vs.foldl (fun m v =>
        mapSet m v { mapGetD m v with edges := setInsert e (mapGetD m v).edges }) m) v
      = if v ∈ vs then some ((mapGetD m v).add e) else mapFind m v := by
  induction vs generalizing m with
  | nil => simp
  | cons x xs ih =>
    obtain ⟨hx, hxs⟩ := List.nodup_cons.mp hnd
    simp only [List.foldl_cons]
    rw [ih hxs]
    by_cases h1 : v ∈ xs
    · have hvx : v ≠ x := fun e => hx (e ▸ h1)
      simp [h1, mapGetD, mapFind_mapSet, hvx]
    · by_cases h2 : v = x
      · subst h2
        simp [h1, mapFind_mapSet, Vertex.add]
      · simp [h1, h2, mapFind_mapSet]

theorem add_edge_fold_MapWF (e : EID) (vs : List Nat) (m : List (VID × Vertex)) (h : MapWF m) :
    MapWF (vs.foldl (fun m v =>
        mapSet m v { mapGetD m v with edges := setInsert e (mapGetD m v).edges }) m) := by
  induction vs generalizing m with
  | nil => simpa using h
  | cons x xs ih =>
    simp only [List.foldl_cons]
    exact ih _ (MapWF_mapSet h _ _)

theorem add_edge_vertices_find (G : HyperGraph) (e : EID) (vs : List Nat) (w : Int)
    (hvs : SetWF vs) (v : VID) :
    mapFind (G.add_edge e vs w).vertices v
      = if v ∈ vs then some ((mapGetD G.vertices v).add e) else mapFind G.vertices v :=
  add_edge_fold_find e vs (SetWF_nodup hvs) G.vertices v

theorem add_edge_edges_find (G : HyperGraph) (e : EID) (vs : List Nat) (w : Int) (e' : EID) :
    mapFind (G.add_edge e vs w).edges e'
      = if e' = e then some { vertices := vs, weight := w } else mapFind G.edges e' :=
  mapFind_mapSet _ _ _ _

theorem add_edge_WF (G : HyperGraph) (e : EID) (vs : List Nat) (w : Int)
    (hvs : SetWF vs) (hG : G.WF) : (G.add_edge e vs w).WF := by
  rw [HyperGraph_WF_iff] at hG ⊢
  obtain ⟨h1, h2, h3, h4⟩ := hG
  refine ⟨add_edge_fold_MapWF e vs _ h1, MapWF_mapSet h2 _ _, ?_, ?_⟩
  · intro e' E hE
    rw [add_edge_edges_find] at hE
    by_cases h : e' = e
    · simp only [h, if_true, Option.some.injEq] at hE
      subst hE; exact hvs
    · simp only [h, if_false] at hE
      exact h3 e' E hE
  · intro v V hV
    rw [add_edge_vertices_find G e vs w hvs] at hV
    by_cases h : v ∈ vs
    · simp only [h, if_true, Option.some.injEq] at hV
      subst hV
      apply SetWF_setInsert
      unfold mapGetD
      cases hf : mapFind G.vertices v with
      | none => exact SetWF_nil
      | some V0 => exact h4 v V0 hf
    · simp only [h, if_false] at hV
      exact h4 v V hV

theorem merge_step_edges_find (a b : VID) (G : HyperGraph) (e e' : EID) :
    mapFind (HyperGraph.merge_step a b G e).edges e'
      = if e' = e then
          (if (contracted a b (mapGetD G.edges e)).length ≤ 1 then none
           else some { mapGetD G.edges e with vertices := contracted a b (mapGetD G.edges e) })
        else mapFind G.edges e' := by
  unfold HyperGraph.merge_step contracted
  by_cases hc : (setInsert a (setErase b (mapGetD G.edges e).vertices)).length ≤ 1
  · simp only [hc, if_true]
    rw [mapFind_mapErase, mapFind_mapTouch]
    by_cases h : e' = e <;> simp [h]
  · simp only [hc, if_false]
    rw [mapFind_mapSet]

theorem merge_step_vertices_find (a b : VID) (G : HyperGraph) (e : EID) (v : VID) :
    mapFind (HyperGraph.merge_step a b G e).vertices v
      = if v = a ∧ ¬ (contracted a b (mapGetD G.edges e)).length ≤ 1
        then some ((mapGetD G.vertices a).add e) else mapFind G.vertices v := by
  unfold HyperGraph.merge_step contracted
  by_cases hc : (setInsert a (setErase b (mapGetD G.edges e).vertices)).length ≤ 1
  · simp [hc]
  · simp only [hc, if_false]
    rw [mapFind_mapSet]
    by_cases h : v = a <;> simp [h, Vertex.add]

theorem merge_step_vertices_MapWF (a b : VID) (G : HyperGraph) (e : EID)
    (h : MapWF G.vertices) : MapWF (HyperGraph.merge_step a b G e).vertices := by
  unfold HyperGraph.merge_step
  dsimp only
  split
  · exact h
  · exact MapWF_mapSet h _ _

theorem merge_step_edges_MapWF (a b : VID) (G : HyperGraph) (e : EID)
    (h : MapWF G.edges) : MapWF (HyperGraph.merge_step a b G e).edges := by
  unfold HyperGraph.merge_step
  dsimp only
  split
  · exact MapWF_mapErase (MapWF_mapTouch h _) _
  · exact MapWF_mapSet h _ _

theorem merge_step_keys (a b : VID) (G : HyperGraph) (e : EID)
    (hwf : MapWF G.vertices) (ha : a ∈ mapKeys G.vertices) :
    mapKeys (HyperGraph.merge_step a b G e).vertices = mapKeys G.vertices := by
  unfold HyperGraph.merge_step
  dsimp only
  split
  · rfl
  · show mapKeys (mapSet _ _ _) = _
    rw [mapKeys_mapSet]
    exact setInsert_of_mem hwf ha

theorem merge_step_getD_edges (a b : VID) (G : HyperGraph) (e e' : EID) (h : e' ≠ e) :
    mapGetD (HyperGraph.merge_step a b G e).edges e' = mapGetD G.edges e' := by
  unfold mapGetD
  rw [merge_step_edges_find]
  simp [h]

theorem merge_fold_edges (a b : VID) (es : List EID) (hnd : es.Nodup) (G : HyperGraph)
    (e' : EID) :
    mapFind (es.foldl (HyperGraph.merge_step a b) G).edges e'
      = if e' ∈ es then
          (if (contracted a b (mapGetD G.edges e')).length ≤ 1 then none
           else some { mapGetD G.edges e' with vertices := contracted a b (mapGetD G.edges e') })
        else mapFind G.edges e' := by
  induction es generalizing G with
  | nil => simp
  | cons e es ih =>
    obtain ⟨he, hes⟩ := List.nodup_cons.mp hnd
    simp only [List.foldl_cons]
    rw [ih hes]
    by_cases h1 : e' ∈ es
    · have hne : e' ≠ e := fun h => he (h ▸ h1)
      simp only [h1, if_true, List.mem_cons, or_true]
      rw [merge_step_getD_edges a b G e e' hne]
    · simp only [h1, if_false, List.mem_cons, or_false]
      rw [merge_step_edges_find]
      by_cases h2 : e' = e
      · subst h2; rfl
      · simp [h2]

theorem merge_fold_vertices_other (a b : VID) (es : List EID) (G : HyperGraph)
    (v : VID) (hv : v ≠ a) :
    mapFind (es.foldl (HyperGraph.merge_step a b) G).vertices v = mapFind G.vertices v := by
  induction es generalizing G with
  | nil => simp
  | cons e es ih =>
    simp only [List.foldl_cons]
    rw [ih, merge_step_vertices_find]
    simp [hv]

theorem merge_step_getD_a (a b : VID) (G : HyperGraph) (e : EID) :
    mapGetD (HyperGraph.merge_step a b G e).vertices a
      = if (contracted a b (mapGetD G.edges e)).length ≤ 1 then mapGetD G.vertices a
        else (mapGetD G.vertices a).add e := by
  unfold mapGetD
  rw [merge_step_vertices_find]
  by_cases hc : (contracted a b ((mapFind G.edges e).getD default)).length ≤ 1
  · simp [hc, mapGetD]
  · simp [hc, mapGetD]

theorem merge_fold_a (a b : VID) (es : List EID) (hnd : es.Nodup) (G : HyperGraph) :
    (mapGetD (es.foldl (HyperGraph.merge_step a b) G).vertices a).merged_with
        = (mapGetD G.vertices a).merged_with ∧
    (∀ e, e ∈ (mapGetD (es.foldl (HyperGraph.merge_step a b) G).vertices a).edges ↔
      e ∈ (mapGetD G.vertices a).edges ∨
        (e ∈ es ∧ ¬ (contracted a b (mapGetD G.edges e)).length ≤ 1)) ∧
    (SetWF (mapGetD G.vertices a).edges →
      SetWF (mapGetD (es.foldl (HyperGraph.merge_step a b) G).vertices a).edges) := by
  induction es generalizing G with
  | nil => simp
  | cons e es ih =>
    obtain ⟨he, hes⟩ := List.nodup_cons.mp hnd
    simp only [List.foldl_cons]
    obtain ⟨ih1, ih2, ih3⟩ := ih hes (HyperGraph.merge_step a b G e)
    rw [merge_step_getD_a] at ih1 ih2 ih3
    refine ⟨?_, ?_, ?_⟩
    · rw [ih1]; split <;> rfl
    · intro e'
      rw [ih2 e']
      by_cases hc : (contracted a b (mapGetD G.edges e)).length ≤ 1
      · simp only [hc, if_true, List.mem_cons]
        constructor
        · rintro (h | ⟨h1, h2⟩)
          · exact Or.inl h
          · have hne : e' ≠ e := fun h => he (h ▸ h1)
            rw [merge_step_getD_edges a b G e e' hne] at h2
            exact Or.inr ⟨Or.inr h1, h2⟩
        · rintro (h | ⟨h1 | h1, h2⟩)
          · exact Or.inl h
          · subst h1; exact absurd hc h2
          · have hne : e' ≠ e := fun h => he (h ▸ h1)
            right
            rw [merge_step_getD_edges a b G e e' hne]
            exact ⟨h1, h2⟩
      · simp only [hc, if_false, List.mem_cons, Vertex.add, mem_setInsert]
        constructor
        · rintro ((h | h) | ⟨h1, h2⟩)
          · subst h; exact Or.inr ⟨Or.inl rfl, hc⟩
          · exact Or.inl h
          · have hne : e' ≠ e := fun h => he (h ▸ h1)
            rw [merge_step_getD_edges a b G e e' hne] at h2
            exact Or.inr ⟨Or.inr h1, h2⟩
        · rintro (h | ⟨h1 | h1, h2⟩)
          · exact Or.inl (Or.inr h)
          · exact Or.inl (Or.inl h1)
          · have hne : e' ≠ e := fun h => he (h ▸ h1)
            right
            rw [merge_step_getD_edges a b G e e' hne]
            exact ⟨h1, h2⟩
    · intro hwf
      apply ih3
      split
      · exact hwf
      · exact SetWF_setInsert _ hwf

theorem merge_fold_keys (a b : VID) (es : List EID) (G : HyperGraph)
    (hwf : MapWF G.vertices) (ha : a ∈ mapKeys G.vertices) :
    mapKeys (es.foldl (HyperGraph.merge_step a b) G).vertices = mapKeys G.vertices ∧
    MapWF (es.foldl (HyperGraph.merge_step a b) G).vertices := by
  induction es generalizing G with
  | nil => exact ⟨rfl, hwf⟩
  | cons e es ih =>
    simp only [List.foldl_cons]
    have hk := merge_step_keys a b G e hwf ha
    obtain ⟨h1, h2⟩ := ih (HyperGraph.merge_step a b G e)
      (merge_step_vertices_MapWF a b G e hwf) (hk ▸ ha)
    exact ⟨h1.trans hk, h2⟩

theorem merge_fold_edges_MapWF (a b : VID) (es : List EID) (G : HyperGraph)
    (hwf : MapWF G.edges) :
    MapWF (es.foldl (HyperGraph.merge_step a b) G).edges := by
  induction es generalizing G with
  | nil => exact hwf
  | cons e es ih =>
    simp only [List.foldl_cons]
    exact ih _ (merge_step_edges_MapWF a b G e hwf)

theorem merge_eq (G : HyperGraph) (a b : VID) (A B : Vertex)
    (hA : mapFind G.vertices a = some A) (hB : mapFind G.vertices b = some B) :
    G.merge a b = B.edges.foldl (HyperGraph.merge_step a b)
      { G with vertices := mapErase (mapSet G.vertices a (merged_record A B b)) b } := by
  have ha : a ∈ mapKeys G.vertices := (mem_mapKeys _ _).mpr ⟨A, hA⟩
  have hb : b ∈ mapKeys G.vertices := (mem_mapKeys _ _).mpr ⟨B, hB⟩
  unfold HyperGraph.merge merged_record
  simp only [mapTouch_of_mem _ _ ha, mapTouch_of_mem _ _ hb, mapGetD_of_find hA,
    mapGetD_of_find hB]

/-- The graph after `merge(a, b)`, for two distinct keys `a` and `b` of `vertices`. -/
theorem merge_spec (G : HyperGraph) (a b : VID) (A B : Vertex) (hwf : G.WF) (hab : a ≠ b)
    (hA : mapFind G.vertices a = some A) (hB : mapFind G.vertices b = some B) :
    ∃ Af, mapFind (G.merge a b).vertices a = some Af ∧
      Af.merged_with = A.merged_with ++ [b] ++ B.merged_with ∧
      (∀ e, e ∈ Af.edges ↔
        e ∈ A.edges ∨ (e ∈ B.edges ∧ ¬ (contracted a b (mapGetD G.edges e)).length ≤ 1)) ∧
      mapFind (G.merge a b).vertices b = none ∧
      (∀ v, v ≠ a → v ≠ b → mapFind (G.merge a b).vertices v = mapFind G.vertices v) ∧
      (∀ e, mapFind (G.merge a b).edges e
        = if e ∈ B.edges then
            (if (contracted a b (mapGetD G.edges e)).length ≤ 1 then none
             else some ((mapGetD G.edges e).contract a b))
          else mapFind G.edges e) ∧
      mapKeys (G.merge a b).vertices = setErase b (mapKeys G.vertices) ∧
      (G.merge a b).WF := by
  obtain ⟨w1, w2, w3, w4⟩ := (HyperGraph_WF_iff G).mp hwf
  have hBwf : SetWF B.edges := w4 b B hB
  have hAwf : SetWF A.edges := w4 a A hA
  rw [merge_eq G a b A B hA hB]
  generalize hG1 : ({ G with vertices := mapErase (mapSet G.vertices a (merged_record A B b)) b }
    : HyperGraph) = G1
  have hG1v : G1.vertices = mapErase (mapSet G.vertices a (merged_record A B b)) b := by
    rw [← hG1]
  have hG1e : G1.edges = G.edges := by rw [← hG1]
  have hfa : mapFind G1.vertices a = some (merged_record A B b) := by
    rw [hG1v, mapFind_mapErase, mapFind_mapSet]; simp [hab]
  have hka : a ∈ mapKeys G1.vertices := (mem_mapKeys _ _).mpr ⟨_, hfa⟩
  have hwf1 : MapWF G1.vertices := by
    rw [hG1v]; exact MapWF_mapErase (MapWF_mapSet w1 _ _) _
  have hkeys1 : mapKeys G1.vertices = setErase b (mapKeys G.vertices) := by
    rw [hG1v, mapKeys_mapErase, mapKeys_mapSet,
      setInsert_of_mem (s := mapKeys G.vertices) w1 ((mem_mapKeys _ _).mpr ⟨A, hA⟩)]
  obtain ⟨k1, k2⟩ := merge_fold_keys a b B.edges G1 hwf1 hka
  obtain ⟨a1, a2, a3⟩ := merge_fold_a a b B.edges (SetWF_nodup hBwf) G1
  have hga : mapGetD G1.vertices a = merged_record A B b := mapGetD_of_find hfa
  rw [hga] at a1 a2 a3
  have hFa : ∃ Af, mapFind (B.edges.foldl (HyperGraph.merge_step a b) G1).vertices a = some Af :=
    (mem_mapKeys _ _).mp (k1 ▸ hka)
  obtain ⟨Af, hAf⟩ := hFa
  have hgAf : mapGetD (B.edges.foldl (HyperGraph.merge_step a b) G1).vertices a = Af :=
    mapGetD_of_find hAf
  rw [hgAf] at a1 a2 a3
  have hedges : ∀ e, mapFind (B.edges.foldl (HyperGraph.merge_step a b) G1).edges e
        = if e ∈ B.edges then
            (if (contracted a b (mapGetD G.edges e)).length ≤ 1 then none
             else some ((mapGetD G.edges e).contract a b))
          else mapFind G.edges e := by
    intro e
    rw [merge_fold_edges a b B.edges (SetWF_nodup hBwf) G1 e, hG1e]
    rfl
  have hother : ∀ v, v ≠ a → v ≠ b →
      mapFind (B.edges.foldl (HyperGraph.merge_step a b) G1).vertices v = mapFind G.vertices v := by
    intro v hva hvb
    rw [merge_fold_vertices_other _ _ _ _ _ hva, hG1v, mapFind_mapErase, mapFind_mapSet]
    simp [hva, hvb]
  have hb : mapFind (B.edges.foldl (HyperGraph.merge_step a b) G1).vertices b = none := by
    rw [merge_fold_vertices_other _ _ _ _ _ (Ne.symm hab), hG1v, mapFind_mapErase]
    simp
  refine ⟨Af, hAf, ?_, ?_, hb, hother, hedges, k1.trans hkeys1, ?_⟩
  · rw [a1]; rfl
  · intro e
    rw [a2 e, hG1e]
    rfl
  · rw [HyperGraph_WF_iff]
    refine ⟨k2, merge_fold_edges_MapWF a b B.edges G1 (hG1e ▸ w2), ?_, ?_⟩
    · intro e E hE
      rw [hedges e] at hE
      by_cases h1 : e ∈ B.edges
      · simp only [h1, if_true] at hE
        by_cases h2 : (contracted a b (mapGetD G.edges e)).length ≤ 1
        · simp [h2] at hE
        · simp only [h2, if_false, Option.some.injEq] at hE
          subst hE
          show SetWF (setInsert a (setErase b _))
          apply SetWF_setInsert
          apply SetWF_setErase
          unfold mapGetD
          cases hf : mapFind G.edges e with
          | none => exact SetWF_nil
          | some E0 => exact w3 e E0 hf
      · simp only [h1, if_false] at hE
        exact w3 e E hE
    · intro v V hV
      by_cases hva : v = a
      · subst hva
        rw [hAf] at hV
        cases hV
        exact a3 hAwf
      · by_cases hvb : v = b
        · subst hvb; rw [hb] at hV; cases hV
        · rw [hother v hva hvb] at hV
          exact w4 v V hV


/-! ## Invariants of the graph under `add_edge` and `merge` -/

theorem WF_empty : ({} : HyperGraph).WF := by decide

theorem mapGetD_default_edges {G : HyperGraph} {e : EID} {v : VID}
    (h : v ∈ (mapGetD G.edges e).vertices) : ∃ E, mapFind G.edges e = some E ∧ v ∈ E.vertices := by
  unfold mapGetD at h
  cases hf : mapFind G.edges e with
  | none => rw [hf] at h; simp at h; exact absurd h (by simp [default, instInhabitedEdge])
  | some E => rw [hf] at h; exact ⟨E, rfl, h⟩

theorem mapGetD_default_vertices {G : HyperGraph} {e : EID} {v : VID}
    (h : e ∈ (mapGetD G.vertices v).edges) :
    ∃ V, mapFind G.vertices v = some V ∧ e ∈ V.edges := by
  unfold mapGetD at h
  cases hf : mapFind G.vertices v with
  | none => rw [hf] at h; simp at h; exact absurd h (by simp [default, instInhabitedVertex])
  | some V => rw [hf] at h; exact ⟨V, rfl, h⟩

theorem add_edge_EdgeAdj (G : HyperGraph) (e : EID) (vs : List Nat) (w : Int)
    (hvs : SetWF vs) (h : G.EdgeAdj) : (G.add_edge e vs w).EdgeAdj := by
  intro e' E' hE' v hv
  rw [add_edge_edges_find] at hE'
  rw [add_edge_vertices_find G e vs w hvs]
  by_cases he : e' = e
  · simp only [he, if_true, Option.some.injEq] at hE'
    subst hE'
    have hv' : v ∈ vs := hv
    simp only [hv', if_true]
    exact ⟨_, rfl, by simp [Vertex.add, mem_setInsert, he]⟩
  · simp only [he, if_false] at hE'
    obtain ⟨V, hV, heV⟩ := h e' E' hE' v hv
    by_cases hv' : v ∈ vs
    · simp only [hv', if_true]
      refine ⟨_, rfl, ?_⟩
      rw [mapGetD_of_find hV]
      simp [Vertex.add, mem_setInsert, heV]
    · simp only [hv', if_false]
      exact ⟨V, hV, heV⟩

theorem merge_EdgeAdj (G : HyperGraph) (a b : VID) (hwf : G.WF) (hab : a ≠ b)
    (ha : a ∈ mapKeys G.vertices) (hb : b ∈ mapKeys G.vertices) (h : G.EdgeAdj) :
    (G.merge a b).EdgeAdj := by
  obtain ⟨A, hA⟩ := (mem_mapKeys _ _).mp ha
  obtain ⟨B, hB⟩ := (mem_mapKeys _ _).mp hb
  obtain ⟨Af, hAf, -, hAe, hMb, hMo, hMe, -, -⟩ := merge_spec G a b A B hwf hab hA hB
  intro e' E' hE' v hv
  rw [hMe] at hE'
  by_cases h1 : e' ∈ B.edges
  · simp only [h1, if_true] at hE'
    by_cases h2 : (contracted a b (mapGetD G.edges e')).length ≤ 1
    · simp [h2] at hE'
    · simp only [h2, if_false, Option.some.injEq] at hE'
      subst hE'
      have hv' : v ∈ setInsert a (setErase b (mapGetD G.edges e').vertices) := hv
      rw [mem_setInsert, mem_setErase] at hv'
      rcases hv' with rfl | ⟨hv1, hvb⟩
      · exact ⟨Af, hAf, (hAe e').mpr (Or.inr ⟨h1, h2⟩)⟩
      · by_cases hva : v = a
        · subst hva
          exact ⟨Af, hAf, (hAe e').mpr (Or.inr ⟨h1, h2⟩)⟩
        · obtain ⟨E, hE, hvE⟩ := mapGetD_default_edges hv1
          obtain ⟨V, hV, heV⟩ := h e' E hE v hvE
          exact ⟨V, (hMo v hva hvb).trans hV, heV⟩
  · simp only [h1, if_false] at hE'
    obtain ⟨V, hV, heV⟩ := h e' E' hE' v hv
    by_cases hvb : v = b
    · subst hvb
      rw [hB] at hV; cases hV
      exact absurd heV h1
    · by_cases hva : v = a
      · subst hva
        rw [hA] at hV; cases hV
        exact ⟨Af, hAf, (hAe e').mpr (Or.inl heV)⟩
      · exact ⟨V, (hMo v hva hvb).trans hV, heV⟩

theorem merge_Arity (G : HyperGraph) (a b : VID) (hwf : G.WF) (hab : a ≠ b)
    (ha : a ∈ mapKeys G.vertices) (hb : b ∈ mapKeys G.vertices) (h : G.Arity) :
    (G.merge a b).Arity := by
  obtain ⟨A, hA⟩ := (mem_mapKeys _ _).mp ha
  obtain ⟨B, hB⟩ := (mem_mapKeys _ _).mp hb
  obtain ⟨Af, -, -, -, -, -, hMe, -, -⟩ := merge_spec G a b A B hwf hab hA hB
  intro e' E' hE'
  rw [hMe] at hE'
  by_cases h1 : e' ∈ B.edges
  · simp only [h1, if_true] at hE'
    by_cases h2 : (contracted a b (mapGetD G.edges e')).length ≤ 1
    · simp [h2] at hE'
    · simp only [h2, if_false, Option.some.injEq] at hE'
      subst hE'
      show 2 ≤ (contracted a b (mapGetD G.edges e')).length
      omega
  · simp only [h1, if_false] at hE'
    exact h e' E' hE'

theorem add_edge_Arity (G : HyperGraph) (e : EID) (vs : List Nat) (w : Int)
    (hvs : 2 ≤ vs.length) (h : G.Arity) : (G.add_edge e vs w).Arity := by
  intro e' E' hE'
  rw [add_edge_edges_find] at hE'
  by_cases he : e' = e
  · simp only [he, if_true, Option.some.injEq] at hE'
    subst hE'
    exact hvs
  · simp only [he, if_false] at hE'
    exact h e' E' hE'

theorem Built_inv {G : HyperGraph} (h : Built G) : G.WF ∧ G.EdgeAdj ∧ G.Arity := by
  induction h with
  | empty =>
    refine ⟨WF_empty, ?_, ?_⟩
    · intro e E hE; simp [mapFind] at hE
    · intro e E hE; simp [mapFind] at hE
  | add_edge G e vs w _ _ hvs hlen ih =>
    exact ⟨add_edge_WF G e vs w hvs ih.1, add_edge_EdgeAdj G e vs w hvs ih.2.1,
      add_edge_Arity G e vs w hlen ih.2.2⟩
  | merge G a b _ hab ha hb ih =>
    obtain ⟨A, hA⟩ := (mem_mapKeys _ _).mp ha
    obtain ⟨B, hB⟩ := (mem_mapKeys _ _).mp hb
    obtain ⟨Af, -, -, -, -, -, -, -, hwf⟩ := merge_spec G a b A B ih.1 hab hA hB
    exact ⟨hwf, merge_EdgeAdj G a b ih.1 hab ha hb ih.2.1, merge_Arity G a b ih.1 hab ha hb ih.2.2⟩

theorem BuiltFresh_built {G : HyperGraph} (h : BuiltFresh G) : Built G := by
  induction h with
  | empty => exact Built.empty
  | add_edge G e vs w _ hf hvs hlen ih => exact Built.add_edge G e vs w ih hf.1 hvs hlen
  | merge G a b _ hab ha hb ih => exact Built.merge G a b ih hab ha hb

theorem add_edge_VertexAdjLive (G : HyperGraph) (e : EID) (vs : List Nat) (w : Int)
    (hvs : SetWF vs) (hf : G.FreshEdge e) (h : G.VertexAdjLive) :
    (G.add_edge e vs w).VertexAdjLive := by
  intro v V' hV' e' he' E' hE'
  rw [add_edge_edges_find] at hE'
  rw [add_edge_vertices_find G e vs w hvs] at hV'
  by_cases hv : v ∈ vs
  · simp only [hv, if_true, Option.some.injEq] at hV'
    subst hV'
    by_cases he : e' = e
    · simp only [he, if_true, Option.some.injEq] at hE'
      subst hE'
      exact hv
    · simp only [he, if_false] at hE'
      simp only [Vertex.add, mem_setInsert, he, false_or] at he'
      obtain ⟨V, hV, heV⟩ := mapGetD_default_vertices he'
      exact h v V hV e' heV E' hE'
  · simp only [hv, if_false] at hV'
    by_cases he : e' = e
    · subst he
      exact absurd he' (hf.2 v V' hV')
    · simp only [he, if_false] at hE'
      exact h v V' hV' e' he' E' hE'

theorem merge_VertexAdjLive (G : HyperGraph) (a b : VID) (hwf : G.WF) (hab : a ≠ b)
    (ha : a ∈ mapKeys G.vertices) (hb : b ∈ mapKeys G.vertices) (h : G.VertexAdjLive) :
    (G.merge a b).VertexAdjLive := by
  obtain ⟨A, hA⟩ := (mem_mapKeys _ _).mp ha
  obtain ⟨B, hB⟩ := (mem_mapKeys _ _).mp hb
  obtain ⟨Af, hAf, -, hAe, hMb, hMo, hMe, -, -⟩ := merge_spec G a b A B hwf hab hA hB
  intro v V' hV' e' he' E' hE'
  rw [hMe] at hE'
  by_cases hvb : v = b
  · subst hvb; rw [hMb] at hV'; cases hV'
  by_cases h1 : e' ∈ B.edges
  · simp only [h1, if_true] at hE'
    by_cases h2 : (contracted a b (mapGetD G.edges e')).length ≤ 1
    · simp [h2] at hE'
    · simp only [h2, if_false, Option.some.injEq] at hE'
      subst hE'
      show v ∈ setInsert a (setErase b (mapGetD G.edges e').vertices)
      rw [mem_setInsert, mem_setErase]
      by_cases hva : v = a
      · exact Or.inl hva
      · right
        rw [hMo v hva hvb] at hV'
        refine ⟨?_, hvb⟩
        cases hf : mapFind G.edges e' with
        | none =>
          exfalso
          apply h2
          simp [contracted, mapGetD, hf, default, instInhabitedEdge, setErase, setInsert]
        | some E0 =>
          rw [mapGetD_of_find hf]
          exact h v V' hV' e' he' E0 hf
  · simp only [h1, if_false] at hE'
    by_cases hva : v = a
    · subst hva
      rw [hAf] at hV'; cases hV'
      rcases (hAe e').mp he' with h3 | h3
      · exact h v A hA e' h3 E' hE'
      · exact absurd h3.1 h1
    · rw [hMo v hva hvb] at hV'
      exact h v V' hV' e' he' E' hE'

theorem BuiltFresh_adj {G : HyperGraph} (h : BuiltFresh G) : G.VertexAdjLive := by
  induction h with
  | empty => intro v V hV; simp [mapFind] at hV
  | add_edge G e vs w _ hf hvs _ ih => exact add_edge_VertexAdjLive G e vs w hvs hf ih
  | merge G a b hG hab ha hb ih =>
    exact merge_VertexAdjLive G a b (Built_inv (BuiltFresh_built hG)).1 hab ha hb ih


/-! ## Merge histories -/

theorem MapWF_cons {V : Type} {k : Nat} {v : V} {m : List (Nat × V)} :
    MapWF ((k, v) :: m) ↔ (∀ y ∈ mapKeys m, k < y) ∧ MapWF m := by
  unfold MapWF mapKeys
  simp only [List.map_cons]
  exact SetWF_cons

/-- Two maps with the same bindings are the same iteration sequence. -/
theorem MapWF_ext {V : Type} {m m' : List (Nat × V)} (h : MapWF m) (h' : MapWF m')
    (hf : ∀ k, mapFind m k = mapFind m' k) : m = m' := by
  induction m generalizing m' with
  | nil =>
    cases m' with
    | nil => rfl
    | cons kv t =>
      have := hf kv.1
      simp [mapFind] at this
  | cons kv t ih =>
    obtain ⟨k, v⟩ := kv
    cases m' with
    | nil =>
      have := hf k
      simp [mapFind] at this
    | cons kv' t' =>
      obtain ⟨k', v'⟩ := kv'
      obtain ⟨hk, ht⟩ := MapWF_cons.mp h
      obtain ⟨hk', ht'⟩ := MapWF_cons.mp h'
      have hkk : k = k' := by
        by_contra hne
        rcases Nat.lt_or_gt_of_ne hne with hlt | hgt
        · have h1 := hf k
          have hne' : ¬ k' = k := fun e => hne e.symm
          simp only [mapFind, if_true, hne', if_false] at h1
          have hmem : k ∈ mapKeys t' := (mem_mapKeys _ _).mpr ⟨v, h1.symm⟩
          have := hk' k hmem
          omega
        · have h1 := hf k'
          simp only [mapFind, if_true, hne, if_false] at h1
          have hmem : k' ∈ mapKeys t := (mem_mapKeys _ _).mpr ⟨v', h1⟩
          have := hk k' hmem
          omega
      subst hkk
      have hvv : v = v' := by
        have h1 := hf k
        simpa [mapFind] using h1
      subst hvv
      have htt : t = t' := by
        apply ih ht ht'
        intro j
        by_cases hj : k = j
        · subst hj
          have h1 : mapFind t k = none := (not_mem_mapKeys _ _).mp (fun hm => by
            have := hk k hm; omega)
          have h2 : mapFind t' k = none := (not_mem_mapKeys _ _).mp (fun hm => by
            have := hk' k hm; omega)
          rw [h1, h2]
        · have h1 := hf j
          simpa [mapFind, hj] using h1
      rw [htt]

theorem perm_cons_mapErase {V : Type} {m : List (Nat × V)} (h : MapWF m) {a : Nat} {A : V}
    (hA : mapFind m a = some A) : m.Perm ((a, A) :: mapErase m a) := by
  induction m with
  | nil => simp [mapFind] at hA
  | cons kv t ih =>
    obtain ⟨k, v⟩ := kv
    obtain ⟨hk, ht⟩ := MapWF_cons.mp h
    by_cases hka : k = a
    · subst hka
      simp only [mapFind, if_true, Option.some.injEq] at hA
      subst hA
      have : mapErase ((k, v) :: t) k = t := by
        have h1 : mapErase ((k, v) :: t) k = mapErase t k := by simp [mapErase]
        rw [h1]
        apply MapWF_ext (MapWF_mapErase ht k) ht
        intro j
        rw [mapFind_mapErase]
        by_cases hj : j = k
        · subst hj
          simp only [if_true]
          exact ((not_mem_mapKeys _ _).mp (fun hm => by have := hk j hm; omega)).symm
        · simp [hj]
      rw [this]
    · simp only [mapFind, hka, if_false] at hA
      have h1 : mapErase ((k, v) :: t) a = (k, v) :: mapErase t a := by simp [mapErase, hka]
      rw [h1]
      exact ((ih ht hA).cons (k, v)).trans (List.Perm.swap _ _ _)

/-- A call `merge(a, b)` on two distinct keys keeps the stored identifiers, up to their order. -/
theorem merge_all_ids (G : HyperGraph) (a b : VID) (hwf : G.WF) (hab : a ≠ b)
    (ha : a ∈ mapKeys G.vertices) (hb : b ∈ mapKeys G.vertices) :
    (G.merge a b).all_ids.Perm G.all_ids := by
  obtain ⟨A, hA⟩ := (mem_mapKeys _ _).mp ha
  obtain ⟨B, hB⟩ := (mem_mapKeys _ _).mp hb
  obtain ⟨Af, hAf, hmw, -, hMb, hMo, -, -, hwfM⟩ := merge_spec G a b A B hwf hab hA hB
  have w1 : MapWF G.vertices := hwf.1
  have wM : MapWF (G.merge a b).vertices := hwfM.1
  have p1 := perm_cons_mapErase wM hAf
  have p2 := perm_cons_mapErase w1 hA
  have hB' : mapFind (mapErase G.vertices a) b = some B := by
    rw [mapFind_mapErase]; simp [Ne.symm hab, hB]
  have p3 := perm_cons_mapErase (MapWF_mapErase w1 a) hB'
  have heq : mapErase (G.merge a b).vertices a = mapErase (mapErase G.vertices a) b := by
    apply MapWF_ext (MapWF_mapErase wM a) (MapWF_mapErase (MapWF_mapErase w1 a) b)
    intro k
    simp only [mapFind_mapErase]
    by_cases hka : k = a
    · simp [hka, hab]
    · by_cases hkb : k = b
      · subst hkb; simp [hka, hMb]
      · simp [hka, hkb, hMo k hka hkb]
  have q1 : (G.merge a b).all_ids.Perm
      (((a, Af) :: mapErase (mapErase G.vertices a) b).flatMap
        (fun it => it.1 :: it.2.merged_with)) := by
    rw [← heq]
    exact List.Perm.flatMap_right _ p1
  have q2 : G.all_ids.Perm
      (((a, A) :: (b, B) :: mapErase (mapErase G.vertices a) b).flatMap
        (fun it => it.1 :: it.2.merged_with)) :=
    List.Perm.flatMap_right _ (p2.trans (p3.cons (a, A)))
  refine q1.trans (List.Perm.trans ?_ q2.symm)
  simp only [List.flatMap_cons, hmw, List.cons_append, List.append_assoc, List.singleton_append]
  exact List.Perm.refl _

theorem AddEdges_built {G : HyperGraph} (h : AddEdges G) : Built G := by
  induction h with
  | empty => exact Built.empty
  | add_edge G e vs w _ hf hvs hlen ih => exact Built.add_edge G e vs w ih hf hvs hlen

theorem Merges_built {G0 G : HyperGraph} (h0 : Built G0) (h : Merges G0 G) : Built G := by
  induction h with
  | refl => exact h0
  | merge G a b _ hab ha hb ih => exact Built.merge G a b ih hab ha hb

theorem add_edge_merged_with (G : HyperGraph) (e : EID) (vs : List Nat) (w : Int)
    (hvs : SetWF vs)
    (h : ∀ v V, mapFind G.vertices v = some V → V.merged_with = []) :
    ∀ v V, mapFind (G.add_edge e vs w).vertices v = some V → V.merged_with = [] := by
  intro v V hV
  rw [add_edge_vertices_find G e vs w hvs] at hV
  by_cases hv : v ∈ vs
  · simp only [hv, if_true, Option.some.injEq] at hV
    subst hV
    show (mapGetD G.vertices v).merged_with = []
    unfold mapGetD
    cases hf : mapFind G.vertices v with
    | none => rfl
    | some V0 => exact h v V0 hf
  · simp only [hv, if_false] at hV
    exact h v V hV

theorem AddEdges_merged_with {G : HyperGraph} (h : AddEdges G) :
    ∀ v V, mapFind G.vertices v = some V → V.merged_with = [] := by
  induction h with
  | empty => intro v V hV; simp [mapFind] at hV
  | add_edge G e vs w _ _ hvs _ ih => exact add_edge_merged_with G e vs w hvs ih

theorem all_ids_of_no_history (m : List (VID × Vertex))
    (h : ∀ it ∈ m, it.2.merged_with = []) :
    m.flatMap (fun it => it.1 :: it.2.merged_with) = mapKeys m := by
  induction m with
  | nil => rfl
  | cons kv t ih =>
    have h1 := h kv (List.mem_cons_self _ _)
    have h2 := ih (fun it hit => h it (List.mem_cons_of_mem _ hit))
    simp only [List.flatMap_cons, h1, mapKeys, List.map_cons, List.singleton_append]
    rw [h2]; rfl

theorem AddEdges_all_ids {G : HyperGraph} (h : AddEdges G) : G.all_ids = mapKeys G.vertices :=
  all_ids_of_no_history _ (fun it hit =>
    (AddEdges_merged_with h) it.1 it.2 (mapFind_of_mem (Built_inv (AddEdges_built h)).1.1 hit))

theorem Merges_all_ids {G0 G : HyperGraph} (h0 : Built G0) (h : Merges G0 G) :
    G.all_ids.Perm G0.all_ids := by
  induction h with
  | refl => exact List.Perm.refl _
  | merge G a b hG hab ha hb ih =>
    exact (merge_all_ids G a b (Built_inv (Merges_built h0 hG)).1 hab ha hb).trans ih

theorem disjoint_histories {G : HyperGraph} (hnd : G.all_ids.Nodup) {v v' : VID} {V V' : Vertex}
    (hV : mapFind G.vertices v = some V) (hV' : mapFind G.vertices v' = some V')
    (hne : v ≠ v') {x : VID} (hx : x ∈ v :: V.merged_with) : x ∉ v' :: V'.merged_with := by
  have hpw := (List.nodup_flatMap.mp hnd).2
  have hsymm : Symmetric (Function.onFun List.Disjoint
      (fun (it : VID × Vertex) => it.1 :: it.2.merged_with)) := by
    intro p q hpq
    exact List.Disjoint.symm hpq
  have := hpw.forall hsymm (mem_of_mapFind hV) (mem_of_mapFind hV')
    (fun e => hne (congrArg Prod.fst e))
  exact fun hx' => this hx hx'


/-! ## Merge conservation -/

theorem crosses_iff (E : Edge) (L R : List VID) :
    crosses E L R = true ↔ (∃ v, v ∈ E.vertices ∧ v ∈ L) ∧ (∃ v, v ∈ E.vertices ∧ v ∈ R) := by
  simp [crosses]

theorem mapKeys_filterMap_sublist {V : Type} (g : Nat × V → Option (Nat × V))
    (hg : ∀ kv kv', g kv = some kv' → kv'.1 = kv.1) (m : List (Nat × V)) :
    (mapKeys (m.filterMap g)).Sublist (mapKeys m) := by
  induction m with
  | nil => simp [mapKeys]
  | cons kv t ih =>
    cases h : g kv with
    | none =>
      rw [List.filterMap_cons_none h]
      exact List.Sublist.cons _ ih
    | some kv' =>
      rw [List.filterMap_cons_some h]
      have := hg kv kv' h
      simp only [mapKeys, List.map_cons, this]
      exact List.Sublist.cons₂ _ ih

theorem MapWF_filterMap {V : Type} (g : Nat × V → Option (Nat × V))
    (hg : ∀ kv kv', g kv = some kv' → kv'.1 = kv.1) {m : List (Nat × V)} (h : MapWF m) :
    MapWF (m.filterMap g) :=
  List.Pairwise.sublist (mapKeys_filterMap_sublist g hg m) h

theorem mapFind_filterMap {V : Type} (g : Nat × V → Option (Nat × V))
    (hg : ∀ kv kv', g kv = some kv' → kv'.1 = kv.1) {m : List (Nat × V)} (h : MapWF m)
    (k : Nat) :
    mapFind (m.filterMap g) k = (mapFind m k).bind (fun v => (g (k, v)).map Prod.snd) := by
  induction m with
  | nil => simp [mapFind]
  | cons kv t ih =>
    obtain ⟨k0, v0⟩ := kv
    obtain ⟨hk, ht⟩ := MapWF_cons.mp h
    by_cases hk0 : k0 = k
    · subst hk0
      have hnone : mapFind t k0 = none :=
        (not_mem_mapKeys _ _).mp (fun hm => by have := hk k0 hm; omega)
      cases hgk : g (k0, v0) with
      | none =>
        rw [List.filterMap_cons_none hgk, ih ht, hnone]
        simp [mapFind, hgk]
      | some kv' =>
        rw [List.filterMap_cons_some hgk]
        have := hg _ _ hgk
        obtain ⟨k', v'⟩ := kv'
        simp only at this
        subst this
        simp [mapFind, hgk]
    · cases hgk : g (k0, v0) with
      | none =>
        rw [List.filterMap_cons_none hgk, ih ht]
        simp [mapFind, hk0]
      | some kv' =>
        rw [List.filterMap_cons_some hgk]
        have := hg _ _ hgk
        obtain ⟨k', v'⟩ := kv'
        simp only at this
        subst this
        simp [mapFind, hk0, ih ht]

/-- Crossing weights agree when the edges of the second list are images of the crossing edges
of the first. -/
theorem crossing_weight_filterMap (g : EID × Edge → Option (EID × Edge))
    (m : List (EID × Edge)) (L R L' R' : List VID)
    (h1 : ∀ it ∈ m, crosses it.2 L R = true →
      ∃ it', g it = some it' ∧ it'.2.weight = it.2.weight ∧ crosses it'.2 L' R' = true)
    (h2 : ∀ it ∈ m, crosses it.2 L R = false →
      ∀ it', g it = some it' → crosses it'.2 L' R' = false) :
    crossing_weight (m.filterMap g) L' R' = crossing_weight m L R := by
  induction m with
  | nil => rfl
  | cons it t ih =>
    have ih' := ih (fun i hi => h1 i (List.mem_cons_of_mem _ hi))
      (fun i hi => h2 i (List.mem_cons_of_mem _ hi))
    unfold crossing_weight at ih' ⊢
    by_cases hc : crosses it.2 L R = true
    · obtain ⟨it', hg, hw, hc'⟩ := h1 it (List.mem_cons_self _ _) hc
      rw [List.filterMap_cons_some hg]
      simp only [List.filter_cons, hc, hc', if_true, List.map_cons, List.sum_cons, hw, ih']
    · have hc0 : crosses it.2 L R = false := by simpa using hc
      cases hg : g it with
      | none =>
        rw [List.filterMap_cons_none hg]
        simp only [List.filter_cons, hc0]
        simpa using ih'
      | some it' =>
        rw [List.filterMap_cons_some hg]
        have hc' := h2 it (List.mem_cons_self _ _) hc0 it' hg
        simp only [List.filter_cons, hc0, hc']
        simpa using ih'

theorem merge_edges_eq (G : HyperGraph) (a b : VID) (A B : Vertex) (hwf : G.WF) (hab : a ≠ b)
    (hA : mapFind G.vertices a = some A) (hB : mapFind G.vertices b = some B) :
    (G.merge a b).edges = G.edges.filterMap (merge_edge a b B.edges) := by
  obtain ⟨Af, -, -, -, -, -, hMe, -, hwfM⟩ := merge_spec G a b A B hwf hab hA hB
  have hg : ∀ kv kv', merge_edge a b B.edges kv = some kv' → kv'.1 = kv.1 := by
    intro kv kv' h
    unfold merge_edge at h
    split at h
    · split at h
      · cases h
      · cases h; rfl
    · cases h; rfl
  apply MapWF_ext hwfM.2.1 (MapWF_filterMap _ hg hwf.2.1)
  intro e
  rw [hMe, mapFind_filterMap _ hg hwf.2.1]
  cases hf : mapFind G.edges e with
  | none =>
    by_cases h1 : e ∈ B.edges
    · simp [h1, contracted, mapGetD, hf, default, instInhabitedEdge, setErase, setInsert]
    · simp [h1]
  | some E =>
    simp only [Option.bind_some, merge_edge, mapGetD_of_find hf]
    by_cases h1 : e ∈ B.edges
    · by_cases h2 : (contracted a b E).length ≤ 1
      · simp [h1, h2]
      · simp [h1, h2]
    · simp [h1]

theorem two_le_length_of_mem {l : List Nat} {x y : Nat} (hx : x ∈ l) (hy : y ∈ l) (hxy : x ≠ y) :
    2 ≤ l.length := by
  match l, hx, hy with
  | [], hx, _ => simp at hx
  | [z], hx, hy =>
    simp only [List.mem_singleton] at hx hy
    exact absurd (hx.trans hy.symm) hxy
  | _ :: _ :: _, _, _ => simp

/-- An edge without `b` crosses the partition after the merge iff it did before. -/
theorem crosses_unchanged (a b : VID) (E : Edge) (X Y X' Y' : List VID)
    (haX : a ∈ X) (haY : a ∉ Y) (haX' : a ∈ X') (haY' : a ∉ Y')
    (hX : ∀ v, v ≠ a → v ≠ b → (v ∈ X' ↔ v ∈ X)) (hY : ∀ v, v ≠ a → v ≠ b → (v ∈ Y' ↔ v ∈ Y))
    (hb : b ∉ E.vertices) : crosses E X' Y' = crosses E X Y := by
  have hX' : ∀ v ∈ E.vertices, (v ∈ X' ↔ v ∈ X) := by
    intro v hv
    by_cases hva : v = a
    · subst hva; simp [haX, haX']
    · exact hX v hva (fun h => hb (h ▸ hv))
  have hY' : ∀ v ∈ E.vertices, (v ∈ Y' ↔ v ∈ Y) := by
    intro v hv
    by_cases hva : v = a
    · subst hva; simp [haY, haY']
    · exact hY v hva (fun h => hb (h ▸ hv))
  rw [Bool.eq_iff_iff, crosses_iff, crosses_iff]
  constructor
  · rintro ⟨⟨v, hv, hvx⟩, ⟨u, hu, huy⟩⟩
    exact ⟨⟨v, hv, (hX' v hv).mp hvx⟩, ⟨u, hu, (hY' u hu).mp huy⟩⟩
  · rintro ⟨⟨v, hv, hvx⟩, ⟨u, hu, huy⟩⟩
    exact ⟨⟨v, hv, (hX' v hv).mpr hvx⟩, ⟨u, hu, (hY' u hu).mpr huy⟩⟩

/-- An edge with `b`, once `b` is replaced by `a`, crosses the partition after the merge iff it
did before, and a crossing edge does not collapse. -/
theorem crosses_contract (a b : VID) (E : Edge) (X Y X' Y' : List VID)
    (haY : a ∉ Y) (hbX : b ∈ X) (hbY : b ∉ Y) (haX' : a ∈ X') (haY' : a ∉ Y')
    (hY : ∀ v, v ≠ a → v ≠ b → (v ∈ Y' ↔ v ∈ Y))
    (hb : b ∈ E.vertices) :
    crosses (E.contract a b) X' Y' = crosses E X Y ∧
    (crosses E X Y = true → ¬ (contracted a b E).length ≤ 1) := by
  have hmem : ∀ v, v ∈ (E.contract a b).vertices ↔ v = a ∨ (v ∈ E.vertices ∧ v ≠ b) := by
    intro v
    show v ∈ setInsert a (setErase b E.vertices) ↔ _
    rw [mem_setInsert, mem_setErase]
  constructor
  · rw [Bool.eq_iff_iff, crosses_iff, crosses_iff]
    constructor
    · rintro ⟨-, ⟨u, hu, huy⟩⟩
      refine ⟨⟨b, hb, hbX⟩, ?_⟩
      rcases (hmem u).mp hu with rfl | ⟨hu1, hub⟩
      · exact absurd huy haY'
      · by_cases hua : u = a
        · subst hua; exact absurd huy haY'
        · exact ⟨u, hu1, (hY u hua hub).mp huy⟩
    · rintro ⟨-, ⟨u, hu, huy⟩⟩
      refine ⟨⟨a, (hmem a).mpr (Or.inl rfl), haX'⟩, ?_⟩
      have hua : u ≠ a := fun h => haY (h ▸ huy)
      have hub : u ≠ b := fun h => hbY (h ▸ huy)
      exact ⟨u, (hmem u).mpr (Or.inr ⟨hu, hub⟩), (hY u hua hub).mpr huy⟩
  · intro hc
    obtain ⟨-, ⟨u, hu, huy⟩⟩ := (crosses_iff _ _ _).mp hc
    have hua : u ≠ a := fun h => haY (h ▸ huy)
    have hub : u ≠ b := fun h => hbY (h ▸ huy)
    have h1 : a ∈ contracted a b E := (hmem a).mpr (Or.inl rfl)
    have h2 : u ∈ contracted a b E := (hmem u).mpr (Or.inr ⟨hu, hub⟩)
    have := two_le_length_of_mem h1 h2 (Ne.symm hua)
    omega

/-- Crossing weights before and after `merge(a, b)` when `a` and `b` lie on the side `X`. -/
theorem crossing_weight_merge (G : HyperGraph) (a b : VID) (hwf : G.WF)
    (hadj : G.EdgeAdj) (hadj' : G.VertexAdjLive) (hab : a ≠ b)
    (ha : a ∈ mapKeys G.vertices) (hb : b ∈ mapKeys G.vertices) (X Y X' Y' : List VID)
    (haX : a ∈ X) (haY : a ∉ Y) (hbX : b ∈ X) (hbY : b ∉ Y) (haX' : a ∈ X') (haY' : a ∉ Y')
    (hX : ∀ v, v ≠ a → v ≠ b → (v ∈ X' ↔ v ∈ X)) (hY : ∀ v, v ≠ a → v ≠ b → (v ∈ Y' ↔ v ∈ Y)) :
    crossing_weight (G.merge a b).edges X' Y' = crossing_weight G.edges X Y := by
  obtain ⟨A, hA⟩ := (mem_mapKeys _ _).mp ha
  obtain ⟨B, hB⟩ := (mem_mapKeys _ _).mp hb
  rw [merge_edges_eq G a b A B hwf hab hA hB]
  have key : ∀ it ∈ G.edges,
      (it.1 ∈ B.edges → crosses (it.2.contract a b) X' Y' = crosses it.2 X Y ∧
        (crosses it.2 X Y = true → ¬ (contracted a b it.2).length ≤ 1)) ∧
      (it.1 ∉ B.edges → crosses it.2 X' Y' = crosses it.2 X Y) := by
    intro it hit
    have hf : mapFind G.edges it.1 = some it.2 := mapFind_of_mem hwf.2.1 hit
    constructor
    · intro h1
      have hbE : b ∈ it.2.vertices := hadj' b B hB it.1 h1 it.2 hf
      exact crosses_contract a b it.2 X Y X' Y' haY hbX hbY haX' haY' hY hbE
    · intro h1
      have hbE : b ∉ it.2.vertices := by
        intro hbE
        obtain ⟨V, hV, heV⟩ := hadj it.1 it.2 hf b hbE
        rw [hB] at hV; cases hV
        exact h1 heV
      exact crosses_unchanged a b it.2 X Y X' Y' haX haY haX' haY' hX hY hbE
  apply crossing_weight_filterMap
  · intro it hit hc
    obtain ⟨k1, k2⟩ := key it hit
    unfold merge_edge
    by_cases h1 : it.1 ∈ B.edges
    · obtain ⟨k3, k4⟩ := k1 h1
      have h2 := k4 hc
      simp only [h1, if_true, h2, if_false]
      exact ⟨_, rfl, rfl, k3.trans hc⟩
    · simp only [h1, if_false]
      exact ⟨_, rfl, rfl, (k2 h1).trans hc⟩
  · intro it hit hc it' hg
    obtain ⟨k1, k2⟩ := key it hit
    unfold merge_edge at hg
    by_cases h1 : it.1 ∈ B.edges
    · obtain ⟨k3, -⟩ := k1 h1
      simp only [h1, if_true] at hg
      split at hg
      · cases hg
      · cases hg
        exact k3.trans hc
    · simp only [h1, if_false, Option.some.injEq] at hg
      subst hg
      exact (k2 h1).trans hc

theorem crosses_comm (E : Edge) (X Y : List VID) : crosses E X Y = crosses E Y X := by
  unfold crosses; exact Bool.and_comm _ _

theorem crossing_weight_comm (m : List (EID × Edge)) (X Y : List VID) :
    crossing_weight m X Y = crossing_weight m Y X := by
  unfold crossing_weight
  simp only [crosses_comm _ X Y]


/-! ## Heap: reachability and forests -/

section

open FibHeap

theorem setNode_same (mem : Nat → Option FibNode) (x : Nat) (nd : FibNode) :
    setNode mem x nd x = some nd := by
  simp [setNode]

theorem setNode_other (mem : Nat → Option FibNode) {x v : Nat} (nd : FibNode) (h : v ≠ x) :
    setNode mem x nd v = mem v := by
  simp [setNode, h]

theorem freeNode_same (mem : Nat → Option FibNode) (x : Nat) : freeNode mem x x = none := by
  simp [freeNode]

theorem freeNode_other (mem : Nat → Option FibNode) {x v : Nat} (h : v ≠ x) :
    freeNode mem x v = mem v := by
  simp [freeNode, h]

/-- Reachability carries over to another memory and ring when roots stay reachable and every
node keeps its parent or becomes a root. -/
theorem Reach_transfer {mem mem' : Nat → Option FibNode} {roots roots' : List Nat}
    (h1 : ∀ r ∈ roots, Reach mem' roots' r)
    (h2 : ∀ x nd y, mem x = some nd → nd.p = some y → Reach mem roots x →
      x ∈ roots' ∨ ∃ nd', mem' x = some nd' ∧ nd'.p = some y)
    {v : Nat} (hv : Reach mem roots v) : Reach mem' roots' v := by
  induction hv with
  | root hr => exact h1 _ hr
  | @step x y nd hx hp hy ih =>
    rcases h2 x nd y hx hp (Reach.step hx hp hy) with h | ⟨nd', hx', hp'⟩
    · exact Reach.root h
    · exact Reach.step hx' hp' ih

theorem Reach_congr_roots {mem : Nat → Option FibNode} {roots roots' : List Nat}
    (h : ∀ r, r ∈ roots ↔ r ∈ roots') (v : Nat) :
    Reach mem roots v ↔ Reach mem roots' v := by
  constructor
  · intro hv
    exact Reach_transfer (fun r hr => Reach.root ((h r).mp hr))
      (fun x nd y hx hp _ => Or.inr ⟨nd, hx, hp⟩) hv
  · intro hv
    exact Reach_transfer (fun r hr => Reach.root ((h r).mpr hr))
      (fun x nd y hx hp _ => Or.inr ⟨nd, hx, hp⟩) hv

theorem Forest_live {mem : Nat → Option FibNode} {roots : List Nat} {ex : Option Nat}
    (hF : Forest mem roots ex) {x : Nat} (hx : Reach mem roots x) : ∃ nd, mem x = some nd := by
  cases hx with
  | root hr =>
    obtain ⟨nd, hnd, -⟩ := hF.root_ok x hr
    exact ⟨nd, hnd⟩
  | step hm _ _ => exact ⟨_, hm⟩

theorem Forest_root_of_no_parent {mem : Nat → Option FibNode} {roots : List Nat}
    {x : Nat} {nd : FibNode} (hx : Reach mem roots x) (hm : mem x = some nd)
    (hp : nd.p = none) : x ∈ roots := by
  cases hx with
  | root hr => exact hr
  | step hm' hp' _ =>
    rw [hm] at hm'
    cases hm'
    rw [hp] at hp'
    cases hp'

theorem Forest_parent_reach {mem : Nat → Option FibNode} {roots : List Nat} {ex : Option Nat}
    (hF : Forest mem roots ex) {x y : Nat} {nd : FibNode} (hx : Reach mem roots x)
    (hm : mem x = some nd) (hp : nd.p = some y) : Reach mem roots y := by
  cases hx with
  | root hr =>
    obtain ⟨nd', hnd', hp'⟩ := hF.root_ok x hr
    rw [hm] at hnd'
    cases hnd'
    rw [hp] at hp'
    cases hp'
  | step hm' hp' hy =>
    rw [hm] at hm'
    cases hm'
    rw [hp] at hp'
    cases hp'
    exact hy

theorem Forest_child_reach {mem : Nat → Option FibNode} {roots : List Nat} {ex : Option Nat}
    (hF : Forest mem roots ex) {x c : Nat} {nd : FibNode} (hx : Reach mem roots x)
    (hm : mem x = some nd) (hc : c ∈ nd.children) : Reach mem roots c := by
  obtain ⟨nc, hnc, hpc⟩ := hF.child_ok x nd c hx hm hc
  exact Reach.step hnc hpc hx

theorem Forest_perm {mem : Nat → Option FibNode} {roots roots' : List Nat} {ex : Option Nat}
    (hF : Forest mem roots ex) (hp : roots.Perm roots') : Forest mem roots' ex := by
  have hr : ∀ v, Reach mem roots' v ↔ Reach mem roots v :=
    fun v => (Reach_congr_roots (fun r => hp.mem_iff) v).symm
  exact {
    nodup := hp.nodup_iff.mp hF.nodup
    root_ok := fun r hr' => hF.root_ok r (hp.mem_iff.mpr hr')
    parent_ok := fun x nd y hx => hF.parent_ok x nd y ((hr x).mp hx)
    child_ok := fun x nd c hx => hF.child_ok x nd c ((hr x).mp hx)
    child_nodup := fun x nd hx => hF.child_nodup x nd ((hr x).mp hx) }

/-- In a heap-ordered forest whose head is a largest root, the head has the largest key. -/
theorem top_max {mem : Nat → Option FibNode} {m : Nat} {rest : List Nat}
    (hF : Forest mem (m :: rest) none) (hM : MaxHead mem (m :: rest)) {nm : FibNode}
    (hm : mem m = some nm) {v : Nat} (hv : Reach mem (m :: rest) v) :
    ∀ nv, mem v = some nv → nv.key ≤ nm.key := by
  induction hv with
  | @root x hr =>
    intro nv hnv
    rcases List.mem_cons.mp hr with rfl | hr
    · rw [hm] at hnv; cases hnv; exact le_refl _
    · exact hM m rest rfl x hr nm nv hm hnv
  | @step x y nd hx hp hy ih =>
    intro nv hnv
    rw [hx] at hnv
    cases hnv
    obtain ⟨ny, hny, -, hk⟩ := hF.parent_ok x nd y (Reach.step hx hp hy) hx hp
    exact le_trans (hk (by simp)) (ih ny hny)

theorem data_setNode_same_key {mem : Nat → Option FibNode} {x : Nat} {nd nd' : FibNode}
    (hm : mem x = some nd) (hk : nd'.key = nd.key) (hp : nd'.payload = nd.payload) (v : Nat) :
    data (setNode mem x nd') v = data mem v := by
  unfold data setNode
  by_cases h : v = x
  · subst h; simp [hm, hk, hp]
  · simp [h]

end


/-! ## Heap: `fib_heap_link` -/

section

open FibHeap

theorem root_no_parent {mem : Nat → Option FibNode} {roots : List Nat} {ex : Option Nat}
    (hF : Forest mem roots ex) {x : Nat} (hx : x ∈ roots) {xn : FibNode}
    (hxm : mem x = some xn) : xn.p = none := by
  obtain ⟨nd, hnd, hp⟩ := hF.root_ok x hx
  rw [hxm] at hnd
  cases hnd
  exact hp

theorem fib_heap_link_spec {mem : Nat → Option FibNode} {roots : List Nat}
    (hF : Forest mem roots none) {x y : Nat} (hx : x ∈ roots) (hy : y ∈ roots) (hxy : x ≠ y)
    {xn yn : FibNode} (hxm : mem x = some xn) (hym : mem y = some yn) (hk : yn.key ≤ xn.key) :
    ∃ mem', fib_heap_link mem y x = some mem' ∧ Forest mem' (roots.erase y) none ∧
      (∀ v, Reach mem' (roots.erase y) v ↔ Reach mem roots v) ∧
      (∀ v, data mem' v = data mem v) := by
  have hxp : xn.p = none := root_no_parent hF hx hxm
  have hyp : yn.p = none := root_no_parent hF hy hym
  have hyx : y ≠ x := Ne.symm hxy
  obtain ⟨mem', hmem'⟩ : ∃ mem', mem' = setNode (setNode mem x
      { xn with children := xn.children ++ [y] }) y { yn with p := some x, mark := false } :=
    ⟨_, rfl⟩
  have hlink : fib_heap_link mem y x = some mem' := by
    unfold fib_heap_link
    simp only [hym, hxm, Option.bind_eq_bind, Option.some_bind, setNode_other _ _ hyx]
    rw [hmem']
  have hmx : mem' x = some { xn with children := xn.children ++ [y] } := by
    rw [hmem', setNode_other _ _ hxy, setNode_same]
  have hmy : mem' y = some { yn with p := some x, mark := false } := by
    rw [hmem', setNode_same]
  have hmo : ∀ v, v ≠ x → v ≠ y → mem' v = mem v := by
    intro v h1 h2
    rw [hmem', setNode_other _ _ h2, setNode_other _ _ h1]
  have hxr : x ∈ roots.erase y := (List.mem_erase_of_ne hxy).mpr hx
  -- a node with a parent is neither `x` nor `y`
  have hne : ∀ v nd w, mem v = some nd → nd.p = some w → v ≠ x ∧ v ≠ y := by
    intro v nd w hv hp
    constructor
    · rintro rfl
      rw [hxm] at hv; cases hv; rw [hxp] at hp; cases hp
    · rintro rfl
      rw [hym] at hv; cases hv; rw [hyp] at hp; cases hp
  have hR1 : ∀ v, Reach mem roots v → Reach mem' (roots.erase y) v := by
    intro v hv
    refine Reach_transfer ?_ ?_ hv
    · intro r hr
      by_cases hry : r = y
      · subst hry
        exact Reach.step hmy rfl (Reach.root hxr)
      · exact Reach.root ((List.mem_erase_of_ne hry).mpr hr)
    · intro v nd w hv hp _
      obtain ⟨h1, h2⟩ := hne v nd w hv hp
      exact Or.inr ⟨nd, (hmo v h1 h2).trans hv, hp⟩
  have hR2 : ∀ v, Reach mem' (roots.erase y) v → Reach mem roots v := by
    intro v hv
    refine Reach_transfer ?_ ?_ hv
    · intro r hr
      exact Reach.root (List.mem_of_mem_erase hr)
    · intro v nd w hv hp _
      by_cases hvy : v = y
      · subst hvy; exact Or.inl hy
      · by_cases hvx : v = x
        · subst hvx
          rw [hmx] at hv; cases hv
          simp only at hp
          rw [hxp] at hp; cases hp
        · exact Or.inr ⟨nd, (hmo v hvx hvy).symm.trans hv, hp⟩
  have hR : ∀ v, Reach mem' (roots.erase y) v ↔ Reach mem roots v :=
    fun v => ⟨hR2 v, hR1 v⟩
  refine ⟨mem', hlink, ?_, hR, ?_⟩
  · exact {
      nodup := hF.nodup.erase y
      root_ok := by
        intro r hr
        have hr' : r ∈ roots := List.mem_of_mem_erase hr
        have hry : r ≠ y := fun h => by
          subst h
          exact (List.Nodup.not_mem_erase hF.nodup) hr
        by_cases hrx : r = x
        · subst hrx
          exact ⟨_, hmx, hxp⟩
        · rw [hmo r hrx hry]
          exact hF.root_ok r hr'
      parent_ok := by
        intro v nd w hv hm hp
        have hv' := hR2 v hv
        by_cases hvy : v = y
        · subst hvy
          rw [hmy] at hm; cases hm
          simp only [Option.some.injEq] at hp
          subst hp
          exact ⟨_, hmx, by simp, fun _ => hk⟩
        · by_cases hvx : v = x
          · subst hvx
            rw [hmx] at hm; cases hm
            simp only at hp
            rw [hxp] at hp; cases hp
          · rw [hmo v hvx hvy] at hm
            obtain ⟨nw, hnw, hvc, hkey⟩ := hF.parent_ok v nd w hv' hm hp
            by_cases hwx : w = x
            · subst hwx
              rw [hxm] at hnw; cases hnw
              exact ⟨_, hmx, by simp [hvc], hkey⟩
            · by_cases hwy : w = y
              · subst hwy
                rw [hym] at hnw; cases hnw
                exact ⟨_, hmy, hvc, hkey⟩
              · exact ⟨nw, (hmo w hwx hwy).trans hnw, hvc, hkey⟩
      child_ok := by
        intro v nd c hv hm hc
        have hv' := hR2 v hv
        -- a child of an old node is neither `x` nor `y`
        have hold : ∀ nd0, mem v = some nd0 → c ∈ nd0.children →
            ∃ nc, mem' c = some nc ∧ nc.p = some v := by
          intro nd0 hm0 hc0
          obtain ⟨nc, hnc, hpc⟩ := hF.child_ok v nd0 c hv' hm0 hc0
          obtain ⟨h1, h2⟩ := hne c nc v hnc hpc
          exact ⟨nc, (hmo c h1 h2).trans hnc, hpc⟩
        by_cases hvy : v = y
        · subst hvy
          rw [hmy] at hm; cases hm
          exact hold yn hym hc
        · by_cases hvx : v = x
          · subst hvx
            rw [hmx] at hm; cases hm
            simp only [List.mem_append, List.mem_singleton] at hc
            rcases hc with hc | rfl
            · exact hold xn hxm hc
            · exact ⟨_, hmy, rfl⟩
          · rw [hmo v hvx hvy] at hm
            exact hold nd hm hc
      child_nodup := by
        intro v nd hv hm
        have hv' := hR2 v hv
        by_cases hvy : v = y
        · subst hvy
          rw [hmy] at hm; cases hm
          exact hF.child_nodup v yn hv' hym
        · by_cases hvx : v = x
          · subst hvx
            rw [hmx] at hm; cases hm
            have h1 := hF.child_nodup v xn hv' hxm
            have h2 : y ∉ xn.children := by
              intro hc
              obtain ⟨nc, hnc, hpc⟩ := hF.child_ok v xn y hv' hxm hc
              rw [hym] at hnc; cases hnc
              rw [hyp] at hpc; cases hpc
            show (xn.children ++ [y]).Nodup
            rw [← List.concat_eq_append]
            exact List.Nodup.concat h2 h1
          · rw [hmo v hvx hvy] at hm
            exact hF.child_nodup v nd hv' hm }
  · intro v
    unfold data
    by_cases hvy : v = y
    · subst hvy; rw [hmy, hym]; rfl
    · by_cases hvx : v = x
      · subst hvx; rw [hmx, hxm]; rfl
      · rw [hmo v hvx hvy]

end


/-! ## Heap: `consolidate` -/

section

open FibHeap

theorem table_entries_nil : table_entries [] = [] := rfl

theorem table_entries_none (tbl : List (Option Nat)) :
    table_entries (none :: tbl) = table_entries tbl := rfl

theorem table_entries_some (x : Nat) (tbl : List (Option Nat)) :
    table_entries (some x :: tbl) = x :: table_entries tbl := rfl

theorem consolidate_link_spec (tbl : List (Option Nat)) :
    ∀ (mem : Nat → Option FibNode) (x : Nat) (others : List Nat),
    Forest mem (x :: table_entries tbl ++ others) none →
    ∃ mem' tbl', consolidate_link mem x tbl = some (mem', tbl') ∧
      Forest mem' (table_entries tbl' ++ others) none ∧
      (∀ v, Reach mem' (table_entries tbl' ++ others) v ↔
        Reach mem (x :: table_entries tbl ++ others) v) ∧
      (∀ v, data mem' v = data mem v) := by
  induction tbl with
  | nil =>
    intro mem x others hF
    exact ⟨mem, [some x], rfl, hF, fun v => Iff.rfl, fun v => rfl⟩
  | cons s tbl ih =>
    intro mem x others hF
    cases s with
    | none => exact ⟨mem, some x :: tbl, rfl, hF, fun v => Iff.rfl, fun v => rfl⟩
    | some y =>
      rw [table_entries_some] at hF
      have hxr : x ∈ x :: (y :: table_entries tbl) ++ others := by simp
      have hyr : y ∈ x :: (y :: table_entries tbl) ++ others := by simp
      have hxy : x ≠ y := by
        have := hF.nodup
        simp only [List.cons_append, List.nodup_cons, List.mem_cons, not_or] at this
        exact this.1.1
      obtain ⟨xn, hxm, -⟩ := hF.root_ok x hxr
      obtain ⟨yn, hym, -⟩ := hF.root_ok y hyr
      by_cases hc : comp yn.key xn.key = true
      · -- `y` has the larger key: `x` becomes a child of `y`
        have hk : xn.key ≤ yn.key := by
          unfold comp at hc
          simp only [decide_eq_true_eq] at hc
          exact le_of_lt hc
        obtain ⟨mem1, hl, hF1, hR1, hD1⟩ :=
          fib_heap_link_spec hF hyr hxr (Ne.symm hxy) hym hxm hk
        have he : (x :: (y :: table_entries tbl) ++ others).erase x
            = y :: table_entries tbl ++ others := by simp
        rw [he] at hF1 hR1
        obtain ⟨mem', tbl', hr, hF', hR', hD'⟩ := ih mem1 y others hF1
        refine ⟨mem', none :: tbl', ?_, hF', ?_, ?_⟩
        · unfold consolidate_link
          simp only [hym, hxm, hc, if_true, Option.bind_eq_bind, Option.some_bind, hl, hr]
        · intro v
          rw [table_entries_none, hR' v, hR1 v, table_entries_some]
        · intro v
          rw [hD' v, hD1 v]
      · have hk : yn.key ≤ xn.key := by
          unfold comp at hc
          simp only [decide_eq_true_eq, not_lt] at hc
          exact hc
        obtain ⟨mem1, hl, hF1, hR1, hD1⟩ :=
          fib_heap_link_spec hF hxr hyr hxy hxm hym hk
        have he : (x :: (y :: table_entries tbl) ++ others).erase y
            = x :: table_entries tbl ++ others := by
          simp [List.erase_cons, hxy]
        rw [he] at hF1 hR1
        obtain ⟨mem', tbl', hr, hF', hR', hD'⟩ := ih mem1 x others hF1
        refine ⟨mem', none :: tbl', ?_, hF', ?_, ?_⟩
        · unfold consolidate_link
          simp only [hym, hxm, hc, Option.bind_eq_bind, Option.some_bind]
          simp [hl, hr]
        · intro v
          rw [table_entries_none, hR' v, hR1 v, table_entries_some]
        · intro v
          rw [hD' v, hD1 v]

theorem consolidate_at_spec (d : Nat) :
    ∀ (tbl : List (Option Nat)) (mem : Nat → Option FibNode) (x : Nat) (others : List Nat),
    Forest mem (x :: table_entries tbl ++ others) none →
    ∃ mem' tbl', consolidate_at mem x d tbl = some (mem', tbl') ∧
      Forest mem' (table_entries tbl' ++ others) none ∧
      (∀ v, Reach mem' (table_entries tbl' ++ others) v ↔
        Reach mem (x :: table_entries tbl ++ others) v) ∧
      (∀ v, data mem' v = data mem v) := by
  induction d with
  | zero =>
    intro tbl mem x others hF
    exact consolidate_link_spec tbl mem x others hF
  | succ d ih =>
    intro tbl mem x others hF
    cases tbl with
    | nil =>
      obtain ⟨mem', tbl', hr, hF', hR', hD'⟩ := ih [] mem x others hF
      exact ⟨mem', none :: tbl', by simp [consolidate_at, hr], hF', hR', hD'⟩
    | cons s tbl =>
      cases s with
      | none =>
        obtain ⟨mem', tbl', hr, hF', hR', hD'⟩ := ih tbl mem x others hF
        exact ⟨mem', none :: tbl', by simp [consolidate_at, hr], hF', hR', hD'⟩
      | some z =>
        rw [table_entries_some] at hF
        have hp : (x :: (z :: table_entries tbl) ++ others).Perm
            (x :: table_entries tbl ++ z :: others) := by
          simp only [List.cons_append]
          exact (List.perm_middle.symm).cons x
        obtain ⟨mem', tbl', hr, hF', hR', hD'⟩ := ih tbl mem x (z :: others) (Forest_perm hF hp)
        have hp' : (table_entries tbl' ++ z :: others).Perm
            (table_entries (some z :: tbl') ++ others) := by
          rw [table_entries_some]
          exact List.perm_middle
        refine ⟨mem', some z :: tbl', by simp [consolidate_at, hr], Forest_perm hF' hp', ?_, hD'⟩
        intro v
        rw [← Reach_congr_roots (fun r => hp'.mem_iff) v, hR' v,
          ← Reach_congr_roots (fun r => hp.mem_iff) v, table_entries_some]

theorem consolidate_roots_spec (ws : List Nat) :
    ∀ (mem : Nat → Option FibNode) (tbl : List (Option Nat)),
    Forest mem (table_entries tbl ++ ws) none →
    ∃ mem' tbl', consolidate_roots ws mem tbl = some (mem', tbl') ∧
      Forest mem' (table_entries tbl') none ∧
      (∀ v, Reach mem' (table_entries tbl') v ↔ Reach mem (table_entries tbl ++ ws) v) ∧
      (∀ v, data mem' v = data mem v) := by
  induction ws with
  | nil =>
    intro mem tbl hF
    rw [List.append_nil] at hF
    exact ⟨mem, tbl, rfl, hF, fun v => by rw [List.append_nil], fun v => rfl⟩
  | cons w ws ih =>
    intro mem tbl hF
    have hp : (table_entries tbl ++ w :: ws).Perm (w :: table_entries tbl ++ ws) :=
      List.perm_middle
    have hF0 := Forest_perm hF hp
    obtain ⟨wn, hwm, -⟩ := hF0.root_ok w (by simp)
    obtain ⟨mem1, tbl1, hr1, hF1, hR1, hD1⟩ :=
      consolidate_at_spec wn.children.length tbl mem w ws hF0
    obtain ⟨mem', tbl', hr, hF', hR', hD'⟩ := ih mem1 tbl1 hF1
    refine ⟨mem', tbl', ?_, hF', ?_, ?_⟩
    · unfold consolidate_roots
      simp only [hwm, Option.bind_eq_bind, Option.some_bind, hr1, hr]
    · intro v
      rw [hR' v, hR1 v, Reach_congr_roots (fun r => hp.mem_iff) v]
    · intro v
      rw [hD' v, hD1 v]

theorem ring_insert_spec {mem : Nat → Option FibNode} {ring : List Nat} {x : Nat}
    (hlive : ∀ r ∈ x :: ring, ∃ nd, mem r = some nd) (hM : MaxHead mem ring) :
    ∃ ring', ring_insert mem ring x = some ring' ∧ ring'.Perm (x :: ring) ∧
      MaxHead mem ring' := by
  cases ring with
  | nil =>
    refine ⟨[x], rfl, List.Perm.refl _, ?_⟩
    intro m rest hmr r hr
    cases hmr
    simp at hr
  | cons m rest =>
    obtain ⟨xn, hxm⟩ := hlive x (by simp)
    obtain ⟨mn, hmm⟩ := hlive m (by simp)
    by_cases hc : comp xn.key mn.key = true
    · refine ⟨x :: m :: rest, by simp [ring_insert, hxm, hmm, hc], List.Perm.refl _, ?_⟩
      intro m' rest' hmr r hr nm nr hnm hnr
      cases hmr
      rw [hxm] at hnm; cases hnm
      have hlt : mn.key < xn.key := by
        unfold comp at hc
        simpa using hc
      rcases List.mem_cons.mp hr with hrm | hr
      · subst hrm
        rw [hmm] at hnr; cases hnr; exact le_of_lt hlt
      · exact le_trans (hM m rest rfl r hr mn nr hmm hnr) (le_of_lt hlt)
    · refine ⟨m :: rest ++ [x], by simp [ring_insert, hxm, hmm, hc], ?_, ?_⟩
      · exact (List.perm_append_singleton x (m :: rest))
      · intro m' rest' hmr r hr nm nr hnm hnr
        simp only [List.cons_append, List.cons.injEq] at hmr
        obtain ⟨hm1, hm2⟩ := hmr
        subst hm1
        subst hm2
        rw [hmm] at hnm; cases hnm
        rcases List.mem_append.mp hr with hr | hr
        · exact hM m rest rfl r hr mn nr hmm hnr
        · simp only [List.mem_singleton] at hr
          subst hr
          rw [hxm] at hnr; cases hnr
          unfold comp at hc
          simpa using hc

theorem consolidate_rebuild_spec (mem : Nat → Option FibNode) (tbl : List (Option Nat)) :
    ∀ (ring : List Nat), (∀ r ∈ ring ++ table_entries tbl, ∃ nd, mem r = some nd) →
    MaxHead mem ring →
    ∃ ring', consolidate_rebuild mem tbl ring = some ring' ∧
      ring'.Perm (ring ++ table_entries tbl) ∧ MaxHead mem ring' := by
  induction tbl with
  | nil =>
    intro ring _ hM
    exact ⟨ring, rfl, by simp [table_entries_nil], hM⟩
  | cons s tbl ih =>
    intro ring hlive hM
    cases s with
    | none => exact ih ring hlive hM
    | some x =>
      rw [table_entries_some] at hlive
      obtain ⟨ring1, hr1, hp1, hM1⟩ := @ring_insert_spec mem ring x
        (fun r hr => hlive r (by
          rcases List.mem_cons.mp hr with rfl | hr
          · simp
          · simp [hr])) hM
      obtain ⟨ring', hr, hp, hM'⟩ := ih ring1 (fun r hr => hlive r (by
        rcases List.mem_append.mp hr with hr | hr
        · rcases List.mem_cons.mp (hp1.mem_iff.mp hr) with rfl | hr
          · simp
          · simp [hr]
        · simp [hr])) hM1
      refine ⟨ring', ?_, ?_, hM'⟩
      · unfold consolidate_rebuild
        simp only [hr1, Option.bind_eq_bind, Option.some_bind, hr]
      · rw [table_entries_some]
        exact hp.trans ((hp1.append_right _).trans List.perm_middle.symm)

theorem MaxHead_nil (mem : Nat → Option FibNode) : MaxHead mem [] := by
  intro m rest h
  cases h

theorem consolidate_spec (h : FibHeap) (hF : Forest h.mem h.roots none) :
    ∃ h', consolidate h = some h' ∧ Forest h'.mem h'.roots none ∧ MaxHead h'.mem h'.roots ∧
      (∀ v, Reach h'.mem h'.roots v ↔ Reach h.mem h.roots v) ∧
      (∀ v, data h'.mem v = data h.mem v) ∧ h'.n = h.n ∧ h'.next = h.next := by
  have hF0 : Forest h.mem (table_entries [] ++ h.roots) none := by
    simpa [table_entries_nil] using hF
  obtain ⟨mem', tbl', hr, hF', hR', hD'⟩ := consolidate_roots_spec h.roots h.mem [] hF0
  obtain ⟨ring, hrb, hp, hM⟩ := consolidate_rebuild_spec mem' tbl' []
    (fun r hr => by
      obtain ⟨nd, hnd, -⟩ := hF'.root_ok r (by simpa using hr)
      exact ⟨nd, hnd⟩) (MaxHead_nil mem')
  simp only [List.nil_append] at hp
  refine ⟨{ h with mem := mem', roots := ring }, ?_, Forest_perm hF' hp.symm, hM, ?_, hD', rfl, rfl⟩
  · unfold consolidate
    simp only [hr, Option.bind_eq_bind, Option.some_bind, hrb]
  · intro v
    show Reach mem' ring v ↔ _
    rw [Reach_congr_roots (fun r => hp.mem_iff) v, hR' v]
    simp [table_entries_nil]

end


/-! ## Heap: `extract_max` -/

section

open FibHeap

theorem clear_parents_spec (cs : List Nat) :
    ∀ (mem : Nat → Option FibNode), (∀ c ∈ cs, ∃ nd, mem c = some nd) →
    ∃ mem', clear_parents cs mem = some mem' ∧
      ∀ v, mem' v = if v ∈ cs then (mem v).map (fun nd => { nd with p := none }) else mem v := by
  induction cs with
  | nil =>
    intro mem _
    exact ⟨mem, rfl, fun v => by simp⟩
  | cons c cs ih =>
    intro mem hlive
    obtain ⟨cn, hcn⟩ := hlive c (by simp)
    have hlive' : ∀ c' ∈ cs, ∃ nd, setNode mem c { cn with p := none } c' = some nd := by
      intro c' hc'
      by_cases h : c' = c
      · subst h; exact ⟨_, setNode_same _ _ _⟩
      · rw [setNode_other _ _ h]; exact hlive c' (by simp [hc'])
    obtain ⟨mem', hr, hm⟩ := ih _ hlive'
    refine ⟨mem', by simp [clear_parents, hcn, hr], ?_⟩
    intro v
    rw [hm v]
    by_cases hvc : v = c
    · subst hvc
      simp [setNode_same, hcn]
    · simp [hvc, setNode_other _ _ hvc]

theorem Forest_free {mem : Nat → Option FibNode} {roots : List Nat} {ex : Option Nat}
    (hF : Forest mem roots ex) {z : Nat} (hz : ¬ Reach mem roots z) :
    Forest (freeNode mem z) roots ex ∧
    (∀ v, Reach (freeNode mem z) roots v ↔ Reach mem roots v) := by
  have hne : ∀ v, Reach mem roots v → v ≠ z := fun v hv h => hz (h ▸ hv)
  have hR1 : ∀ v, Reach mem roots v → Reach (freeNode mem z) roots v := by
    intro v hv
    refine Reach_transfer (fun r hr => Reach.root hr) ?_ hv
    intro x nd y hx hp hrx
    exact Or.inr ⟨nd, by rw [freeNode_other _ (hne x hrx)]; exact hx, hp⟩
  have hR2 : ∀ v, Reach (freeNode mem z) roots v → Reach mem roots v := by
    intro v hv
    refine Reach_transfer (fun r hr => Reach.root hr) ?_ hv
    intro x nd y hx hp _
    by_cases hxz : x = z
    · subst hxz; rw [freeNode_same] at hx; cases hx
    · exact Or.inr ⟨nd, by rw [freeNode_other _ hxz] at hx; exact hx, hp⟩
  refine ⟨?_, fun v => ⟨hR2 v, hR1 v⟩⟩
  exact {
    nodup := hF.nodup
    root_ok := by
      intro r hr
      rw [freeNode_other _ (hne r (Reach.root hr))]
      exact hF.root_ok r hr
    parent_ok := by
      intro x nd y hx hm hp
      have hx' := hR2 x hx
      rw [freeNode_other _ (hne x hx')] at hm
      obtain ⟨ny, hny, h1, h2⟩ := hF.parent_ok x nd y hx' hm hp
      have hy' := Forest_parent_reach hF hx' hm hp
      exact ⟨ny, by rw [freeNode_other _ (hne y hy')]; exact hny, h1, h2⟩
    child_ok := by
      intro x nd c hx hm hc
      have hx' := hR2 x hx
      rw [freeNode_other _ (hne x hx')] at hm
      obtain ⟨nc, hnc, h1⟩ := hF.child_ok x nd c hx' hm hc
      have hc' := Forest_child_reach hF hx' hm hc
      exact ⟨nc, by rw [freeNode_other _ (hne c hc')]; exact hnc, h1⟩
    child_nodup := by
      intro x nd hx hm
      have hx' := hR2 x hx
      rw [freeNode_other _ (hne x hx')] at hm
      exact hF.child_nodup x nd hx' hm }

/-- The forest after the head `z` of the ring has been unlinked and its children moved to the
ring. -/
theorem promote_children_spec {mem : Nat → Option FibNode} {z : Nat} {rest : List Nat}
    (hF : Forest mem (z :: rest) none) {zn : FibNode} (hzm : mem z = some zn) :
    ∃ mem1, clear_parents zn.children mem = some mem1 ∧
      Forest mem1 (rest ++ zn.children) none ∧
      (∀ v, Reach mem1 (rest ++ zn.children) v ↔ (Reach mem (z :: rest) v ∧ v ≠ z)) ∧
      (∀ v, data mem1 v = data mem v) := by
  have hzr : Reach mem (z :: rest) z := Reach.root (by simp)
  have hzp : zn.p = none := root_no_parent hF (by simp) hzm
  have hclive : ∀ c ∈ zn.children, ∃ nd, mem c = some nd := by
    intro c hc
    obtain ⟨nc, hnc, -⟩ := hF.child_ok z zn c hzr hzm hc
    exact ⟨nc, hnc⟩
  obtain ⟨mem1, hcp, hm1⟩ := clear_parents_spec zn.children mem hclive
  have hz_notin : z ∉ rest := by
    have := hF.nodup
    exact (List.nodup_cons.mp this).1
  -- children of `z` are the nodes with parent `z`
  have hchild : ∀ v nd, Reach mem (z :: rest) v → mem v = some nd →
      (v ∈ zn.children ↔ nd.p = some z) := by
    intro v nd hv hm
    constructor
    · intro hc
      obtain ⟨nc, hnc, hpc⟩ := hF.child_ok z zn v hzr hzm hc
      rw [hm] at hnc; cases hnc; exact hpc
    · intro hp
      obtain ⟨ny, hny, hvc, -⟩ := hF.parent_ok v nd z hv hm hp
      rw [hzm] at hny; cases hny; exact hvc
  have hz_notchild : z ∉ zn.children := by
    intro hc
    have := (hchild z zn hzr hzm).mp hc
    rw [hzp] at this; cases this
  have hm1_other : ∀ v, v ∉ zn.children → mem1 v = mem v := by
    intro v hv
    rw [hm1 v]; simp [hv]
  have hm1_child : ∀ v nd, v ∈ zn.children → mem v = some nd →
      mem1 v = some { nd with p := none } := by
    intro v nd hv hm
    rw [hm1 v]; simp [hv, hm]
  have hR1 : ∀ v, Reach mem1 (rest ++ zn.children) v → Reach mem (z :: rest) v := by
    intro v hv
    refine Reach_transfer ?_ ?_ hv
    · intro r hr
      rcases List.mem_append.mp hr with hr | hr
      · exact Reach.root (by simp [hr])
      · exact Forest_child_reach hF hzr hzm hr
    · intro x nd y hx hp _
      by_cases hxc : x ∈ zn.children
      · obtain ⟨nd0, hnd0⟩ := hclive x hxc
        rw [hm1_child x nd0 hxc hnd0] at hx
        cases hx
        simp at hp
      · rw [hm1_other x hxc] at hx
        exact Or.inr ⟨nd, hx, hp⟩
  have hR1z : ∀ v, Reach mem1 (rest ++ zn.children) v → v ≠ z := by
    intro v hv
    induction hv with
    | root hr =>
      rcases List.mem_append.mp hr with hr | hr
      · exact fun h => hz_notin (h ▸ hr)
      · exact fun h => hz_notchild (h ▸ hr)
    | @step x y nd hx hp _ _ =>
      intro h
      subst h
      rw [hm1_other x hz_notchild, hzm] at hx
      cases hx
      rw [hzp] at hp; cases hp
  have hR2 : ∀ v, Reach mem (z :: rest) v → v ≠ z → Reach mem1 (rest ++ zn.children) v := by
    intro v hv
    induction hv with
    | @root x hr =>
      intro hne
      rcases List.mem_cons.mp hr with h | h
      · exact absurd h hne
      · exact Reach.root (by simp [h])
    | @step x y nd hx hp hy ih =>
      intro _
      by_cases hyz : y = z
      · subst hyz
        have hxc := (hchild x nd (Reach.step hx hp hy) hx).mpr hp
        exact Reach.root (by simp [hxc])
      · have hxc : x ∉ zn.children := by
          intro hc
          have := (hchild x nd (Reach.step hx hp hy) hx).mp hc
          rw [hp] at this
          cases this
          exact hyz rfl
        exact Reach.step ((hm1_other x hxc).trans hx) hp (ih hyz)
  have hR : ∀ v, Reach mem1 (rest ++ zn.children) v ↔ (Reach mem (z :: rest) v ∧ v ≠ z) :=
    fun v => ⟨fun h => ⟨hR1 v h, hR1z v h⟩, fun h => hR2 v h.1 h.2⟩
  have hD : ∀ v, data mem1 v = data mem v := by
    intro v
    unfold data
    rw [hm1 v]
    by_cases hv : v ∈ zn.children
    · simp only [hv, if_true]
      cases mem v <;> rfl
    · simp [hv]
  refine ⟨mem1, hcp, ?_, hR, hD⟩
  exact {
    nodup := by
      have h1 : rest.Nodup := (List.nodup_cons.mp hF.nodup).2
      have h2 : zn.children.Nodup := hF.child_nodup z zn hzr hzm
      refine List.Nodup.append h1 h2 ?_
      intro r hr hc
      have hrr : Reach mem (z :: rest) r := Reach.root (by simp [hr])
      obtain ⟨nr, hnr, hpr⟩ := hF.root_ok r (by simp [hr])
      have := (hchild r nr hrr hnr).mp hc
      rw [hpr] at this; cases this
    root_ok := by
      intro r hr
      by_cases hc : r ∈ zn.children
      · obtain ⟨nd0, hnd0⟩ := hclive r hc
        exact ⟨_, hm1_child r nd0 hc hnd0, rfl⟩
      · rcases List.mem_append.mp hr with hr | hr
        · rw [hm1_other r hc]
          exact hF.root_ok r (by simp [hr])
        · exact absurd hr hc
    parent_ok := by
      intro x nd y hx hm hp
      have hx' := hR1 x hx
      have hxc : x ∉ zn.children := by
        intro hc
        obtain ⟨nd0, hnd0⟩ := hclive x hc
        rw [hm1_child x nd0 hc hnd0] at hm
        cases hm
        simp at hp
      rw [hm1_other x hxc] at hm
      obtain ⟨ny, hny, h1, h2⟩ := hF.parent_ok x nd y hx' hm hp
      by_cases hyc : y ∈ zn.children
      · exact ⟨_, hm1_child y ny hyc hny, h1, h2⟩
      · exact ⟨ny, (hm1_other y hyc).trans hny, h1, h2⟩
    child_ok := by
      intro x nd c hx hm hc
      have hx' := hR1 x hx
      have hxz := hR1z x hx
      obtain ⟨nd0, hnd0, hch⟩ : ∃ nd0, mem x = some nd0 ∧ nd0.children = nd.children := by
        by_cases hxc : x ∈ zn.children
        · obtain ⟨nd0, hnd0⟩ := hclive x hxc
          rw [hm1_child x nd0 hxc hnd0] at hm
          cases hm
          exact ⟨nd0, hnd0, rfl⟩
        · rw [hm1_other x hxc] at hm
          exact ⟨nd, hm, rfl⟩
      obtain ⟨nc, hnc, hpc⟩ := hF.child_ok x nd0 c hx' hnd0 (hch ▸ hc)
      have hcc : c ∉ zn.children := by
        intro hcz
        have := (hchild c nc (Forest_child_reach hF hx' hnd0 (hch ▸ hc)) hnc).mp hcz
        rw [hpc] at this
        cases this
        exact hxz rfl
      exact ⟨nc, (hm1_other c hcc).trans hnc, hpc⟩
    child_nodup := by
      intro x nd hx hm
      have hx' := hR1 x hx
      by_cases hxc : x ∈ zn.children
      · obtain ⟨nd0, hnd0⟩ := hclive x hxc
        rw [hm1_child x nd0 hxc hnd0] at hm
        cases hm
        exact hF.child_nodup x nd0 hx' hnd0
      · rw [hm1_other x hxc] at hm
        exact hF.child_nodup x nd hx' hm }

theorem extract_max_spec (h : FibHeap) {z : Nat} {rest : List Nat} (hroots : h.roots = z :: rest)
    (hF : Forest h.mem h.roots none) :
    ∃ h', extract_max h = some (some z, h') ∧ Forest h'.mem h'.roots none ∧
      MaxHead h'.mem h'.roots ∧
      (∀ v, Reach h'.mem h'.roots v ↔ (Reach h.mem h.roots v ∧ v ≠ z)) ∧
      (∀ v, data h'.mem v = data h.mem v) ∧ h'.n = h.n - 1 ∧ h'.next = h.next := by
  rw [hroots] at hF
  obtain ⟨zn, hzm, -⟩ := hF.root_ok z (by simp)
  obtain ⟨mem1, hcp, hF1, hR1, hD1⟩ := promote_children_spec hF hzm
  cases hrs : rest ++ zn.children with
  | nil =>
    refine ⟨{ h with mem := mem1, roots := [], n := h.n - 1 }, ?_, ?_, MaxHead_nil _, ?_,
      hD1, rfl, rfl⟩
    · unfold extract_max
      simp only [hroots, hzm, Option.bind_eq_bind, Option.some_bind, hcp, hrs]
    · rw [hrs] at hF1; exact hF1
    · intro v
      rw [hrs] at hR1
      rw [hroots]
      exact hR1 v
  | cons r rs =>
    rw [hrs] at hF1 hR1
    obtain ⟨h2, hc2, hF2, hM2, hR2, hD2, hn2, hx2⟩ :=
      consolidate_spec { h with mem := mem1, roots := r :: rs } hF1
    refine ⟨{ h2 with n := h2.n - 1 }, ?_, hF2, hM2, ?_, ?_, ?_, hx2⟩
    · unfold extract_max
      simp only [hroots, hzm, Option.bind_eq_bind, Option.some_bind, hcp, hrs, hc2]
    · intro v
      rw [hroots]
      exact (hR2 v).trans (hR1 v)
    · intro v
      exact (hD2 v).trans (hD1 v)
    · show h2.n - 1 = h.n - 1
      rw [hn2]

end


/-! ## Heap: `cut` and `cascading_cut` -/

section

open FibHeap

theorem no_self_parent {mem : Nat → Option FibNode} {roots : List Nat} {ex : Option Nat}
    (hF : Forest mem roots ex) {x : Nat} (hx : Reach mem roots x) :
    ∀ nd, mem x = some nd → nd.p ≠ some x := by
  induction hx with
  | @root x hr =>
    intro nd hm hp
    rw [root_no_parent hF hr hm] at hp
    cases hp
  | @step x y nd hx hp _ ih =>
    intro nd' hm hp'
    rw [hx] at hm
    cases hm
    rw [hp] at hp'
    cases hp'
    exact ih nd hx hp

theorem cut_spec_heap (h : FibHeap) {x y m : Nat} {rest : List Nat} {xn : FibNode}
    {ex : Option Nat} (hF : Forest h.mem h.roots ex) (hex : ex = none ∨ ex = some x)
    (hx : Reach h.mem h.roots x) (hxm : h.mem x = some xn) (hxp : xn.p = some y)
    (hroots : h.roots = m :: rest) :
    ∃ h', FibHeap.cut h x y = some h' ∧ Forest h'.mem h'.roots none ∧
      h'.roots = m :: x :: rest ∧
      (∀ v, Reach h'.mem h'.roots v ↔ Reach h.mem h.roots v) ∧
      (∀ v, data h'.mem v = data h.mem v) ∧
      h'.mem x = some { xn with p := none, mark := false } ∧
      (∀ v, v ≠ x → ∀ nd', h'.mem v = some nd' → ∃ nd, h.mem v = some nd ∧ nd'.mark = nd.mark) ∧
      h'.n = h.n ∧ h'.next = h.next := by
  obtain ⟨yn, hym, hxc, -⟩ := hF.parent_ok x xn y hx hxm hxp
  have hxy : x ≠ y := by
    intro e
    subst e
    exact no_self_parent hF hx xn hxm hxp
  have hyx : y ≠ x := Ne.symm hxy
  have hyr : Reach h.mem h.roots y := Forest_parent_reach hF hx hxm hxp
  have hx_notroot : x ∉ h.roots := by
    intro hr
    rw [root_no_parent hF hr hxm] at hxp
    cases hxp
  obtain ⟨mem', hmem'⟩ : ∃ mem', mem' = setNode (setNode h.mem y
      { yn with children := yn.children.erase x }) x { xn with p := none, mark := false } :=
    ⟨_, rfl⟩
  have hcut : FibHeap.cut h x y = some { h with mem := mem', roots := m :: x :: rest } := by
    unfold FibHeap.cut
    simp only [hxm, hym, Option.bind_eq_bind, Option.some_bind, hroots,
      setNode_other _ _ hxy]
    rw [hmem']
  have hmx : mem' x = some { xn with p := none, mark := false } := by
    rw [hmem', setNode_same]
  have hmy : mem' y = some { yn with children := yn.children.erase x } := by
    rw [hmem', setNode_other _ _ hyx, setNode_same]
  have hmo : ∀ v, v ≠ x → v ≠ y → mem' v = h.mem v := by
    intro v h1 h2
    rw [hmem', setNode_other _ _ h1, setNode_other _ _ h2]
  have hR1 : ∀ v, Reach mem' (m :: x :: rest) v → Reach h.mem h.roots v := by
    intro v hv
    refine Reach_transfer ?_ ?_ hv
    · intro r hr
      rcases List.mem_cons.mp hr with rfl | hr
      · exact Reach.root (by rw [hroots]; simp)
      · rcases List.mem_cons.mp hr with rfl | hr
        · exact hx
        · exact Reach.root (by rw [hroots]; simp [hr])
    · intro u nd w hmu hp _
      by_cases hux : u = x
      · rw [hux, hmx] at hmu; cases hmu; simp at hp
      · by_cases huy : u = y
        · rw [huy, hmy] at hmu; cases hmu
          exact Or.inr ⟨yn, huy ▸ hym, hp⟩
        · exact Or.inr ⟨nd, (hmo u hux huy).symm.trans hmu, hp⟩
  have hR2 : ∀ v, Reach h.mem h.roots v → Reach mem' (m :: x :: rest) v := by
    intro v hv
    refine Reach_transfer ?_ ?_ hv
    · intro r hr
      rw [hroots] at hr
      rcases List.mem_cons.mp hr with rfl | hr
      · exact Reach.root (by simp)
      · exact Reach.root (by simp [hr])
    · intro u nd w hmu hp _
      by_cases hux : u = x
      · exact Or.inl (by simp [hux])
      · by_cases huy : u = y
        · rw [huy, hym] at hmu; cases hmu
          exact Or.inr ⟨{ yn with children := yn.children.erase x }, by rw [huy]; exact hmy, hp⟩
        · exact Or.inr ⟨nd, (hmo u hux huy).trans hmu, hp⟩
  have hkey : ∀ v, v ≠ x → some v ≠ ex := by
    intro v hvx e
    rcases hex with h1 | h1
    · rw [h1] at e; cases e
    · rw [h1] at e; cases e; exact hvx rfl
  have hForest : Forest mem' (m :: x :: rest) none := {
    nodup := by
      have := hF.nodup
      rw [hroots] at this hx_notroot
      simp only [List.nodup_cons, List.mem_cons, not_or] at this hx_notroot ⊢
      exact ⟨⟨Ne.symm hx_notroot.1, this.1⟩, hx_notroot.2, this.2⟩
    root_ok := by
      intro r hr
      by_cases hrx : r = x
      · subst hrx; exact ⟨_, hmx, rfl⟩
      · have hr' : r ∈ h.roots := by
          rw [hroots]
          simp only [List.mem_cons] at hr ⊢
          tauto
        obtain ⟨nr, hnr, hpr⟩ := hF.root_ok r hr'
        by_cases hry : r = y
        · subst hry
          rw [hym] at hnr; cases hnr
          exact ⟨_, hmy, hpr⟩
        · exact ⟨nr, (hmo r hrx hry).trans hnr, hpr⟩
    parent_ok := by
      intro v nd w hv hm hp
      have hv' := hR1 v hv
      have hvx : v ≠ x := by
        rintro rfl
        rw [hmx] at hm; cases hm; simp at hp
      obtain ⟨nd0, hnd0, hp0, hk0⟩ : ∃ nd0, h.mem v = some nd0 ∧ nd0.p = some w ∧
          nd0.key = nd.key := by
        by_cases hvy : v = y
        · subst hvy
          rw [hmy] at hm; cases hm
          exact ⟨yn, hym, hp, rfl⟩
        · exact ⟨nd, (hmo v hvx hvy).symm.trans hm, hp, rfl⟩
      obtain ⟨nw, hnw, hvc, hkw⟩ := hF.parent_ok v nd0 w hv' hnd0 hp0
      have hkw' := hkw (hkey v hvx)
      rw [hk0] at hkw'
      by_cases hwx : w = x
      · subst hwx
        rw [hxm] at hnw; cases hnw
        exact ⟨_, hmx, hvc, fun _ => hkw'⟩
      · by_cases hwy : w = y
        · subst hwy
          rw [hym] at hnw; cases hnw
          exact ⟨_, hmy, (List.mem_erase_of_ne hvx).mpr hvc, fun _ => hkw'⟩
        · exact ⟨nw, (hmo w hwx hwy).trans hnw, hvc, fun _ => hkw'⟩
    child_ok := by
      intro v nd c hv hm hc
      have hv' := hR1 v hv
      -- the old record of `v` has the child `c`, and `c` is not `x` unless `v = y`
      have hold : ∀ nd0, h.mem v = some nd0 → c ∈ nd0.children → c ≠ x →
          ∃ nc, mem' c = some nc ∧ nc.p = some v := by
        intro nd0 hm0 hc0 hcx
        obtain ⟨nc, hnc, hpc⟩ := hF.child_ok v nd0 c hv' hm0 hc0
        by_cases hcy : c = y
        · subst hcy
          rw [hym] at hnc; cases hnc
          exact ⟨_, hmy, hpc⟩
        · exact ⟨nc, (hmo c hcx hcy).trans hnc, hpc⟩
      by_cases hvx : v = x
      · subst hvx
        rw [hmx] at hm; cases hm
        refine hold xn hxm hc ?_
        rintro rfl
        obtain ⟨nc, hnc, hpc⟩ := hF.child_ok c xn c hv' hxm hc
        exact no_self_parent hF hv' nc hnc hpc
      · by_cases hvy : v = y
        · subst hvy
          rw [hmy] at hm; cases hm
          have hnd := hF.child_nodup v yn hv' hym
          have hc' := (List.Nodup.mem_erase_iff hnd).mp hc
          exact hold yn hym hc'.2 hc'.1
        · rw [hmo v hvx hvy] at hm
          refine hold nd hm hc ?_
          rintro rfl
          obtain ⟨nc, hnc, hpc⟩ := hF.child_ok v nd c hv' hm hc
          rw [hxm] at hnc; cases hnc
          rw [hxp] at hpc; cases hpc
          exact hvy rfl
    child_nodup := by
      intro v nd hv hm
      have hv' := hR1 v hv
      by_cases hvx : v = x
      · subst hvx
        rw [hmx] at hm; cases hm
        exact hF.child_nodup v xn hv' hxm
      · by_cases hvy : v = y
        · subst hvy
          rw [hmy] at hm; cases hm
          exact (hF.child_nodup v yn hv' hym).erase x
        · rw [hmo v hvx hvy] at hm
          exact hF.child_nodup v nd hv' hm }
  refine ⟨{ h with mem := mem', roots := m :: x :: rest }, hcut, hForest, rfl,
    fun v => ⟨hR1 v, hR2 v⟩, ?_, hmx, ?_, rfl, rfl⟩
  · intro v
    show data mem' v = data h.mem v
    unfold data
    by_cases hvx : v = x
    · rw [hvx, hmx, hxm]; rfl
    · by_cases hvy : v = y
      · rw [hvy, hmy, hym]; rfl
      · rw [hmo v hvx hvy]
  · intro v hvx nd' hm'
    by_cases hvy : v = y
    · subst hvy
      have hm'' : mem' v = some nd' := hm'
      rw [hmy] at hm''; cases hm''
      exact ⟨yn, hym, rfl⟩
    · have hm'' : mem' v = some nd' := hm'
      rw [hmo v hvx hvy] at hm''
      exact ⟨nd', hm'', rfl⟩

theorem marked_count_le {mem mem' : Nat → Option FibNode} (n : Nat)
    (h : ∀ i, i < n → is_marked mem' i = true → is_marked mem i = true) :
    marked_count mem' n ≤ marked_count mem n := by
  induction n with
  | zero => simp [marked_count]
  | succ n ih =>
    have ih' := ih (fun i hi => h i (by omega))
    have hn := h n (by omega)
    unfold marked_count
    by_cases h1 : is_marked mem' n = true
    · simp only [h1, hn h1, if_true]; omega
    · by_cases h4 : is_marked mem n = true <;> simp [h1, h4] <;> omega

theorem marked_count_lt {mem mem' : Nat → Option FibNode} (n : Nat)
    (h : ∀ i, i < n → is_marked mem' i = true → is_marked mem i = true)
    {x : Nat} (hx : x < n) (h1 : is_marked mem x = true) (h2 : is_marked mem' x = false) :
    marked_count mem' n < marked_count mem n := by
  induction n with
  | zero => omega
  | succ n ih =>
    unfold marked_count
    by_cases hxn : x = n
    · subst hxn
      have := marked_count_le x (fun i hi => h i (by omega))
      simp only [h1, h2, if_true]
      simp
      omega
    · have ih' := ih (fun i hi => h i (by omega)) (by omega)
      have hn := h n (by omega)
      by_cases h3 : is_marked mem' n = true
      · simp only [h3, hn h3, if_true]; omega
      · by_cases h4 : is_marked mem n = true <;> simp [h3, h4] <;> omega

theorem data_live {mem mem' : Nat → Option FibNode} (h : ∀ v, data mem' v = data mem v)
    (v : Nat) : mem' v ≠ none ↔ mem v ≠ none := by
  have := h v
  unfold data at this
  cases h1 : mem' v <;> cases h2 : mem v <;> simp [h1, h2] at this ⊢

theorem Forest_set_mark {mem : Nat → Option FibNode} {roots : List Nat} {ex : Option Nat}
    (hF : Forest mem roots ex) {y : Nat} {yn : FibNode} (hym : mem y = some yn) (b : Bool) :
    Forest (setNode mem y { yn with mark := b }) roots ex ∧
    (∀ v, Reach (setNode mem y { yn with mark := b }) roots v ↔ Reach mem roots v) ∧
    (∀ v, data (setNode mem y { yn with mark := b }) v = data mem v) := by
  have hget : ∀ v nd', setNode mem y { yn with mark := b } v = some nd' →
      ∃ nd, mem v = some nd ∧ nd'.p = nd.p ∧ nd'.children = nd.children ∧ nd'.key = nd.key := by
    intro v nd' hv
    by_cases hvy : v = y
    · rw [hvy, setNode_same] at hv
      cases hv
      exact ⟨yn, hvy ▸ hym, rfl, rfl, rfl⟩
    · rw [setNode_other _ _ hvy] at hv
      exact ⟨nd', hv, rfl, rfl, rfl⟩
  have hput : ∀ v nd, mem v = some nd →
      ∃ nd', setNode mem y { yn with mark := b } v = some nd' ∧ nd'.p = nd.p ∧
        nd'.children = nd.children ∧ nd'.key = nd.key := by
    intro v nd hv
    by_cases hvy : v = y
    · rw [hvy, hym] at hv
      cases hv
      exact ⟨{ yn with mark := b }, by rw [hvy]; exact setNode_same _ _ _, rfl, rfl, rfl⟩
    · exact ⟨nd, (setNode_other _ _ hvy).trans hv, rfl, rfl, rfl⟩
  have hR1 : ∀ v, Reach (setNode mem y { yn with mark := b }) roots v → Reach mem roots v := by
    intro v hv
    refine Reach_transfer (fun r hr => Reach.root hr) ?_ hv
    intro u nd w hmu hp _
    obtain ⟨nd0, h0, hp0, -, -⟩ := hget u nd hmu
    exact Or.inr ⟨nd0, h0, hp0 ▸ hp⟩
  have hR2 : ∀ v, Reach mem roots v → Reach (setNode mem y { yn with mark := b }) roots v := by
    intro v hv
    refine Reach_transfer (fun r hr => Reach.root hr) ?_ hv
    intro u nd w hmu hp _
    obtain ⟨nd0, h0, hp0, -, -⟩ := hput u nd hmu
    exact Or.inr ⟨nd0, h0, hp0.trans hp⟩
  refine ⟨?_, fun v => ⟨hR1 v, hR2 v⟩, ?_⟩
  · exact {
      nodup := hF.nodup
      root_ok := by
        intro r hr
        obtain ⟨nd, hnd, hp⟩ := hF.root_ok r hr
        obtain ⟨nd', h', hp', -, -⟩ := hput r nd hnd
        exact ⟨nd', h', hp'.trans hp⟩
      parent_ok := by
        intro v nd w hv hm hp
        obtain ⟨nd0, h0, hp0, -, hk0⟩ := hget v nd hm
        obtain ⟨nw, hnw, hvc, hk⟩ := hF.parent_ok v nd0 w (hR1 v hv) h0 (hp0 ▸ hp)
        obtain ⟨nw', hw', -, hc', hk'⟩ := hput w nw hnw
        exact ⟨nw', hw', hc' ▸ hvc, fun e => by rw [hk0, hk']; exact hk e⟩
      child_ok := by
        intro v nd c hv hm hc
        obtain ⟨nd0, h0, -, hc0, -⟩ := hget v nd hm
        obtain ⟨nc, hnc, hpc⟩ := hF.child_ok v nd0 c (hR1 v hv) h0 (hc0 ▸ hc)
        obtain ⟨nc', hc', hp', -, -⟩ := hput c nc hnc
        exact ⟨nc', hc', hp'.trans hpc⟩
      child_nodup := by
        intro v nd hv hm
        obtain ⟨nd0, h0, -, hc0, -⟩ := hget v nd hm
        rw [hc0]
        exact hF.child_nodup v nd0 (hR1 v hv) h0 }
  · intro v
    exact @data_setNode_same_key _ _ _ { yn with mark := b } hym rfl rfl v

theorem cascading_cut_spec (fuel : Nat) :
    ∀ (h : FibHeap) (y m : Nat) (rest : List Nat),
    Forest h.mem h.roots none → Reach h.mem h.roots y → h.roots = m :: rest →
    (∀ v, h.mem v ≠ none → v < h.next) → marked_count h.mem h.next < fuel →
    ∃ h', cascading_cut fuel h y = some h' ∧ Forest h'.mem h'.roots none ∧
      (∃ rest', h'.roots = m :: rest' ∧ ∀ r ∈ rest, r ∈ rest') ∧
      (∀ v, Reach h'.mem h'.roots v ↔ Reach h.mem h.roots v) ∧
      (∀ v, data h'.mem v = data h.mem v) ∧ h'.n = h.n ∧ h'.next = h.next := by
  induction fuel with
  | zero => intro h y m rest _ _ _ _ hf; omega
  | succ fuel ih =>
    intro h y m rest hF hy hroots halloc hf
    obtain ⟨yn, hym⟩ := Forest_live hF hy
    cases hp : yn.p with
    | none =>
      refine ⟨h, ?_, hF, ⟨rest, hroots, fun r hr => hr⟩, fun v => Iff.rfl, fun v => rfl, rfl, rfl⟩
      unfold cascading_cut
      simp [hym, hp]
    | some z =>
      by_cases hmk : yn.mark = false
      · obtain ⟨hF', hR', hD'⟩ := Forest_set_mark hF hym true
        refine ⟨{ h with mem := setNode h.mem y { yn with mark := true } }, ?_, hF',
          ⟨rest, hroots, fun r hr => hr⟩, hR', hD', rfl, rfl⟩
        unfold cascading_cut
        simp [hym, hp, hmk]
      · have hmk' : yn.mark = true := by simpa using hmk
        obtain ⟨h1, hc1, hF1, hr1, hR1, hD1, hy1, hmarks, hn1, hx1⟩ :=
          @cut_spec_heap h _ _ _ _ _ none hF (Or.inl rfl) hy hym hp hroots
        have halloc1 : ∀ v, h1.mem v ≠ none → v < h1.next := by
          intro v hv
          rw [hx1]
          exact halloc v ((data_live hD1 v).mp hv)
        have hz : Reach h1.mem h1.roots z := (hR1 z).mpr (Forest_parent_reach hF hy hym hp)
        have hcount : marked_count h1.mem h1.next < fuel := by
          have hlt : marked_count h1.mem h.next < marked_count h.mem h.next := by
            apply marked_count_lt (x := y)
            · intro i _ hi
              by_cases hiy : i = y
              · rw [hiy] at hi
                simp [is_marked, hy1] at hi
              · unfold is_marked at hi ⊢
                cases hmi : h1.mem i with
                | none => rw [hmi] at hi; simp at hi
                | some nd' =>
                  rw [hmi] at hi
                  obtain ⟨nd, hnd, hmk2⟩ := hmarks i hiy nd' hmi
                  rw [hnd]
                  simp only at hi ⊢
                  rw [← hmk2]; exact hi
            · exact halloc y (by rw [hym]; simp)
            · simp [is_marked, hym, hmk']
            · simp [is_marked, hy1]
          rw [hx1]
          omega
        obtain ⟨h', hc', hF', ⟨rest', hr', hsub⟩, hR', hD', hn', hx'⟩ :=
          ih h1 z m (y :: rest) hF1 hz hr1 halloc1 hcount
        refine ⟨h', ?_, hF', ⟨rest', hr', fun r hr => hsub r (by simp [hr])⟩, ?_, ?_, ?_, ?_⟩
        · unfold cascading_cut
          simp [hym, hp, hmk', hc1, hc']
        · intro v; exact (hR' v).trans (hR1 v)
        · intro v; exact (hD' v).trans (hD1 v)
        · rw [hn', hn1]
        · rw [hx', hx1]

end


/-! ## Heap: `increase_key` -/

section

open FibHeap

theorem data_some {mem mem' : Nat → Option FibNode} {v : Nat} (h : data mem' v = data mem v)
    {a : FibNode} (ha : mem' v = some a) :
    ∃ b, mem v = some b ∧ a.key = b.key ∧ a.payload = b.payload := by
  unfold data at h
  rw [ha] at h
  cases hb : mem v with
  | none => rw [hb] at h; simp at h
  | some b =>
    rw [hb] at h
    simp only [Option.map_some', Option.some.injEq, Prod.mk.injEq] at h
    exact ⟨b, rfl, h.1, h.2⟩

theorem Reach_roots_ne_nil {mem : Nat → Option FibNode} {roots : List Nat} {x : Nat}
    (hx : Reach mem roots x) : ∃ m rest, roots = m :: rest := by
  induction hx with
  | root hr =>
    cases roots with
    | nil => simp at hr
    | cons m rest => exact ⟨m, rest, rfl⟩
  | step _ _ _ ih => exact ih

theorem Forest_set_key {mem : Nat → Option FibNode} {roots : List Nat}
    (hF : Forest mem roots none) {x : Nat} {xn : FibNode} (hxm : mem x = some xn) (k : Int)
    (hk : xn.key ≤ k) :
    Forest (setNode mem x { xn with key := k }) roots (some x) ∧
    (∀ v, Reach (setNode mem x { xn with key := k }) roots v ↔ Reach mem roots v) := by
  have hget : ∀ v nd', setNode mem x { xn with key := k } v = some nd' →
      ∃ nd, mem v = some nd ∧ nd'.p = nd.p ∧ nd'.children = nd.children ∧
        nd.key ≤ nd'.key ∧ (v ≠ x → nd'.key = nd.key) := by
    intro v nd' hv
    by_cases hvx : v = x
    · rw [hvx, setNode_same] at hv
      cases hv
      exact ⟨xn, hvx ▸ hxm, rfl, rfl, hk, fun h => absurd hvx h⟩
    · rw [setNode_other _ _ hvx] at hv
      exact ⟨nd', hv, rfl, rfl, le_refl _, fun _ => rfl⟩
  have hput : ∀ v nd, mem v = some nd →
      ∃ nd', setNode mem x { xn with key := k } v = some nd' ∧ nd'.p = nd.p ∧
        nd'.children = nd.children ∧ nd.key ≤ nd'.key := by
    intro v nd hv
    by_cases hvx : v = x
    · rw [hvx, hxm] at hv
      cases hv
      exact ⟨{ xn with key := k }, by rw [hvx]; exact setNode_same _ _ _, rfl, rfl, hk⟩
    · exact ⟨nd, (setNode_other _ _ hvx).trans hv, rfl, rfl, le_refl _⟩
  have hR1 : ∀ v, Reach (setNode mem x { xn with key := k }) roots v → Reach mem roots v := by
    intro v hv
    refine Reach_transfer (fun r hr => Reach.root hr) ?_ hv
    intro u nd w hmu hp _
    obtain ⟨nd0, h0, hp0, -, -⟩ := hget u nd hmu
    exact Or.inr ⟨nd0, h0, hp0 ▸ hp⟩
  have hR2 : ∀ v, Reach mem roots v → Reach (setNode mem x { xn with key := k }) roots v := by
    intro v hv
    refine Reach_transfer (fun r hr => Reach.root hr) ?_ hv
    intro u nd w hmu hp _
    obtain ⟨nd0, h0, hp0, -, -⟩ := hput u nd hmu
    exact Or.inr ⟨nd0, h0, hp0.trans hp⟩
  refine ⟨?_, fun v => ⟨hR1 v, hR2 v⟩⟩
  exact {
    nodup := hF.nodup
    root_ok := by
      intro r hr
      obtain ⟨nd, hnd, hp⟩ := hF.root_ok r hr
      obtain ⟨nd', h', hp', -, -⟩ := hput r nd hnd
      exact ⟨nd', h', hp'.trans hp⟩
    parent_ok := by
      intro v nd w hv hm hp
      obtain ⟨nd0, h0, hp0, -, -, hk0⟩ := hget v nd hm
      obtain ⟨nw, hnw, hvc, hkk⟩ := hF.parent_ok v nd0 w (hR1 v hv) h0 (hp0 ▸ hp)
      obtain ⟨nw', hw', -, hc', hk'⟩ := hput w nw hnw
      refine ⟨nw', hw', hc' ▸ hvc, ?_⟩
      intro e
      have hvx : v ≠ x := fun h => e (by rw [h])
      rw [hk0 hvx]
      exact le_trans (hkk (by simp)) hk'
    child_ok := by
      intro v nd c hv hm hc
      obtain ⟨nd0, h0, -, hc0, -, -⟩ := hget v nd hm
      obtain ⟨nc, hnc, hpc⟩ := hF.child_ok v nd0 c (hR1 v hv) h0 (hc0 ▸ hc)
      obtain ⟨nc', hc', hp', -, -⟩ := hput c nc hnc
      exact ⟨nc', hc', hp'.trans hpc⟩
    child_nodup := by
      intro v nd hv hm
      obtain ⟨nd0, h0, -, hc0, -, -⟩ := hget v nd hm
      rw [hc0]
      exact hF.child_nodup v nd0 (hR1 v hv) h0 }

theorem Forest_ex_drop {mem : Nat → Option FibNode} {roots : List Nat} {x : Nat}
    (hF : Forest mem roots (some x))
    (hk : ∀ nd y ny, mem x = some nd → nd.p = some y → mem y = some ny → nd.key ≤ ny.key) :
    Forest mem roots none :=
  { nodup := hF.nodup
    root_ok := hF.root_ok
    parent_ok := by
      intro v nd w hv hm hp
      obtain ⟨nw, hnw, hvc, hkk⟩ := hF.parent_ok v nd w hv hm hp
      refine ⟨nw, hnw, hvc, fun _ => ?_⟩
      by_cases hvx : v = x
      · subst hvx
        exact hk nd w nw hm hp hnw
      · exact hkk (fun e => hvx (by cases e; rfl))
    child_ok := hF.child_ok
    child_nodup := hF.child_nodup }

theorem dropWhile_ne_head {x : Nat} {l : List Nat} (hx : x ∈ l) :
    ∃ t, l.dropWhile (fun r => r != x) = x :: t := by
  induction l with
  | nil => simp at hx
  | cons a l ih =>
    by_cases hax : a = x
    · subst hax
      exact ⟨l, by simp [List.dropWhile]⟩
    · have hx' : x ∈ l := by
        rcases List.mem_cons.mp hx with h | h
        · exact absurd h.symm hax
        · exact h
      obtain ⟨t, ht⟩ := ih hx'
      have hne : (a != x) = true := by simpa using hax
      refine ⟨t, ?_⟩
      rw [List.dropWhile_cons]
      simp only [hne, if_true]
      exact ht

theorem set_max_spec (h : FibHeap) {x : Nat} (hx : x ∈ h.roots) :
    ∃ h' t, set_max h x = some h' ∧ h'.roots = x :: t ∧ h'.roots.Perm h.roots ∧
      h'.mem = h.mem ∧ h'.n = h.n ∧ h'.next = h.next := by
  obtain ⟨t, ht⟩ := dropWhile_ne_head hx
  refine ⟨{ h with roots := h.roots.dropWhile (fun r => r != x) ++
      h.roots.takeWhile (fun r => r != x) }, t ++ h.roots.takeWhile (fun r => r != x),
    by simp [set_max, hx], by simp [ht], ?_, rfl, rfl, rfl⟩
  show (h.roots.dropWhile (fun r => r != x) ++ h.roots.takeWhile (fun r => r != x)).Perm h.roots
  have := List.takeWhile_append_dropWhile (fun r => r != x) h.roots
  exact List.perm_append_comm.trans (by rw [this])

theorem marked_count_le_next (mem : Nat → Option FibNode) (n : Nat) : marked_count mem n ≤ n := by
  induction n with
  | zero => simp [marked_count]
  | succ n ih =>
    unfold marked_count
    split <;> omega

/-- The part of `increase_key` between the assignment of the key and the update of `max`. -/
theorem increase_key_cut_spec (h1 : FibHeap) {x m : Nat} {rest : List Nat} {xn1 : FibNode}
    (hF : Forest h1.mem h1.roots (some x)) (hx : Reach h1.mem h1.roots x)
    (hxm : h1.mem x = some xn1) (hroots : h1.roots = m :: rest)
    (halloc : ∀ v, h1.mem v ≠ none → v < h1.next) :
    ∃ h2, increase_key_cut h1 x = some h2 ∧
      Forest h2.mem h2.roots none ∧
      (∃ rest2, h2.roots = m :: rest2 ∧ ∀ r ∈ rest, r ∈ rest2) ∧
      (∀ v, Reach h2.mem h2.roots v ↔ Reach h1.mem h1.roots v) ∧
      (∀ v, data h2.mem v = data h1.mem v) ∧ h2.n = h1.n ∧ h2.next = h1.next ∧
      (x ∈ h2.roots ∨ ∃ y ny, y ≠ x ∧ Reach h1.mem h1.roots y ∧ h1.mem y = some ny ∧
        xn1.key ≤ ny.key) := by
  unfold increase_key_cut
  simp only [hxm, Option.bind_eq_bind, Option.some_bind]
  cases hp : xn1.p with
  | none =>
    refine ⟨h1, rfl, ?_, ⟨rest, hroots, fun r hr => hr⟩, fun v => Iff.rfl, fun v => rfl, rfl, rfl,
      Or.inl (Forest_root_of_no_parent hx hxm hp)⟩
    apply Forest_ex_drop hF
    intro nd y ny hnd hpy _
    rw [hxm] at hnd; cases hnd
    rw [hp] at hpy; cases hpy
  | some y =>
    obtain ⟨yn, hym, hxc, -⟩ := hF.parent_ok x xn1 y hx hxm hp
    have hyr : Reach h1.mem h1.roots y := Forest_parent_reach hF hx hxm hp
    have hxy : y ≠ x := by
      intro e
      subst e
      exact no_self_parent hF hx xn1 hxm hp
    by_cases hc : comp xn1.key yn.key = true
    · obtain ⟨h3, hc3, hF3, hr3, hR3, hD3, -, -, hn3, hx3⟩ :=
        cut_spec_heap h1 hF (Or.inr rfl) hx hxm hp hroots
      have halloc3 : ∀ v, h3.mem v ≠ none → v < h3.next := by
        intro v hv
        rw [hx3]
        exact halloc v ((data_live hD3 v).mp hv)
      obtain ⟨h2, hc2, hF2, ⟨rest2, hr2, hsub⟩, hR2, hD2, hn2, hx2⟩ :=
        cascading_cut_spec (h3.next + 1) h3 y m (x :: rest) hF3 ((hR3 y).mpr hyr) hr3 halloc3
          (by have := marked_count_le_next h3.mem h3.next; omega)
      refine ⟨h2, ?_, hF2, ⟨rest2, hr2, fun r hr => hsub r (by simp [hr])⟩, ?_, ?_, ?_, ?_, ?_⟩
      · simp only [hym, hc, if_true, Option.bind_eq_bind, Option.some_bind, hc3, hc2]
      · intro v; exact (hR2 v).trans (hR3 v)
      · intro v; exact (hD2 v).trans (hD3 v)
      · rw [hn2, hn3]
      · rw [hx2, hx3]
      · left
        rw [hr2]
        simp [hsub x (by simp)]
    · refine ⟨h1, ?_, ?_, ⟨rest, hroots, fun r hr => hr⟩, fun v => Iff.rfl, fun v => rfl, rfl,
        rfl, Or.inr ⟨y, yn, hxy, hyr, hym, ?_⟩⟩
      · simp only [hym, hc, Option.bind_eq_bind, Option.some_bind]
        simp
      · apply Forest_ex_drop hF
        intro nd y' ny hnd hpy hny
        rw [hxm] at hnd; cases hnd
        rw [hp] at hpy; cases hpy
        rw [hym] at hny; cases hny
        unfold comp at hc
        simpa using hc
      · unfold comp at hc
        simpa using hc

end


/-! ## Heap: `increase_key`, continued -/

section

open FibHeap

theorem Inv_of_parts {h : FibHeap} (hF : Forest h.mem h.roots none) (hM : MaxHead h.mem h.roots)
    (halloc : ∀ x, h.mem x ≠ none → x < h.next ∧ Reach h.mem h.roots x)
    (hS : ∃ S : List Nat, S.Nodup ∧ (∀ x, x ∈ S ↔ Reach h.mem h.roots x) ∧ h.n = S.length) :
    h.Inv := ⟨hF, hM, halloc, hS⟩

/-- A successful `increase_key(x, k)` with `k` not below the key of `x` keeps the heap
invariant and the nodes of the heap, sets the key of `x` to `k` and changes no other pair of
key and payload. -/
theorem increase_key_spec (h : FibHeap) (hI : h.Inv) {x : Nat} {xn : FibNode}
    (hx : Reach h.mem h.roots x) (hxm : h.mem x = some xn) (k : Int) (hk : xn.key ≤ k) :
    ∃ h', increase_key h x k = some h' ∧ h'.Inv ∧
      (∀ v, Reach h'.mem h'.roots v ↔ Reach h.mem h.roots v) ∧
      (∀ v, v ≠ x → data h'.mem v = data h.mem v) ∧
      data h'.mem x = some (k, xn.payload) ∧ h'.n = h.n ∧ h'.next = h.next := by
  obtain ⟨hF, hM, halloc0, S, hS1, hS2, hS3⟩ := hI
  have halloc : ∀ x, h.mem x ≠ none → x < h.next := fun v hv => (halloc0 v hv).1
  have hgarb : ∀ x, h.mem x ≠ none → Reach h.mem h.roots x := fun v hv => (halloc0 v hv).2
  obtain ⟨m, rest, hroots⟩ := Reach_roots_ne_nil hx
  have hcomp : comp xn.key k = false := by
    unfold comp
    simpa using hk
  obtain ⟨h1, hh1⟩ : ∃ h1 : FibHeap, h1 = { h with mem := setNode h.mem x { xn with key := k } } :=
    ⟨_, rfl⟩
  obtain ⟨hF1, hR1⟩ := Forest_set_key hF hxm k hk
  have hxm1 : h1.mem x = some { xn with key := k } := by rw [hh1]; exact setNode_same _ _ _
  have hmo1 : ∀ v, v ≠ x → h1.mem v = h.mem v := by
    intro v hv; rw [hh1]; exact setNode_other _ _ hv
  have hD1 : ∀ v, v ≠ x → data h1.mem v = data h.mem v := by
    intro v hv; unfold data; rw [hmo1 v hv]
  have halloc1 : ∀ v, h1.mem v ≠ none → v < h1.next := by
    intro v hv
    rw [hh1]
    by_cases hvx : v = x
    · exact halloc v (by rw [hvx, hxm]; simp)
    · exact halloc v (by rw [← hmo1 v hvx]; exact hv)
  have hlive0 : ∀ v, h1.mem v ≠ none → Reach h.mem h.roots v := by
    intro v hv
    by_cases hvx : v = x
    · rw [hvx]; exact hx
    · exact hgarb v (by rw [← hmo1 v hvx]; exact hv)
  have hF1' : Forest h1.mem h1.roots (some x) := by rw [hh1]; exact hF1
  have hR1' : ∀ v, Reach h1.mem h1.roots v ↔ Reach h.mem h.roots v := by rw [hh1]; exact hR1
  have hroots1 : h1.roots = m :: rest := by rw [hh1]; exact hroots
  obtain ⟨h2, hmatch, hF2, ⟨rest2, hr2, hsub⟩, hR2, hD2, hn2, hx2, hcase⟩ :=
    increase_key_cut_spec h1 hF1' ((hR1' x).mpr hx) hxm1 hroots1 halloc1
  -- keys in `h2`
  obtain ⟨mn0, hm0⟩ := Forest_live hF (Reach.root (show m ∈ h.roots by rw [hroots]; simp))
  have htop := fun v (hv : Reach h.mem h.roots v) nv (hnv : h.mem v = some nv) =>
    top_max (hroots ▸ hF) (hroots ▸ hM) hm0 (hroots ▸ hv) nv hnv
  have hkey2 : ∀ v nv2, v ≠ x → h2.mem v = some nv2 → ∃ nv, h.mem v = some nv ∧
      nv2.key = nv.key := by
    intro v nv2 hvx hv2
    obtain ⟨b, hb, hbk, -⟩ := data_some (hD2 v) hv2
    rw [hmo1 v hvx] at hb
    exact ⟨b, hb, hbk⟩
  obtain ⟨xn2, hxm2, hxk2, hxp2⟩ : ∃ xn2, h2.mem x = some xn2 ∧ xn2.key = k ∧
      xn2.payload = xn.payload := by
    have hd := hD2 x
    unfold data at hd
    rw [hxm1] at hd
    cases h2x : h2.mem x with
    | none => rw [h2x] at hd; simp at hd
    | some a =>
      rw [h2x] at hd
      simp only [Option.map_some', Option.some.injEq, Prod.mk.injEq] at hd
      exact ⟨a, rfl, hd.1, hd.2⟩
  have hmr2 : Reach h2.mem h2.roots m := Reach.root (by rw [hr2]; simp)
  obtain ⟨mn, hmm2⟩ := Forest_live hF2 hmr2
  have hmn_ge : mn0.key ≤ mn.key := by
    by_cases hmx : m = x
    · rw [hmx, hxm2] at hmm2; cases hmm2
      rw [hmx, hxm] at hm0; cases hm0
      rw [hxk2]; exact hk
    · obtain ⟨nv, hnv, hkv⟩ := hkey2 m mn hmx hmm2
      rw [hm0] at hnv; cases hnv
      rw [hkv]
  have hbound : ∀ v nv2, Reach h2.mem h2.roots v → v ≠ x → h2.mem v = some nv2 →
      nv2.key ≤ mn.key := by
    intro v nv2 hv hvx hv2
    obtain ⟨nv, hnv, hkv⟩ := hkey2 v nv2 hvx hv2
    rw [hkv]
    exact le_trans (htop v ((hR1' v).mp ((hR2 v).mp hv)) nv hnv) hmn_ge
  have hReach : ∀ v, Reach h2.mem h2.roots v ↔ Reach h.mem h.roots v :=
    fun v => (hR2 v).trans (hR1' v)
  have hData : ∀ v, v ≠ x → data h2.mem v = data h.mem v :=
    fun v hv => (hD2 v).trans (hD1 v hv)
  have hDx : data h2.mem x = some (k, xn.payload) := by
    unfold data; rw [hxm2]; simp [hxk2, hxp2]
  have hmatch' := hmatch
  rw [hh1] at hmatch'
  unfold increase_key
  simp only [hxm, Option.bind_eq_bind, Option.some_bind, hcomp, Bool.false_eq_true, if_false,
    hmatch']
  unfold increase_key_max
  simp only [hr2, hxm2, hmm2, Option.bind_eq_bind, Option.some_bind]
  by_cases hc : comp xn2.key mn.key = true
  · have hlt : mn.key < k := by
      unfold comp at hc
      rw [hxk2] at hc
      simpa using hc
    have hxr : x ∈ h2.roots := by
      rcases hcase with h3 | ⟨y, ny, hyx, hyr, hym, hky⟩
      · exact h3
      · exfalso
        obtain ⟨ny2, hny2⟩ := Forest_live hF2 ((hR2 y).mpr hyr)
        obtain ⟨b, hb, hbk, -⟩ := data_some (hD2 y) hny2
        rw [hym] at hb; cases hb
        have := hbound y ny2 ((hR2 y).mpr hyr) hyx hny2
        simp only at hky
        omega
    obtain ⟨h', t, hsm, hrt, hperm, hmem', hn', hx'⟩ := set_max_spec h2 hxr
    refine ⟨h', by simp only [hc, if_true]; exact hsm, ?_, ?_, ?_, ?_, ?_, ?_⟩
    · apply Inv_of_parts
      · rw [hmem']; exact Forest_perm hF2 hperm.symm
      · intro m' rest' hmr r hr nm nr hnm hnr
        rw [hrt] at hmr
        cases hmr
        rw [hmem'] at hnm hnr
        rw [hxm2] at hnm; cases hnm
        have hnd := hperm.nodup_iff.mpr hF2.nodup
        rw [hrt] at hnd
        have hrx : r ≠ x := fun e => (List.nodup_cons.mp hnd).1 (e ▸ hr)
        have hr2' : r ∈ h2.roots := hperm.mem_iff.mp (by rw [hrt]; simp [hr])
        have := hbound r nr (Reach.root hr2') hrx hnr
        omega
      · intro v hv
        rw [hx', hx2]
        rw [hmem'] at hv
        have hv1 := (data_live hD2 v).mp hv
        refine ⟨halloc1 v hv1, ?_⟩
        rw [hmem', Reach_congr_roots (fun r => hperm.mem_iff) v]
        exact (hReach v).mpr (hlive0 v hv1)
      · refine ⟨S, hS1, fun v => ?_, by rw [hn', hn2, hh1]; exact hS3⟩
        rw [hS2 v, hmem', Reach_congr_roots (fun r => hperm.mem_iff) v]
        exact (hReach v).symm
    · intro v
      rw [hmem', Reach_congr_roots (fun r => hperm.mem_iff) v]
      exact hReach v
    · intro v hv; rw [hmem']; exact hData v hv
    · rw [hmem']; exact hDx
    · rw [hn', hn2, hh1]
    · rw [hx', hx2, hh1]
  · have hle : k ≤ mn.key := by
      unfold comp at hc
      rw [hxk2] at hc
      simpa using hc
    refine ⟨h2, by simp only [hc]; simp, ?_, hReach, hData, hDx, by rw [hn2, hh1],
      by rw [hx2, hh1]⟩
    apply Inv_of_parts hF2
    · intro m' rest' hmr r hr nm nr hnm hnr
      rw [hr2] at hmr
      cases hmr
      rw [hmm2] at hnm; cases hnm
      by_cases hrx : r = x
      · rw [hrx, hxm2] at hnr; cases hnr
        rw [hxk2]; exact hle
      · exact hbound r nr (Reach.root (by rw [hr2]; simp [hr])) hrx hnr
    · intro v hv
      rw [hx2]
      have hv1 := (data_live hD2 v).mp hv
      exact ⟨halloc1 v hv1, (hReach v).mpr (hlive0 v hv1)⟩
    · exact ⟨S, hS1, fun v => by rw [hS2 v]; exact (hReach v).symm, by rw [hn2, hh1]; exact hS3⟩

end


/-! ## Heap: `push`, `pop`, `remove_fibnode`, `top_node` -/

section

open FibHeap

theorem Inv_empty : ({} : FibHeap).Inv := by
  refine ⟨?_, MaxHead_nil _, ?_, ⟨[], List.nodup_nil, ?_, rfl⟩⟩
  · exact {
      nodup := List.nodup_nil
      root_ok := by intro r hr; simp at hr
      parent_ok := by intro x nd y _ hm; simp at hm
      child_ok := by intro x nd c _ hm; simp at hm
      child_nodup := by intro x nd _ hm; simp at hm }
  · intro x hx; simp at hx
  · intro x
    constructor
    · intro h; simp at h
    · intro h
      cases h with
      | root hr => simp at hr
      | step hm _ _ => simp at hm

theorem Forest_add_root {mem mem' : Nat → Option FibNode} {roots : List Nat}
    (hF : Forest mem roots none) (hgarb : ∀ v, mem v ≠ none → Reach mem roots v)
    {x : Nat} (hx : mem x = none) {nd : FibNode} (hp : nd.p = none) (hc : nd.children = [])
    (hmx : mem' x = some nd) (hmo : ∀ v, v ≠ x → mem' v = mem v) :
    Forest mem' (x :: roots) none ∧
    (∀ v, Reach mem' (x :: roots) v ↔ (v = x ∨ Reach mem roots v)) := by
  have hxr : ¬ Reach mem roots x := by
    intro h
    obtain ⟨nd0, h0⟩ := Forest_live hF h
    rw [hx] at h0; cases h0
  have hne : ∀ v, Reach mem roots v → v ≠ x := fun v hv e => hxr (e ▸ hv)
  have hR1 : ∀ v, Reach mem' (x :: roots) v → (v = x ∨ Reach mem roots v) := by
    intro v hv
    induction hv with
    | @root r hr =>
      rcases List.mem_cons.mp hr with h | h
      · exact Or.inl h
      · exact Or.inr (Reach.root h)
    | @step u w ndu hmu hpu _ ih =>
      have hux : u ≠ x := by
        intro e
        rw [e, hmx] at hmu
        cases hmu
        rw [hp] at hpu; cases hpu
      rw [hmo u hux] at hmu
      have hur : Reach mem roots u := hgarb u (by rw [hmu]; simp)
      exact Or.inr hur
  have hR2 : ∀ v, Reach mem roots v → Reach mem' (x :: roots) v := by
    intro v hv
    refine Reach_transfer (fun r hr => Reach.root (by simp [hr])) ?_ hv
    intro u ndu w hmu hpu hur
    exact Or.inr ⟨ndu, (hmo u (hne u hur)).trans hmu, hpu⟩
  refine ⟨?_, fun v => ⟨hR1 v, fun h => ?_⟩⟩
  · exact {
      nodup := by
        refine List.nodup_cons.mpr ⟨fun hr => hxr (Reach.root hr), hF.nodup⟩
      root_ok := by
        intro r hr
        rcases List.mem_cons.mp hr with h | h
        · rw [h]; exact ⟨nd, hmx, hp⟩
        · rw [hmo r (hne r (Reach.root h))]
          exact hF.root_ok r h
      parent_ok := by
        intro v ndv w hv hm hpv
        rcases hR1 v hv with h | h
        · rw [h, hmx] at hm; cases hm
          rw [hp] at hpv; cases hpv
        · rw [hmo v (hne v h)] at hm
          obtain ⟨nw, hnw, h1, h2⟩ := hF.parent_ok v ndv w h hm hpv
          have hw := Forest_parent_reach hF h hm hpv
          exact ⟨nw, (hmo w (hne w hw)).trans hnw, h1, h2⟩
      child_ok := by
        intro v ndv c hv hm hcv
        rcases hR1 v hv with h | h
        · rw [h, hmx] at hm; cases hm
          rw [hc] at hcv; simp at hcv
        · rw [hmo v (hne v h)] at hm
          obtain ⟨nc, hnc, h1⟩ := hF.child_ok v ndv c h hm hcv
          have hcr := Forest_child_reach hF h hm hcv
          exact ⟨nc, (hmo c (hne c hcr)).trans hnc, h1⟩
      child_nodup := by
        intro v ndv hv hm
        rcases hR1 v hv with h | h
        · rw [h, hmx] at hm; cases hm
          rw [hc]; exact List.nodup_nil
        · rw [hmo v (hne v h)] at hm
          exact hF.child_nodup v ndv h hm }
  · rcases h with h | h
    · rw [h]; exact Reach.root (by simp)
    · exact hR2 v h

/-- A push allocates the address `next`, keeps the heap invariant, adds the new node with the
given key and payload and changes no other node. -/
theorem push_spec (h : FibHeap) (hI : h.Inv) (k : Int) (pl : VID) :
    ∃ h', push h k pl = some (h', h.next) ∧ h'.Inv ∧
      (∀ v, Reach h'.mem h'.roots v ↔ (v = h.next ∨ Reach h.mem h.roots v)) ∧
      ¬ Reach h.mem h.roots h.next ∧
      (∀ v, v ≠ h.next → data h'.mem v = data h.mem v) ∧
      data h'.mem h.next = some (k, pl) ∧ h'.n = h.n + 1 ∧ h'.next = h.next + 1 := by
  obtain ⟨hF, hM, halloc, S, hS1, hS2, hS3⟩ := hI
  have hx : h.mem h.next = none := by
    by_contra hne
    have := (halloc h.next hne).1
    omega
  have hxr : ¬ Reach h.mem h.roots h.next := by
    intro hr
    obtain ⟨nd0, h0⟩ := Forest_live hF hr
    rw [hx] at h0; cases h0
  obtain ⟨nd, hnd⟩ : ∃ nd : FibNode, nd = { key := k, payload := pl } := ⟨_, rfl⟩
  obtain ⟨mem', hmem'⟩ : ∃ mem', mem' = setNode (setNode h.mem h.next nd) h.next
      { nd with p := none, children := [], mark := false } := ⟨_, rfl⟩
  have hmx : mem' h.next = some nd := by
    rw [hmem', setNode_same, hnd]
  have hmo : ∀ v, v ≠ h.next → mem' v = h.mem v := by
    intro v hv
    rw [hmem', setNode_other _ _ hv, setNode_other _ _ hv]
  obtain ⟨hF1, hR1⟩ := Forest_add_root hF (fun v hv => (halloc v hv).2) hx
    (by rw [hnd]) (by rw [hnd]) hmx hmo
  have hM1 : MaxHead mem' h.roots := by
    intro m rest hmr r hr nm nr hnm hnr
    have hm_ne : m ≠ h.next := fun e => hxr (e ▸ Reach.root (by rw [hmr]; simp))
    have hr_ne : r ≠ h.next := fun e => hxr (e ▸ Reach.root (by rw [hmr]; simp [hr]))
    rw [hmo m hm_ne] at hnm
    rw [hmo r hr_ne] at hnr
    exact hM m rest hmr r hr nm nr hnm hnr
  obtain ⟨ring, hri, hperm, hMr⟩ := @ring_insert_spec mem' h.roots
    h.next (fun r hr => by
      obtain ⟨nr, hnr, -⟩ := hF1.root_ok r hr
      exact ⟨nr, hnr⟩) hM1
  have hReach : ∀ v, Reach mem' ring v ↔ (v = h.next ∨ Reach h.mem h.roots v) := by
    intro v
    rw [Reach_congr_roots (fun r => hperm.mem_iff) v]
    exact hR1 v
  refine ⟨{ h with mem := mem', roots := ring, n := h.n + 1, next := h.next + 1 }, ?_, ?_,
    hReach, hxr, ?_, ?_, rfl, rfl⟩
  · unfold push FibHeap.insert
    simp only [setNode_same, Option.bind_eq_bind, Option.some_bind]
    have hmem2 : mem' = setNode (setNode h.mem h.next nd) h.next nd := by rw [hmem', hnd]
    rw [← hnd, ← hmem2, hri]
    rfl
  · refine ⟨Forest_perm hF1 hperm.symm, hMr, ?_, ⟨h.next :: S, ?_, ?_, ?_⟩⟩
    · intro v hv
      by_cases hvx : v = h.next
      · refine ⟨by show v < h.next + 1; omega, (hReach v).mpr (Or.inl hvx)⟩
      · have hv' : h.mem v ≠ none := by
          have hv0 : mem' v ≠ none := hv
          rw [hmo v hvx] at hv0
          exact hv0
        obtain ⟨h1, h2⟩ := halloc v hv'
        exact ⟨by show v < h.next + 1; omega, (hReach v).mpr (Or.inr h2)⟩
    · exact List.nodup_cons.mpr ⟨fun hm => hxr ((hS2 _).mp hm), hS1⟩
    · intro v
      show v ∈ h.next :: S ↔ Reach mem' ring v
      rw [hReach v, List.mem_cons, hS2 v]
    · show h.n + 1 = ((h.next :: S).length : Int)
      rw [hS3]
      simp
  · intro v hv
    show data mem' v = data h.mem v
    unfold data
    rw [hmo v hv]
  · show data mem' h.next = some (k, pl)
    unfold data
    rw [hmx, hnd]
    rfl

/-- The head of the ring has the largest key of the heap. -/
theorem top_node_spec (h : FibHeap) (hI : h.Inv) {x : Nat} (hx : Reach h.mem h.roots x) :
    ∃ m nm, top_node h = some m ∧ Reach h.mem h.roots m ∧ h.mem m = some nm ∧
      ∀ v nv, Reach h.mem h.roots v → h.mem v = some nv → nv.key ≤ nm.key := by
  obtain ⟨hF, hM, -, -⟩ := hI
  obtain ⟨m, rest, hroots⟩ := Reach_roots_ne_nil hx
  have hmr : Reach h.mem h.roots m := Reach.root (by rw [hroots]; simp)
  obtain ⟨nm, hnm⟩ := Forest_live hF hmr
  refine ⟨m, nm, by simp [top_node, hroots], hmr, hnm, ?_⟩
  intro v nv hv hnv
  exact top_max (hroots ▸ hF) (hroots ▸ hM) hnm (hroots ▸ hv) nv hnv

theorem extract_free_Inv (h : FibHeap) (hI : h.Inv) {z : Nat} {rest : List Nat}
    (hroots : h.roots = z :: rest) :
    ∃ h1, extract_max h = some (some z, h1) ∧
      ({ h1 with mem := freeNode h1.mem z } : FibHeap).Inv ∧
      (∀ v, Reach (freeNode h1.mem z) h1.roots v ↔ (Reach h.mem h.roots v ∧ v ≠ z)) ∧
      (∀ v, v ≠ z → data (freeNode h1.mem z) v = data h.mem v) ∧
      h1.n = h.n - 1 ∧ h1.next = h.next := by
  obtain ⟨hF, hM, halloc, S, hS1, hS2, hS3⟩ := hI
  obtain ⟨h1, he, hF1, hM1, hR1, hD1, hn1, hx1⟩ := extract_max_spec h hroots hF
  have hz1 : ¬ Reach h1.mem h1.roots z := fun hr => ((hR1 z).mp hr).2 rfl
  obtain ⟨hF2, hR2⟩ := Forest_free hF1 hz1
  have hReach : ∀ v, Reach (freeNode h1.mem z) h1.roots v ↔ (Reach h.mem h.roots v ∧ v ≠ z) :=
    fun v => (hR2 v).trans (hR1 v)
  have hzS : z ∈ S := (hS2 z).mpr (Reach.root (by rw [hroots]; simp))
  refine ⟨h1, he, ⟨hF2, ?_, ?_, ⟨S.erase z, hS1.erase z, ?_, ?_⟩⟩, hReach, ?_, hn1, hx1⟩
  · intro m rest' hmr r hr nm nr hnm hnr
    have hmz : m ≠ z := fun e => hz1 (e ▸ Reach.root (by
      show m ∈ h1.roots
      rw [show h1.roots = m :: rest' from hmr]; simp))
    have hrz : r ≠ z := fun e => hz1 (e ▸ Reach.root (by
      show r ∈ h1.roots
      rw [show h1.roots = m :: rest' from hmr]; simp [hr]))
    have hnm' : h1.mem m = some nm := by rw [← freeNode_other h1.mem hmz]; exact hnm
    have hnr' : h1.mem r = some nr := by rw [← freeNode_other h1.mem hrz]; exact hnr
    exact hM1 m rest' hmr r hr nm nr hnm' hnr'
  · intro v hv
    have hvz : v ≠ z := by
      intro e
      have hv0 : freeNode h1.mem z v ≠ none := hv
      rw [e, freeNode_same] at hv0
      exact hv0 rfl
    have hv1 : h1.mem v ≠ none := by
      have hv0 : freeNode h1.mem z v ≠ none := hv
      rw [freeNode_other _ hvz] at hv0
      exact hv0
    have hv2 := (data_live hD1 v).mp hv1
    obtain ⟨h3, h4⟩ := halloc v hv2
    exact ⟨by rw [hx1]; exact h3, (hReach v).mpr ⟨h4, hvz⟩⟩
  · intro v
    show v ∈ S.erase z ↔ Reach (freeNode h1.mem z) h1.roots v
    rw [hReach v, List.Nodup.mem_erase_iff hS1, hS2 v, and_comm]
  · show h1.n = ((S.erase z).length : Int)
    rw [hn1, hS3, List.length_erase_of_mem hzS]
    have : 1 ≤ S.length := List.length_pos_of_mem hzS
    omega
  · intro v hvz
    unfold data
    rw [freeNode_other _ hvz]
    exact hD1 v

/-- On a non-empty heap, `pop` deletes the head of the ring and nothing else. -/
theorem pop_spec (h : FibHeap) (hI : h.Inv) {z : Nat} {rest : List Nat}
    (hroots : h.roots = z :: rest) :
    ∃ h', pop h = some h' ∧ h'.Inv ∧
      (∀ v, Reach h'.mem h'.roots v ↔ (Reach h.mem h.roots v ∧ v ≠ z)) ∧
      (∀ v, v ≠ z → data h'.mem v = data h.mem v) ∧ h'.mem z = none ∧
      h'.n = h.n - 1 ∧ h'.next = h.next := by
  obtain ⟨h1, he, hI1, hR, hD, hn1, hx1⟩ := extract_free_Inv h hI hroots
  obtain ⟨-, -, -, S, hS1, hS2, hS3⟩ := hI
  have hzS : z ∈ S := (hS2 z).mpr (Reach.root (by rw [hroots]; simp))
  have hne : h.empty = false := by
    unfold FibHeap.empty
    have : 1 ≤ S.length := List.length_pos_of_mem hzS
    simp only [decide_eq_false_iff_not]
    omega
  refine ⟨{ h1 with mem := freeNode h1.mem z }, ?_, hI1, hR, hD, freeNode_same _ _, hn1, hx1⟩
  unfold pop
  simp [hne, he]

/-- When every key is below `INT_MAX`, `remove_fibnode(x)` deletes the node `x` and nothing
else. -/
theorem remove_fibnode_spec (h : FibHeap) (hI : h.Inv) {x : Nat}
    (hx : Reach h.mem h.roots x)
    (hkeys : ∀ v nd, h.mem v = some nd → nd.key < INT_MAX) :
    ∃ h', remove_fibnode h x = some h' ∧ h'.Inv ∧
      (∀ v, Reach h'.mem h'.roots v ↔ (Reach h.mem h.roots v ∧ v ≠ x)) ∧
      (∀ v, v ≠ x → data h'.mem v = data h.mem v) ∧ h'.mem x = none ∧
      h'.n = h.n - 1 ∧ h'.next = h.next := by
  obtain ⟨xn, hxm⟩ := Forest_live hI.1 hx
  obtain ⟨h1, hik, hI1, hR1, hD1, hDx, hn1, hx1⟩ :=
    increase_key_spec h hI hx hxm INT_MAX (le_of_lt (hkeys x xn hxm))
  have hx1r : Reach h1.mem h1.roots x := (hR1 x).mpr hx
  obtain ⟨m, nm, htop, hmr, hnm, hmax⟩ := top_node_spec h1 hI1 hx1r
  obtain ⟨xn1, hxm1, hxk1⟩ : ∃ xn1, h1.mem x = some xn1 ∧ xn1.key = INT_MAX := by
    unfold data at hDx
    cases hm : h1.mem x with
    | none => rw [hm] at hDx; simp at hDx
    | some a =>
      rw [hm] at hDx
      simp only [Option.map_some', Option.some.injEq, Prod.mk.injEq] at hDx
      exact ⟨a, rfl, hDx.1⟩
  have hmx : m = x := by
    by_contra hne
    have h1k := hmax x xn1 hx1r hxm1
    obtain ⟨b, hb, hbk, -⟩ := data_some (hD1 m hne) hnm
    have := hkeys m b hb
    rw [hxk1] at h1k
    omega
  obtain ⟨rest, hroots⟩ : ∃ rest, h1.roots = x :: rest := by
    unfold top_node at htop
    cases hr : h1.roots with
    | nil => rw [hr] at htop; simp at htop
    | cons a t =>
      rw [hr] at htop
      simp only [List.head?_cons, Option.some.injEq] at htop
      exact ⟨t, by rw [htop, hmx]⟩
  obtain ⟨h2, he, hI2, hR2, hD2, hn2, hx2⟩ := extract_free_Inv h1 hI1 hroots
  refine ⟨{ h2 with mem := freeNode h2.mem x }, ?_, hI2, ?_, ?_, freeNode_same _ _, ?_, ?_⟩
  · unfold remove_fibnode
    simp [hik, he]
  · intro v
    rw [hR2 v, hR1 v]
  · intro v hv
    exact (hD2 v hv).trans (hD1 v hv)
  · show h2.n = h.n - 1
    rw [hn2, hn1]
  · show h2.next = h.next
    rw [hx2, hx1]

end


/-! ## The cut of the phase is a minimum cut between the last two vertices -/

theorem wsumI_eq (edges : List (EID × Edge)) (p : EID × Edge → Bool) :
    wsumI edges p = (edges.map (fun it => if p it then it.2.weight else 0)).sum := by
  induction edges with
  | nil => rfl
  | cons it t ih =>
    unfold wsumI at ih ⊢
    by_cases h : p it = true
    · simp only [List.filter_cons, h, if_true, List.map_cons, List.sum_cons, ih]
    · simp only [List.filter_cons, h, List.map_cons, List.sum_cons]
      simpa using ih

theorem wsumI_nonneg {edges : List (EID × Edge)} (hw : ∀ it ∈ edges, 0 ≤ it.2.weight)
    (p : EID × Edge → Bool) : 0 ≤ wsumI edges p := by
  rw [wsumI_eq]
  apply List.sum_nonneg
  intro x hx
  obtain ⟨it, hit, rfl⟩ := List.mem_map.mp hx
  split
  · exact hw it hit
  · exact le_refl _

theorem wsumI_le_wsumI {edges : List (EID × Edge)} (hw : ∀ it ∈ edges, 0 ≤ it.2.weight)
    {p q : EID × Edge → Bool} (h : ∀ it ∈ edges, p it = true → q it = true) :
    wsumI edges p ≤ wsumI edges q := by
  rw [wsumI_eq, wsumI_eq]
  apply List.sum_le_sum
  intro it hit
  by_cases hp : p it = true
  · simp [hp, h it hit hp]
  · have := hw it hit
    by_cases hq : q it = true <;> simp [hp, hq, this]

theorem wsumI_congr {edges : List (EID × Edge)}
    {p q : EID × Edge → Bool} (h : ∀ it ∈ edges, p it = q it) :
    wsumI edges p = wsumI edges q := by
  unfold wsumI
  rw [List.filter_congr h]

theorem wsumI_add_le {edges : List (EID × Edge)} (hw : ∀ it ∈ edges, 0 ≤ it.2.weight)
    {p q r : EID × Edge → Bool} (h1 : ∀ it ∈ edges, p it = true → r it = true)
    (h2 : ∀ it ∈ edges, q it = true → r it = true)
    (h3 : ∀ it ∈ edges, p it = true → q it = true → False) :
    wsumI edges p + wsumI edges q ≤ wsumI edges r := by
  rw [wsumI_eq, wsumI_eq, wsumI_eq, ← List.sum_map_add]
  apply List.sum_le_sum
  intro it hit
  have := hw it hit
  by_cases hp : p it = true
  · have hq : ¬ q it = true := fun hq => h3 it hit hp hq
    simp [hp, hq, h1 it hit hp]
  · by_cases hq : q it = true
    · simp [hp, hq, h2 it hit hq]
    · by_cases hr : r it = true <;> simp [hp, hq, hr, this]

theorem wsumI_le_add {edges : List (EID × Edge)} (hw : ∀ it ∈ edges, 0 ≤ it.2.weight)
    {p q r : EID × Edge → Bool} (h : ∀ it ∈ edges, p it = true → q it = true ∨ r it = true) :
    wsumI edges p ≤ wsumI edges q + wsumI edges r := by
  rw [wsumI_eq, wsumI_eq, wsumI_eq, ← List.sum_map_add]
  apply List.sum_le_sum
  intro it hit
  have := hw it hit
  by_cases hp : p it = true
  · rcases h it hit hp with hq | hr
    · by_cases hr : r it = true <;> simp [hp, hq, hr, this]
    · by_cases hq : q it = true <;> simp [hp, hq, hr, this]
  · by_cases hq : q it = true <;> by_cases hr : r it = true <;>
      simp [hp, hq, hr, this]

theorem wsum_eq (edges : List (EID × Edge)) (p : Edge → Bool) :
    wsum edges p = (edges.map (fun it => if p it.2 then it.2.weight else 0)).sum :=
  wsumI_eq edges _

theorem wsum_nonneg {edges : List (EID × Edge)} (hw : ∀ it ∈ edges, 0 ≤ it.2.weight)
    (p : Edge → Bool) : 0 ≤ wsum edges p :=
  wsumI_nonneg hw _

theorem wsum_le_wsum {edges : List (EID × Edge)} (hw : ∀ it ∈ edges, 0 ≤ it.2.weight)
    {p q : Edge → Bool} (h : ∀ it ∈ edges, p it.2 = true → q it.2 = true) :
    wsum edges p ≤ wsum edges q :=
  wsumI_le_wsumI hw h

theorem wsum_add_le {edges : List (EID × Edge)} (hw : ∀ it ∈ edges, 0 ≤ it.2.weight)
    {p q r : Edge → Bool} (h1 : ∀ it ∈ edges, p it.2 = true → r it.2 = true)
    (h2 : ∀ it ∈ edges, q it.2 = true → r it.2 = true)
    (h3 : ∀ it ∈ edges, p it.2 = true → q it.2 = true → False) :
    wsum edges p + wsum edges q ≤ wsum edges r :=
  wsumI_add_le hw h1 h2 h3

theorem wsum_le_add {edges : List (EID × Edge)} (hw : ∀ it ∈ edges, 0 ≤ it.2.weight)
    {p q r : Edge → Bool} (h : ∀ it ∈ edges, p it.2 = true → q it.2 = true ∨ r it.2 = true) :
    wsum edges p ≤ wsum edges q + wsum edges r :=
  wsumI_le_add hw h

theorem crossing_weight_eq_wsum (edges : List (EID × Edge)) (X Y : List VID) :
    crossing_weight edges X Y = wsum edges (fun E => crosses E X Y) := rfl

theorem total_weight_eq_wsumI (edges : List (EID × Edge)) :
    total_weight edges = wsumI edges (fun _ => true) := by
  unfold total_weight wsumI
  simp

theorem wsumI_le_total {edges : List (EID × Edge)} (hw : ∀ it ∈ edges, 0 ≤ it.2.weight)
    (p : EID × Edge → Bool) : wsumI edges p ≤ total_weight edges := by
  rw [total_weight_eq_wsumI]
  exact wsumI_le_wsumI hw (fun _ _ _ => rfl)

theorem meets_iff (E : Edge) (A : List VID) : meets E A = true ↔ ∃ v, v ∈ E.vertices ∧ v ∈ A := by
  simp [meets]

theorem ties_iff (A : List VID) (u : VID) (E : Edge) :
    ties A u E = true ↔ u ∈ E.vertices ∧ ∃ v, v ∈ E.vertices ∧ v ∈ A := by
  simp [ties, meets]

theorem splits_iff (side : VID → Bool) (S : List VID) (E : Edge) :
    splits side S E = true ↔
      (∃ a, a ∈ E.vertices ∧ a ∈ S ∧ side a = true) ∧
      (∃ b, b ∈ E.vertices ∧ b ∈ S ∧ side b = false) := by
  simp [splits, and_assoc]

theorem tightness_nil (edges : List (EID × Edge)) (u : VID) : tightness edges [] u = 0 := by
  unfold tightness
  rw [wsum_eq]
  have : ∀ it : EID × Edge, (if ties [] u it.2 = true then it.2.weight else 0) = 0 := by
    intro it
    have : ties [] u it.2 = false := by simp [ties, meets]
    simp [this]
  simp [this]

/-- A non-empty list ends with a run of vertices on one side that is preceded by nothing or by
a vertex of the other side. -/
theorem run_decomposition (side : VID → Bool) (pre : List VID) (hne : pre ≠ []) :
    ∃ q w run, pre = q ++ w :: run ∧ (∀ u ∈ run, side u = side w) ∧
      (∀ w', q.getLast? = some w' → side w' ≠ side w) := by
  induction pre with
  | nil => exact absurd rfl hne
  | cons x rest ih =>
    cases rest with
    | nil => exact ⟨[], x, [], rfl, by simp, by simp⟩
    | cons y rest' =>
      obtain ⟨q', w', run', hd, hrun, hq⟩ := ih (by simp)
      cases q' with
      | nil =>
        by_cases hs : side x = side w'
        · refine ⟨[], x, y :: rest', rfl, ?_, by simp⟩
          intro u hu
          rw [hd] at hu
          simp only [List.nil_append, List.mem_cons] at hu
          rcases hu with h | h
          · rw [h, hs]
          · rw [hrun u h, hs]
        · refine ⟨[x], w', run', by rw [hd]; rfl, hrun, ?_⟩
          intro w'' hw''
          simp only [List.getLast?_singleton, Option.some.injEq] at hw''
          rw [← hw'']
          exact hs
      | cons a q'' =>
        refine ⟨x :: a :: q'', w', run', by rw [hd]; rfl, hrun, ?_⟩
        intro w'' hw''
        rw [List.getLast?_cons_cons] at hw''
        exact hq w'' hw''

/-- Klimmek–Wagner: in a maximum adjacency ordering, a vertex that lies on the other side
than its predecessor is no tighter with respect to the vertices before it than the weight of
the partition restricted to the vertices up to it. -/
theorem tightness_le_splits (edges : List (EID × Edge)) (hw : ∀ it ∈ edges, 0 ≤ it.2.weight)
    (ord : List VID) (hMA : MaxAdjOrder edges ord) (side : VID → Bool) (n : Nat) :
    ∀ pre v post, pre.length ≤ n → ord = pre ++ v :: post →
      (∀ w0, pre.getLast? = some w0 → side w0 ≠ side v) →
      tightness edges pre v ≤ wsum edges (splits side (pre ++ [v])) := by
  induction n with
  | zero =>
    intro pre v post hlen _ _
    have : pre = [] := List.length_eq_zero.mp (by omega)
    subst this
    rw [tightness_nil]
    exact wsum_nonneg hw _
  | succ n ih =>
    intro pre v post hlen hord hlast
    by_cases hne : pre = []
    · subst hne
      rw [tightness_nil]
      exact wsum_nonneg hw _
    · obtain ⟨q, w, run, hd, hrun, hq⟩ := run_decomposition side pre hne
      -- every vertex of the run lies on the other side than `v`
      have hside : ∀ u ∈ w :: run, side u ≠ side v := by
        obtain ⟨w0, hw0⟩ : ∃ w0, pre.getLast? = some w0 := by
          cases h : pre.getLast? with
          | none => exact absurd (List.getLast?_eq_none_iff.mp h) hne
          | some w0 => exact ⟨w0, rfl⟩
        have h1 := hlast w0 hw0
        have h2 : w0 ∈ w :: run := by
          rw [hd, List.getLast?_append] at hw0
          cases h3 : (w :: run).getLast? with
          | none => simp at h3
          | some z =>
            rw [h3] at hw0
            simp only [Option.or_some, Option.some.injEq] at hw0
            rw [← hw0]
            exact List.mem_of_getLast?_eq_some h3
        have h3 : side w0 = side w := by
          rcases List.mem_cons.mp h2 with h | h
          · rw [h]
          · exact hrun w0 h
        intro u hu
        have h4 : side u = side w := by
          rcases List.mem_cons.mp hu with h | h
          · rw [h]
          · exact hrun u h
        rw [h4, ← h3]
        exact h1
      have hqlen : q.length ≤ n := by
        have : pre.length = q.length + (run.length + 1) := by rw [hd]; simp
        omega
      have hord' : ord = q ++ w :: (run ++ v :: post) := by
        rw [hord, hd]; simp
      have ih1 := ih q w (run ++ v :: post) hqlen hord' hq
      have hma : tightness edges q v ≤ tightness edges q w :=
        hMA q w (run ++ v :: post) hord' v (by simp)
      -- the edges with `v` that meet `pre` but not `q`
      have hsplit : tightness edges pre v ≤ tightness edges q v +
          wsum edges (fun E => ties pre v E && !meets E q) := by
        unfold tightness
        apply wsum_le_add hw
        intro it _ hp
        by_cases hm : meets it.2 q = true
        · left
          rw [ties_iff] at hp ⊢
          exact ⟨hp.1, (meets_iff _ _).mp hm⟩
        · right
          simp [hp, hm]
      have hjoin : wsum edges (splits side (q ++ [w])) +
          wsum edges (fun E => ties pre v E && !meets E q)
            ≤ wsum edges (splits side (pre ++ [v])) := by
        apply wsum_add_le hw
        · intro it _ hp
          rw [splits_iff] at hp ⊢
          obtain ⟨⟨a, ha1, ha2, ha3⟩, ⟨b, hb1, hb2, hb3⟩⟩ := hp
          have hsub : ∀ z, z ∈ q ++ [w] → z ∈ pre ++ [v] := by
            intro z hz
            rw [hd]
            simp only [List.mem_append, List.mem_singleton, List.mem_cons] at hz ⊢
            tauto
          exact ⟨⟨a, ha1, hsub a ha2, ha3⟩, ⟨b, hb1, hsub b hb2, hb3⟩⟩
        · intro it _ hp
          simp only [Bool.and_eq_true, Bool.not_eq_true', ties_iff] at hp
          obtain ⟨⟨hv, u, hu1, hu2⟩, hnq⟩ := hp
          have hu3 : u ∈ w :: run := by
            rw [hd] at hu2
            rcases List.mem_append.mp hu2 with h | h
            · exfalso
              have : meets it.2 q = true := (meets_iff _ _).mpr ⟨u, hu1, h⟩
              rw [hnq] at this
              cases this
            · exact h
          have hsu := hside u hu3
          rw [splits_iff]
          cases hsv : side v with
          | true =>
            have : side u = false := by
              cases h : side u with
              | true => rw [h, hsv] at hsu; exact absurd rfl hsu
              | false => rfl
            exact ⟨⟨v, hv, by simp, hsv⟩, ⟨u, hu1, by simp [hu2], this⟩⟩
          | false =>
            have : side u = true := by
              cases h : side u with
              | false => rw [h, hsv] at hsu; exact absurd rfl hsu
              | true => rfl
            exact ⟨⟨u, hu1, by simp [hu2], this⟩, ⟨v, hv, by simp, hsv⟩⟩
        · intro it _ hp hx
          simp only [Bool.and_eq_true, Bool.not_eq_true'] at hx
          obtain ⟨-, hnq⟩ := hx
          rw [splits_iff] at hp
          obtain ⟨⟨a, ha1, ha2, ha3⟩, ⟨b, hb1, hb2, hb3⟩⟩ := hp
          have hab : a ≠ b := by
            intro e
            rw [e, hb3] at ha3
            cases ha3
          have hmeet : meets it.2 q = true := by
            rw [meets_iff]
            simp only [List.mem_append, List.mem_singleton] at ha2 hb2
            rcases ha2 with h | h
            · exact ⟨a, ha1, h⟩
            · rcases hb2 with h' | h'
              · exact ⟨b, hb1, h'⟩
              · exact absurd (h.trans h'.symm) hab
          rw [hnq] at hmeet
          cases hmeet
      calc tightness edges pre v
          ≤ tightness edges q v + wsum edges (fun E => ties pre v E && !meets E q) := hsplit
        _ ≤ tightness edges q w + wsum edges (fun E => ties pre v E && !meets E q) := by omega
        _ ≤ wsum edges (splits side (q ++ [w])) +
              wsum edges (fun E => ties pre v E && !meets E q) := by omega
        _ ≤ wsum edges (splits side (pre ++ [v])) := hjoin

/-- The last vertex of a maximum adjacency ordering is no tighter with respect to the others
than the weight of any partition that separates it from the vertex before it. -/
theorem last_tightness_le (edges : List (EID × Edge)) (hw : ∀ it ∈ edges, 0 ≤ it.2.weight)
    (init : List VID) (s t : VID) (hMA : MaxAdjOrder edges (init ++ [s, t]))
    (side : VID → Bool) (hst : side s ≠ side t) :
    tightness edges (init ++ [s]) t ≤ wsum edges (splits side (init ++ [s, t])) := by
  have := tightness_le_splits edges hw (init ++ [s, t]) hMA side (init ++ [s]).length
    (init ++ [s]) t [] (le_refl _) (by simp) (by
      intro w0 hw0
      rw [List.getLast?_concat] at hw0
      cases hw0
      exact hst)
  simpa using this


/-! ## The heap of a phase, seen as a map from vertices to keys -/

section

open FibHeap

theorem data_eq_some {mem : Nat → Option FibNode} {x : Nat} {nd : FibNode}
    (h : mem x = some nd) : data mem x = some (nd.key, nd.payload) := by
  unfold data; rw [h]; rfl

theorem mem_of_data_some {mem : Nat → Option FibNode} {x : Nat} {k : Int} {pl : VID}
    (h : data mem x = some (k, pl)) : ∃ nd, mem x = some nd ∧ nd.key = k ∧ nd.payload = pl := by
  unfold data at h
  cases hm : mem x with
  | none => rw [hm] at h; cases h
  | some nd =>
    rw [hm] at h
    simp only [Option.map_some', Option.some.injEq, Prod.mk.injEq] at h
    exact ⟨nd, rfl, h.1, h.2⟩

theorem HeapRep_congr {h : FibHeap} {nodes : List (VID × Nat)} {R R' : VID → Prop}
    {key key' : VID → Int} (hR : HeapRep h nodes R key) (h1 : ∀ u, R u ↔ R' u)
    (h2 : ∀ u, R u → key u = key' u) : HeapRep h nodes R' key' := by
  obtain ⟨hI, hfw, hbw⟩ := hR
  refine ⟨hI, ?_, ?_⟩
  · intro u hu
    obtain ⟨n, nd, a1, a2, a3, a4⟩ := hfw u ((h1 u).mpr hu)
    exact ⟨n, nd, a1, a2, a3, a4.trans (h2 u ((h1 u).mpr hu))⟩
  · intro x nd hx
    obtain ⟨a1, a2⟩ := hbw x nd hx
    exact ⟨(h1 _).mp a1, a2⟩

theorem HeapRep_empty : HeapRep {} [] (fun _ => False) (fun _ => 0) := by
  refine ⟨Inv_empty, ?_, ?_⟩
  · intro u hu; exact absurd hu id
  · intro x nd hx; simp at hx

theorem HeapRep_reach {h : FibHeap} {nodes : List (VID × Nat)} {R : VID → Prop}
    {key : VID → Int} (hR : HeapRep h nodes R key) {x : Nat} {nd : FibNode}
    (hx : h.mem x = some nd) : Reach h.mem h.roots x :=
  (hR.1.2.2.1 x (by rw [hx]; simp)).2

theorem HeapRep_push {h : FibHeap} {nodes : List (VID × Nat)} {R : VID → Prop}
    {key : VID → Int} (hR : HeapRep h nodes R key) (v : VID) (hv : ¬ R v) (k : Int) :
    ∃ h', push h k v = some (h', h.next) ∧
      HeapRep h' (mapSet nodes v h.next) (fun u => R u ∨ u = v) (Function.update key v k) := by
  obtain ⟨hI, hfw, hbw⟩ := hR
  obtain ⟨h', hp, hI', -, -, hD, hDn, -, -⟩ := push_spec h hI k v
  have hnone : h.mem h.next = none := by
    by_contra hne
    have := (hI.2.2.1 _ hne).1
    omega
  refine ⟨h', hp, hI', ?_, ?_⟩
  · intro u hu
    by_cases huv : u = v
    · subst huv
      obtain ⟨nd, hnd, hk, hpl⟩ := mem_of_data_some hDn
      exact ⟨h.next, nd, by rw [mapFind_mapSet]; simp, hnd, hpl, by simp [hk]⟩
    · have hRu : R u := by
        rcases hu with h0 | h0
        · exact h0
        · exact absurd h0 huv
      obtain ⟨n, nd, hn1, hn2, hn3, hn4⟩ := hfw u hRu
      have hne : n ≠ h.next := by
        intro e; rw [e, hnone] at hn2; cases hn2
      have := hD n hne
      rw [data_eq_some hn2] at this
      obtain ⟨nd', b1, b2, b3⟩ := mem_of_data_some this
      refine ⟨n, nd', by rw [mapFind_mapSet]; simp [huv, hn1], b1, b3.trans hn3, ?_⟩
      rw [b2, hn4, Function.update_noteq huv]
  · intro x nd hx
    by_cases hxn : x = h.next
    · subst hxn
      rw [data_eq_some hx] at hDn
      simp only [Option.some.injEq, Prod.mk.injEq] at hDn
      rw [hDn.2]
      exact ⟨Or.inr rfl, by rw [mapFind_mapSet]; simp⟩
    · have := hD x hxn
      rw [data_eq_some hx] at this
      obtain ⟨nd0, b1, b2, b3⟩ := mem_of_data_some this.symm
      obtain ⟨c1, c2⟩ := hbw x nd0 b1
      rw [b3] at c1 c2
      have hne : nd.payload ≠ v := fun e => hv (e ▸ c1)
      exact ⟨Or.inl c1, by rw [mapFind_mapSet]; simp [hne, c2]⟩

theorem push_all_spec (vs : List VID) (hnd : vs.Nodup) (h : FibHeap) (nodes : List (VID × Nat))
    (R : VID → Prop) (key : VID → Int) (hR : HeapRep h nodes R key) (hv : ∀ v ∈ vs, ¬ R v) :
    ∃ h' nodes', MinCut.push_all vs h nodes = some (h', nodes') ∧
      HeapRep h' nodes' (fun u => R u ∨ u ∈ vs) (fun u => if u ∈ vs then 0 else key u) := by
  induction vs generalizing h nodes R key with
  | nil =>
    refine ⟨h, nodes, rfl, HeapRep_congr hR (by simp) (by simp)⟩
  | cons v vs ih =>
    obtain ⟨hv1, hnd'⟩ := List.nodup_cons.mp hnd
    obtain ⟨h1, hp, hR1⟩ := HeapRep_push hR v (hv v (List.mem_cons_self _ _)) 0
    obtain ⟨h', nodes', hpa, hR'⟩ := ih hnd' h1 (mapSet nodes v h.next) _ _ hR1 (by
      intro u hu hRu
      rcases hRu with h0 | h0
      · exact hv u (List.mem_cons_of_mem _ hu) h0
      · exact hv1 (h0 ▸ hu))
    refine ⟨h', nodes', ?_, HeapRep_congr hR' ?_ ?_⟩
    · simp only [MinCut.push_all, hp, Option.bind_eq_bind, Option.some_bind]
      exact hpa
    · intro u
      simp only [List.mem_cons]
      tauto
    · intro u _
      by_cases huv : u = v
      · subst huv
        simp [hv1]
      · simp [huv, Function.update_noteq huv]

theorem HeapRep_increase {h : FibHeap} {nodes : List (VID × Nat)} {R : VID → Prop}
    {key : VID → Int} (hR : HeapRep h nodes R key) {u : VID} (hu : R u) (k : Int)
    (hk : key u ≤ k) :
    ∃ n nd h', mapFind nodes u = some n ∧ h.mem n = some nd ∧ nd.key = key u ∧
      increase_key h n k = some h' ∧ HeapRep h' nodes R (Function.update key u k) := by
  have hR0 := hR
  obtain ⟨hI, hfw, hbw⟩ := hR
  obtain ⟨n, nd, hn1, hn2, hn3, hn4⟩ := hfw u hu
  have hreach := HeapRep_reach hR0 hn2
  obtain ⟨h', hik, hI', -, hD, hDx, -, -⟩ := increase_key_spec h hI hreach hn2 k (by rw [hn4]; exact hk)
  refine ⟨n, nd, h', hn1, hn2, hn4, hik, hI', ?_, ?_⟩
  · intro u' hu'
    by_cases huu : u' = u
    · subst huu
      obtain ⟨nd', b1, b2, b3⟩ := mem_of_data_some hDx
      exact ⟨n, nd', hn1, b1, b3.trans hn3, by simp [b2]⟩
    · obtain ⟨n', nd', a1, a2, a3, a4⟩ := hfw u' hu'
      have hne : n' ≠ n := by
        intro e
        rw [e, hn2] at a2
        cases a2
        exact huu (a3.symm.trans hn3)
      have := hD n' hne
      rw [data_eq_some a2] at this
      obtain ⟨nd'', b1, b2, b3⟩ := mem_of_data_some this
      exact ⟨n', nd'', a1, b1, b3.trans a3, by rw [b2, a4, Function.update_noteq huu]⟩
  · intro x nd' hx
    by_cases hxn : x = n
    · subst hxn
      rw [data_eq_some hx] at hDx
      simp only [Option.some.injEq, Prod.mk.injEq] at hDx
      have := hbw x nd hn2
      rw [hDx.2]
      exact this
    · have := hD x hxn
      rw [data_eq_some hx] at this
      obtain ⟨nd0, b1, b2, b3⟩ := mem_of_data_some this.symm
      have := hbw x nd0 b1
      rw [b3] at this
      exact this

/-- The loop over the vertices of an edge raises the key of each of them, except `v`, by the
weight of the edge. -/
theorem add_vertex_keys_spec (v : VID) (w : Int) (nodes : List (VID × Nat)) (R : VID → Prop)
    (hw : 0 ≤ w) (us : List VID) (hnd : us.Nodup) (h : FibHeap) (key : VID → Int)
    (hR : HeapRep h nodes R key) (hus : ∀ u ∈ us, u ≠ v → R u)
    (hrange : ∀ u ∈ us, u ≠ v → 0 ≤ key u ∧ key u + w ≤ INT_MAX) :
    ∃ h', MinCut.add_vertex_keys v w nodes us h = some h' ∧
      HeapRep h' nodes R (fun u => if u ∈ us ∧ u ≠ v then key u + w else key u) := by
  induction us generalizing h key with
  | nil =>
    exact ⟨h, rfl, HeapRep_congr hR (fun _ => Iff.rfl) (by simp)⟩
  | cons u us ih =>
    obtain ⟨hu1, hnd'⟩ := List.nodup_cons.mp hnd
    by_cases huv : u = v
    · subst huv
      obtain ⟨h', hk, hR'⟩ := ih hnd' h key hR
        (fun x hx hxv => hus x (List.mem_cons_of_mem _ hx) hxv)
        (fun x hx hxv => hrange x (List.mem_cons_of_mem _ hx) hxv)
      refine ⟨h', ?_, HeapRep_congr hR' (fun _ => Iff.rfl) ?_⟩
      · simp only [MinCut.add_vertex_keys, bne_self_eq_false, Bool.false_eq_true, if_false]
        exact hk
      · intro x _
        by_cases hxu : x = u
        · subst hxu; simp
        · simp [hxu]
    · obtain ⟨r1, r2⟩ := hrange u (List.mem_cons_self _ _) huv
      obtain ⟨n, nd, h1, hn1, hn2, hn3, hik, hR1⟩ :=
        HeapRep_increase hR (hus u (List.mem_cons_self _ _) huv) (key u + w) (by omega)
      obtain ⟨h', hk, hR'⟩ := ih hnd' h1 _ hR1
        (fun x hx hxv => hus x (List.mem_cons_of_mem _ hx) hxv)
        (fun x hx hxv => by
          have hxu : x ≠ u := fun e => hu1 (e ▸ hx)
          rw [Function.update_noteq hxu]
          exact hrange x (List.mem_cons_of_mem _ hx) hxv)
      have hwrap : wrapInt (nd.key + w) = key u + w := by
        rw [hn3]
        apply wrapInt_of_range
        · omega
        · exact r2
      refine ⟨h', ?_, HeapRep_congr hR' (fun _ => Iff.rfl) ?_⟩
      · have hb : (u != v) = true := by simpa using huv
        simp only [MinCut.add_vertex_keys, hb, if_true, hn1, hn2, Option.bind_eq_bind,
          Option.some_bind, hwrap, hik]
        exact hk
      · intro x _
        by_cases hxu : x = u
        · subst hxu
          simp [hu1, huv]
        · simp [hxu, Function.update_noteq hxu]

theorem HeapRep_pop {h : FibHeap} {nodes : List (VID × Nat)} {R : VID → Prop}
    {key : VID → Int} (hR : HeapRep h nodes R key) {u0 : VID} (hu0 : R u0) :
    ∃ top tn h', top_node h = some top ∧ h.mem top = some tn ∧ R tn.payload ∧
      (∀ u, R u → key u ≤ key tn.payload) ∧ pop h = some h' ∧
      HeapRep h' nodes (fun u => R u ∧ u ≠ tn.payload) key := by
  have hR0 := hR
  obtain ⟨hI, hfw, hbw⟩ := hR
  obtain ⟨n0, nd0, a1, a2, a3, a4⟩ := hfw u0 hu0
  obtain ⟨m, nm, htop, hmr, hnm, hmax⟩ := top_node_spec h hI (HeapRep_reach hR0 a2)
  obtain ⟨rest, hroots⟩ : ∃ rest, h.roots = m :: rest := by
    unfold top_node at htop
    cases hr : h.roots with
    | nil => rw [hr] at htop; cases htop
    | cons z rest =>
      rw [hr] at htop
      simp only [List.head?_cons, Option.some.injEq] at htop
      exact ⟨rest, by rw [htop]⟩
  obtain ⟨h', hpop, hI', hRe, hD, hz, -, -⟩ := pop_spec h hI hroots
  obtain ⟨c1, c2⟩ := hbw m nm hnm
  have hkm : ∀ u, R u → key u ≤ key nm.payload := by
    intro u hu
    obtain ⟨n, nd, b1, b2, b3, b4⟩ := hfw u hu
    obtain ⟨n', nd', d1, d2, d3, d4⟩ := hfw nm.payload c1
    rw [c2] at d1
    cases d1
    rw [hnm] at d2
    cases d2
    rw [← b4, ← d4]
    exact hmax n nd (HeapRep_reach hR0 b2) b2
  refine ⟨m, nm, h', htop, hnm, c1, hkm, hpop, hI', ?_, ?_⟩
  · intro u hu
    obtain ⟨n, nd, b1, b2, b3, b4⟩ := hfw u hu.1
    have hne : n ≠ m := by
      intro e
      rw [e, hnm] at b2
      cases b2
      exact hu.2 b3.symm
    have := hD n hne
    rw [data_eq_some b2] at this
    obtain ⟨nd', e1, e2, e3⟩ := mem_of_data_some this
    exact ⟨n, nd', b1, e1, e3.trans b3, e2.trans b4⟩
  · intro x nd hx
    have hxm : x ≠ m := by
      intro e; rw [e, hz] at hx; cases hx
    have := hD x hxm
    rw [data_eq_some hx] at this
    obtain ⟨nd1, e1, e2, e3⟩ := mem_of_data_some this.symm
    obtain ⟨f1, f2⟩ := hbw x nd1 e1
    rw [e3] at f1 f2
    refine ⟨⟨f1, ?_⟩, f2⟩
    intro e
    rw [e, c2] at f2
    cases f2
    exact hxm rfl

theorem HeapRep_remove {h : FibHeap} {nodes : List (VID × Nat)} {R : VID → Prop}
    {key : VID → Int} (hR : HeapRep h nodes R key) {a : VID} (ha : R a)
    (hkeys : ∀ u, R u → key u < INT_MAX) :
    ∃ n h', mapFind nodes a = some n ∧ remove_fibnode h n = some h' ∧
      HeapRep h' (mapErase nodes a) (fun u => R u ∧ u ≠ a) key := by
  have hR0 := hR
  obtain ⟨hI, hfw, hbw⟩ := hR
  obtain ⟨n, nd, a1, a2, a3, a4⟩ := hfw a ha
  have hk : ∀ v nd, h.mem v = some nd → nd.key < INT_MAX := by
    intro v nv hv
    obtain ⟨c1, c2⟩ := hbw v nv hv
    obtain ⟨n', nd', d1, d2, d3, d4⟩ := hfw nv.payload c1
    rw [c2] at d1
    cases d1
    rw [hv] at d2
    cases d2
    rw [d4]
    exact hkeys _ c1
  obtain ⟨h', hrem, hI', hRe, hD, hz, -, -⟩ := remove_fibnode_spec h hI (HeapRep_reach hR0 a2) hk
  refine ⟨n, h', a1, hrem, hI', ?_, ?_⟩
  · intro u hu
    obtain ⟨n', nd', b1, b2, b3, b4⟩ := hfw u hu.1
    have hne : n' ≠ n := by
      intro e
      rw [e, a2] at b2
      cases b2
      exact hu.2 (b3.symm.trans a3)
    have := hD n' hne
    rw [data_eq_some b2] at this
    obtain ⟨nd'', e1, e2, e3⟩ := mem_of_data_some this
    exact ⟨n', nd'', by rw [mapFind_mapErase]; simp [hu.2, b1], e1, e3.trans b3, e2.trans b4⟩
  · intro x nd1 hx
    have hxn : x ≠ n := by
      intro e; rw [e, hz] at hx; cases hx
    have := hD x hxn
    rw [data_eq_some hx] at this
    obtain ⟨nd2, e1, e2, e3⟩ := mem_of_data_some this.symm
    obtain ⟨f1, f2⟩ := hbw x nd2 e1
    rw [e3] at f1 f2
    have hpa : nd1.payload ≠ a := by
      intro e
      rw [e, a1] at f2
      cases f2
      exact hxn rfl
    exact ⟨⟨f1, hpa⟩, by rw [mapFind_mapErase]; simp [hpa, f2]⟩

end


/-! ## Keys of a phase as sums over the marked edges -/

theorem wsumI_cons (it : EID × Edge) (t : List (EID × Edge)) (p : EID × Edge → Bool) :
    wsumI (it :: t) p = (if p it then it.2.weight else 0) + wsumI t p := by
  rw [wsumI_eq, wsumI_eq]
  rfl

theorem wsumI_mapSet_default (edges : List (EID × Edge)) (e : EID)
    (h : mapFind edges e = none) (p : EID × Edge → Bool) :
    wsumI (mapSet edges e default) p = wsumI edges p := by
  induction edges with
  | nil =>
    simp only [mapSet, wsumI_cons]
    have : (default : Edge).weight = 0 := rfl
    simp [this]
  | cons kv t ih =>
    obtain ⟨k, E⟩ := kv
    unfold mapFind at h
    by_cases hk : k = e
    · simp [hk] at h
    · simp only [hk, if_false] at h
      unfold mapSet
      by_cases h1 : e < k
      · simp only [h1, if_true]
        rw [wsumI_cons]
        have : (default : Edge).weight = 0 := rfl
        simp [this]
      · have h2 : ¬ e = k := fun e' => hk e'.symm
        simp only [h1, h2, if_false]
        rw [wsumI_cons, wsumI_cons, ih h]

/-- The record that `G.edges[e]` creates has weight 0: sums of weights do not see it. -/
theorem wsumI_mapTouch (edges : List (EID × Edge)) (e : EID) (p : EID × Edge → Bool) :
    wsumI (mapTouch edges e) p = wsumI edges p := by
  unfold mapTouch
  cases h : mapFind edges e with
  | some E => rfl
  | none => exact wsumI_mapSet_default edges e h p

theorem total_weight_mapTouch (edges : List (EID × Edge)) (e : EID) :
    total_weight (mapTouch edges e) = total_weight edges := by
  rw [total_weight_eq_wsumI, total_weight_eq_wsumI, wsumI_mapTouch]

theorem marked_key_insert_aux (edges : List (EID × Edge)) (hwf : MapWF edges) (e : EID)
    (marked : List EID) (he : e ∉ marked) (u : VID) :
    marked_key edges (setInsert e marked) u = marked_key edges marked u +
      (if u ∈ (mapGetD edges e).vertices then (mapGetD edges e).weight else 0) := by
  induction edges with
  | nil =>
    simp [marked_key, wsumI, mapGetD, mapFind]
    rfl
  | cons kv t ih =>
    obtain ⟨k, E⟩ := kv
    obtain ⟨hk, ht⟩ := MapWF_cons.mp hwf
    have ih' := ih ht
    unfold marked_key at ih' ⊢
    rw [wsumI_cons, wsumI_cons, ih']
    by_cases hke : k = e
    · subst hke
      have hnone : mapFind t k = none :=
        (not_mem_mapKeys _ _).mp (fun hm => by have := hk k hm; omega)
      have h1 : (setInsert k marked).contains k = true := by
        simp [mem_setInsert]
      have h2 : marked.contains k = false := by simpa using he
      have h3 : mapGetD ((k, E) :: t) k = E := by simp [mapGetD, mapFind]
      have h4 : (mapGetD t k).vertices = [] := by simp [mapGetD, hnone]; rfl
      simp only [h1, h2, h3, h4, Bool.true_and, Bool.false_and]
      simp
      ring
    · have h1 : (setInsert e marked).contains k = marked.contains k := by
        rw [Bool.eq_iff_iff]
        simp [mem_setInsert, hke]
      have h3 : mapGetD ((k, E) :: t) e = mapGetD t e := by simp [mapGetD, mapFind, hke]
      simp only [h1, h3]
      ring

/-- Marking the edge `e` raises the sum for `u` by the weight of `e` when `e` contains `u`. -/
theorem marked_key_insert (edges : List (EID × Edge)) (hwf : MapWF edges) (e : EID)
    (marked : List EID) (he : e ∉ marked) (u : VID) :
    marked_key (mapTouch edges e) (setInsert e marked) u = marked_key edges marked u +
      (if u ∈ (mapGetD edges e).vertices then (mapGetD edges e).weight else 0) := by
  have := marked_key_insert_aux edges hwf e marked he u
  unfold marked_key at this ⊢
  rw [wsumI_mapTouch]
  exact this

theorem marked_key_mapTouch (edges : List (EID × Edge)) (e : EID) (marked : List EID) (u : VID) :
    marked_key (mapTouch edges e) marked u = marked_key edges marked u := by
  unfold marked_key
  rw [wsumI_mapTouch]

theorem mapGetD_absent_edge (edges : List (EID × Edge)) (e : EID)
    (h : mapFind edges e = none) : (mapGetD edges e).vertices = [] ∧ (mapGetD edges e).weight = 0 := by
  simp [mapGetD, h]
  exact ⟨rfl, rfl⟩

/-- The invariant of the graph is kept by `G.edges[e]`. -/
theorem RunInv_touch_edge (G : HyperGraph) (hG : G.RunInv) (e : EID) :
    ({ G with edges := mapTouch G.edges e } : HyperGraph).RunInv := by
  obtain ⟨hwf, hadj, hadj', hnn⟩ := hG
  obtain ⟨w1, w2, w3, w4⟩ := (HyperGraph_WF_iff G).mp hwf
  have hfind : ∀ e' E, mapFind (mapTouch G.edges e) e' = some E →
      mapFind G.edges e' = some E ∨ (E.vertices = [] ∧ E.weight = 0) := by
    intro e' E h
    rw [mapFind_mapTouch] at h
    by_cases h1 : e' = e
    · simp only [h1, if_true, Option.some.injEq] at h
      cases hf : mapFind G.edges e with
      | none =>
        right
        rw [← h]
        exact mapGetD_absent_edge _ _ hf
      | some E0 =>
        left
        rw [h1, ← h]
        simp [mapGetD, hf]
    · simp only [h1, if_false] at h
      exact Or.inl h
  have hwf' : ({ G with edges := mapTouch G.edges e } : HyperGraph).WF := by
    rw [HyperGraph_WF_iff]
    refine ⟨w1, MapWF_mapTouch w2 e, ?_, w4⟩
    intro e' E h
    rcases hfind e' E h with h1 | h1
    · exact w3 e' E h1
    · rw [h1.1]; exact SetWF_nil
  refine ⟨hwf', ?_, ?_, ?_⟩
  · intro e' E h v hv
    rcases hfind e' E h with h1 | h1
    · exact hadj e' E h1 v hv
    · rw [h1.1] at hv; simp at hv
  · intro v V hV e' he' E h
    rcases hfind e' E h with h1 | h1
    · exact hadj' v V hV e' he' E h1
    · exact Or.inr h1.1
  · intro it hit
    have h := mapFind_of_mem (MapWF_mapTouch w2 e) hit
    rcases hfind it.1 it.2 h with h1 | h1
    · exact hnn it (mem_of_mapFind h1)
    · rw [h1.2]

/-- With the marked ids those of the vertices `A`, the sum over the marked edges is the
tightness with respect to `A`. -/
theorem marked_key_eq_tightness (G : HyperGraph) (hG : G.RunInv) (A : List VID)
    (marked : List EID) (hM : MarkedInv G A marked) (u : VID) :
    marked_key G.edges marked u = tightness G.edges A u := by
  obtain ⟨hwf, hadj, hadj', -⟩ := hG
  unfold marked_key tightness wsum
  apply wsumI_congr
  intro it hit
  have hf : mapFind G.edges it.1 = some it.2 := mapFind_of_mem hwf.2.1 hit
  by_cases hu : u ∈ it.2.vertices
  · have h1 : it.2.vertices.contains u = true := by simpa using hu
    rw [Bool.eq_iff_iff]
    simp only [ties, h1, Bool.and_true, Bool.true_and, meets_iff]
    have hc : marked.contains it.1 = true ↔ it.1 ∈ marked := by simp
    rw [hc, hM it.1]
    constructor
    · rintro ⟨x, hx, V, hV, heV⟩
      rcases hadj' x V hV it.1 heV it.2 hf with h2 | h2
      · exact ⟨x, h2, hx⟩
      · rw [h2] at hu; simp at hu
    · rintro ⟨x, hx1, hx2⟩
      obtain ⟨V, hV, heV⟩ := hadj it.1 it.2 hf x hx1
      exact ⟨x, hx2, V, hV, heV⟩
  · have h1 : it.2.vertices.contains u = false := by simpa using hu
    simp only [ties, h1, Bool.and_false, Bool.false_and]


/-! ## `add_vertex_to_A` -/

theorem marked_key_nonneg {edges : List (EID × Edge)} (hw : ∀ it ∈ edges, 0 ≤ it.2.weight)
    (marked : List EID) (u : VID) : 0 ≤ marked_key edges marked u :=
  wsumI_nonneg hw _

theorem marked_key_le_total {edges : List (EID × Edge)} (hw : ∀ it ∈ edges, 0 ≤ it.2.weight)
    (marked : List EID) (u : VID) : marked_key edges marked u ≤ total_weight edges :=
  wsumI_le_total hw _

theorem edge_record_facts (G : HyperGraph) (hG : G.RunInv) (e : EID) :
    0 ≤ (mapGetD G.edges e).weight ∧ (mapGetD G.edges e).vertices.Nodup := by
  obtain ⟨hwf, -, -, hnn⟩ := hG
  cases hf : mapFind G.edges e with
  | none =>
    obtain ⟨h1, h2⟩ := mapGetD_absent_edge _ _ hf
    rw [h1, h2]
    exact ⟨le_refl _, List.nodup_nil⟩
  | some E =>
    have hE : mapGetD G.edges e = E := mapGetD_of_find hf
    rw [hE]
    have hmem := mem_of_mapFind hf
    exact ⟨hnn _ hmem, SetWF_nodup (hwf.2.2.1 _ hmem)⟩

theorem add_vertex_edge_spec (T : Int) (hT : T < INT_MAX) (R : VID → Prop) (v : VID)
    (st : PhaseState) (e : EID) (hI : AddInv T R v st)
    (hE : e ∉ st.marked → ∀ u ∈ (mapGetD st.G.edges e).vertices, u ≠ v → R u) :
    ∃ st', MinCut.add_vertex_edge v st e = some st' ∧ AddInv T R v st' ∧
      st'.G.vertices = st.G.vertices ∧ (∀ p, wsumI st'.G.edges p = wsumI st.G.edges p) ∧
      (∀ e', mapGetD st'.G.edges e' = mapGetD st.G.edges e') ∧
      (∀ e', e' ∈ st'.marked ↔ (e' = e ∨ e' ∈ st.marked)) ∧ st'.nodes = st.nodes := by
  by_cases hm : e ∈ st.marked
  · refine ⟨st, ?_, hI, rfl, fun _ => rfl, fun _ => rfl, ?_, rfl⟩
    · have : st.marked.contains e = true := by simpa using hm
      simp only [MinCut.add_vertex_edge, this, if_true]
    · intro e'
      constructor
      · exact Or.inr
      · rintro (h | h)
        · rw [h]; exact hm
        · exact h
  · obtain ⟨hG, hTot, hR⟩ := hI
    have hG1 := RunInv_touch_edge st.G hG e
    obtain ⟨hw0, hnd⟩ := edge_record_facts st.G hG e
    have hget : mapGetD (mapTouch st.G.edges e) e = mapGetD st.G.edges e := mapGetD_mapTouch _ _ _
    have hkey : ∀ u, u ≠ v → marked_key (mapTouch st.G.edges e) (setInsert e st.marked) u
        = marked_key st.G.edges st.marked u +
          (if u ∈ (mapGetD st.G.edges e).vertices then (mapGetD st.G.edges e).weight else 0) :=
      fun u _ => marked_key_insert st.G.edges hG.1.2.1 e st.marked hm u
    have htot1 : total_weight (mapTouch st.G.edges e) ≤ T := by
      rw [total_weight_mapTouch]; exact hTot
    obtain ⟨h', hk, hR'⟩ := add_vertex_keys_spec v (mapGetD st.G.edges e).weight st.nodes R hw0
      (mapGetD st.G.edges e).vertices hnd st.heap _ hR (hE hm) (by
        intro u hu huv
        simp only [huv, if_false]
        refine ⟨marked_key_nonneg hG.2.2.2 _ _, ?_⟩
        have h1 := hkey u huv
        simp only [hu, if_true] at h1
        rw [← h1]
        have h2 := marked_key_le_total hG1.2.2.2 (setInsert e st.marked) u
        have h3 : total_weight (mapTouch st.G.edges e) ≤ T := htot1
        have h4 : marked_key (mapTouch st.G.edges e) (setInsert e st.marked) u
            ≤ total_weight (mapTouch st.G.edges e) := h2
        omega)
    refine ⟨{ G := { st.G with edges := mapTouch st.G.edges e }, heap := h', nodes := st.nodes,
              marked := setInsert e st.marked }, ?_, ⟨hG1, htot1, ?_⟩, rfl,
            fun p => wsumI_mapTouch _ _ p, fun e' => mapGetD_mapTouch _ _ _, ?_, rfl⟩
    · have : st.marked.contains e = false := by simpa using hm
      simp only [MinCut.add_vertex_edge, this, Bool.false_eq_true, if_false, hget, hk,
        Option.bind_eq_bind, Option.some_bind]
    · apply HeapRep_congr hR' (fun _ => Iff.rfl)
      intro u _
      by_cases huv : u = v
      · simp [huv]
      · simp only [huv, if_false]
        show _ = marked_key (mapTouch st.G.edges e) (setInsert e st.marked) u
        rw [hkey u huv]
        by_cases hu : u ∈ (mapGetD st.G.edges e).vertices
        · simp [hu, huv]
        · simp [hu]
    · intro e'
      exact mem_setInsert e e' st.marked

theorem add_vertex_edges_spec (T : Int) (hT : T < INT_MAX) (R : VID → Prop) (v : VID)
    (es : List EID) (st : PhaseState) (hI : AddInv T R v st)
    (hE : ∀ e ∈ es, e ∉ st.marked → ∀ u ∈ (mapGetD st.G.edges e).vertices, u ≠ v → R u) :
    ∃ st', MinCut.add_vertex_edges v es st = some st' ∧ AddInv T R v st' ∧
      st'.G.vertices = st.G.vertices ∧ (∀ p, wsumI st'.G.edges p = wsumI st.G.edges p) ∧
      (∀ e', mapGetD st'.G.edges e' = mapGetD st.G.edges e') ∧
      (∀ e', e' ∈ st'.marked ↔ (e' ∈ es ∨ e' ∈ st.marked)) ∧ st'.nodes = st.nodes := by
  induction es generalizing st with
  | nil =>
    exact ⟨st, rfl, hI, rfl, fun _ => rfl, fun _ => rfl, by simp, rfl⟩
  | cons e es ih =>
    obtain ⟨st1, h1, hI1, hv1, hs1, hg1, hm1, hn1⟩ :=
      add_vertex_edge_spec T hT R v st e hI (hE e (List.mem_cons_self _ _))
    obtain ⟨st2, h2, hI2, hv2, hs2, hg2, hm2, hn2⟩ := ih st1 hI1 (by
      intro e' he' hne' u hu huv
      rw [hg1] at hu
      have : e' ∉ st.marked := fun h => hne' ((hm1 e').mpr (Or.inr h))
      exact hE e' (List.mem_cons_of_mem _ he') this u hu huv)
    refine ⟨st2, ?_, hI2, hv2.trans hv1, fun p => (hs2 p).trans (hs1 p),
      fun e' => (hg2 e').trans (hg1 e'), ?_, hn2.trans hn1⟩
    · simp only [MinCut.add_vertex_edges, h1, Option.bind_eq_bind, Option.some_bind]
      exact h2
    · intro e'
      rw [hm2, hm1]
      simp only [List.mem_cons]
      tauto

theorem add_vertex_to_A_spec (T : Int) (hT : T < INT_MAX) (R : VID → Prop) (v : VID)
    (st : PhaseState) (hI : AddInv T R v st) {V : Vertex}
    (hV : mapFind st.G.vertices v = some V)
    (hE : ∀ e ∈ V.edges, e ∉ st.marked → ∀ u ∈ (mapGetD st.G.edges e).vertices, u ≠ v → R u) :
    ∃ st', MinCut.add_vertex_to_A v st = some st' ∧ AddInv T R v st' ∧
      st'.G.vertices = st.G.vertices ∧ (∀ p, wsumI st'.G.edges p = wsumI st.G.edges p) ∧
      (∀ e', e' ∈ st'.marked ↔ (e' ∈ V.edges ∨ e' ∈ st.marked)) ∧ st'.nodes = st.nodes := by
  have hk : v ∈ mapKeys st.G.vertices := (mem_mapKeys _ _).mpr ⟨V, hV⟩
  have ht : mapTouch st.G.vertices v = st.G.vertices := mapTouch_of_mem _ _ hk
  have hg : mapGetD st.G.vertices v = V := mapGetD_of_find hV
  have hst : ({ st with G := { st.G with vertices := st.G.vertices } } : PhaseState) = st := rfl
  obtain ⟨st', h1, hI1, hv1, hs1, -, hm1, hn1⟩ := add_vertex_edges_spec T hT R v V.edges st hI hE
  refine ⟨st', ?_, hI1, hv1, hs1, hm1, hn1⟩
  unfold MinCut.add_vertex_to_A
  simp only [ht, hg, hst]
  exact h1


/-! ## The loop of `phase` builds a maximum adjacency ordering -/

theorem tightness_transfer {E E' : List (EID × Edge)} (h : ∀ p, wsumI E' p = wsumI E p)
    (A : List VID) (u : VID) : tightness E' A u = tightness E A u := by
  unfold tightness wsum
  exact h _

theorem tightness_le_total {edges : List (EID × Edge)} (hw : ∀ it ∈ edges, 0 ≤ it.2.weight)
    (A : List VID) (u : VID) : tightness edges A u ≤ total_weight edges :=
  wsumI_le_total hw _

theorem exists_not_mem_of_length_lt {K A : List VID} (hK : K.Nodup) (h : A.length < K.length) :
    ∃ u, u ∈ K ∧ u ∉ A := by
  by_contra hc
  have hsub : K ⊆ A := by
    intro u hu
    by_contra hn
    exact hc ⟨u, hu, hn⟩
  have := (List.Nodup.subperm hK hsub).length_le
  omega

theorem length_le_of_nodup_subset {K A : List VID} (hA : A.Nodup) (h : ∀ x ∈ A, x ∈ K) :
    A.length ≤ K.length :=
  (List.Nodup.subperm hA h).length_le

theorem split_concat {pre post A : List VID} {x m : VID} (h : pre ++ x :: post = A ++ [m]) :
    (post = [] ∧ pre = A ∧ x = m) ∨ ∃ post', post = post' ++ [m] ∧ A = pre ++ x :: post' := by
  rcases List.eq_nil_or_concat post with h0 | ⟨post', y, h0⟩
  · subst h0
    left
    have h1 : pre ++ [x] = A ++ [m] := h
    have h2 := List.append_inj' h1 rfl
    refine ⟨rfl, h2.1, ?_⟩
    simpa using h2.2
  · right
    rw [List.concat_eq_append] at h0
    subst h0
    have h1 : (pre ++ x :: post') ++ [y] = A ++ [m] := by simpa using h
    have h2 := List.append_inj' h1 rfl
    have h3 : y = m := by simpa using h2.2
    exact ⟨post', by rw [h3], h2.1.symm⟩

/-- The addition of `v` to the vertices `A`: the incidence set of `v` is marked and the keys
become the tightness with respect to `A ++ [v]`. -/
theorem add_core (T : Int) (hT : T < INT_MAX) (K A : List VID) (v : VID) (st : PhaseState)
    (R : VID → Prop) (key0 : VID → Int)
    (hG : st.G.RunInv) (hTot : total_weight st.G.edges ≤ T) (hK : mapKeys st.G.vertices = K)
    (hM : MarkedInv st.G A st.marked) (hv : v ∈ K)
    (hR : HeapRep st.heap st.nodes R key0)
    (hkey : ∀ u, R u → u ≠ v → key0 u = tightness st.G.edges A u)
    (hkv : R v → key0 v = 0)
    (hRall : ∀ u, u ∈ K → u ∉ A → u ≠ v → R u) :
    ∃ st', MinCut.add_vertex_to_A v st = some st' ∧ st'.G.RunInv ∧
      total_weight st'.G.edges ≤ T ∧ mapKeys st'.G.vertices = K ∧
      MarkedInv st'.G (A ++ [v]) st'.marked ∧
      HeapRep st'.heap st'.nodes R
        (fun u => if u = v then 0 else tightness st'.G.edges (A ++ [v]) u) ∧
      (∀ p, wsumI st'.G.edges p = wsumI st.G.edges p) ∧ st'.G.vertices = st.G.vertices := by
  obtain ⟨V, hV⟩ := (mem_mapKeys _ _).mp (hK ▸ hv)
  have hI : AddInv T R v st := by
    refine ⟨hG, hTot, HeapRep_congr hR (fun _ => Iff.rfl) ?_⟩
    intro u hu
    by_cases huv : u = v
    · simp only [huv, if_true]
      exact hkv (huv ▸ hu)
    · simp only [huv, if_false]
      rw [hkey u hu huv, marked_key_eq_tightness st.G hG A st.marked hM u]
  obtain ⟨st', h1, ⟨hG', hTot', hR'⟩, hv1, hs1, hm1, hn1⟩ :=
    add_vertex_to_A_spec T hT R v st hI hV (by
      intro e _ hne u hu huv
      obtain ⟨E, hE, huE⟩ := mapGetD_default_edges hu
      obtain ⟨U, hU, heU⟩ := hG.2.1 e E hE u huE
      have huK : u ∈ K := hK ▸ (mem_mapKeys _ _).mpr ⟨U, hU⟩
      have huA : u ∉ A := fun h => hne ((hM e).mpr ⟨u, h, U, hU, heU⟩)
      exact hRall u huK huA huv)
  have hM' : MarkedInv st'.G (A ++ [v]) st'.marked := by
    intro e
    rw [hm1, hv1, hM e]
    constructor
    · rintro (h | ⟨x, hx, W, hW, heW⟩)
      · exact ⟨v, by simp, V, hV, h⟩
      · exact ⟨x, by simp [hx], W, hW, heW⟩
    · rintro ⟨x, hx, W, hW, heW⟩
      rcases List.mem_append.mp hx with h | h
      · exact Or.inr ⟨x, h, W, hW, heW⟩
      · have : x = v := by simpa using h
        subst this
        rw [hV] at hW
        cases hW
        exact Or.inl heW
  refine ⟨st', h1, hG', hTot', by rw [hv1]; exact hK, hM', ?_, hs1, hv1⟩
  apply HeapRep_congr hR' (fun _ => Iff.rfl)
  intro u _
  by_cases huv : u = v
  · simp [huv]
  · simp only [huv, if_false]
    exact marked_key_eq_tightness st'.G hG' (A ++ [v]) st'.marked hM' u

theorem phase_loop_spec (T : Int) (hT : T < INT_MAX) (K : List VID) (hKnd : K.Nodup)
    (E0 : List (EID × Edge)) :
    ∀ (fuel i : Nat) (st : PhaseState) (A : List VID) (ab al : VID),
      LoopInv T K A st → A.Nodup → (∀ x ∈ A, x ∈ K) → A.length = i + 1 →
      K.length ≤ fuel + i + 1 → (∃ init, 9999 :: A = init ++ [ab, al]) →
      MaxAdjSoFar E0 K A → (∀ p, wsumI st.G.edges p = wsumI E0 p) →
      ∃ st' ab' al' A', MinCut.phase_loop fuel i st ab al = some (st', ab', al') ∧
        LoopInv T K A' st' ∧ A'.Nodup ∧ (∀ x ∈ A', x ∈ K) ∧ A'.length = K.length ∧
        (∃ init, 9999 :: A' = init ++ [ab', al']) ∧ MaxAdjSoFar E0 K A' ∧
        (∀ p, wsumI st'.G.edges p = wsumI E0 p) ∧ A'.head? = A.head? ∧
        st'.G.vertices = st.G.vertices := by
  intro fuel
  induction fuel with
  | zero =>
    intro i st A ab al hL hAnd hAK hlen hfuel hseq hMA hE
    have hn : st.G.vertices.length = K.length := by
      rw [← hL.2.2.1]; simp [mapKeys]
    have hle := length_le_of_nodup_subset hAnd hAK
    have hc : ¬ i < st.G.vertices.length - 1 := by omega
    refine ⟨st, ab, al, A, ?_, hL, hAnd, hAK, by omega, hseq, hMA, hE, rfl, rfl⟩
    simp only [MinCut.phase_loop, hc, if_false]
  | succ fuel ih =>
    intro i st A ab al hL hAnd hAK hlen hfuel hseq hMA hE
    have hn : st.G.vertices.length = K.length := by
      rw [← hL.2.2.1]; simp [mapKeys]
    have hle := length_le_of_nodup_subset hAnd hAK
    by_cases hc : i < st.G.vertices.length - 1
    · obtain ⟨hG, hTot, hK, hM, hR⟩ := hL
      obtain ⟨u0, hu0K, hu0A⟩ := exists_not_mem_of_length_lt (A := A) hKnd (by omega)
      obtain ⟨top, tn, heap1, htop, htn, hRm, hmax, hpop, hR1⟩ :=
        @HeapRep_pop _ _ _ _ hR u0 ⟨hu0K, hu0A⟩
      obtain ⟨st1, hadd, hG1, hTot1, hK1, hM1, hR1', hs1, hn1⟩ :=
        add_core T hT K A tn.payload { st with heap := heap1 } _ _ hG hTot hK hM hRm.1 hR1
          (fun _ _ _ => rfl) (fun h => absurd rfl h.2) (fun u h1 h2 h3 => ⟨⟨h1, h2⟩, h3⟩)
      have hL1 : LoopInv T K (A ++ [tn.payload]) st1 := by
        refine ⟨hG1, hTot1, hK1, hM1, HeapRep_congr hR1' ?_ ?_⟩
        · intro u
          simp only [List.mem_append, List.mem_singleton, not_or]
          tauto
        · intro u hu
          simp [hu.2]
      have hE1 : ∀ p, wsumI st1.G.edges p = wsumI E0 p := fun p => (hs1 p).trans (hE p)
      have hMA1 : MaxAdjSoFar E0 K (A ++ [tn.payload]) := by
        intro pre x post hsplit u huK hupre
        rcases split_concat hsplit.symm with ⟨-, h2, h3⟩ | ⟨post', -, h2⟩
        · subst h2
          subst h3
          have := hmax u ⟨huK, hupre⟩
          rw [tightness_transfer hE, tightness_transfer hE] at this
          exact this
        · exact hMA pre x post' h2 u huK hupre
      obtain ⟨init, hinit⟩ := hseq
      obtain ⟨st', ab', al', A', hloop, hL', hnd', hAK', hlen', hseq', hMA', hE', hhead, hvs'⟩ :=
        ih (i + 1) st1 (A ++ [tn.payload]) al tn.payload hL1
          (by
            rw [List.nodup_append]
            refine ⟨hAnd, List.nodup_singleton _, ?_⟩
            intro x hx hx'
            have : x = tn.payload := by simpa using hx'
            exact hRm.2 (this ▸ hx))
          (by
            intro x hx
            rcases List.mem_append.mp hx with h | h
            · exact hAK x h
            · have : x = tn.payload := by simpa using h
              rw [this]; exact hRm.1)
          (by simp [hlen]) (by omega)
          ⟨init ++ [ab], by
            rw [← List.cons_append, hinit]; simp⟩
          hMA1 hE1
      refine ⟨st', ab', al', A', ?_, hL', hnd', hAK', hlen', hseq', hMA', hE', ?_,
        hvs'.trans hn1⟩
      · simp only [MinCut.phase_loop, hc, if_true, htop, htn, hpop, hadd, Option.bind_eq_bind,
          Option.some_bind]
        exact hloop
      · rw [hhead]
        cases A with
        | nil => simp at hlen
        | cons a0 A0 => rfl
    · refine ⟨st, ab, al, A, ?_, hL, hAnd, hAK, by omega, hseq, hMA, hE, rfl, rfl⟩
      simp only [MinCut.phase_loop, hc, if_false]

theorem MapWF_keys_nodup {V : Type} {m : List (Nat × V)} (h : MapWF m) : (mapKeys m).Nodup :=
  SetWF_nodup h

/-- The loop of `phase` returns; it has added every vertex, starting from `a`, in a maximum
adjacency ordering, and has changed the graph by empty edge records only. -/
theorem phase_order_spec (mc : MinCut) (T : Int) (hT : T < INT_MAX) (hG : mc.G.RunInv)
    (hTot : total_weight mc.G.edges ≤ T) (ha : mc.a ∈ mapKeys mc.G.vertices)
    (hn : 2 ≤ mc.G.vertices.length) :
    ∃ st init s t, MinCut.phase_order mc = some (st, s, t) ∧
      st.G.RunInv ∧ st.G.vertices = mc.G.vertices ∧
      (∀ p, wsumI st.G.edges p = wsumI mc.G.edges p) ∧
      (init ++ [s, t]).Nodup ∧ (∀ x, x ∈ init ++ [s, t] ↔ x ∈ mapKeys mc.G.vertices) ∧
      (init ++ [s, t]).head? = some mc.a ∧ MaxAdjOrder st.G.edges (init ++ [s, t]) := by
  have hKnd : (mapKeys mc.G.vertices).Nodup := MapWF_keys_nodup hG.1.1
  obtain ⟨h0, nodes0, hpush, hR0⟩ := push_all_spec (mapKeys mc.G.vertices) hKnd {} []
    (fun _ => False) (fun _ => 0) HeapRep_empty (fun _ _ h => h)
  obtain ⟨st1, hadd, hG1, hTot1, hK1, hM1, hR1, hs1, hn1⟩ :=
    add_core T hT (mapKeys mc.G.vertices) [] mc.a
      { G := mc.G, heap := h0, nodes := nodes0, marked := [] } _ _ hG hTot rfl
      (by intro e; simp) ha hR0
      (by intro u _ _; rw [tightness_nil]; simp)
      (by intro _; simp)
      (fun u h1 _ _ => Or.inr h1)
  obtain ⟨na, heap2, hfind, hrem, hR2⟩ := HeapRep_remove hR1 (a := mc.a) (Or.inr ha) (by
    intro u _
    by_cases hu : u = mc.a
    · simp only [hu, if_true]
      have : (0 : Int) < INT_MAX := by decide
      exact this
    · simp only [hu, if_false]
      have := tightness_le_total hG1.2.2.2 ([] ++ [mc.a]) u
      omega)
  have hL2 : LoopInv T (mapKeys mc.G.vertices) [mc.a]
      { st1 with heap := heap2, nodes := mapErase st1.nodes mc.a } := by
    refine ⟨hG1, hTot1, hK1, hM1, HeapRep_congr hR2 ?_ ?_⟩
    · intro u
      simp only [List.mem_singleton, false_or]
    · intro u hu
      simp [hu.2]
  have hlenK : (mapKeys mc.G.vertices).length = mc.G.vertices.length := by simp [mapKeys]
  have hlen1 : st1.G.vertices.length = mc.G.vertices.length := by
    rw [← hlenK, ← hK1]; simp [mapKeys]
  obtain ⟨st', ab', al', A', hloop, hL', hnd', hAK', hlen', ⟨init, hinit⟩, hMA', hE', hhead,
      hvs'⟩ :=
    phase_loop_spec T hT (mapKeys mc.G.vertices) hKnd mc.G.edges st1.G.vertices.length 0
      { st1 with heap := heap2, nodes := mapErase st1.nodes mc.a } [mc.a] 9999 mc.a hL2
      (List.nodup_singleton _) (by intro x hx; simp at hx; rw [hx]; exact ha) rfl
      (by rw [hlenK, hlen1]; omega) ⟨[], rfl⟩
      (by
        intro pre v post hsplit u _ _
        have hpre : pre = [] := by
          cases pre with
          | nil => rfl
          | cons x xs =>
            have := congrArg List.length hsplit
            simp at this
        subst hpre
        rw [tightness_nil, tightness_nil])
      hs1
  obtain ⟨init', hinit'⟩ : ∃ init', A' = init' ++ [ab', al'] := by
    cases init with
    | nil =>
      have := congrArg List.length hinit
      simp only [List.length_cons, List.nil_append, List.length_nil] at this
      omega
    | cons x xs =>
      simp only [List.cons_append, List.cons.injEq] at hinit
      exact ⟨xs, hinit.2⟩
  have hperm : A'.Perm (mapKeys mc.G.vertices) :=
    (List.Nodup.subperm hnd' hAK').perm_of_length_le (by omega)
  refine ⟨st', init', ab', al', ?_, hL'.1, ?_, hE', hinit' ▸ hnd', ?_, ?_, ?_⟩
  · unfold MinCut.phase_order
    simp only [hpush, hadd, hfind, hrem, Option.bind_eq_bind, Option.some_bind]
    exact hloop
  · exact hvs'.trans hn1
  · intro x
    rw [← hinit']
    exact hperm.mem_iff
  · rw [← hinit', hhead]; rfl
  · rw [← hinit']
    intro pre v post hsplit u hu
    have h1 := hMA' pre v post hsplit u (hAK' u (by rw [hsplit]; simp [hu])) (by
      intro hupre
      rw [hsplit] at hnd'
      have := (List.nodup_append.mp hnd').2.2
      exact this hupre (List.mem_cons_of_mem _ hu))
    rw [tightness_transfer hE', tightness_transfer hE']
    exact h1


/-! ## The graph during `run`: input graphs, merges -/

theorem InputGraph_addEdges {G : HyperGraph} (h : InputGraph G) : AddEdges G := by
  induction h with
  | empty => exact AddEdges.empty
  | add_edge G e vs w _ hf hvs hlen _ ih => exact AddEdges.add_edge G e vs w ih hf hvs hlen

theorem InputGraph_VertexAdj {G : HyperGraph} (h : InputGraph G) : G.VertexAdj := by
  induction h with
  | empty => intro v V hV; simp [mapFind] at hV
  | add_edge G e vs w _ hf hvs _ _ ih =>
    intro v V' hV' e' he'
    rw [add_edge_vertices_find G e vs w hvs] at hV'
    rw [add_edge_edges_find]
    have hold : ∀ V, mapFind G.vertices v = some V → e' ∈ V.edges →
        ∃ E, (if e' = e then some ({ vertices := vs, weight := w } : Edge)
          else mapFind G.edges e') = some E ∧ v ∈ E.vertices := by
      intro V hV heV
      obtain ⟨E, hE, hvE⟩ := ih v V hV e' heV
      have hne : e' ≠ e := by
        intro h; rw [h, hf] at hE; cases hE
      exact ⟨E, by simp [hne, hE], hvE⟩
    by_cases hv : v ∈ vs
    · simp only [hv, if_true, Option.some.injEq] at hV'
      subst hV'
      have he2 : e' ∈ setInsert e (mapGetD G.vertices v).edges := he'
      rw [mem_setInsert] at he2
      rcases he2 with h1 | h1
      · exact ⟨{ vertices := vs, weight := w }, by simp [h1], hv⟩
      · obtain ⟨V, hV, heV⟩ := mapGetD_default_vertices h1
        exact hold V hV heV
    · simp only [hv, if_false] at hV'
      exact hold V' hV' he'

theorem InputGraph_pos {G : HyperGraph} (h : InputGraph G) :
    ∀ e E, mapFind G.edges e = some E → 0 < E.weight := by
  induction h with
  | empty => intro e E hE; simp [mapFind] at hE
  | add_edge G e vs w _ _ _ _ hw ih =>
    intro e' E' hE'
    rw [add_edge_edges_find] at hE'
    by_cases he : e' = e
    · simp only [he, if_true, Option.some.injEq] at hE'
      rw [← hE']
      exact hw
    · simp only [he, if_false] at hE'
      exact ih e' E' hE'

theorem InputGraph_RunInv {G : HyperGraph} (h : InputGraph G) : G.RunInv := by
  obtain ⟨hwf, hadj, -⟩ := Built_inv (AddEdges_built (InputGraph_addEdges h))
  refine ⟨hwf, hadj, ?_, ?_⟩
  · intro v V hV e he E hE
    obtain ⟨E', hE', hv⟩ := InputGraph_VertexAdj h v V hV e he
    rw [hE] at hE'
    cases hE'
    exact Or.inl hv
  · intro it hit
    exact le_of_lt (InputGraph_pos h it.1 it.2 (mapFind_of_mem hwf.2.1 hit))

theorem contracted_nil (a b : VID) (E : Edge) (h : E.vertices = []) :
    contracted a b E = [a] := by
  simp [contracted, h, setErase, setInsert]

theorem merge_VertexAdjEmpty (G : HyperGraph) (a b : VID) (hwf : G.WF) (hab : a ≠ b)
    (ha : a ∈ mapKeys G.vertices) (hb : b ∈ mapKeys G.vertices) (h : G.VertexAdjEmpty) :
    (G.merge a b).VertexAdjEmpty := by
  obtain ⟨A, hA⟩ := (mem_mapKeys _ _).mp ha
  obtain ⟨B, hB⟩ := (mem_mapKeys _ _).mp hb
  obtain ⟨Af, hAf, -, hAe, hMb, hMo, hMe, -, -⟩ := merge_spec G a b A B hwf hab hA hB
  intro v V' hV' e' he' E' hE'
  rw [hMe] at hE'
  by_cases hvb : v = b
  · subst hvb; rw [hMb] at hV'; cases hV'
  by_cases h1 : e' ∈ B.edges
  · simp only [h1, if_true] at hE'
    by_cases h2 : (contracted a b (mapGetD G.edges e')).length ≤ 1
    · simp [h2] at hE'
    · simp only [h2, if_false, Option.some.injEq] at hE'
      subst hE'
      left
      show v ∈ setInsert a (setErase b (mapGetD G.edges e').vertices)
      rw [mem_setInsert, mem_setErase]
      by_cases hva : v = a
      · exact Or.inl hva
      · right
        rw [hMo v hva hvb] at hV'
        refine ⟨?_, hvb⟩
        cases hf : mapFind G.edges e' with
        | none =>
          exfalso
          apply h2
          simp [contracted, mapGetD, hf, default, instInhabitedEdge, setErase, setInsert]
        | some E0 =>
          rw [mapGetD_of_find hf]
          rcases h v V' hV' e' he' E0 hf with h3 | h3
          · exact h3
          · exfalso
            apply h2
            rw [mapGetD_of_find hf, contracted_nil a b E0 h3]
            simp
  · simp only [h1, if_false] at hE'
    by_cases hva : v = a
    · subst hva
      rw [hAf] at hV'; cases hV'
      rcases (hAe e').mp he' with h3 | h3
      · exact h v A hA e' h3 E' hE'
      · exact absurd h3.1 h1
    · rw [hMo v hva hvb] at hV'
      exact h v V' hV' e' he' E' hE'

theorem merge_edge_weight {a b : VID} {Be : List EID} {it it' : EID × Edge}
    (h : merge_edge a b Be it = some it') : it'.2.weight = it.2.weight := by
  unfold merge_edge at h
  split at h
  · split at h
    · cases h
    · cases h; rfl
  · cases h; rfl

theorem total_weight_filterMap_le (g : EID × Edge → Option (EID × Edge))
    (hg : ∀ it it', g it = some it' → it'.2.weight = it.2.weight)
    (edges : List (EID × Edge)) (hw : ∀ it ∈ edges, 0 ≤ it.2.weight) :
    total_weight (edges.filterMap g) ≤ total_weight edges := by
  induction edges with
  | nil => simp [total_weight]
  | cons it t ih =>
    have ih' := ih (fun i hi => hw i (List.mem_cons_of_mem _ hi))
    have h0 := hw it (List.mem_cons_self _ _)
    unfold total_weight at ih' ⊢
    cases h : g it with
    | none =>
      rw [List.filterMap_cons_none h]
      simp only [List.map_cons, List.sum_cons]
      omega
    | some it' =>
      rw [List.filterMap_cons_some h]
      simp only [List.map_cons, List.sum_cons, hg it it' h]
      omega

theorem merge_RunInv (G : HyperGraph) (a b : VID) (hG : G.RunInv) (hab : a ≠ b)
    (ha : a ∈ mapKeys G.vertices) (hb : b ∈ mapKeys G.vertices) :
    (G.merge a b).RunInv ∧ total_weight (G.merge a b).edges ≤ total_weight G.edges := by
  obtain ⟨hwf, hadj, hadj', hnn⟩ := hG
  obtain ⟨A, hA⟩ := (mem_mapKeys _ _).mp ha
  obtain ⟨B, hB⟩ := (mem_mapKeys _ _).mp hb
  obtain ⟨Af, -, -, -, -, -, -, -, hwfM⟩ := merge_spec G a b A B hwf hab hA hB
  have he := merge_edges_eq G a b A B hwf hab hA hB
  refine ⟨⟨hwfM, merge_EdgeAdj G a b hwf hab ha hb hadj,
    merge_VertexAdjEmpty G a b hwf hab ha hb hadj', ?_⟩, ?_⟩
  · intro it' hit'
    rw [he] at hit'
    obtain ⟨it, hit, hg⟩ := List.mem_filterMap.mp hit'
    rw [merge_edge_weight hg]
    exact hnn it hit
  · rw [he]
    exact total_weight_filterMap_le _ (fun _ _ h => merge_edge_weight h) _ hnn

/-- Crossing weights before and after `merge(a, b)` for a pair that has `a` and `b` on the
side `X`, in a graph that may hold empty edge records. -/
theorem crossing_weight_merge_same (G : HyperGraph) (a b : VID) (hG : G.RunInv) (hab : a ≠ b)
    (ha : a ∈ mapKeys G.vertices) (hb : b ∈ mapKeys G.vertices) (X Y : List VID)
    (haX : a ∈ X) (haY : a ∉ Y) (hbX : b ∈ X) (hbY : b ∉ Y) :
    crossing_weight (G.merge a b).edges X Y = crossing_weight G.edges X Y := by
  obtain ⟨hwf, hadj, hadj', -⟩ := hG
  obtain ⟨A, hA⟩ := (mem_mapKeys _ _).mp ha
  obtain ⟨B, hB⟩ := (mem_mapKeys _ _).mp hb
  rw [merge_edges_eq G a b A B hwf hab hA hB]
  have key : ∀ it ∈ G.edges,
      (it.1 ∈ B.edges → crosses (it.2.contract a b) X Y = crosses it.2 X Y ∧
        (crosses it.2 X Y = true → ¬ (contracted a b it.2).length ≤ 1)) ∧
      (it.1 ∉ B.edges → crosses it.2 X Y = crosses it.2 X Y) := by
    intro it hit
    have hf : mapFind G.edges it.1 = some it.2 := mapFind_of_mem hwf.2.1 hit
    constructor
    · intro h1
      rcases hadj' b B hB it.1 h1 it.2 hf with hbE | hnil
      · exact crosses_contract a b it.2 X Y X Y haY hbX hbY haX haY (fun _ _ _ => Iff.rfl) hbE
      · have hc1 : crosses it.2 X Y = false := by simp [crosses, hnil]
        have hc2 : crosses (it.2.contract a b) X Y = false := by
          have : (it.2.contract a b).vertices = [a] := contracted_nil a b it.2 hnil
          simp [crosses, this, haY]
        rw [hc1, hc2]
        exact ⟨rfl, fun h => by cases h⟩
    · intro _
      rfl
  apply crossing_weight_filterMap
  · intro it hit hc
    obtain ⟨k1, k2⟩ := key it hit
    unfold merge_edge
    by_cases h1 : it.1 ∈ B.edges
    · obtain ⟨k3, k4⟩ := k1 h1
      have h2 := k4 hc
      simp only [h1, if_true, h2, if_false]
      exact ⟨_, rfl, rfl, k3.trans hc⟩
    · simp only [h1, if_false]
      exact ⟨_, rfl, rfl, hc⟩
  · intro it hit hc it' hg
    obtain ⟨k1, k2⟩ := key it hit
    unfold merge_edge at hg
    by_cases h1 : it.1 ∈ B.edges
    · obtain ⟨k3, -⟩ := k1 h1
      simp only [h1, if_true] at hg
      split at hg
      · cases hg
      · cases hg
        exact k3.trans hc
    · simp only [h1, if_false, Option.some.injEq] at hg
      subst hg
      exact hc


/-! ## The cut of a phase -/

theorem Respects_comm {G : HyperGraph} {X Y : List VID} (h : Respects G X Y) :
    Respects G Y X := fun it hit => (h it hit).symm

theorem Respects_of_merge (G : HyperGraph) (s t : VID) (hwf : G.WF) (hst : s ≠ t)
    (hs : s ∈ mapKeys G.vertices) (ht : t ∈ mapKeys G.vertices) (X Y : List VID)
    (h : Respects (G.merge s t) X Y) :
    Respects G X Y ∧ ((s ∈ X ∧ t ∈ X) ∨ (s ∈ Y ∧ t ∈ Y)) := by
  obtain ⟨S, hS⟩ := (mem_mapKeys _ _).mp hs
  obtain ⟨T, hT⟩ := (mem_mapKeys _ _).mp ht
  obtain ⟨Af, hAf, hmw, -, hMb, hMo, -, -, hwfM⟩ := merge_spec G s t S T hwf hst hS hT
  have hrec := h (s, Af) (mem_of_mapFind hAf)
  simp only [hmw, List.mem_append, List.mem_singleton] at hrec
  have key : ∀ Z : List VID, (s ∈ Z ∧ ∀ m, (m ∈ S.merged_with ∨ m = t) ∨ m ∈ T.merged_with → m ∈ Z) →
      ∀ it ∈ G.vertices, (it.1 = s ∨ it.1 = t) → it.1 ∈ Z ∧ ∀ m ∈ it.2.merged_with, m ∈ Z := by
    intro Z hZ it hit hcase
    have hf := mapFind_of_mem hwf.1 hit
    rcases hcase with h1 | h1
    · rw [h1, hS] at hf
      cases hf
      exact ⟨h1 ▸ hZ.1, fun m hm => hZ.2 m (Or.inl (Or.inl hm))⟩
    · rw [h1, hT] at hf
      cases hf
      exact ⟨h1 ▸ hZ.2 t (Or.inl (Or.inr rfl)), fun m hm => hZ.2 m (Or.inr hm)⟩
  constructor
  · intro it hit
    by_cases hcase : it.1 = s ∨ it.1 = t
    · rcases hrec with hX | hY
      · exact Or.inl (key X hX it hit hcase)
      · exact Or.inr (key Y hY it hit hcase)
    · have h1 : it.1 ≠ s := fun e => hcase (Or.inl e)
      have h2 : it.1 ≠ t := fun e => hcase (Or.inr e)
      have hf := mapFind_of_mem hwf.1 hit
      rw [← hMo it.1 h1 h2] at hf
      exact h it (mem_of_mapFind hf)
  · rcases hrec with hX | hY
    · exact Or.inl ⟨hX.1, hX.2 t (Or.inl (Or.inr rfl))⟩
    · exact Or.inr ⟨hY.1, hY.2 t (Or.inl (Or.inr rfl))⟩

theorem Respects_merge (G : HyperGraph) (s t : VID) (hwf : G.WF) (hst : s ≠ t)
    (hs : s ∈ mapKeys G.vertices) (ht : t ∈ mapKeys G.vertices) (X Y : List VID)
    (hdis : ∀ v, v ∈ X → v ∉ Y) (h : Respects G X Y)
    (hside : (s ∈ X ∧ t ∈ X) ∨ (s ∈ Y ∧ t ∈ Y)) : Respects (G.merge s t) X Y := by
  obtain ⟨S, hS⟩ := (mem_mapKeys _ _).mp hs
  obtain ⟨T, hT⟩ := (mem_mapKeys _ _).mp ht
  obtain ⟨Af, hAf, hmw, -, hMb, hMo, -, -, hwfM⟩ := merge_spec G s t S T hwf hst hS hT
  have hrS := h (s, S) (mem_of_mapFind hS)
  have hrT := h (t, T) (mem_of_mapFind hT)
  intro it hit
  have hf := mapFind_of_mem hwfM.1 hit
  by_cases h1 : it.1 = s
  · rw [h1, hAf] at hf
    cases hf
    simp only [hmw, List.mem_append, List.mem_singleton, h1]
    rcases hside with ⟨hsX, htX⟩ | ⟨hsY, htY⟩
    · left
      have a1 : ∀ m ∈ S.merged_with, m ∈ X := by
        rcases hrS with hx | hy
        · exact hx.2
        · exact absurd hy.1 (hdis s hsX)
      have a2 : ∀ m ∈ T.merged_with, m ∈ X := by
        rcases hrT with hx | hy
        · exact hx.2
        · exact absurd hy.1 (hdis t htX)
      refine ⟨hsX, ?_⟩
      rintro m ((hm | hm) | hm)
      · exact a1 m hm
      · rw [hm]; exact htX
      · exact a2 m hm
    · right
      have a1 : ∀ m ∈ S.merged_with, m ∈ Y := by
        rcases hrS with hx | hy
        · exact absurd hsY (hdis s hx.1)
        · exact hy.2
      have a2 : ∀ m ∈ T.merged_with, m ∈ Y := by
        rcases hrT with hx | hy
        · exact absurd htY (hdis t hx.1)
        · exact hy.2
      refine ⟨hsY, ?_⟩
      rintro m ((hm | hm) | hm)
      · exact a1 m hm
      · rw [hm]; exact htY
      · exact a2 m hm
  · by_cases h2 : it.1 = t
    · rw [h2, hMb] at hf
      cases hf
    · rw [hMo it.1 h1 h2] at hf
      exact h it (mem_of_mapFind hf)

theorem mem_all_ids (G : HyperGraph) (x : VID) :
    x ∈ G.all_ids ↔ ∃ it ∈ G.vertices, x = it.1 ∨ x ∈ it.2.merged_with := by
  simp [HyperGraph.all_ids, List.mem_flatMap]

/-- With a single vertex left, no partition into two non-empty sides keeps the merged
vertices together. -/
theorem not_Respects_of_single (G : HyperGraph) (K : List VID) (hlen : G.vertices.length ≤ 1)
    (hperm : G.all_ids.Perm K) (X Y : List VID) (hb : Bipartition K X Y) :
    ¬ Respects G X Y := by
  obtain ⟨hX, hY, hdis, hK⟩ := hb
  intro hR
  obtain ⟨x, hx⟩ := List.exists_mem_of_ne_nil X hX
  obtain ⟨y, hy⟩ := List.exists_mem_of_ne_nil Y hY
  have hxid : x ∈ G.all_ids := hperm.mem_iff.mpr ((hK x).mpr (Or.inl hx))
  have hyid : y ∈ G.all_ids := hperm.mem_iff.mpr ((hK y).mpr (Or.inr hy))
  obtain ⟨it, hit, hxit⟩ := (mem_all_ids G x).mp hxid
  obtain ⟨it', hit', hyit⟩ := (mem_all_ids G y).mp hyid
  have heq : it' = it := by
    match hv : G.vertices, hlen, hit, hit' with
    | [], _, h1, _ => simp at h1
    | [z], _, h1, h2 =>
      simp only [List.mem_singleton] at h1 h2
      rw [h1, h2]
    | _ :: _ :: _, h0, _, _ => simp at h0
  subst heq
  rcases hR it' hit with h1 | h1
  · have : y ∈ X := by
      rcases hyit with h | h
      · rw [h]; exact h1.1
      · exact h1.2 y h
    exact hdis y this hy
  · have : x ∈ Y := by
      rcases hxit with h | h
      · rw [h]; exact h1.1
      · exact h1.2 x h
    exact hdis x hx this

theorem Respects_initial (G : HyperGraph)
    (hmw : ∀ it ∈ G.vertices, it.2.merged_with = []) (X Y : List VID)
    (hb : Bipartition (mapKeys G.vertices) X Y) : Respects G X Y := by
  intro it hit
  have hk : it.1 ∈ mapKeys G.vertices := List.mem_map_of_mem Prod.fst hit
  rw [hmw it hit]
  rcases (hb.2.2.2 it.1).mp hk with h | h
  · exact Or.inl ⟨h, by simp⟩
  · exact Or.inr ⟨h, by simp⟩

theorem unmerge_side_fold (G : HyperGraph) (side : List VID)
    (hside : ∀ v ∈ side, v ∈ mapKeys G.vertices) (acc : VertexSet × HyperGraph)
    (hacc : acc.2 = G) (hwf : SetWF acc.1) :
    (side.foldl
      (fun (acc : VertexSet × HyperGraph) v =>
        (setInsertAll (mapGetD acc.2.vertices v).merged_with (setInsert v acc.1),
         ({ acc.2 with vertices := mapTouch acc.2.vertices v } : HyperGraph))) acc).2 = G ∧
    SetWF (side.foldl
      (fun (acc : VertexSet × HyperGraph) v =>
        (setInsertAll (mapGetD acc.2.vertices v).merged_with (setInsert v acc.1),
         ({ acc.2 with vertices := mapTouch acc.2.vertices v } : HyperGraph))) acc).1 ∧
    ∀ x, x ∈ (side.foldl
      (fun (acc : VertexSet × HyperGraph) v =>
        (setInsertAll (mapGetD acc.2.vertices v).merged_with (setInsert v acc.1),
         ({ acc.2 with vertices := mapTouch acc.2.vertices v } : HyperGraph))) acc).1 ↔
      (x ∈ acc.1 ∨ ∃ v ∈ side, x = v ∨ x ∈ (mapGetD G.vertices v).merged_with) := by
  induction side generalizing acc with
  | nil => exact ⟨hacc, hwf, by simp⟩
  | cons v vs ih =>
    simp only [List.foldl_cons]
    have hv : v ∈ mapKeys G.vertices := hside v (List.mem_cons_self _ _)
    have h2 : ({ acc.2 with vertices := mapTouch acc.2.vertices v } : HyperGraph) = G := by
      rw [hacc, mapTouch_of_mem _ _ hv]
    obtain ⟨i1, i2, i3⟩ := ih (fun u hu => hside u (List.mem_cons_of_mem _ hu))
      (setInsertAll (mapGetD acc.2.vertices v).merged_with (setInsert v acc.1),
       ({ acc.2 with vertices := mapTouch acc.2.vertices v } : HyperGraph)) h2
      (SetWF_setInsertAll _ (SetWF_setInsert v hwf))
    refine ⟨i1, i2, ?_⟩
    intro x
    rw [i3]
    simp only [mem_setInsertAll, mem_setInsert, hacc, List.mem_cons]
    constructor
    · rintro ((h | h | h) | ⟨u, hu, h⟩)
      · exact Or.inr ⟨v, Or.inl rfl, Or.inr h⟩
      · exact Or.inr ⟨v, Or.inl rfl, Or.inl h⟩
      · exact Or.inl h
      · exact Or.inr ⟨u, Or.inr hu, h⟩
    · rintro (h | ⟨u, hu | hu, h⟩)
      · exact Or.inl (Or.inr (Or.inr h))
      · rw [hu] at h
        rcases h with h | h
        · exact Or.inl (Or.inr (Or.inl h))
        · exact Or.inl (Or.inl h)
      · exact Or.inr ⟨u, hu, h⟩

theorem unmerge_side_spec (G : HyperGraph) (side : List VID)
    (hside : ∀ v ∈ side, v ∈ mapKeys G.vertices) :
    (Cut.unmerge_side side G).2 = G ∧ SetWF (Cut.unmerge_side side G).1 ∧
    ∀ x, x ∈ (Cut.unmerge_side side G).1 ↔
      ∃ v ∈ side, x = v ∨ x ∈ (mapGetD G.vertices v).merged_with := by
  obtain ⟨h1, h2, h3⟩ := unmerge_side_fold G side hside ([], G) rfl SetWF_nil
  refine ⟨h1, h2, ?_⟩
  intro x
  have := h3 x
  simp only [List.not_mem_nil, false_or] at this
  exact this

theorem crosses_congr (E : Edge) (X Y X' Y' : List VID)
    (h : ∀ v ∈ E.vertices, (v ∈ X ↔ v ∈ X') ∧ (v ∈ Y ↔ v ∈ Y')) :
    crosses E X Y = crosses E X' Y' := by
  rw [Bool.eq_iff_iff, crosses_iff, crosses_iff]
  constructor
  · rintro ⟨⟨v, hv, hvx⟩, ⟨u, hu, huy⟩⟩
    exact ⟨⟨v, hv, (h v hv).1.mp hvx⟩, ⟨u, hu, (h u hu).2.mp huy⟩⟩
  · rintro ⟨⟨v, hv, hvx⟩, ⟨u, hu, huy⟩⟩
    exact ⟨⟨v, hv, (h v hv).1.mpr hvx⟩, ⟨u, hu, (h u hu).2.mpr huy⟩⟩

theorem crossing_weight_congr (edges : List (EID × Edge)) (X Y X' Y' : List VID)
    (h : ∀ it ∈ edges, ∀ v ∈ it.2.vertices, (v ∈ X ↔ v ∈ X') ∧ (v ∈ Y ↔ v ∈ Y')) :
    crossing_weight edges X Y = crossing_weight edges X' Y' := by
  rw [crossing_weight_eq_wsum, crossing_weight_eq_wsum]
  unfold wsum
  apply wsumI_congr
  intro it hit
  exact crosses_congr it.2 X Y X' Y' (h it hit)

theorem crossing_weight_nonneg {edges : List (EID × Edge)} (hw : ∀ it ∈ edges, 0 ≤ it.2.weight)
    (X Y : List VID) : 0 ≤ crossing_weight edges X Y := by
  rw [crossing_weight_eq_wsum]
  exact wsum_nonneg hw _

theorem crossing_weight_le_total {edges : List (EID × Edge)}
    (hw : ∀ it ∈ edges, 0 ≤ it.2.weight) (X Y : List VID) :
    crossing_weight edges X Y ≤ total_weight edges := by
  rw [crossing_weight_eq_wsum]
  exact wsumI_le_total hw _

theorem phase_cut_eq (G : HyperGraph) (t : VID) (ht : t ∈ mapKeys G.vertices) :
    (phase_cut G t).value
      = HyperGraph.cut_value G.edges [t] (set_difference (mapKeys G.vertices) [t]) ∧
    SetWF (phase_cut G t).left ∧ SetWF (phase_cut G t).right ∧
    (∀ x, x ∈ (phase_cut G t).left ↔ (x = t ∨ x ∈ (mapGetD G.vertices t).merged_with)) ∧
    (∀ x, x ∈ (phase_cut G t).right ↔ ∃ v ∈ mapKeys G.vertices, v ≠ t ∧
      (x = v ∨ x ∈ (mapGetD G.vertices v).merged_with)) ∧
    ((G.cut [t]).1.unmerge (G.cut [t]).2).2 = G := by
  obtain ⟨l1, l2, l3⟩ := unmerge_side_spec G [t] (by intro v hv; simp at hv; rw [hv]; exact ht)
  obtain ⟨r1, r2, r3⟩ := unmerge_side_spec G (set_difference (mapKeys G.vertices) [t]) (by
    intro v hv
    exact ((mem_set_difference _ _ _).mp hv).1)
  have hR : (phase_cut G t).right
      = (Cut.unmerge_side (set_difference (mapKeys G.vertices) [t]) G).1 := by
    show (Cut.unmerge_side (set_difference (mapKeys G.vertices) [t])
      (Cut.unmerge_side [t] G).2).1 = _
    rw [l1]
  have hG2 : ((G.cut [t]).1.unmerge (G.cut [t]).2).2 = G := by
    show (Cut.unmerge_side (set_difference (mapKeys G.vertices) [t])
      (Cut.unmerge_side [t] G).2).2 = _
    rw [l1, r1]
  refine ⟨rfl, l2, by rw [hR]; exact r2, ?_, ?_, hG2⟩
  · intro x
    have := l3 x
    simp only [List.mem_singleton, exists_eq_left] at this
    exact this
  · intro x
    rw [hR, r3]
    constructor
    · rintro ⟨v, hv, h⟩
      obtain ⟨h1, h2⟩ := (mem_set_difference _ _ _).mp hv
      exact ⟨v, h1, by simpa using h2, h⟩
    · rintro ⟨v, h1, h2, h⟩
      exact ⟨v, (mem_set_difference _ _ _).mpr ⟨h1, by simpa using h2⟩, h⟩

/-- The statements of `phase` after its loop leave the graph with the last two vertices merged
and replace `best_cut` by the cut of the phase when that one is smaller. -/
theorem phase_end_eq (mc : MinCut) (G : HyperGraph) (s t : VID)
    (ht : t ∈ mapKeys G.vertices) :
    MinCut.phase_end mc G s t =
      { best_cut := if (phase_cut G t).value ≤ mc.best_cut.value ∧
            (phase_cut G t).lt mc.best_cut = true then phase_cut G t else mc.best_cut,
        a := mc.a, G := G.merge s t } := by
  have hG2 := (phase_cut_eq G t ht).2.2.2.2.2
  have hc2 : (G.cut [t]).2 = G := rfl
  unfold MinCut.phase_end
  have hv : (G.cut [t]).1.value = (phase_cut G t).value := rfl
  have hu : ((G.cut [t]).1.unmerge (G.cut [t]).2).1 = phase_cut G t := rfl
  by_cases h1 : (phase_cut G t).value ≤ mc.best_cut.value
  · by_cases h2 : (phase_cut G t).lt mc.best_cut = true
    · simp only [hv, hu, h1, h2, if_true, hG2, and_self]
    · simp only [hv, hu, h1, h2, if_true, hG2, and_false, if_false]
      simp
  · simp only [hv, h1, if_false, hc2, false_and]

/-- The cut of a phase, unmerged, is a partition of all vertex identifiers that keeps merged
vertices together, and its value is its weight in the current graph. -/
theorem phase_cut_good (G : HyperGraph) (t : VID) (hG : G.RunInv) (hnd : G.all_ids.Nodup)
    (ht : t ∈ mapKeys G.vertices) (hother : ∃ v ∈ mapKeys G.vertices, v ≠ t)
    (hTot : total_weight G.edges < INT_MAX) :
    Bipartition G.all_ids (phase_cut G t).left (phase_cut G t).right ∧
    SetWF (phase_cut G t).left ∧ SetWF (phase_cut G t).right ∧
    Respects G (phase_cut G t).left (phase_cut G t).right ∧
    (phase_cut G t).value
      = crossing_weight G.edges [t] (set_difference (mapKeys G.vertices) [t]) ∧
    (phase_cut G t).value
      = crossing_weight G.edges (phase_cut G t).left (phase_cut G t).right := by
  obtain ⟨hwf, hadj, -, hnn⟩ := hG
  obtain ⟨w1, w2, w3, w4⟩ := (HyperGraph_WF_iff G).mp hwf
  obtain ⟨hval, hl, hr, hleft, hright, -⟩ := phase_cut_eq G t ht
  obtain ⟨T, hT⟩ := (mem_mapKeys _ _).mp ht
  have hgT : mapGetD G.vertices t = T := mapGetD_of_find hT
  rw [hgT] at hleft
  have hdisj : ∀ x, x ∈ (phase_cut G t).left → x ∉ (phase_cut G t).right := by
    intro x hx hx'
    obtain ⟨v, hv, hvt, hxv⟩ := (hright x).mp hx'
    obtain ⟨V, hV⟩ := (mem_mapKeys _ _).mp hv
    rw [mapGetD_of_find hV] at hxv
    have h1 : x ∈ t :: T.merged_with := by
      rcases (hleft x).mp hx with h | h
      · rw [h]; exact List.mem_cons_self _ _
      · exact List.mem_cons_of_mem _ h
    have h2 : x ∈ v :: V.merged_with := by
      rcases hxv with h | h
      · rw [h]; exact List.mem_cons_self _ _
      · exact List.mem_cons_of_mem _ h
    exact disjoint_histories hnd hT hV (Ne.symm hvt) h1 h2
  have hvalue : (phase_cut G t).value
      = crossing_weight G.edges [t] (set_difference (mapKeys G.vertices) [t]) := by
    have hsd : SetWF (set_difference (mapKeys G.vertices) [t]) :=
      SetWF_set_difference (a := mapKeys G.vertices) [t] w1
    rw [hval, cut_value_eq G.edges [t] (set_difference (mapKeys G.vertices) [t])
      (fun it hit => hwf.2.2.1 it hit) (by simp [SetWF]) hsd]
    apply wrapInt_of_range
    · have := crossing_weight_nonneg hnn [t] (set_difference (mapKeys G.vertices) [t])
      omega
    · have := crossing_weight_le_total hnn [t] (set_difference (mapKeys G.vertices) [t])
      omega
  have hkeyL : ∀ v, v ∈ mapKeys G.vertices → (v ∈ [t] ↔ v ∈ (phase_cut G t).left) := by
    intro v hv
    obtain ⟨V, hV⟩ := (mem_mapKeys _ _).mp hv
    rw [hleft]
    constructor
    · intro h
      left
      simpa using h
    · rintro (h | h)
      · simp [h]
      · by_cases hvt : v = t
        · simp [hvt]
        · exact absurd (List.mem_cons_of_mem _ h)
            (disjoint_histories hnd hV hT hvt (List.mem_cons_self _ _))
  have hkeyR : ∀ v, v ∈ mapKeys G.vertices →
      (v ∈ set_difference (mapKeys G.vertices) [t] ↔ v ∈ (phase_cut G t).right) := by
    intro v hv
    obtain ⟨V, hV⟩ := (mem_mapKeys _ _).mp hv
    rw [hright, mem_set_difference]
    constructor
    · rintro ⟨-, h⟩
      exact ⟨v, hv, by simpa using h, Or.inl rfl⟩
    · rintro ⟨u, hu, hut, h⟩
      obtain ⟨U, hU⟩ := (mem_mapKeys _ _).mp hu
      rw [mapGetD_of_find hU] at h
      have hvu : v = u := by
        rcases h with h | h
        · exact h
        · by_contra hne
          exact absurd (List.mem_cons_of_mem _ h)
            (disjoint_histories hnd hV hU hne (List.mem_cons_self _ _))
      refine ⟨hv, ?_⟩
      rw [hvu]
      simpa using hut
  refine ⟨⟨?_, ?_, hdisj, ?_⟩, hl, hr, ?_, hvalue, ?_⟩
  · intro h
    have : t ∈ (phase_cut G t).left := (hleft t).mpr (Or.inl rfl)
    rw [h] at this
    simp at this
  · intro h
    obtain ⟨v, hv, hvt⟩ := hother
    have : v ∈ (phase_cut G t).right := (hright v).mpr ⟨v, hv, hvt, Or.inl rfl⟩
    rw [h] at this
    simp at this
  · intro x
    rw [mem_all_ids]
    constructor
    · rintro ⟨it, hit, hx⟩
      have hf := mapFind_of_mem w1 hit
      by_cases h1 : it.1 = t
      · left
        rw [hleft]
        rw [h1, hT] at hf
        cases hf
        rw [h1] at hx
        exact hx
      · right
        rw [hright]
        exact ⟨it.1, (mem_mapKeys _ _).mpr ⟨_, hf⟩, h1, by rw [mapGetD_of_find hf]; exact hx⟩
    · rintro (h | h)
      · exact ⟨(t, T), mem_of_mapFind hT, (hleft x).mp h⟩
      · obtain ⟨v, hv, -, hxv⟩ := (hright x).mp h
        obtain ⟨V, hV⟩ := (mem_mapKeys _ _).mp hv
        rw [mapGetD_of_find hV] at hxv
        exact ⟨(v, V), mem_of_mapFind hV, hxv⟩
  · intro it hit
    have hf := mapFind_of_mem w1 hit
    by_cases h1 : it.1 = t
    · left
      rw [h1, hT] at hf
      cases hf
      exact ⟨(hleft _).mpr (Or.inl h1), fun m hm => (hleft m).mpr (Or.inr hm)⟩
    · right
      have hk : it.1 ∈ mapKeys G.vertices := (mem_mapKeys _ _).mpr ⟨_, hf⟩
      refine ⟨(hright _).mpr ⟨it.1, hk, h1, Or.inl rfl⟩, ?_⟩
      intro m hm
      exact (hright m).mpr ⟨it.1, hk, h1, Or.inr (by rw [mapGetD_of_find hf]; exact hm)⟩
  · rw [hvalue]
    apply crossing_weight_congr
    intro it hit v hv
    obtain ⟨V, hV, -⟩ := hadj it.1 it.2 (mapFind_of_mem w2 hit) v hv
    have hk : v ∈ mapKeys G.vertices := (mem_mapKeys _ _).mpr ⟨V, hV⟩
    exact ⟨hkeyL v hk, hkeyR v hk⟩

/-- The cut of a phase is no heavier than any partition of the current vertices that separates
the last two vertices of the maximum adjacency ordering. -/
theorem phase_cut_min (G : HyperGraph) (hG : G.RunInv) (init : List VID) (s t : VID)
    (hnd : (init ++ [s, t]).Nodup)
    (hord : ∀ x, x ∈ init ++ [s, t] ↔ x ∈ mapKeys G.vertices)
    (hMA : MaxAdjOrder G.edges (init ++ [s, t])) (X Y : List VID)
    (hcover : ∀ v ∈ mapKeys G.vertices, v ∈ X ∨ v ∈ Y)
    (hsep : (s ∈ X ∧ t ∉ X) ∨ (s ∉ X ∧ t ∈ X)) :
    crossing_weight G.edges [t] (set_difference (mapKeys G.vertices) [t])
      ≤ crossing_weight G.edges X Y := by
  obtain ⟨-, -, -, hnn⟩ := hG
  have hst : (fun v => decide (v ∈ X)) s ≠ (fun v => decide (v ∈ X)) t := by
    rcases hsep with ⟨h1, h2⟩ | ⟨h1, h2⟩ <;> simp [h1, h2]
  have hkw := last_tightness_le G.edges hnn init s t hMA (fun v => decide (v ∈ X)) hst
  have htn : t ∉ init ++ [s] := by
    have h1 : init ++ [s, t] = (init ++ [s]) ++ [t] := by simp
    rw [h1] at hnd
    intro h
    exact (List.nodup_append.mp hnd).2.2 h (List.mem_singleton_self t)
  have e1 : crossing_weight G.edges [t] (set_difference (mapKeys G.vertices) [t])
      = tightness G.edges (init ++ [s]) t := by
    rw [crossing_weight_eq_wsum]
    unfold tightness wsum
    apply wsumI_congr
    intro it _
    rw [Bool.eq_iff_iff, crosses_iff, ties_iff]
    constructor
    · rintro ⟨⟨v, hv, hvt⟩, ⟨u, hu, hur⟩⟩
      have : v = t := by simpa using hvt
      obtain ⟨h1, h2⟩ := (mem_set_difference _ _ _).mp hur
      have h3 : u ≠ t := by simpa using h2
      have h4 := (hord u).mpr h1
      refine ⟨this ▸ hv, u, hu, ?_⟩
      simp only [List.mem_append, List.mem_cons, List.mem_singleton, List.not_mem_nil,
        or_false] at h4 ⊢
      tauto
    · rintro ⟨hv, u, hu, hur⟩
      refine ⟨⟨t, hv, by simp⟩, u, hu, ?_⟩
      rw [mem_set_difference]
      refine ⟨(hord u).mp ?_, ?_⟩
      · simp only [List.mem_append, List.mem_cons, List.mem_singleton, List.not_mem_nil,
          or_false] at hur ⊢
        tauto
      · have : u ≠ t := fun e => htn (e ▸ hur)
        simpa using this
  rw [e1]
  refine le_trans hkw ?_
  rw [crossing_weight_eq_wsum]
  apply wsum_le_wsum hnn
  intro it _ hsp
  rw [splits_iff] at hsp
  rw [crosses_iff]
  obtain ⟨⟨a, ha1, ha2, ha3⟩, ⟨b, hb1, hb2, hb3⟩⟩ := hsp
  refine ⟨⟨a, ha1, by simpa using ha3⟩, ⟨b, hb1, ?_⟩⟩
  have hbX : b ∉ X := by simpa using hb3
  rcases hcover b ((hord b).mp hb2) with h | h
  · exact absurd h hbX
  · exact h


/-! ## The driver: one phase, then all of them -/

theorem key_mem_all_ids (G : HyperGraph) {v : VID} (hv : v ∈ mapKeys G.vertices) :
    v ∈ G.all_ids := by
  obtain ⟨V, hV⟩ := (mem_mapKeys _ _).mp hv
  exact (mem_all_ids G v).mpr ⟨(v, V), mem_of_mapFind hV, Or.inl rfl⟩

theorem length_setErase {K : List Nat} (hK : K.Nodup) {t : Nat} (ht : t ∈ K) :
    (setErase t K).length + 1 = K.length := by
  have h1 : setErase t K = K.erase t := by
    unfold setErase
    rw [List.Nodup.erase_eq_filter hK]
  rw [h1, List.length_erase_of_mem ht]
  have := List.length_pos_of_mem ht
  omega

theorem crossing_weight_transfer {E E' : List (EID × Edge)} (h : ∀ p, wsumI E' p = wsumI E p)
    (X Y : List VID) : crossing_weight E' X Y = crossing_weight E X Y := by
  rw [crossing_weight_eq_wsum, crossing_weight_eq_wsum]
  unfold wsum
  exact h _

theorem total_weight_transfer {E E' : List (EID × Edge)} (h : ∀ p, wsumI E' p = wsumI E p) :
    total_weight E' = total_weight E := by
  rw [total_weight_eq_wsumI, total_weight_eq_wsumI]
  exact h _

theorem head_ne_last {init : List VID} {s t a : VID} (hnd : (init ++ [s, t]).Nodup)
    (hhead : (init ++ [s, t]).head? = some a) : a ≠ t ∧ s ≠ t := by
  have h1 : init ++ [s, t] = (init ++ [s]) ++ [t] := by simp
  have hnd' := hnd
  rw [h1] at hnd'
  have hdis := (List.nodup_append.mp hnd').2.2
  have ht : ∀ x, x ∈ init ++ [s] → x ≠ t := fun x hx e =>
    hdis hx (by rw [e]; exact List.mem_singleton_self t)
  refine ⟨?_, ht s (by simp)⟩
  cases init with
  | nil =>
    simp only [List.nil_append, List.head?_cons, Option.some.injEq] at hhead
    rw [← hhead]
    exact ht s (by simp)
  | cons x xs =>
    simp only [List.cons_append, List.head?_cons, Option.some.injEq] at hhead
    rw [← hhead]
    exact ht x (by simp)

/-- One phase keeps the invariant of the driver, leaves a valid `best_cut`, and removes a
vertex. -/
theorem phase_step (G0 : HyperGraph) (hT0 : total_weight G0.edges < INT_MAX)
    (hK0 : (mapKeys G0.vertices).Nodup) (mc : MinCut) (hI : DriverInv G0 mc)
    (hn : 1 < mc.G.vertices.length) :
    ∃ mc', MinCut.phase mc = some mc' ∧ DriverInv G0 mc' ∧
      mc'.G.vertices.length + 1 = mc.G.vertices.length ∧
      GoodCut G0.edges (mapKeys G0.vertices) mc'.best_cut := by
  obtain ⟨hG, hTot, ha, hperm, hcons, hbest, hopt⟩ := hI
  obtain ⟨st, init, s, t, hpo, hG', hv', hs', hnd, hord, hhead, hMA⟩ :=
    phase_order_spec mc (total_weight G0.edges) hT0 hG hTot ha (by omega)
  have hkeys : mapKeys st.G.vertices = mapKeys mc.G.vertices := by rw [hv']
  have hids : st.G.all_ids = mc.G.all_ids := by unfold HyperGraph.all_ids; rw [hv']
  have htK : t ∈ mapKeys st.G.vertices := by rw [hkeys]; exact (hord t).mp (by simp)
  have hsK : s ∈ mapKeys st.G.vertices := by rw [hkeys]; exact (hord s).mp (by simp)
  obtain ⟨hat, hst⟩ := head_ne_last hnd hhead
  have hTot' : total_weight st.G.edges ≤ total_weight G0.edges := by
    rw [total_weight_transfer hs']; exact hTot
  have hndids : st.G.all_ids.Nodup := by
    rw [hids]; exact hperm.symm.nodup_iff.mp hK0
  have hRes : ∀ X Y, Respects st.G X Y ↔ Respects mc.G X Y := by
    intro X Y; unfold Respects; rw [hv']
  obtain ⟨gB, gL, gR, gRes, gval, gval'⟩ := phase_cut_good st.G t hG' hndids htK
    ⟨s, hsK, hst⟩ (by omega)
  have gBip : Bipartition (mapKeys G0.vertices) (phase_cut st.G t).left
      (phase_cut st.G t).right := by
    obtain ⟨b1, b2, b3, b4⟩ := gB
    refine ⟨b1, b2, b3, ?_⟩
    intro v
    rw [← b4, hids]
    exact hperm.mem_iff.symm
  have gGood : GoodCut G0.edges (mapKeys G0.vertices) (phase_cut st.G t) := by
    refine ⟨gBip, gL, gR, ?_⟩
    rw [gval', crossing_weight_transfer hs']
    exact hcons _ _ ((hRes _ _).mp gRes) gBip.2.2.1
  have gle : (phase_cut st.G t).value ≤ total_weight G0.edges := by
    rw [gval]
    have := crossing_weight_le_total hG'.2.2.2 [t] (set_difference (mapKeys st.G.vertices) [t])
    omega
  obtain ⟨hRI, hTotM⟩ := merge_RunInv st.G s t hG' hst hsK htK
  obtain ⟨S, hS⟩ := (mem_mapKeys _ _).mp hsK
  obtain ⟨T, hT⟩ := (mem_mapKeys _ _).mp htK
  obtain ⟨-, -, -, -, -, -, -, hMk, -⟩ := merge_spec st.G s t S T hG'.1 hst hS hT
  refine ⟨MinCut.phase_end mc st.G s t, ?_, ?_, ?_, ?_⟩
  · unfold MinCut.phase
    simp only [hpo, Option.bind_eq_bind, Option.some_bind]
  · rw [phase_end_eq mc st.G s t htK]
    refine ⟨hRI, le_trans hTotM hTot', ?_, ?_, ?_, ?_, ?_⟩
    · show mc.a ∈ mapKeys (st.G.merge s t).vertices
      rw [hMk, mem_setErase, hkeys]
      exact ⟨ha, hat⟩
    · show (st.G.merge s t).all_ids.Perm _
      exact (merge_all_ids st.G s t hG'.1 hst hsK htK).trans (hids ▸ hperm)
    · intro X Y hR hdis
      show crossing_weight (st.G.merge s t).edges X Y = _
      obtain ⟨hR', hside⟩ := Respects_of_merge st.G s t hG'.1 hst hsK htK X Y hR
      have hold : crossing_weight st.G.edges X Y = crossing_weight G0.edges X Y := by
        rw [crossing_weight_transfer hs']
        exact hcons X Y ((hRes X Y).mp hR') hdis
      rcases hside with ⟨h1, h2⟩ | ⟨h1, h2⟩
      · rw [crossing_weight_merge_same st.G s t hG' hst hsK htK X Y h1 (hdis s h1) h2
          (hdis t h2)]
        exact hold
      · rw [crossing_weight_comm, crossing_weight_merge_same st.G s t hG' hst hsK htK Y X h1
          (fun h => hdis s h h1) h2 (fun h => hdis t h h2), crossing_weight_comm]
        exact hold
    · right
      show GoodCut _ _ (if _ then _ else _)
      split
      · exact gGood
      · rename_i hcond
        rcases hbest with h | h
        · exfalso
          apply hcond
          have hlt : (phase_cut st.G t).value < mc.best_cut.value := by rw [h]; omega
          refine ⟨le_of_lt hlt, ?_⟩
          simp [Cut.lt, hlt]
        · exact h
    · intro X Y hb
      show _ ∨ (if _ then _ else _ : Cut).value ≤ _
      have hle1 : (if (phase_cut st.G t).value ≤ mc.best_cut.value ∧
            (phase_cut st.G t).lt mc.best_cut = true then phase_cut st.G t
          else mc.best_cut).value ≤ mc.best_cut.value := by
        split
        · rename_i hc; exact hc.1
        · exact le_refl _
      have hle2 : (if (phase_cut st.G t).value ≤ mc.best_cut.value ∧
            (phase_cut st.G t).lt mc.best_cut = true then phase_cut st.G t
          else mc.best_cut).value ≤ (phase_cut st.G t).value := by
        split
        · exact le_refl _
        · rename_i hc
          by_cases h1 : (phase_cut st.G t).value ≤ mc.best_cut.value
          · have h2 : ¬ (phase_cut st.G t).lt mc.best_cut = true := fun h => hc ⟨h1, h⟩
            have h3 : ¬ (phase_cut st.G t).value < mc.best_cut.value := by
              intro h4
              apply h2
              simp [Cut.lt, h4]
            omega
          · omega
      rcases hopt X Y hb with h | h
      · have hR' : Respects st.G X Y := (hRes X Y).mpr h
        obtain ⟨-, -, hdis, hcov⟩ := hb
        by_cases hside : (s ∈ X ∧ t ∈ X) ∨ (s ∈ Y ∧ t ∈ Y)
        · exact Or.inl (Respects_merge st.G s t hG'.1 hst hsK htK X Y hdis hR' hside)
        · right
          have hcover : ∀ v ∈ mapKeys st.G.vertices, v ∈ X ∨ v ∈ Y := by
            intro v hv
            have h1 : v ∈ st.G.all_ids := key_mem_all_ids st.G hv
            rw [hids] at h1
            exact (hcov v).mp (hperm.mem_iff.mp h1)
          have hsep : (s ∈ X ∧ t ∉ X) ∨ (s ∉ X ∧ t ∈ X) := by
            rcases hcover s hsK with h1 | h1
            · left
              refine ⟨h1, fun h2 => hside (Or.inl ⟨h1, h2⟩)⟩
            · right
              refine ⟨fun h2 => hdis s h2 h1, ?_⟩
              rcases hcover t htK with h2 | h2
              · exact h2
              · exact absurd (Or.inr ⟨h1, h2⟩) hside
          have hmin := phase_cut_min st.G hG' init s t hnd (by rw [hkeys]; exact hord) hMA X Y
            hcover hsep
          have hX : crossing_weight st.G.edges X Y = crossing_weight G0.edges X Y := by
            rw [crossing_weight_transfer hs']
            exact hcons X Y h hdis
          rw [← gval, hX] at hmin
          omega
      · right
        omega
  · rw [phase_end_eq mc st.G s t htK]
    show (st.G.merge s t).vertices.length + 1 = _
    have h1 : (st.G.merge s t).vertices.length = (mapKeys (st.G.merge s t).vertices).length := by
      simp [mapKeys]
    have h2 : mc.G.vertices.length = (mapKeys st.G.vertices).length := by
      rw [hv']; simp [mapKeys]
    rw [h1, h2, hMk]
    exact length_setErase (MapWF_keys_nodup hG'.1.1) htK
  · rw [phase_end_eq mc st.G s t htK]
    show GoodCut _ _ (if _ then _ else _)
    split
    · exact gGood
    · rename_i hcond
      rcases hbest with h | h
      · exfalso
        apply hcond
        have hlt : (phase_cut st.G t).value < mc.best_cut.value := by rw [h]; omega
        refine ⟨le_of_lt hlt, ?_⟩
        simp [Cut.lt, hlt]
      · exact h

/-- The loop of `run` returns with at most one vertex left, the invariant, and a valid
`best_cut`. -/
theorem run_loop_spec (G0 : HyperGraph) (hT0 : total_weight G0.edges < INT_MAX)
    (hK0 : (mapKeys G0.vertices).Nodup) :
    ∀ (fuel : Nat) (mc : MinCut), DriverInv G0 mc → mc.G.vertices.length ≤ fuel + 1 →
      (1 < mc.G.vertices.length ∨ GoodCut G0.edges (mapKeys G0.vertices) mc.best_cut) →
      ∃ mc', MinCut.run_loop fuel mc = some mc' ∧ DriverInv G0 mc' ∧
        mc'.G.vertices.length ≤ 1 ∧ GoodCut G0.edges (mapKeys G0.vertices) mc'.best_cut := by
  intro fuel
  induction fuel with
  | zero =>
    intro mc hI hlen hgood
    have hc : ¬ mc.G.vertices.length > 1 := by omega
    refine ⟨mc, ?_, hI, by omega, ?_⟩
    · simp only [MinCut.run_loop, hc, if_false]
    · rcases hgood with h | h
      · omega
      · exact h
  | succ fuel ih =>
    intro mc hI hlen hgood
    by_cases hc : mc.G.vertices.length > 1
    · obtain ⟨mc1, hp, hI1, hlen1, hg1⟩ := phase_step G0 hT0 hK0 mc hI hc
      obtain ⟨mc', hr, hI', hlen', hg'⟩ := ih mc1 hI1 (by omega) (Or.inr hg1)
      refine ⟨mc', ?_, hI', hlen', hg'⟩
      simp only [MinCut.run_loop, hc, if_true, hp, Option.bind_eq_bind, Option.some_bind]
      exact hr
    · refine ⟨mc, ?_, hI, by omega, ?_⟩
      · simp only [MinCut.run_loop, hc, if_false]
      · rcases hgood with h | h
        · omega
        · exact h

/-- On a valid input graph `mincut` returns a partition of the vertices into two non-empty
sides, valued with its weight, that is no heavier than any other. -/
theorem mincut_spec (G : HyperGraph) (hG : InputGraph G)
    (hT : total_weight G.edges < INT_MAX) (hn : 2 ≤ G.vertices.length) :
    ∃ res G', mincut G = some (res, G') ∧ GoodCut G.edges (mapKeys G.vertices) res ∧
      ∀ X Y, Bipartition (mapKeys G.vertices) X Y → res.value ≤ crossing_weight G.edges X Y := by
  have hRI := InputGraph_RunInv hG
  have hAE := InputGraph_addEdges hG
  have hK0 : (mapKeys G.vertices).Nodup := MapWF_keys_nodup hRI.1.1
  obtain ⟨it, rest, hvs⟩ : ∃ it rest, G.vertices = it :: rest := by
    cases h : G.vertices with
    | nil => rw [h] at hn; simp at hn
    | cons it rest => exact ⟨it, rest, rfl⟩
  have hcon : MinCut.construct G
      = some { best_cut := { value := INT_MAX, left := [], right := [] }, a := it.1, G := G } := by
    unfold MinCut.construct
    rw [hvs]
  have hI : DriverInv G
      { best_cut := { value := INT_MAX, left := [], right := [] }, a := it.1, G := G } := by
    refine ⟨hRI, le_refl _, ?_, ?_, fun _ _ _ _ => rfl, Or.inl rfl, ?_⟩
    · show it.1 ∈ mapKeys G.vertices
      rw [hvs]; simp [mapKeys]
    · show G.all_ids.Perm _
      rw [AddEdges_all_ids hAE]
    · intro X Y hb
      left
      exact Respects_initial G (fun i hi =>
        AddEdges_merged_with hAE i.1 i.2 (mapFind_of_mem hRI.1.1 hi)) X Y hb
  obtain ⟨mc', hr, hI', hlen', hg'⟩ := run_loop_spec G hT hK0 G.vertices.length _ hI
    (by show G.vertices.length ≤ _; omega) (Or.inl (by show 1 < G.vertices.length; omega))
  refine ⟨mc'.best_cut, mc'.G, ?_, hg', ?_⟩
  · unfold mincut MinCut.run
    simp only [hcon, Option.bind_eq_bind, Option.some_bind]
    have : MinCut.run_loop G.vertices.length
        { best_cut := { value := INT_MAX, left := [], right := [] }, a := it.1, G := G }
        = some mc' := hr
    rw [this]
    rfl
  · intro X Y hb
    rcases hI'.2.2.2.2.2.2 X Y hb with h | h
    · exact absurd h (not_Respects_of_single mc'.G _ hlen' hI'.2.2.2.1 X Y hb)
    · exact h


/-! ## `best_cut` against the cuts of the phases -/

theorem LexLe_refl (a : Cut) : LexLe a a := ⟨le_refl _, fun _ => le_refl _⟩

theorem LexLe_trans {a b c : Cut} (h1 : LexLe a b) (h2 : LexLe b c) : LexLe a c := by
  refine ⟨le_trans h1.1 h2.1, ?_⟩
  intro h
  have e1 : b.value = a.value := le_antisymm (h ▸ h2.1) h1.1
  have e2 : c.value = b.value := h.trans e1.symm
  exact le_trans (h1.2 e1) (h2.2 e2)

theorem phase_end_best (mc : MinCut) (G : HyperGraph) (s t : VID) :
    (MinCut.phase_end mc G s t).best_cut =
      if (phase_cut G t).value ≤ mc.best_cut.value ∧ (phase_cut G t).lt mc.best_cut = true
      then phase_cut G t else mc.best_cut := by
  unfold MinCut.phase_end
  have hv : (G.cut [t]).1.value = (phase_cut G t).value := rfl
  have hu : ((G.cut [t]).1.unmerge (G.cut [t]).2).1 = phase_cut G t := rfl
  by_cases h1 : (phase_cut G t).value ≤ mc.best_cut.value
  · by_cases h2 : (phase_cut G t).lt mc.best_cut = true
    · simp only [hv, hu, h1, h2, if_true, and_self]
    · simp only [hv, hu, h1, h2, if_true, and_false, if_false]
      simp
  · simp only [hv, h1, if_false, false_and]

/-- The update of `best_cut` by a phase: the new one is no worse than the old one and no worse
than the cut of the phase. -/
theorem phase_end_lex (mc : MinCut) (G : HyperGraph) (s t : VID) :
    LexLe (MinCut.phase_end mc G s t).best_cut mc.best_cut ∧
    LexLe (MinCut.phase_end mc G s t).best_cut (phase_cut G t) := by
  rw [phase_end_best]
  by_cases h1 : (phase_cut G t).value ≤ mc.best_cut.value
  · by_cases h2 : (phase_cut G t).lt mc.best_cut = true
    · rw [if_pos ⟨h1, h2⟩]
      refine ⟨⟨h1, ?_⟩, LexLe_refl _⟩
      intro he
      have h3 : ¬ (phase_cut G t).value < mc.best_cut.value := by omega
      simp only [Cut.lt, h3, decide_False, Bool.false_or, decide_eq_true_eq] at h2
      omega
    · rw [if_neg (fun h => h2 h.2)]
      refine ⟨LexLe_refl _, ?_⟩
      have h3 : ¬ (phase_cut G t).value < mc.best_cut.value := by
        intro h4; apply h2; simp [Cut.lt, h4]
      have h4 : ¬ (phase_cut G t).count_balance < mc.best_cut.count_balance := by
        intro h4; apply h2; simp [Cut.lt, h4]
      refine ⟨by omega, fun _ => by omega⟩
  · rw [if_neg (fun h => h1 h.1)]
    refine ⟨LexLe_refl _, ⟨by omega, fun h => ?_⟩⟩
    omega

/-- When the loop of `run` returns, `best_cut` is no worse than it was at the start and no
worse than the cut of any phase on the way. -/
theorem run_loop_lex : ∀ (fuel : Nat) (mc final : MinCut),
    MinCut.run_loop fuel mc = some final →
    LexLe final.best_cut mc.best_cut ∧
    ∀ m c, RunsThrough mc m → 1 < m.G.vertices.length → examined_cut m = some c →
      LexLe final.best_cut c := by
  intro fuel
  induction fuel with
  | zero =>
    intro mc final hr
    by_cases hc : mc.G.vertices.length > 1
    · simp [MinCut.run_loop, hc] at hr
    · simp only [MinCut.run_loop, hc, if_false, Option.some.injEq] at hr
      subst hr
      refine ⟨LexLe_refl _, ?_⟩
      intro m c hm hlen _
      cases hm with
      | here => omega
      | next _ mc1 _ h1 _ _ => omega
  | succ fuel ih =>
    intro mc final hr
    by_cases hc : mc.G.vertices.length > 1
    · simp only [MinCut.run_loop, hc, if_true] at hr
      cases hp : MinCut.phase mc with
      | none => rw [hp] at hr; simp at hr
      | some mc1 =>
        rw [hp] at hr
        simp only [Option.bind_eq_bind, Option.some_bind] at hr
        obtain ⟨i1, i2⟩ := ih mc1 final hr
        have hp' := hp
        unfold MinCut.phase at hp'
        cases hpo : MinCut.phase_order mc with
        | none => rw [hpo] at hp'; simp at hp'
        | some l =>
          rw [hpo] at hp'
          simp only [Option.bind_eq_bind, Option.some_bind, Option.some.injEq] at hp'
          obtain ⟨e1, e2⟩ := phase_end_lex mc l.1.G l.2.1 l.2.2
          rw [hp'] at e1 e2
          refine ⟨LexLe_trans i1 e1, ?_⟩
          intro m c hm hlen hex
          cases hm with
          | here =>
            unfold examined_cut at hex
            rw [hpo] at hex
            simp only [Option.map_some', Option.some.injEq] at hex
            rw [← hex]
            exact LexLe_trans i1 e2
          | next _ mc1' _ _ h2 h3 =>
            rw [hp] at h2
            cases h2
            exact i2 m c h3 hlen hex
    · simp only [MinCut.run_loop, hc, if_false, Option.some.injEq] at hr
      subst hr
      refine ⟨LexLe_refl _, ?_⟩
      intro m c hm hlen _
      cases hm with
      | here => omega
      | next _ mc1 _ h1 _ _ => omega

/-- When the loop of `run` returns, `best_cut` is the one of the start or the cut of a phase on
the way. -/
theorem run_loop_mem : ∀ (fuel : Nat) (mc final : MinCut),
    MinCut.run_loop fuel mc = some final →
    final.best_cut = mc.best_cut ∨
    ∃ m c, RunsThrough mc m ∧ 1 < m.G.vertices.length ∧ examined_cut m = some c ∧
      final.best_cut = c := by
  intro fuel
  induction fuel with
  | zero =>
    intro mc final hr
    by_cases hc : mc.G.vertices.length > 1
    · simp [MinCut.run_loop, hc] at hr
    · simp only [MinCut.run_loop, hc, if_false, Option.some.injEq] at hr
      subst hr
      exact Or.inl rfl
  | succ fuel ih =>
    intro mc final hr
    by_cases hc : mc.G.vertices.length > 1
    · simp only [MinCut.run_loop, hc, if_true] at hr
      cases hp : MinCut.phase mc with
      | none => rw [hp] at hr; simp at hr
      | some mc1 =>
        rw [hp] at hr
        simp only [Option.bind_eq_bind, Option.some_bind] at hr
        have hp' := hp
        unfold MinCut.phase at hp'
        cases hpo : MinCut.phase_order mc with
        | none => rw [hpo] at hp'; simp at hp'
        | some l =>
          rw [hpo] at hp'
          simp only [Option.bind_eq_bind, Option.some_bind, Option.some.injEq] at hp'
          have hb := phase_end_best mc l.1.G l.2.1 l.2.2
          rw [hp'] at hb
          have hex : examined_cut mc = some (phase_cut l.1.G l.2.2) := by
            unfold examined_cut
            rw [hpo]
            rfl
          rcases ih mc1 final hr with h | ⟨m, c, h1, h2, h3, h4⟩
          · rw [h, hb]
            split
            · exact Or.inr ⟨mc, _, RunsThrough.here mc, hc, hex, rfl⟩
            · exact Or.inl rfl
          · exact Or.inr ⟨m, c, RunsThrough.next mc mc1 m hc hp h1, h2, h3, h4⟩
    · simp only [MinCut.run_loop, hc, if_false, Option.some.injEq] at hr
      subst hr
      exact Or.inl rfl


/-! ## The heap interface: `top_node`, `pop` and `remove_fibnode` on the heaps of a client -/

section

open FibHeap

theorem filterMap_range_remove {α : Type} (f g : Nat → Option α) (n m : Nat) (d : α)
    (hm : m < n) (hf : f m = some d) (hg : g m = none) (hfg : ∀ v, v ≠ m → g v = f v) :
    ((List.range n).filterMap f).Perm (d :: (List.range n).filterMap g) := by
  induction n with
  | zero => omega
  | succ n ih =>
    rw [List.range_succ, List.filterMap_append, List.filterMap_append]
    by_cases hmn : m = n
    · subst hmn
      have h1 : (List.range m).filterMap g = (List.range m).filterMap f := by
        apply List.filterMap_congr
        intro v hv
        have : v < m := List.mem_range.mp hv
        exact hfg v (by omega)
      have h2 : [m].filterMap f = [d] := by simp [List.filterMap, hf]
      have h3 : [m].filterMap g = [] := by simp [List.filterMap, hg]
      rw [h1, h2, h3, List.append_nil]
      exact List.perm_append_singleton d _
    · have h2 : [n].filterMap g = [n].filterMap f := by
        simp [List.filterMap, hfg n (fun e => hmn e.symm)]
      rw [h2]
      have := (ih (by omega)).append_right ([n].filterMap f)
      simpa using this

theorem length_filterMap_eq_filter {α β : Type} (f : α → Option β) (l : List α) :
    (l.filterMap f).length = (l.filter (fun x => (f x).isSome)).length := by
  induction l with
  | nil => rfl
  | cons x xs ih =>
    cases h : f x with
    | none => simp [List.filterMap_cons, h, ih]
    | some y => simp [List.filterMap_cons, h, ih]

theorem Inv_live_iff {h : FibHeap} (hI : h.Inv) (x : Nat) :
    Reach h.mem h.roots x ↔ h.mem x ≠ none := by
  constructor
  · intro hr
    obtain ⟨nd, hnd⟩ := Forest_live hI.1 hr
    rw [hnd]; simp
  · intro hx
    exact (hI.2.2.1 x hx).2

/-- The counter `n`, which `size()` returns, is the number of nodes of the heap. -/
theorem Inv_size {h : FibHeap} (hI : h.Inv) : h.size = (h.pairs).length := by
  obtain ⟨S, hS1, hS2, hS3⟩ := hI.2.2.2
  have hperm : S.Perm ((List.range h.next).filter (fun x => (data h.mem x).isSome)) := by
    apply (List.perm_ext_iff_of_nodup hS1 ((List.nodup_range _).filter _)).mpr
    intro x
    rw [hS2, Inv_live_iff hI, List.mem_filter, List.mem_range]
    constructor
    · intro hx
      refine ⟨(hI.2.2.1 x hx).1, ?_⟩
      unfold data
      cases hm : h.mem x with
      | none => exact absurd hm hx
      | some nd => rfl
    · rintro ⟨-, hx⟩ hn
      unfold data at hx
      rw [hn] at hx
      simp at hx
  unfold FibHeap.size FibHeap.pairs
  rw [hS3, length_filterMap_eq_filter, hperm.length_eq]

theorem Inv_roots_of_nonempty {h : FibHeap} (hI : h.Inv) (hne : h.empty = false) :
    ∃ z rest, h.roots = z :: rest := by
  obtain ⟨S, hS1, hS2, hS3⟩ := hI.2.2.2
  have hn : h.n ≠ 0 := by
    unfold FibHeap.empty at hne
    simpa using hne
  cases hS : S with
  | nil => rw [hS] at hS3; simp at hS3; exact absurd hS3 hn
  | cons x xs =>
    have hx : Reach h.mem h.roots x := (hS2 x).mp (by rw [hS]; simp)
    exact Reach_roots_ne_nil hx

theorem pop_of_no_roots (h : FibHeap) (hr : h.roots = []) : pop h = some h := by
  unfold pop
  by_cases he : h.empty = true
  · simp [he]
  · simp only [he, Bool.false_eq_true, if_false]
    unfold extract_max
    rw [hr]
    rfl

theorem HeapOps_Inv {h : FibHeap} (hO : HeapOps h) : h.Inv := by
  induction hO with
  | empty => exact Inv_empty
  | push h k pl r _ hp ih =>
    obtain ⟨h', hp', hI', -⟩ := push_spec h ih k pl
    rw [hp'] at hp
    cases hp
    exact hI'
  | increase_key h x k h' _ hx hk ih =>
    cases hm : h.mem x with
    | none => exact absurd hm hx
    | some xn =>
      by_cases hle : xn.key ≤ k
      · obtain ⟨h'', hk', hI', -⟩ :=
          increase_key_spec h ih ((Inv_live_iff ih x).mpr hx) hm k hle
        rw [hk'] at hk
        cases hk
        exact hI'
      · have hc : comp xn.key k = true := by
          unfold comp
          simpa using hle
        unfold FibHeap.increase_key at hk
        simp only [hm, Option.bind_eq_bind, Option.some_bind, hc, if_true,
          Option.some.injEq] at hk
        rw [← hk]
        exact ih
  | pop h h' _ hp ih =>
    cases hr : h.roots with
    | nil =>
      rw [pop_of_no_roots h hr] at hp
      cases hp
      exact ih
    | cons z rest =>
      obtain ⟨h'', hp', hI', -⟩ := pop_spec h ih hr
      rw [hp'] at hp
      cases hp
      exact hI'

theorem pairs_remove {h h' : FibHeap} (hI : h.Inv) {m : Nat} {nm : FibNode}
    (hm : h.mem m = some nm) (hz : h'.mem m = none)
    (hD : ∀ v, v ≠ m → data h'.mem v = data h.mem v) (hnext : h'.next = h.next) :
    (h.pairs).Perm ((nm.key, nm.payload) :: h'.pairs) := by
  have hlt : m < h.next := (hI.2.2.1 m (by rw [hm]; simp)).1
  have h1 := filterMap_range_remove (data h.mem) (data h'.mem) h.next m (nm.key, nm.payload)
    hlt (data_eq_some hm) (by unfold data; rw [hz]; rfl) hD
  unfold FibHeap.pairs
  rw [hnext]
  exact h1

/-- On a non-empty heap that satisfies the invariant, `top_node` returns a node of largest
key and `pop` removes exactly this node. -/
theorem top_pop_spec (h : FibHeap) (hI : h.Inv) (hne : h.empty = false) :
    ∃ m nm h', top_node h = some m ∧ h.mem m = some nm ∧
      (∀ v nv, h.mem v = some nv → nv.key ≤ nm.key) ∧
      pop h = some h' ∧ h'.Inv ∧ h'.mem m = none ∧
      (∀ v, v ≠ m → data h'.mem v = data h.mem v) ∧
      (h.pairs).Perm ((nm.key, nm.payload) :: h'.pairs) ∧
      h'.size = h.size - 1 := by
  obtain ⟨z, rest, hroots⟩ := Inv_roots_of_nonempty hI hne
  have hzr : Reach h.mem h.roots z := Reach.root (by rw [hroots]; simp)
  obtain ⟨m, nm, htop, -, hnm, hmax⟩ := top_node_spec h hI hzr
  have hmz : m = z := by
    unfold top_node at htop
    rw [hroots] at htop
    simp only [List.head?_cons, Option.some.injEq] at htop
    exact htop.symm
  subst hmz
  obtain ⟨h', hpop, hI', -, hD, hz, hn, hnext⟩ := pop_spec h hI hroots
  refine ⟨m, nm, h', htop, hnm, ?_, hpop, hI', hz, hD, pairs_remove hI hnm hz hD hnext, hn⟩
  intro v nv hv
  exact hmax v nv ((Inv_live_iff hI v).mpr (by rw [hv]; simp)) hv

theorem remove_fibnode_general (h : FibHeap) (hI : h.Inv) {x : Nat} {xn : FibNode}
    (hxm : h.mem x = some xn) (hxk : xn.key ≤ INT_MAX)
    (hkeys : ∀ v nd, v ≠ x → h.mem v = some nd → nd.key < INT_MAX) :
    ∃ h', remove_fibnode h x = some h' ∧ h'.Inv ∧
      (∀ v, v ≠ x → data h'.mem v = data h.mem v) ∧ h'.mem x = none ∧
      h'.n = h.n - 1 ∧ h'.next = h.next := by
  have hx : Reach h.mem h.roots x := (Inv_live_iff hI x).mpr (by rw [hxm]; simp)
  obtain ⟨h1, hik, hI1, hR1, hD1, hDx, hn1, hx1⟩ := increase_key_spec h hI hx hxm INT_MAX hxk
  have hx1r : Reach h1.mem h1.roots x := (hR1 x).mpr hx
  obtain ⟨m, nm, htop, hmr, hnm, hmax⟩ := top_node_spec h1 hI1 hx1r
  obtain ⟨xn1, hxm1, hxk1, -⟩ := mem_of_data_some hDx
  have hmx : m = x := by
    by_contra hne
    have h1k := hmax x xn1 hx1r hxm1
    obtain ⟨b, hb, hbk, -⟩ := data_some (hD1 m hne) hnm
    have := hkeys m b hne hb
    rw [hxk1] at h1k
    omega
  obtain ⟨rest, hroots⟩ : ∃ rest, h1.roots = x :: rest := by
    unfold top_node at htop
    cases hr : h1.roots with
    | nil => rw [hr] at htop; simp at htop
    | cons a t =>
      rw [hr] at htop
      simp only [List.head?_cons, Option.some.injEq] at htop
      exact ⟨t, by rw [htop, hmx]⟩
  obtain ⟨h2, he, hI2, hR2, hD2, hn2, hx2⟩ := extract_free_Inv h1 hI1 hroots
  refine ⟨{ h2 with mem := freeNode h2.mem x }, ?_, hI2, ?_, freeNode_same _ _, ?_, ?_⟩
  · unfold remove_fibnode
    simp [hik, he]
  · intro v hv
    exact (hD2 v hv).trans (hD1 v hv)
  · show h2.n = h.n - 1
    rw [hn2, hn1]
  · show h2.next = h.next
    rw [hx2, hx1]

/-- On a heap that satisfies the invariant, `remove_fibnode` removes exactly the node of the
handle when every other key is below `INT_MAX`. -/
theorem remove_spec (h : FibHeap) (hI : h.Inv) {x : Nat} {xn : FibNode}
    (hx : h.mem x = some xn) (hxk : xn.key ≤ INT_MAX)
    (hkeys : ∀ v nd, v ≠ x → h.mem v = some nd → nd.key < INT_MAX) :
    ∃ h', remove_fibnode h x = some h' ∧ h'.Inv ∧ h'.mem x = none ∧
      (∀ v, v ≠ x → data h'.mem v = data h.mem v) ∧
      (h.pairs).Perm ((xn.key, xn.payload) :: h'.pairs) ∧
      h'.size = h.size - 1 := by
  obtain ⟨h', hrem, hI', hD, hz, hn, hnext⟩ := remove_fibnode_general h hI hx hxk hkeys
  exact ⟨h', hrem, hI', hz, hD, pairs_remove hI hx hz hD hnext, hn⟩

end


/-! ## The phases of a run -/

/-- The shape of a phase in a state of the run: the ordering it builds, the vertex it removes
and the graph it leaves. -/
theorem phase_shape (G0 : HyperGraph) (hT0 : total_weight G0.edges < INT_MAX) (mc : MinCut)
    (hI : DriverInv G0 mc) (hn : 1 < mc.G.vertices.length) :
    ∃ st init s t, MinCut.phase_order mc = some (st, s, t) ∧
      MinCut.phase mc = some (MinCut.phase_end mc st.G s t) ∧
      (MinCut.phase_end mc st.G s t).a = mc.a ∧
      (MinCut.phase_end mc st.G s t).G = st.G.merge s t ∧
      st.G.RunInv ∧ st.G.vertices = mc.G.vertices ∧
      (∀ p, wsumI st.G.edges p = wsumI mc.G.edges p) ∧
      (init ++ [s, t]).Nodup ∧ (∀ x, x ∈ init ++ [s, t] ↔ x ∈ mapKeys mc.G.vertices) ∧
      (init ++ [s, t]).head? = some mc.a ∧ MaxAdjOrder st.G.edges (init ++ [s, t]) ∧
      s ≠ t ∧ t ≠ mc.a ∧ s ∈ mapKeys mc.G.vertices ∧ t ∈ mapKeys mc.G.vertices ∧
      mapKeys (st.G.merge s t).vertices = setErase t (mapKeys mc.G.vertices) ∧
      (init ++ [s, t]).length = mc.G.vertices.length := by
  obtain ⟨hG, hTot, ha, -⟩ := hI
  obtain ⟨st, init, s, t, hpo, hG', hv', hs', hnd, hord, hhead, hMA⟩ :=
    phase_order_spec mc (total_weight G0.edges) hT0 hG hTot ha (by omega)
  have hkeys : mapKeys st.G.vertices = mapKeys mc.G.vertices := by rw [hv']
  have htK : t ∈ mapKeys st.G.vertices := by rw [hkeys]; exact (hord t).mp (by simp)
  have hsK : s ∈ mapKeys st.G.vertices := by rw [hkeys]; exact (hord s).mp (by simp)
  obtain ⟨hat, hst⟩ := head_ne_last hnd hhead
  obtain ⟨S, hS⟩ := (mem_mapKeys _ _).mp hsK
  obtain ⟨T, hT⟩ := (mem_mapKeys _ _).mp htK
  obtain ⟨-, -, -, -, -, -, -, hMk, -⟩ := merge_spec st.G s t S T hG'.1 hst hS hT
  have hperm : (init ++ [s, t]).Perm (mapKeys mc.G.vertices) :=
    (List.perm_ext_iff_of_nodup hnd (MapWF_keys_nodup hG.1.1)).mpr hord
  refine ⟨st, init, s, t, hpo, ?_, ?_, ?_, hG', hv', hs', hnd, hord, hhead, hMA, hst,
    fun e => hat e.symm, hkeys ▸ hsK, hkeys ▸ htK, by rw [hMk, hkeys], ?_⟩
  · unfold MinCut.phase
    simp only [hpo, Option.bind_eq_bind, Option.some_bind]
  · rw [phase_end_eq mc st.G s t htK]
  · rw [phase_end_eq mc st.G s t htK]
  · rw [hperm.length_eq]
    simp [mapKeys]

/-- Every state that `run` goes through satisfies the invariant of the driver and has the
start vertex of the first state. -/
theorem RunsThrough_inv (G0 : HyperGraph) (hT0 : total_weight G0.edges < INT_MAX)
    (hK0 : (mapKeys G0.vertices).Nodup) {mc m : MinCut} (hI : DriverInv G0 mc)
    (hr : RunsThrough mc m) : DriverInv G0 m ∧ m.a = mc.a := by
  induction hr with
  | here mc => exact ⟨hI, rfl⟩
  | next mc mc1 m hlen hp _ ih =>
    obtain ⟨mc', hp', hI', -, -⟩ := phase_step G0 hT0 hK0 mc hI hlen
    obtain ⟨st, init, s, t, -, hp'', ha, -⟩ := phase_shape G0 hT0 mc hI hlen
    rw [hp] at hp' hp''
    cases hp'
    cases hp''
    obtain ⟨i1, i2⟩ := ih hI'
    exact ⟨i1, i2.trans ha⟩

theorem RunsThrough_trans {mc m m' : MinCut} (h1 : RunsThrough mc m) (h2 : RunsThrough m m') :
    RunsThrough mc m' := by
  induction h1 with
  | here mc => exact h2
  | next mc mc1 m hlen hp _ ih => exact RunsThrough.next mc mc1 m' hlen hp (ih h2)

/-- The invariant of the driver holds in the state that the constructor builds on a valid
input graph, whose start vertex is the smallest vertex. -/
theorem construct_spec (G : HyperGraph) (hG : InputGraph G) (hn : 2 ≤ G.vertices.length) :
    ∃ mc0, MinCut.construct G = some mc0 ∧ mc0.G = G ∧ DriverInv G mc0 ∧
      mc0.a ∈ mapKeys G.vertices ∧ (∀ v ∈ mapKeys G.vertices, mc0.a ≤ v) ∧
      mc0.best_cut = { value := INT_MAX, left := [], right := [] } := by
  have hRI := InputGraph_RunInv hG
  have hAE := InputGraph_addEdges hG
  obtain ⟨it, rest, hvs⟩ : ∃ it rest, G.vertices = it :: rest := by
    cases h : G.vertices with
    | nil => rw [h] at hn; simp at hn
    | cons it rest => exact ⟨it, rest, rfl⟩
  have ha : it.1 ∈ mapKeys G.vertices := by rw [hvs]; simp [mapKeys]
  refine ⟨{ best_cut := { value := INT_MAX, left := [], right := [] }, a := it.1, G := G },
    ?_, rfl, ?_, ha, ?_, rfl⟩
  · unfold MinCut.construct
    rw [hvs]
  · refine ⟨hRI, le_refl _, ha, ?_, fun _ _ _ _ => rfl, Or.inl rfl, ?_⟩
    · show G.all_ids.Perm _
      rw [AddEdges_all_ids hAE]
    · intro X Y hb
      left
      exact Respects_initial G (fun i hi =>
        AddEdges_merged_with hAE i.1 i.2 (mapFind_of_mem hRI.1.1 hi)) X Y hb
  · intro v hv
    have hwf : MapWF G.vertices := hRI.1.1
    rw [hvs] at hwf hv
    obtain ⟨k, V⟩ := it
    obtain ⟨h1, -⟩ := MapWF_cons.mp hwf
    simp only [mapKeys, List.map_cons, List.mem_cons] at hv
    rcases hv with h | h
    · rw [h]
    · exact le_of_lt (h1 v h)

/-- The loop of `run` is the iteration of `phase` as many times as there are vertices but
one; before each of these phases more than one vertex is left, and each removes one. -/
theorem run_loop_phases (G0 : HyperGraph) (hT0 : total_weight G0.edges < INT_MAX)
    (hK0 : (mapKeys G0.vertices).Nodup) :
    ∀ (fuel : Nat) (mc : MinCut), DriverInv G0 mc → mc.G.vertices.length ≤ fuel + 1 →
      ∃ final, MinCut.run_loop fuel mc = some final ∧
        phases (mc.G.vertices.length - 1) mc = some final ∧
        final.G.vertices.length = 1 ∧
        ∀ k, k < mc.G.vertices.length - 1 →
          ∃ m m', phases k mc = some m ∧ RunsThrough mc m ∧
            m.G.vertices.length = mc.G.vertices.length - k ∧
            MinCut.phase m = some m' ∧ phases (k + 1) mc = some m' ∧
            ∃ t, t ∈ mapKeys m.G.vertices ∧
              mapKeys m'.G.vertices = setErase t (mapKeys m.G.vertices) := by
  intro fuel
  induction fuel with
  | zero =>
    intro mc hI hlen
    have hpos : 1 ≤ mc.G.vertices.length := by
      have := List.length_pos_of_mem hI.2.2.1
      simp only [mapKeys, List.length_map] at this
      omega
    have hc : ¬ mc.G.vertices.length > 1 := by omega
    have h1 : mc.G.vertices.length = 1 := by omega
    refine ⟨mc, ?_, by rw [h1]; rfl, h1, fun k hk => by omega⟩
    simp only [MinCut.run_loop, hc, if_false]
  | succ fuel ih =>
    intro mc hI hlen
    have hpos : 1 ≤ mc.G.vertices.length := by
      have := List.length_pos_of_mem hI.2.2.1
      simp only [mapKeys, List.length_map] at this
      omega
    by_cases hc : mc.G.vertices.length > 1
    · obtain ⟨mc1, hp, hI1, hlen1, -⟩ := phase_step G0 hT0 hK0 mc hI hc
      obtain ⟨st, init, s, t, -, hp', -, hG1, -, hv', -, -, -, -, -, -, -, -, ht, hk1, -⟩ :=
        phase_shape G0 hT0 mc hI hc
      rw [hp] at hp'
      cases hp'
      obtain ⟨final, hr, hph, hfl, hall⟩ := ih _ hI1 (by omega)
      have hsucc : mc.G.vertices.length - 1
          = ((MinCut.phase_end mc st.G s t).G.vertices.length - 1) + 1 := by omega
      refine ⟨final, ?_, ?_, hfl, ?_⟩
      · simp only [MinCut.run_loop, hc, if_true, hp, Option.bind_eq_bind, Option.some_bind]
        exact hr
      · rw [hsucc]
        simp only [phases, hp, Option.some_bind]
        exact hph
      · intro k hk
        cases k with
        | zero =>
          refine ⟨mc, _, rfl, RunsThrough.here mc, by omega, hp, ?_, t, ht, ?_⟩
          · simp only [phases, hp, Option.some_bind]
          · rw [hG1]; exact hk1
        | succ k =>
          obtain ⟨m, m', a1, a2, a3, a4, a5, a6⟩ := hall k (by omega)
          refine ⟨m, m', ?_, RunsThrough.next mc _ m hc hp a2, by omega, a4, ?_, a6⟩
          · simp only [phases, hp, Option.some_bind]
            exact a1
          · show phases (k + 1 + 1) mc = some m'
            have : phases (k + 1 + 1) mc
                = (MinCut.phase mc).bind (phases (k + 1)) := rfl
            rw [this, hp]
            exact a5
    · have h1 : mc.G.vertices.length = 1 := by omega
      refine ⟨mc, ?_, by rw [h1]; rfl, h1, fun k hk => by omega⟩
      simp only [MinCut.run_loop, hc, if_false]


/-! ## The states of the loop of a phase -/

/-- What `add_vertex_to_A` does to the graph: nothing but `G.edges[e]`. -/
theorem add_vertex_edge_graph (v : VID) (st st' : PhaseState) (e : EID)
    (h : MinCut.add_vertex_edge v st e = some st') :
    st'.G.vertices = st.G.vertices ∧
    (st'.G.edges = st.G.edges ∨ st'.G.edges = mapTouch st.G.edges e) := by
  unfold MinCut.add_vertex_edge at h
  by_cases hm : st.marked.contains e = true
  · simp only [hm, if_true, Option.some.injEq] at h
    subst h
    exact ⟨rfl, Or.inl rfl⟩
  · simp only [hm, Bool.false_eq_true, if_false] at h
    cases hk : MinCut.add_vertex_keys v (mapGetD (mapTouch st.G.edges e) e).weight st.nodes
        (mapGetD (mapTouch st.G.edges e) e).vertices st.heap with
    | none => rw [hk] at h; simp at h
    | some heap1 =>
      rw [hk] at h
      simp only [Option.bind_eq_bind, Option.some_bind, Option.some.injEq] at h
      subst h
      exact ⟨rfl, Or.inr rfl⟩

theorem mapFind_touch_cases (edges : List (EID × Edge)) (e e' : EID) :
    mapFind (mapTouch edges e) e' = mapFind edges e' ∨
    (e' = e ∧ mapFind edges e' = none ∧ mapFind (mapTouch edges e) e' = some default) := by
  rw [mapFind_mapTouch]
  by_cases h : e' = e
  · cases hf : mapFind edges e' with
    | none =>
      right
      refine ⟨h, rfl, ?_⟩
      rw [if_pos h, ← h]
      simp [mapGetD, hf]
    | some E =>
      left
      rw [if_pos h, ← h]
      simp [mapGetD, hf]
  · left
    rw [if_neg h]

theorem add_vertex_edges_graph (v : VID) (es : List EID) (st st' : PhaseState)
    (h : MinCut.add_vertex_edges v es st = some st') :
    st'.G.vertices = st.G.vertices ∧
    ∀ e', mapFind st'.G.edges e' = mapFind st.G.edges e' ∨
      (e' ∈ es ∧ mapFind st.G.edges e' = none ∧ mapFind st'.G.edges e' = some default) := by
  induction es generalizing st with
  | nil =>
    simp only [MinCut.add_vertex_edges, Option.some.injEq] at h
    subst h
    exact ⟨rfl, fun _ => Or.inl rfl⟩
  | cons e es ih =>
    simp only [MinCut.add_vertex_edges] at h
    cases h1 : MinCut.add_vertex_edge v st e with
    | none => rw [h1] at h; simp at h
    | some st1 =>
      rw [h1] at h
      simp only [Option.bind_eq_bind, Option.some_bind] at h
      obtain ⟨a1, a2⟩ := add_vertex_edge_graph v st st1 e h1
      obtain ⟨b1, b2⟩ := ih st1 h
      refine ⟨b1.trans a1, ?_⟩
      intro e'
      have hstep : mapFind st1.G.edges e' = mapFind st.G.edges e' ∨
          (e' = e ∧ mapFind st.G.edges e' = none ∧ mapFind st1.G.edges e' = some default) := by
        rcases a2 with a2 | a2
        · left; rw [a2]
        · rw [a2]; exact mapFind_touch_cases _ _ _
      rcases b2 e' with c | ⟨c1, c2, c3⟩
      · rcases hstep with d | ⟨d1, d2, d3⟩
        · left; exact c.trans d
        · right; exact ⟨by simp [d1], d2, c.trans d3⟩
      · rcases hstep with d | ⟨d1, d2, d3⟩
        · right; exact ⟨List.mem_cons_of_mem _ c1, d ▸ c2, c3⟩
        · rw [d3] at c2; cases c2

theorem add_vertex_to_A_graph (v : VID) (st st' : PhaseState)
    (hv : v ∈ mapKeys st.G.vertices) (h : MinCut.add_vertex_to_A v st = some st') :
    st'.G.vertices = st.G.vertices ∧
    ∀ e', mapFind st'.G.edges e' = mapFind st.G.edges e' ∨
      (e' ∈ (mapGetD st.G.vertices v).edges ∧ mapFind st.G.edges e' = none ∧
        mapFind st'.G.edges e' = some default) := by
  have ht : mapTouch st.G.vertices v = st.G.vertices := mapTouch_of_mem _ _ hv
  unfold MinCut.add_vertex_to_A at h
  simp only [ht] at h
  exact add_vertex_edges_graph v _ _ st' h

theorem PhaseGraph_step {G G1 G2 : HyperGraph} {A : List VID} {v : VID}
    (h1 : PhaseGraph G G1 A) (hv : G2.vertices = G1.vertices)
    (he : ∀ e', mapFind G2.edges e' = mapFind G1.edges e' ∨
      (e' ∈ (mapGetD G1.vertices v).edges ∧ mapFind G1.edges e' = none ∧
        mapFind G2.edges e' = some default)) :
    PhaseGraph G G2 (A ++ [v]) := by
  obtain ⟨a1, a2⟩ := h1
  refine ⟨hv.trans a1, ?_⟩
  intro e
  rcases he e with c | ⟨c1, c2, c3⟩
  · rcases a2 e with d | ⟨d1, d2, u, hu, d3⟩
    · left; exact c.trans d
    · right; exact ⟨d1, c.trans d2, u, by simp [hu], d3⟩
  · rcases a2 e with d | ⟨d1, d2, -⟩
    · right
      refine ⟨d ▸ c2, c3, v, by simp, ?_⟩
      rw [← a1]; exact c1
    · rw [d2] at c2; cases c2

/-- Every loop state of a phase satisfies the invariant of the loop. -/
theorem LoopState_inv (T : Int) (hT : T < INT_MAX) (mc : MinCut) (hG : mc.G.RunInv)
    (hTot : total_weight mc.G.edges ≤ T) (ha : mc.a ∈ mapKeys mc.G.vertices)
    {st : PhaseState} {A : List VID} (h : LoopState mc st A) :
    LoopInv T (mapKeys mc.G.vertices) A st ∧ A.Nodup ∧
    (∀ x ∈ A, x ∈ mapKeys mc.G.vertices) ∧ A.head? = some mc.a ∧
    (∀ p, wsumI st.G.edges p = wsumI mc.G.edges p) ∧ PhaseGraph mc.G st.G A := by
  have hKnd : (mapKeys mc.G.vertices).Nodup := MapWF_keys_nodup hG.1.1
  induction h with
  | start r st1 na heap2 hpush hadd hfind hrem =>
    obtain ⟨h0, nodes0, hpush', hR0⟩ := push_all_spec (mapKeys mc.G.vertices) hKnd {} []
      (fun _ => False) (fun _ => 0) HeapRep_empty (fun _ _ h => h)
    rw [hpush] at hpush'
    simp only [Option.some.injEq] at hpush'
    subst hpush'
    obtain ⟨st1', hadd', hG1, hTot1, hK1, hM1, hR1, hs1, hv1⟩ :=
      add_core T hT (mapKeys mc.G.vertices) [] mc.a
        { G := mc.G, heap := h0, nodes := nodes0, marked := [] } _ _ hG hTot rfl
        (by intro e; simp) ha hR0
        (by intro u _ _; rw [tightness_nil]; simp)
        (by intro _; simp)
        (fun u h1 _ _ => Or.inr h1)
    rw [hadd] at hadd'
    simp only [Option.some.injEq] at hadd'
    subst hadd'
    obtain ⟨na', heap2', hfind', hrem', hR2⟩ := HeapRep_remove hR1 (a := mc.a) (Or.inr ha) (by
      intro u _
      by_cases hu : u = mc.a
      · simp only [hu, if_true]
        have : (0 : Int) < INT_MAX := by decide
        exact this
      · simp only [hu, if_false]
        have := tightness_le_total hG1.2.2.2 ([] ++ [mc.a]) u
        omega)
    rw [hfind] at hfind'
    simp only [Option.some.injEq] at hfind'
    subst hfind'
    rw [hrem] at hrem'
    simp only [Option.some.injEq] at hrem'
    subst hrem'
    refine ⟨⟨hG1, hTot1, hK1, hM1, HeapRep_congr hR2 ?_ ?_⟩, List.nodup_singleton _, ?_, rfl,
      hs1, ?_⟩
    · intro u
      simp only [List.mem_singleton, false_or]
    · intro u hu
      simp [hu.2]
    · intro x hx
      simp only [List.mem_singleton] at hx
      rw [hx]; exact ha
    · obtain ⟨g1, g2⟩ := add_vertex_to_A_graph mc.a
        { G := mc.G, heap := h0, nodes := nodes0, marked := [] } st1 ha hadd
      refine ⟨g1, ?_⟩
      intro e
      rcases g2 e with c | ⟨c1, c2, c3⟩
      · exact Or.inl c
      · exact Or.inr ⟨c2, c3, mc.a, by simp, c1⟩
  | step st A topnode tn heap1 st1 _ hcond htop htn hpop hadd ih =>
    obtain ⟨⟨hG', hTot', hK, hM, hR⟩, hnd, hAK, hhead, hs, hPG⟩ := ih
    have hn : st.G.vertices.length = (mapKeys mc.G.vertices).length := by
      rw [← hK]; simp [mapKeys]
    have hApos : 1 ≤ A.length := by
      cases A with
      | nil => simp at hhead
      | cons x xs => simp
    obtain ⟨u0, hu0K, hu0A⟩ :=
      exists_not_mem_of_length_lt (A := A) hKnd (by omega)
    obtain ⟨top', tn', heap1', htop', htn', hRm, hmax, hpop', hR1⟩ :=
      @HeapRep_pop _ _ _ _ hR u0 ⟨hu0K, hu0A⟩
    rw [htop] at htop'
    simp only [Option.some.injEq] at htop'
    subst htop'
    rw [htn] at htn'
    simp only [Option.some.injEq] at htn'
    subst htn'
    rw [hpop] at hpop'
    simp only [Option.some.injEq] at hpop'
    subst hpop'
    obtain ⟨st1', hadd', hG1, hTot1, hK1, hM1, hR1', hs1, hv1⟩ :=
      add_core T hT (mapKeys mc.G.vertices) A tn.payload { st with heap := heap1 } _ _ hG'
        hTot' hK hM hRm.1 hR1
        (fun _ _ _ => rfl) (fun h => absurd rfl h.2) (fun u h1 h2 h3 => ⟨⟨h1, h2⟩, h3⟩)
    rw [hadd] at hadd'
    simp only [Option.some.injEq] at hadd'
    subst hadd'
    refine ⟨⟨hG1, hTot1, hK1, hM1, HeapRep_congr hR1' ?_ ?_⟩, ?_, ?_, ?_,
      fun p => (hs1 p).trans (hs p), ?_⟩
    · intro u
      simp only [List.mem_append, List.mem_singleton, not_or]
      tauto
    · intro u hu
      simp [hu.2]
    · rw [List.nodup_append]
      refine ⟨hnd, List.nodup_singleton _, ?_⟩
      intro x hx hx'
      have : x = tn.payload := by simpa using hx'
      exact hRm.2 (this ▸ hx)
    · intro x hx
      rcases List.mem_append.mp hx with h | h
      · exact hAK x h
      · have : x = tn.payload := by simpa using h
        rw [this]; exact hRm.1
    · cases A with
      | nil => simp at hhead
      | cons x xs => exact hhead
    · have hvk : tn.payload ∈ mapKeys st.G.vertices := by rw [hK]; exact hRm.1
      obtain ⟨g1, g2⟩ := add_vertex_to_A_graph tn.payload { st with heap := heap1 } st1 hvk hadd
      exact PhaseGraph_step hPG g1 g2

theorem phase_loop_LoopState (mc : MinCut) :
    ∀ (fuel i : Nat) (st : PhaseState) (A : List VID) (ab al : VID) (res : PhaseState × VID × VID),
      LoopState mc st A → A.length = i + 1 →
      MinCut.phase_loop fuel i st ab al = some res →
      ∃ A', LoopState mc res.1 A' ∧ ¬ (A'.length - 1 < res.1.G.vertices.length - 1) := by
  intro fuel
  induction fuel with
  | zero =>
    intro i st A ab al res hL hlen hr
    by_cases hc : i < st.G.vertices.length - 1
    · simp [MinCut.phase_loop, hc] at hr
    · simp only [MinCut.phase_loop, hc, if_false, Option.some.injEq] at hr
      subst hr
      exact ⟨A, hL, by rw [hlen]; simpa using hc⟩
  | succ fuel ih =>
    intro i st A ab al res hL hlen hr
    by_cases hc : i < st.G.vertices.length - 1
    · simp only [MinCut.phase_loop, hc, if_true] at hr
      cases htop : st.heap.top_node with
      | none => rw [htop] at hr; simp at hr
      | some topnode =>
        rw [htop] at hr
        simp only [Option.bind_eq_bind, Option.some_bind] at hr
        cases htn : st.heap.mem topnode with
        | none => rw [htn] at hr; simp at hr
        | some tn =>
          rw [htn] at hr
          simp only [Option.some_bind] at hr
          cases hpop : st.heap.pop with
          | none => rw [hpop] at hr; simp at hr
          | some heap1 =>
            rw [hpop] at hr
            simp only [Option.some_bind] at hr
            cases hadd : MinCut.add_vertex_to_A tn.payload { st with heap := heap1 } with
            | none => rw [hadd] at hr; simp at hr
            | some st1 =>
              rw [hadd] at hr
              simp only [Option.some_bind] at hr
              exact ih (i + 1) st1 (A ++ [tn.payload]) al tn.payload res
                (LoopState.step st A topnode tn heap1 st1 hL (by rw [hlen]; simpa using hc)
                  htop htn hpop hadd)
                (by simp [hlen]) hr
    · simp only [MinCut.phase_loop, hc, if_false, Option.some.injEq] at hr
      subst hr
      exact ⟨A, hL, by rw [hlen]; simpa using hc⟩

/-- The state that the loop of `phase` returns is a loop state in which the loop has ended. -/
theorem phase_order_LoopState (mc : MinCut) (res : PhaseState × VID × VID)
    (h : MinCut.phase_order mc = some res) :
    ∃ A, LoopState mc res.1 A ∧ ¬ (A.length - 1 < res.1.G.vertices.length - 1) := by
  unfold MinCut.phase_order at h
  cases hpush : MinCut.push_all (mapKeys mc.G.vertices) {} [] with
  | none => rw [hpush] at h; simp at h
  | some r =>
    rw [hpush] at h
    simp only [Option.bind_eq_bind, Option.some_bind] at h
    cases hadd : MinCut.add_vertex_to_A mc.a
        { G := mc.G, heap := r.1, nodes := r.2, marked := [] } with
    | none => rw [hadd] at h; simp at h
    | some st1 =>
      rw [hadd] at h
      simp only [Option.some_bind] at h
      cases hfind : mapFind st1.nodes mc.a with
      | none => rw [hfind] at h; simp at h
      | some na =>
        rw [hfind] at h
        simp only [Option.some_bind] at h
        cases hrem : st1.heap.remove_fibnode na with
        | none => rw [hrem] at h; simp at h
        | some heap2 =>
          rw [hrem] at h
          simp only [Option.some_bind] at h
          exact phase_loop_LoopState mc _ 0 _ [mc.a] 9999 mc.a res
            (LoopState.start r st1 na heap2 hpush hadd hfind hrem) rfl h

theorem add_vertex_edge_nodes (v : VID) (st st' : PhaseState) (e : EID)
    (h : MinCut.add_vertex_edge v st e = some st') : st'.nodes = st.nodes := by
  unfold MinCut.add_vertex_edge at h
  by_cases hm : st.marked.contains e = true
  · simp only [hm, if_true, Option.some.injEq] at h
    subst h
    rfl
  · simp only [hm, Bool.false_eq_true, if_false] at h
    cases hk : MinCut.add_vertex_keys v (mapGetD (mapTouch st.G.edges e) e).weight st.nodes
        (mapGetD (mapTouch st.G.edges e) e).vertices st.heap with
    | none => rw [hk] at h; simp at h
    | some heap1 =>
      rw [hk] at h
      simp only [Option.bind_eq_bind, Option.some_bind, Option.some.injEq] at h
      subst h
      rfl

theorem add_vertex_edges_nodes (v : VID) (es : List EID) (st st' : PhaseState)
    (h : MinCut.add_vertex_edges v es st = some st') : st'.nodes = st.nodes := by
  induction es generalizing st with
  | nil =>
    simp only [MinCut.add_vertex_edges, Option.some.injEq] at h
    subst h
    rfl
  | cons e es ih =>
    simp only [MinCut.add_vertex_edges] at h
    cases h1 : MinCut.add_vertex_edge v st e with
    | none => rw [h1] at h; simp at h
    | some st1 =>
      rw [h1] at h
      simp only [Option.bind_eq_bind, Option.some_bind] at h
      exact (ih st1 h).trans (add_vertex_edge_nodes v st st1 e h1)

theorem add_vertex_to_A_nodes (v : VID) (st st' : PhaseState)
    (h : MinCut.add_vertex_to_A v st = some st') : st'.nodes = st.nodes := by
  unfold MinCut.add_vertex_to_A at h
  exact add_vertex_edges_nodes v _ _ st' h
    |>.trans rfl

section

open FibHeap

theorem Inv_nonempty_of_mem {h : FibHeap} (hI : h.Inv) {x : Nat} {nd : FibNode}
    (hx : h.mem x = some nd) : h.empty = false := by
  obtain ⟨S, hS1, hS2, hS3⟩ := hI.2.2.2
  have hxS : x ∈ S := (hS2 x).mpr ((Inv_live_iff hI x).mpr (by rw [hx]; simp))
  have : 1 ≤ S.length := List.length_pos_of_mem hxS
  unfold FibHeap.empty
  simp only [decide_eq_false_iff_not]
  omega

/-- Two heaps that store the same vertices at the same handles have the same live handles. -/
theorem HeapRep_same_handles {h h' : FibHeap} {nodes : List (VID × Nat)} {R : VID → Prop}
    {key key' : VID → Int} (h1 : HeapRep h nodes R key) (h2 : HeapRep h' nodes R key')
    (x : Nat) : h'.mem x ≠ none ↔ h.mem x ≠ none := by
  have one : ∀ (a b : FibHeap) (ka kb : VID → Int), HeapRep a nodes R ka →
      HeapRep b nodes R kb → a.mem x ≠ none → b.mem x ≠ none := by
    intro a b ka kb ha hb hx
    cases hm : a.mem x with
    | none => exact absurd hm hx
    | some nd =>
      obtain ⟨r1, r2⟩ := ha.2.2 x nd hm
      obtain ⟨n, nd', c1, c2, -, -⟩ := hb.2.1 _ r1
      rw [r2] at c1
      cases c1
      rw [c2]
      simp
  exact ⟨one h' h key' key h2 h1, one h h' key key' h1 h2⟩

end

/-- The facts of a loop state in which the loop continues: the heap is not empty, its top is
a vertex not added yet that is at least as tight as every other one, and the addition of this
vertex raises keys of vertices that are still in the heap only. -/
theorem LoopState_pop (T : Int) (hT : T < INT_MAX) (mc : MinCut) (hG : mc.G.RunInv)
    (hTot : total_weight mc.G.edges ≤ T) (ha : mc.a ∈ mapKeys mc.G.vertices)
    {st : PhaseState} {A : List VID} (h : LoopState mc st A)
    (hcond : A.length - 1 < st.G.vertices.length - 1) :
    st.heap.empty = false ∧
    ∃ top tn heap1 st1, st.heap.top_node = some top ∧ st.heap.mem top = some tn ∧
      st.heap.pop = some heap1 ∧
      MinCut.add_vertex_to_A tn.payload { st with heap := heap1 } = some st1 ∧
      tn.payload ∈ mapKeys mc.G.vertices ∧ tn.payload ∉ A ∧
      (∀ u, u ∈ mapKeys mc.G.vertices → u ∉ A →
        tightness mc.G.edges A u ≤ tightness mc.G.edges A tn.payload) ∧
      (∀ e ∈ (mapGetD st.G.vertices tn.payload).edges, e ∉ st.marked →
        ∀ u ∈ (mapGetD st.G.edges e).vertices, u ≠ tn.payload →
          u ∈ mapKeys mc.G.vertices ∧ u ∉ A ∧
          ∃ n nd, mapFind st.nodes u = some n ∧ heap1.mem n = some nd ∧ nd.payload = u) ∧
      (∀ x, st1.heap.mem x ≠ none ↔ heap1.mem x ≠ none) ∧
      (∀ x, heap1.mem x ≠ none ↔ (st.heap.mem x ≠ none ∧ x ≠ top)) := by
  have hKnd : (mapKeys mc.G.vertices).Nodup := MapWF_keys_nodup hG.1.1
  obtain ⟨⟨hG', hTot', hK, hM, hR⟩, hnd, hAK, hhead, hs, hPG⟩ :=
    LoopState_inv T hT mc hG hTot ha h
  have hn : st.G.vertices.length = (mapKeys mc.G.vertices).length := by
    rw [← hK]; simp [mapKeys]
  have hApos : 1 ≤ A.length := by
    cases A with
    | nil => simp at hhead
    | cons x xs => simp
  obtain ⟨u0, hu0K, hu0A⟩ := exists_not_mem_of_length_lt (A := A) hKnd (by omega)
  obtain ⟨top, tn, heap1, htop, htn, hRm, hmax, hpop, hR1⟩ :=
    @HeapRep_pop _ _ _ _ hR u0 ⟨hu0K, hu0A⟩
  obtain ⟨st1, hadd, hG1, hTot1, hK1, hM1, hR1', hs1, hv1⟩ :=
    add_core T hT (mapKeys mc.G.vertices) A tn.payload { st with heap := heap1 } _ _ hG'
      hTot' hK hM hRm.1 hR1
      (fun _ _ _ => rfl) (fun h => absurd rfl h.2) (fun u h1 h2 h3 => ⟨⟨h1, h2⟩, h3⟩)
  have hnodes : st1.nodes = st.nodes :=
    add_vertex_to_A_nodes tn.payload { st with heap := heap1 } st1 hadd
  refine ⟨Inv_nonempty_of_mem hR.1 htn, top, tn, heap1, st1, htop, htn, hpop, hadd, hRm.1,
    hRm.2, ?_, ?_, ?_, ?_⟩
  · intro u huK huA
    have := hmax u ⟨huK, huA⟩
    rw [tightness_transfer hs, tightness_transfer hs] at this
    exact this
  · intro e _ hne u hu huv
    obtain ⟨E, hE, huE⟩ := mapGetD_default_edges hu
    obtain ⟨U, hU, heU⟩ := hG'.2.1 e E hE u huE
    have huK : u ∈ mapKeys mc.G.vertices := hK ▸ (mem_mapKeys _ _).mpr ⟨U, hU⟩
    have huA : u ∉ A := fun h => hne ((hM e).mpr ⟨u, h, U, hU, heU⟩)
    obtain ⟨n, nd, c1, c2, c3, -⟩ := hR1.2.1 u ⟨⟨huK, huA⟩, huv⟩
    exact ⟨huK, huA, n, nd, c1, c2, c3⟩
  · intro x
    rw [hnodes] at hR1'
    exact HeapRep_same_handles hR1 hR1' x
  · intro x
    constructor
    · intro hx
      cases hm : heap1.mem x with
      | none => exact absurd hm hx
      | some nd =>
        obtain ⟨r1, r2⟩ := hR1.2.2 x nd hm
        obtain ⟨n, nd', c1, c2, c3, -⟩ := hR.2.1 _ r1.1
        rw [r2] at c1
        cases c1
        refine ⟨by rw [c2]; simp, ?_⟩
        intro e
        rw [e, htn] at c2
        cases c2
        exact r1.2 c3.symm
    · rintro ⟨hx, hxt⟩
      cases hm : st.heap.mem x with
      | none => exact absurd hm hx
      | some nd =>
        obtain ⟨r1, r2⟩ := hR.2.2 x nd hm
        have hne : nd.payload ≠ tn.payload := by
          intro e
          obtain ⟨r3, r4⟩ := hR.2.2 top tn htn
          rw [e, r4] at r2
          cases r2
          exact hxt rfl
        obtain ⟨n, nd', c1, c2, -, -⟩ := hR1.2.1 _ ⟨r1, hne⟩
        rw [r2] at c1
        cases c1
        rw [c2]
        simp


/-! ## The edge records during the run, and the graph that `run` leaves -/

theorem Tidy_input {G : HyperGraph} (hG : InputGraph G) (a : VID) : Tidy a G := by
  obtain ⟨-, -, hAr⟩ := Built_inv (AddEdges_built (InputGraph_addEdges hG))
  refine ⟨fun e E hE => Or.inr (hAr e E hE), ?_, ?_⟩
  · intro e E hE hnil
    have := hAr e E hE
    rw [hnil] at this
    simp at this
  · intro V hV e he
    exact InputGraph_VertexAdj hG a V hV e he

theorem default_edge_vertices : (default : Edge).vertices = [] := rfl

theorem Tidy_phase {a : VID} {G G' : HyperGraph} {A : List VID} (hT : Tidy a G)
    (hP : PhaseGraph G G' A) : Tidy a G' := by
  obtain ⟨hR, hPp, hQ⟩ := hT
  obtain ⟨hv, he⟩ := hP
  refine ⟨?_, ?_, ?_⟩
  · intro e E hE
    rcases he e with c | ⟨-, c2, -⟩
    · exact hR e E (c ▸ hE)
    · rw [c2] at hE
      cases hE
      exact Or.inl rfl
  · intro e E hE hnil
    rw [hv]
    rcases he e with c | ⟨c1, -, v, -, c3⟩
    · exact hPp e E (c ▸ hE) hnil
    · obtain ⟨V, hV, heV⟩ := mapGetD_default_vertices c3
      refine ⟨v, V, ?_, hV, heV⟩
      intro hva
      rw [hva] at hV
      obtain ⟨E0, hE0, -⟩ := hQ V hV e heV
      rw [c1] at hE0
      cases hE0
  · intro V hV e heV
    rw [hv] at hV
    obtain ⟨E, hE, haE⟩ := hQ V hV e heV
    rcases he e with c | ⟨c1, -, -⟩
    · exact ⟨E, c.trans hE, haE⟩
    · rw [c1] at hE
      cases hE

theorem Tidy_merge (a : VID) (G : HyperGraph) (s t : VID) (hG : G.RunInv) (hT : Tidy a G)
    (hst : s ≠ t) (hs : s ∈ mapKeys G.vertices) (ht : t ∈ mapKeys G.vertices)
    (hsa : s ≠ a) (hta : t ≠ a) : Tidy a (G.merge s t) := by
  obtain ⟨hR, hPp, hQ⟩ := hT
  obtain ⟨S, hS⟩ := (mem_mapKeys _ _).mp hs
  obtain ⟨T, hTt⟩ := (mem_mapKeys _ _).mp ht
  obtain ⟨Af, hAf, -, hAe, hMb, hMo, hMe, -, -⟩ := merge_spec G s t S T hG.1 hst hS hTt
  refine ⟨?_, ?_, ?_⟩
  · intro e E hE
    rw [hMe] at hE
    by_cases h1 : e ∈ T.edges
    · simp only [h1, if_true] at hE
      by_cases h2 : (contracted s t (mapGetD G.edges e)).length ≤ 1
      · simp [h2] at hE
      · simp only [h2, if_false, Option.some.injEq] at hE
        subst hE
        right
        show 2 ≤ (contracted s t (mapGetD G.edges e)).length
        omega
    · simp only [h1, if_false] at hE
      exact hR e E hE
  · intro e E hE hnil
    rw [hMe] at hE
    by_cases h1 : e ∈ T.edges
    · simp only [h1, if_true] at hE
      by_cases h2 : (contracted s t (mapGetD G.edges e)).length ≤ 1
      · simp [h2] at hE
      · simp only [h2, if_false, Option.some.injEq] at hE
        subst hE
        exfalso
        apply h2
        have hnil' : contracted s t (mapGetD G.edges e) = [] := hnil
        rw [hnil']
        simp
    · simp only [h1, if_false] at hE
      obtain ⟨v, V, hva, hV, heV⟩ := hPp e E hE hnil
      have hvt : v ≠ t := by
        intro e'
        rw [e', hTt] at hV
        cases hV
        exact h1 heV
      by_cases hvs : v = s
      · rw [hvs, hS] at hV
        cases hV
        exact ⟨s, Af, hsa, hAf, (hAe e).mpr (Or.inl heV)⟩
      · exact ⟨v, V, hva, (hMo v hvs hvt).trans hV, heV⟩
  · intro V hV e heV
    rw [hMo a (Ne.symm hsa) (Ne.symm hta)] at hV
    obtain ⟨E, hE, haE⟩ := hQ V hV e heV
    rw [hMe]
    by_cases h1 : e ∈ T.edges
    · have hmem : ∀ x, x ∈ contracted s t (mapGetD G.edges e) ↔
          x = s ∨ (x ∈ (mapGetD G.edges e).vertices ∧ x ≠ t) := by
        intro x
        unfold contracted
        rw [mem_setInsert, mem_setErase]
      have ha : a ∈ contracted s t (mapGetD G.edges e) :=
        (hmem a).mpr (Or.inr ⟨by rw [mapGetD_of_find hE]; exact haE, Ne.symm hta⟩)
      have hs' : s ∈ contracted s t (mapGetD G.edges e) := (hmem s).mpr (Or.inl rfl)
      have h2 : ¬ (contracted s t (mapGetD G.edges e)).length ≤ 1 := by
        have := two_le_length_of_mem ha hs' (Ne.symm hsa)
        omega
      simp only [h1, if_true, h2, if_false]
      exact ⟨_, rfl, ha⟩
    · simp only [h1, if_false]
      exact ⟨E, hE, haE⟩

theorem length_le_one_of_all_eq {l : List Nat} (hnd : l.Nodup) (a : Nat)
    (h : ∀ x ∈ l, x = a) : l.length ≤ 1 := by
  match l, hnd, h with
  | [], _, _ => simp
  | [_], _, _ => simp
  | x :: y :: _, hnd, h =>
    exfalso
    have hx := h x (by simp)
    have hy := h y (by simp)
    rw [List.nodup_cons] at hnd
    exact hnd.1 (by rw [hx, ← hy]; simp)

theorem exists_ne_of_two_le {l : List Nat} (hnd : l.Nodup) (a : Nat) (h : 2 ≤ l.length) :
    ∃ x ∈ l, x ≠ a := by
  by_contra hc
  have := length_le_one_of_all_eq hnd a (by
    intro x hx
    by_contra hne
    exact hc ⟨x, hx, hne⟩)
  omega

theorem map_nil_of_find_none {V : Type} {m : List (Nat × V)} (h : ∀ k, mapFind m k = none) :
    m = [] := by
  cases m with
  | nil => rfl
  | cons kv t =>
    obtain ⟨k, v⟩ := kv
    have := h k
    simp [mapFind] at this

/-- The merge of the last phase, of the only other vertex `t` into `a`, erases every edge
record. -/
theorem final_edges_nil (a : VID) (G : HyperGraph) (t : VID) (hG : G.RunInv) (hT : Tidy a G)
    (hat : a ≠ t) (ha : a ∈ mapKeys G.vertices) (ht : t ∈ mapKeys G.vertices)
    (hkeys : ∀ v ∈ mapKeys G.vertices, v = a ∨ v = t) : (G.merge a t).edges = [] := by
  obtain ⟨hR, hPp, -⟩ := hT
  obtain ⟨hwf, hadj, -, -⟩ := hG
  obtain ⟨w1, w2, w3, w4⟩ := (HyperGraph_WF_iff G).mp hwf
  obtain ⟨A, hA⟩ := (mem_mapKeys _ _).mp ha
  obtain ⟨T, hTt⟩ := (mem_mapKeys _ _).mp ht
  obtain ⟨Af, -, -, -, -, -, hMe, -, -⟩ := merge_spec G a t A T hwf hat hA hTt
  apply map_nil_of_find_none
  intro e
  rw [hMe]
  by_cases h1 : e ∈ T.edges
  · have hc : (contracted a t (mapGetD G.edges e)).length ≤ 1 := by
      have hwfE : SetWF (mapGetD G.edges e).vertices := by
        cases hf : mapFind G.edges e with
        | none => rw [(mapGetD_absent_edge _ _ hf).1]; exact SetWF_nil
        | some E => rw [mapGetD_of_find hf]; exact w3 e E hf
      apply length_le_one_of_all_eq
        (SetWF_nodup (SetWF_setInsert a (SetWF_setErase t hwfE))) a
      intro x hx
      rw [mem_setInsert, mem_setErase] at hx
      rcases hx with h | ⟨h2, h3⟩
      · exact h
      · obtain ⟨E, hE, hxE⟩ := mapGetD_default_edges h2
        obtain ⟨X, hX, -⟩ := hadj e E hE x hxE
        rcases hkeys x ((mem_mapKeys _ _).mpr ⟨X, hX⟩) with h | h
        · exact h
        · exact absurd h h3
    simp only [h1, if_true, hc]
  · simp only [h1, if_false]
    cases hf : mapFind G.edges e with
    | none => rfl
    | some E =>
      exfalso
      rcases hR e E hf with hnil | h2
      · obtain ⟨v, V, hva, hV, heV⟩ := hPp e E hf hnil
        rcases hkeys v ((mem_mapKeys _ _).mpr ⟨V, hV⟩) with h | h
        · exact hva h
        · rw [h, hTt] at hV
          cases hV
          exact h1 heV
      · obtain ⟨x, hx, hxa⟩ := exists_ne_of_two_le (SetWF_nodup (w3 e E hf)) a h2
        obtain ⟨X, hX, heX⟩ := hadj e E hf x hx
        rcases hkeys x ((mem_mapKeys _ _).mpr ⟨X, hX⟩) with h | h
        · exact hxa h
        · rw [h, hTt] at hX
          cases hX
          exact h1 heX

theorem before_is_start_iff {init : List VID} {s t a : VID} (hnd : (init ++ [s, t]).Nodup)
    (hhead : (init ++ [s, t]).head? = some a) :
    s = a ↔ (init ++ [s, t]).length = 2 := by
  cases init with
  | nil =>
    simp only [List.nil_append, List.head?_cons, Option.some.injEq] at hhead
    simp [hhead]
  | cons x xs =>
    simp only [List.cons_append, List.head?_cons, Option.some.injEq] at hhead
    have hne : s ≠ x := by
      intro e
      rw [List.cons_append, List.nodup_cons] at hnd
      exact hnd.1 (by simp [e])
    rw [← hhead]
    simp [hne]

theorem phase_tidy (G0 : HyperGraph) (hT0 : total_weight G0.edges < INT_MAX) (mc : MinCut)
    (hI : DriverInv G0 mc) (hTd : Tidy mc.a mc.G) {res : PhaseState × VID × VID}
    (hpo : MinCut.phase_order mc = some res) : Tidy mc.a res.1.G := by
  obtain ⟨A, hL, -⟩ := phase_order_LoopState mc res hpo
  obtain ⟨-, -, -, -, -, hPG⟩ :=
    LoopState_inv (total_weight G0.edges) hT0 mc hI.1 hI.2.1 hI.2.2.1 hL
  exact Tidy_phase hTd hPG

/-- In every state that `run` goes through with more than one vertex left, the edge records
are tidy. -/
theorem RunsThrough_tidy (G0 : HyperGraph) (hT0 : total_weight G0.edges < INT_MAX)
    (hK0 : (mapKeys G0.vertices).Nodup) {mc m : MinCut} (hI : DriverInv G0 mc)
    (hTd : Tidy mc.a mc.G) (hr : RunsThrough mc m) (hm : 1 < m.G.vertices.length) :
    Tidy m.a m.G := by
  induction hr with
  | here mc => exact hTd
  | next mc mc1 m hlen hp hr ih =>
    obtain ⟨mc', hp', hI', hlen', -⟩ := phase_step G0 hT0 hK0 mc hI hlen
    obtain ⟨st, init, s, t, hpo, hp'', hea, heG, hG', hv, -, hnd, hord, hhead, -, hst, hta,
      hsK, htK, -, hl⟩ := phase_shape G0 hT0 mc hI hlen
    rw [hp] at hp' hp''
    cases hp'
    cases hp''
    by_cases h1 : 1 < (MinCut.phase_end mc st.G s t).G.vertices.length
    · apply ih hI' _ hm
      rw [hea, heG]
      have hsa : s ≠ mc.a := by
        intro e
        have := (before_is_start_iff hnd hhead).mp e
        omega
      have hTd' : Tidy mc.a st.G := phase_tidy G0 hT0 mc hI hTd hpo
      exact Tidy_merge mc.a st.G s t hG' hTd' hst (by rw [hv]; exact hsK)
        (by rw [hv]; exact htK) hsa hta
    · cases hr with
      | here => exact absurd hm h1
      | next _ mc2 _ h2 _ _ => exact absurd h2 h1

/-- The graph that `mincut` leaves on a valid input graph: one vertex, the smallest one,
whose history lists every other vertex once, and no edge record. -/
theorem mincut_final (G : HyperGraph) (hG : InputGraph G)
    (hT : total_weight G.edges < INT_MAX) (hn : 2 ≤ G.vertices.length) :
    ∃ res G' a V, mincut G = some (res, G') ∧ G'.vertices = [(a, V)] ∧
      a ∈ mapKeys G.vertices ∧ (∀ v ∈ mapKeys G.vertices, a ≤ v) ∧
      V.merged_with.Nodup ∧ (∀ x, x ∈ V.merged_with ↔ (x ∈ mapKeys G.vertices ∧ x ≠ a)) ∧
      G'.edges = [] := by
  obtain ⟨mc0, hc, hG0, hI, ha0, hmin, -⟩ := construct_spec G hG hn
  have hK0 : (mapKeys G.vertices).Nodup := MapWF_keys_nodup (InputGraph_RunInv hG).1.1
  obtain ⟨final, hr, hph, hfl, hall⟩ :=
    run_loop_phases G hT hK0 mc0.G.vertices.length mc0 hI (by omega)
  rw [hG0] at hph hall
  obtain ⟨m, m', a1, a2, a3, a4, a5, -⟩ := hall (G.vertices.length - 2) (by omega)
  have hk : G.vertices.length - 2 + 1 = G.vertices.length - 1 := by omega
  rw [hk, hph] at a5
  cases a5
  have hlen2 : m.G.vertices.length = 2 := by omega
  obtain ⟨hIm, hma⟩ := RunsThrough_inv G hT hK0 hI a2
  have hTd0 : Tidy mc0.a mc0.G := by rw [hG0]; exact Tidy_input hG _
  have hTdm : Tidy m.a m.G := RunsThrough_tidy G hT hK0 hI hTd0 a2 (by omega)
  obtain ⟨st, init, s, t, hpo, hp, hea, heG, hG', hv, -, hnd, hord, hhead, -, hst, hta,
    hsK, htK, -, hl⟩ := phase_shape G hT m hIm (by omega)
  rw [a4] at hp
  cases hp
  have hsa : s = m.a := (before_is_start_iff hnd hhead).mpr (by omega)
  have hinit : init = [] := by
    cases init with
    | nil => rfl
    | cons x xs =>
      simp only [List.cons_append, List.length_cons, List.length_append] at hl
      simp at hl
      omega
  have hTdst : Tidy m.a st.G := phase_tidy G hT m hIm hTdm hpo
  have hedges : (MinCut.phase_end m st.G s t).G.edges = [] := by
    rw [heG, hsa]
    apply final_edges_nil m.a st.G t hG' hTdst (Ne.symm hta) (by rw [hv]; exact hIm.2.2.1)
      (by rw [hv]; exact htK)
    intro v hvk
    rw [hv] at hvk
    have := (hord v).mpr hvk
    rw [hinit, hsa] at this
    simpa using this
  have hfin : RunsThrough mc0 (MinCut.phase_end m st.G s t) :=
    RunsThrough_trans a2 (RunsThrough.next m _ _ (by omega) a4 (RunsThrough.here _))
  obtain ⟨hIf, hfa⟩ := RunsThrough_inv G hT hK0 hI hfin
  obtain ⟨it, hvs⟩ : ∃ it, (MinCut.phase_end m st.G s t).G.vertices = [it] := by
    match hv1 : (MinCut.phase_end m st.G s t).G.vertices, hfl with
    | [], h0 => simp at h0
    | [z], _ => exact ⟨z, rfl⟩
    | _ :: _ :: _, h0 => simp at h0
  obtain ⟨a', V⟩ := it
  have haf := hIf.2.2.1
  rw [hfa] at haf
  have ha' : a' = mc0.a := by
    simp only [mapKeys, hvs, List.map_cons, List.map_nil, List.mem_singleton] at haf
    exact haf.symm
  have hperm := hIf.2.2.2.1
  have hids : (MinCut.phase_end m st.G s t).G.all_ids = a' :: V.merged_with := by
    unfold HyperGraph.all_ids
    rw [hvs]
    simp
  rw [hids] at hperm
  have hnd' : (a' :: V.merged_with).Nodup := hperm.symm.nodup_iff.mp hK0
  refine ⟨(MinCut.phase_end m st.G s t).best_cut, (MinCut.phase_end m st.G s t).G, a', V,
    ?_, hvs, by rw [ha']; exact ha0, by rw [ha']; exact hmin, (List.nodup_cons.mp hnd').2,
    ?_, hedges⟩
  · unfold mincut MinCut.run
    simp only [hc, Option.bind_eq_bind, Option.some_bind]
    rw [hr]
    rfl
  · intro x
    have hx := hperm.mem_iff (a := x)
    simp only [List.mem_cons] at hx
    constructor
    · intro h
      refine ⟨hx.mp (Or.inr h), ?_⟩
      intro e
      exact (List.nodup_cons.mp hnd').1 (e ▸ h)
    · rintro ⟨h1, h2⟩
      rcases hx.mpr h1 with h | h
      · exact absurd h h2
      · exact h


/-! ## The contract of `mincut` -/

theorem triangle_input : InputGraph triangle :=
  InputGraph.add_edge _ 3 [1, 3] 3
    (InputGraph.add_edge _ 2 [2, 3] 2
      (InputGraph.add_edge _ 1 [1, 2] 1 InputGraph.empty (by decide) (by decide) (by decide)
        (by decide))
      (by decide) (by decide) (by decide) (by decide))
    (by decide) (by decide) (by decide) (by decide)

theorem path4_input : InputGraph path4 :=
  InputGraph.add_edge _ 3 [3, 4] 1
    (InputGraph.add_edge _ 2 [1, 3] 1
      (InputGraph.add_edge _ 1 [1, 2] 1 InputGraph.empty (by decide) (by decide) (by decide)
        (by decide))
      (by decide) (by decide) (by decide) (by decide))
    (by decide) (by decide) (by decide) (by decide)

set_option maxRecDepth 100000 in
theorem path4_mincut :
    (mincut path4).map (fun r => r.1) = some { value := 1, left := [4], right := [1, 2, 3] } := by
  decide

theorem path4_balanced : Bipartition (mapKeys path4.vertices) [1, 2] [3, 4] := by
  have hk : mapKeys path4.vertices = [1, 2, 3, 4] := by decide
  refine ⟨by decide, by decide, by decide, ?_⟩
  intro v
  rw [hk]
  simp only [List.mem_cons, List.mem_singleton, List.not_mem_nil, or_false]
  tauto

/-- C1: optimality of `mincut`.  For every graph built by `add_edge` calls with distinct edge
ids, at least two vertices per edge and positive weights, with the total weight below
`INT_MAX` and at least two vertices, `mincut` returns a cut whose value is the minimum, over
the partitions of the vertex set into two non-empty sides, of the summed weight of the edges
that touch both sides: some partition has this weight and none has less. -/
theorem mincut_optimal (G : HyperGraph) (hG : InputGraph G)
    (hT : total_weight G.edges < INT_MAX) (hn : 2 ≤ G.vertices.length) :
    ∃ res G', mincut G = some (res, G') ∧
      (∃ X Y, Bipartition (mapKeys G.vertices) X Y ∧ crossing_weight G.edges X Y = res.value) ∧
      ∀ X Y, Bipartition (mapKeys G.vertices) X Y →
        res.value ≤ crossing_weight G.edges X Y := by
  obtain ⟨res, G', h1, ⟨hb, -, -, hv⟩, h3⟩ := mincut_spec G hG hT hn
  exact ⟨res, G', h1, ⟨res.left, res.right, hb, hv.symm⟩, h3⟩

/-- C1, witness: the triangle of S1. -/
theorem mincut_optimal_witness :
    InputGraph triangle ∧ total_weight triangle.edges < INT_MAX ∧ 2 ≤ triangle.vertices.length ∧
    ∃ res G', mincut triangle = some (res, G') ∧
      (∃ X Y, Bipartition (mapKeys triangle.vertices) X Y ∧
        crossing_weight triangle.edges X Y = res.value) ∧
      ∀ X Y, Bipartition (mapKeys triangle.vertices) X Y →
        res.value ≤ crossing_weight triangle.edges X Y :=
  ⟨triangle_input, by decide, by decide,
    mincut_optimal triangle triangle_input (by decide) (by decide)⟩

/-- C2: the cut returned by `mincut` is a bipartition of the vertex set.  For every valid
input graph with at least two vertices, `mincut` returns a cut whose `left` and `right` are
sets, both non-empty, disjoint, and whose union is the set of vertices that the graph had
before the call. -/
theorem mincut_bipartition (G : HyperGraph) (hG : InputGraph G)
    (hT : total_weight G.edges < INT_MAX) (hn : 2 ≤ G.vertices.length) :
    ∃ res G', mincut G = some (res, G') ∧ SetWF res.left ∧ SetWF res.right ∧
      res.left ≠ [] ∧ res.right ≠ [] ∧ (∀ v, v ∈ res.left → v ∉ res.right) ∧
      ∀ v, v ∈ mapKeys G.vertices ↔ (v ∈ res.left ∨ v ∈ res.right) := by
  obtain ⟨res, G', h1, ⟨⟨b1, b2, b3, b4⟩, hl, hr, -⟩, -⟩ := mincut_spec G hG hT hn
  exact ⟨res, G', h1, hl, hr, b1, b2, b3, b4⟩

/-- C2, witness: the path `2 - 1 - 3 - 4`. -/
theorem mincut_bipartition_witness :
    InputGraph path4 ∧ total_weight path4.edges < INT_MAX ∧ 2 ≤ path4.vertices.length ∧
    ∃ res G', mincut path4 = some (res, G') ∧ SetWF res.left ∧ SetWF res.right ∧
      res.left ≠ [] ∧ res.right ≠ [] ∧ (∀ v, v ∈ res.left → v ∉ res.right) ∧
      ∀ v, v ∈ mapKeys path4.vertices ↔ (v ∈ res.left ∨ v ∈ res.right) :=
  ⟨path4_input, by decide, by decide,
    mincut_bipartition path4 path4_input (by decide) (by decide)⟩

/-- C3: the value of the cut returned by `mincut` is the weight of the returned partition in
the original graph.  For every valid input graph with at least two vertices, `result.value` is
the sum of the weights of the edges of the graph, as it was before the call, whose vertex set
meets both `result.left` and `result.right`. -/
theorem mincut_value (G : HyperGraph) (hG : InputGraph G)
    (hT : total_weight G.edges < INT_MAX) (hn : 2 ≤ G.vertices.length) :
    ∃ res G', mincut G = some (res, G') ∧
      res.value = crossing_weight G.edges res.left res.right := by
  obtain ⟨res, G', h1, ⟨-, -, -, hv⟩, -⟩ := mincut_spec G hG hT hn
  exact ⟨res, G', h1, hv⟩

/-- C3, witness: the triangle of S1. -/
theorem mincut_value_witness :
    InputGraph triangle ∧ total_weight triangle.edges < INT_MAX ∧ 2 ≤ triangle.vertices.length ∧
    ∃ res G', mincut triangle = some (res, G') ∧
      res.value = crossing_weight triangle.edges res.left res.right :=
  ⟨triangle_input, by decide, by decide,
    mincut_value triangle triangle_input (by decide) (by decide)⟩

/-- C4, counterexample: on the path `2 - 1 - 3 - 4` with unit weights, a valid input graph,
`mincut` returns `({4}, {1, 2, 3})` of value 1, although `({1, 2}, {3, 4})` is a bipartition of
the minimum weight 1 with the larger side of size 2 instead of 3. -/
theorem balance_preference_fails :
    InputGraph path4 ∧ total_weight path4.edges < INT_MAX ∧ 2 ≤ path4.vertices.length ∧
    (mincut path4).map (fun r => r.1) = some { value := 1, left := [4], right := [1, 2, 3] } ∧
    Bipartition (mapKeys path4.vertices) [1, 2] [3, 4] ∧
    crossing_weight path4.edges [1, 2] [3, 4] = 1 ∧
    (∀ X Y, Bipartition (mapKeys path4.vertices) X Y →
      1 ≤ crossing_weight path4.edges X Y) ∧
    ¬ (Cut.count_balance { value := 1, left := [4], right := [1, 2, 3] }
        ≤ max [1, 2].length [3, 4].length) := by
  refine ⟨path4_input, by decide, by decide, path4_mincut, path4_balanced, by decide, ?_,
    by decide⟩
  obtain ⟨res, G', h1, -, h3⟩ := mincut_spec path4 path4_input (by decide) (by decide)
  have h2 := path4_mincut
  rw [h1] at h2
  simp only [Option.map_some', Option.some.injEq] at h2
  intro X Y hb
  have := h3 X Y hb
  rw [h2] at this
  exact this

/-- C4, amended: balance preference of `mincut` among the cuts of its phases.  For every valid
input graph with at least two vertices, `mincut` returns the cut of one of the phases that
`run` goes through, and no cut of a phase on the way is lighter or, at equal weight, has a
smaller `max(|left|, |right|)`. -/
theorem balance_among_phase_cuts (G : HyperGraph) (hG : InputGraph G)
    (hT : total_weight G.edges < INT_MAX) (hn : 2 ≤ G.vertices.length) :
    ∃ res G' mc0, MinCut.construct G = some mc0 ∧ mincut G = some (res, G') ∧
      (∃ m, RunsThrough mc0 m ∧ 1 < m.G.vertices.length ∧ examined_cut m = some res) ∧
      ∀ m c, RunsThrough mc0 m → 1 < m.G.vertices.length → examined_cut m = some c →
        res.value ≤ c.value ∧ (c.value = res.value → res.count_balance ≤ c.count_balance) := by
  obtain ⟨res, G', h1, ⟨-, -, -, hv⟩, -⟩ := mincut_spec G hG hT hn
  have hle : res.value < INT_MAX := by
    rw [hv]
    have := crossing_weight_le_total (InputGraph_RunInv hG).2.2.2 res.left res.right
    omega
  have h1' := h1
  unfold mincut at h1'
  cases hc : MinCut.construct G with
  | none => rw [hc] at h1'; simp at h1'
  | some mc0 =>
    rw [hc] at h1'
    simp only [Option.bind_eq_bind, Option.some_bind] at h1'
    cases hr : mc0.run with
    | none => rw [hr] at h1'; simp at h1'
    | some final =>
      rw [hr] at h1'
      simp only [Option.some_bind, Option.some.injEq, Prod.mk.injEq] at h1'
      have hbest : mc0.best_cut.value = INT_MAX := by
        unfold MinCut.construct at hc
        split at hc
        · cases hc
        · cases hc; rfl
      obtain ⟨-, l2⟩ := run_loop_lex _ mc0 final hr
      rw [h1'.1] at l2
      refine ⟨res, G', mc0, rfl, h1, ?_, fun m c a b d => l2 m c a b d⟩
      rcases run_loop_mem _ mc0 final hr with h | ⟨m, c, m1, m2, m3, m4⟩
      · rw [h1'.1] at h
        rw [h, hbest] at hle
        omega
      · rw [h1'.1] at m4
        exact ⟨m, m1, m2, by rw [m3, m4]⟩

/-- C4, witness: the path `2 - 1 - 3 - 4`. -/
theorem balance_among_phase_cuts_witness :
    InputGraph path4 ∧ total_weight path4.edges < INT_MAX ∧ 2 ≤ path4.vertices.length ∧
    ∃ res G' mc0, MinCut.construct path4 = some mc0 ∧ mincut path4 = some (res, G') ∧
      (∃ m, RunsThrough mc0 m ∧ 1 < m.G.vertices.length ∧ examined_cut m = some res) ∧
      ∀ m c, RunsThrough mc0 m → 1 < m.G.vertices.length → examined_cut m = some c →
        res.value ≤ c.value ∧ (c.value = res.value → res.count_balance ≤ c.count_balance) :=
  ⟨path4_input, by decide, by decide,
    balance_among_phase_cuts path4 path4_input (by decide) (by decide)⟩


/-! ## Claims on the graph operations -/

theorem triangle_built : Built triangle :=
  Built.add_edge _ 3 [1, 3] 3
    (Built.add_edge _ 2 [2, 3] 2
      (Built.add_edge _ 1 [1, 2] 1 Built.empty (by decide) (by decide) (by decide))
      (by decide) (by decide) (by decide))
    (by decide) (by decide) (by decide)

theorem triangle_merged_built : Built (triangle.merge 1 2) :=
  Built.merge _ 1 2 triangle_built (by decide) (by decide) (by decide)

theorem FreshEdge_of_forall {G : HyperGraph} {e : EID} (h1 : mapFind G.edges e = none)
    (h2 : ∀ it ∈ G.vertices, e ∉ it.2.edges) : G.FreshEdge e :=
  ⟨h1, fun v V h => h2 (v, V) (mem_of_mapFind h)⟩

theorem triangle_fresh : BuiltFresh triangle :=
  BuiltFresh.add_edge _ 3 [1, 3] 3
    (BuiltFresh.add_edge _ 2 [2, 3] 2
      (BuiltFresh.add_edge _ 1 [1, 2] 1 BuiltFresh.empty
        (FreshEdge_of_forall (by decide) (by decide)) (by decide) (by decide))
      (FreshEdge_of_forall (by decide) (by decide)) (by decide) (by decide))
    (FreshEdge_of_forall (by decide) (by decide)) (by decide) (by decide)

/-- The value of `cut` as a reduced crossing weight. -/
theorem cut_value_wrap (G : HyperGraph) (left : VertexSet) (hG : G.WF) (hl : SetWF left) :
    (G.cut left).1.value = wrapInt (crossing_weight G.edges left (G.cut left).1.right) :=
  cut_value_eq G.edges left _ hG.2.2.1 hl (SetWF_set_difference _ hG.1)

/-- C5, counterexample: on two parallel edges `{1,2}` of weight `2^30`, `cut({1})` returns the
value `-2^31`, whereas the weights of the crossing edges sum to `2^31`, which is no int. -/
theorem cut_value_not_sum :
    heavy_pair.WF ∧ (heavy_pair.cut [1]).1.right = [2] ∧
    crossing_weight heavy_pair.edges [1] [2] = 2147483648 ∧
    (heavy_pair.cut [1]).1.value = -2147483648 ∧
    (heavy_pair.cut [1]).1.value ≠ crossing_weight heavy_pair.edges [1] (heavy_pair.cut [1]).1.right := by
  decide

/-- C5, amended: `cut(left)` returns `left` unchanged, `right` equal to the set of keys of
`vertices` that are not in `left`, and a value equal to the summed weight of the edges having
a vertex in `left` and a vertex in `right`, reduced to the range of int (so equal to that sum
whenever the sum is an int); the graph is not modified.  `has_intersection(a, b)` is true iff
the sets `a` and `b` share an element. -/
theorem cut_spec (G : HyperGraph) (left : VertexSet) (hG : G.WF) (hl : SetWF left) :
    (G.cut left).1.left = left ∧
    SetWF (G.cut left).1.right ∧
    (∀ v, v ∈ (G.cut left).1.right ↔ v ∈ mapKeys G.vertices ∧ v ∉ left) ∧
    (G.cut left).1.value = wrapInt (crossing_weight G.edges left (G.cut left).1.right) ∧
    (-2147483648 ≤ crossing_weight G.edges left (G.cut left).1.right →
      crossing_weight G.edges left (G.cut left).1.right ≤ INT_MAX →
      (G.cut left).1.value = crossing_weight G.edges left (G.cut left).1.right) ∧
    (G.cut left).2 = G ∧
    (∀ a b : List Nat, SetWF a → SetWF b →
      (has_intersection a b = true ↔ ∃ x, x ∈ a ∧ x ∈ b)) := by
  have hr : SetWF (set_difference (mapKeys G.vertices) left) := SetWF_set_difference _ hG.1
  have hv : (G.cut left).1.value
      = wrapInt (crossing_weight G.edges left (G.cut left).1.right) :=
    cut_value_eq G.edges left _ hG.2.2.1 hl hr
  refine ⟨rfl, hr, fun v => mem_set_difference _ _ v, hv, ?_, rfl,
    fun a b ha hb => has_intersection_iff ha hb⟩
  intro h1 h2
  rw [hv, wrapInt_of_range h1 h2]

/-- C5, witness: the amended statement on the triangle of S1 with `left = {3}`. -/
theorem cut_spec_witness :
    triangle.WF ∧ SetWF [3] ∧ (triangle.cut [3]).1.left = [3] ∧
    (triangle.cut [3]).1.value = wrapInt (crossing_weight triangle.edges [3] (triangle.cut [3]).1.right) ∧
    (has_intersection [1, 3] [3] = true ↔ ∃ x, x ∈ [1, 3] ∧ x ∈ [3]) :=
  ⟨by decide, by decide, (cut_spec triangle [3] (by decide) (by decide)).1,
    (cut_spec triangle [3] (by decide) (by decide)).2.2.2.1,
    (cut_spec triangle [3] (by decide) (by decide)).2.2.2.2.2.2 [1, 3] [3] (by decide) (by decide)⟩

/-- C6: merge conservation.  For a graph with well-formed containers and consistent adjacency,
a set `L` of its vertices and two distinct vertices `a`, `b`: if both are in `L` then
`G.cut(L).value = G'.cut(L \ {b}).value`, and if both are outside `L` (in `R`) then
`G.cut(L).value = G'.cut(L).value`, where `G'` is `G` after `merge(a, b)`. -/
theorem merge_conservation (G : HyperGraph) (L : VertexSet) (a b : VID)
    (hG : G.WF) (hadj : G.EdgeAdj) (hadj' : G.VertexAdjLive) (hL : SetWF L)
    (hab : a ≠ b) (ha : a ∈ mapKeys G.vertices) (hb : b ∈ mapKeys G.vertices) :
    (a ∈ L → b ∈ L → (G.cut L).1.value = ((G.merge a b).cut (setErase b L)).1.value) ∧
    (a ∉ L → b ∉ L → (G.cut L).1.value = ((G.merge a b).cut L).1.value) := by
  obtain ⟨A, hA⟩ := (mem_mapKeys _ _).mp ha
  obtain ⟨B, hB⟩ := (mem_mapKeys _ _).mp hb
  obtain ⟨Af, -, -, -, -, -, -, hkeys, hwfM⟩ := merge_spec G a b A B hG hab hA hB
  constructor
  · intro haL hbL
    rw [cut_value_wrap G L hG hL,
      cut_value_wrap (G.merge a b) (setErase b L) hwfM (SetWF_setErase b hL)]
    congr 1
    symm
    apply crossing_weight_merge G a b hG hadj hadj' hab ha hb
    · exact haL
    · show a ∉ set_difference _ _
      rw [mem_set_difference]; exact fun h => h.2 haL
    · exact hbL
    · show b ∉ set_difference _ _
      rw [mem_set_difference]; exact fun h => h.2 hbL
    · rw [mem_setErase]; exact ⟨haL, hab⟩
    · show a ∉ set_difference _ _
      rw [mem_set_difference, mem_setErase]; exact fun h => h.2 ⟨haL, hab⟩
    · intro v _ hvb
      rw [mem_setErase]; exact ⟨fun h => h.1, fun h => ⟨h, hvb⟩⟩
    · intro v _ hvb
      show v ∈ set_difference _ _ ↔ v ∈ set_difference _ _
      rw [mem_set_difference, mem_set_difference, hkeys, mem_setErase, mem_setErase]
      tauto
  · intro haL hbL
    rw [cut_value_wrap G L hG hL, cut_value_wrap (G.merge a b) L hwfM hL]
    congr 1
    symm
    rw [crossing_weight_comm, crossing_weight_comm G.edges]
    apply crossing_weight_merge G a b hG hadj hadj' hab ha hb
    · show a ∈ set_difference _ _
      rw [mem_set_difference]; exact ⟨ha, haL⟩
    · exact haL
    · show b ∈ set_difference _ _
      rw [mem_set_difference]; exact ⟨hb, hbL⟩
    · exact hbL
    · show a ∈ set_difference _ _
      rw [mem_set_difference, hkeys, mem_setErase]; exact ⟨⟨ha, hab⟩, haL⟩
    · exact haL
    · intro v _ hvb
      show v ∈ set_difference _ _ ↔ v ∈ set_difference _ _
      rw [mem_set_difference, mem_set_difference, hkeys, mem_setErase]
      tauto
    · intro v _ _
      exact Iff.rfl

/-- C6, witness: the triangle of S1 with `a = 1`, `b = 2`, for `L = {1, 2}` and for
`L = {3}`. -/
theorem merge_conservation_witness :
    (triangle.cut [1, 2]).1.value = ((triangle.merge 1 2).cut (setErase 2 [1, 2])).1.value ∧
    (triangle.cut [3]).1.value = ((triangle.merge 1 2).cut [3]).1.value :=
  ⟨(merge_conservation triangle [1, 2] 1 2 (by decide) (Built_inv triangle_built).2.1
      (BuiltFresh_adj triangle_fresh) (by decide) (by decide) (by decide) (by decide)).1
      (by decide) (by decide),
   (merge_conservation triangle [3] 1 2 (by decide) (Built_inv triangle_built).2.1
      (BuiltFresh_adj triangle_fresh) (by decide) (by decide) (by decide) (by decide)).2
      (by decide) (by decide)⟩

/-- C7: edge-to-vertex adjacency.  In every graph obtained from the empty graph by calls of
`add_edge` (edge id not present, at least 2 vertices) and `merge` (two distinct keys), every
vertex `v` of every edge `e` is a key of `vertices` and `e` is in `vertices[v].edges`. -/
theorem edge_to_vertex_adjacency (G : HyperGraph) (h : Built G) :
    ∀ e E, mapFind G.edges e = some E → ∀ v ∈ E.vertices,
      ∃ V, mapFind G.vertices v = some V ∧ e ∈ V.edges :=
  (Built_inv h).2.1

/-- C7, witness: the triangle of S1 after `merge(1, 2)`, edge 3 and its vertex 1. -/
theorem edge_to_vertex_adjacency_witness :
    ∃ V, mapFind (triangle.merge 1 2).vertices 1 = some V ∧ 3 ∈ V.edges :=
  edge_to_vertex_adjacency (triangle.merge 1 2) triangle_merged_built 3
    { vertices := [1, 3], weight := 3 } (by decide) 1 (by decide)

theorem collapsed_pair_fresh : BuiltFresh collapsed_pair :=
  BuiltFresh.merge _ 1 2
    (BuiltFresh.add_edge _ 1 [1, 2] 1 BuiltFresh.empty
      (FreshEdge_of_forall (by decide) (by decide)) (by decide) (by decide))
    (by decide) (by decide) (by decide)

/-- C8, counterexample: after `add_edge(1, {1,2}, 1)` and `merge(1, 2)` the edge 1 has
collapsed and is no key of `edges`, but the incidence set of the surviving vertex 1 still
holds the edge id 1. -/
theorem vertex_to_edge_adjacency_fails :
    BuiltFresh collapsed_pair ∧
    mapFind collapsed_pair.vertices 1 = some { edges := [1], merged_with := [2] } ∧
    mapFind collapsed_pair.edges 1 = none ∧
    ¬ (∀ v V, mapFind collapsed_pair.vertices v = some V → ∀ e ∈ V.edges,
        ∃ E, mapFind collapsed_pair.edges e = some E ∧ v ∈ E.vertices) := by
  refine ⟨collapsed_pair_fresh, by decide, by decide, ?_⟩
  intro h
  obtain ⟨E, hE, -⟩ := h 1 { edges := [1], merged_with := [2] } (by decide) 1 (by decide)
  have hn : mapFind collapsed_pair.edges 1 = none := by decide
  rw [hn] at hE
  cases hE

/-- C8, amended: in every graph obtained from the empty graph by calls of `add_edge` (edge id
occurring nowhere in the graph, at least 2 vertices) and `merge` (two distinct keys), for every
vertex `v` and every edge id `e` of `vertices[v].edges` that is a key of `edges`, `v` is in
`edges[e].vertices`; `merge(a, b)` removes no edge id from the incidence set of `a`. -/
theorem vertex_to_edge_adjacency (G : HyperGraph) (h : BuiltFresh G) :
    (∀ v V, mapFind G.vertices v = some V → ∀ e ∈ V.edges,
      ∀ E, mapFind G.edges e = some E → v ∈ E.vertices) ∧
    (∀ a b A, a ≠ b → mapFind G.vertices a = some A → b ∈ mapKeys G.vertices →
      ∃ Af, mapFind (G.merge a b).vertices a = some Af ∧ ∀ e ∈ A.edges, e ∈ Af.edges) := by
  refine ⟨(BuiltFresh_adj h), ?_⟩
  intro a b A hab hA hb
  obtain ⟨B, hB⟩ := (mem_mapKeys _ _).mp hb
  obtain ⟨Af, hAf, -, hAe, -⟩ := merge_spec G a b A B (Built_inv (BuiltFresh_built h)).1 hab hA hB
  exact ⟨Af, hAf, fun e he => (hAe e).mpr (Or.inl he)⟩

/-- C8, witness: the triangle of S1, vertex 1 and its edge 3. -/
theorem vertex_to_edge_adjacency_witness : 1 ∈ ({ vertices := [1, 3], weight := 3 } : Edge).vertices :=
  (vertex_to_edge_adjacency triangle triangle_fresh).1 1
    { edges := [1, 3], merged_with := [] } (by decide) 3 (by decide)
    { vertices := [1, 3], weight := 3 } (by decide)

/-- C9: edge arity.  In every graph obtained from the empty graph by calls of `add_edge`
(edge id not present, at least 2 vertices) and `merge` (two distinct keys), every edge of
`edges` has at least 2 vertices; and an edge with `b` that `merge(a, b)` reduces to one vertex
is no key of `edges` afterwards. -/
theorem edge_arity (G : HyperGraph) (h : Built G) :
    (∀ e E, mapFind G.edges e = some E → 2 ≤ E.vertices.length) ∧
    (∀ a b, a ≠ b → a ∈ mapKeys G.vertices → b ∈ mapKeys G.vertices →
      ∀ e E, mapFind G.edges e = some E → b ∈ E.vertices →
        (contracted a b E).length ≤ 1 → mapFind (G.merge a b).edges e = none) := by
  refine ⟨(Built_inv h).2.2, ?_⟩
  intro a b hab ha hb e E hE hbE hc
  obtain ⟨A, hA⟩ := (mem_mapKeys _ _).mp ha
  obtain ⟨B, hB⟩ := (mem_mapKeys _ _).mp hb
  obtain ⟨Af, -, -, -, -, -, hMe, -, -⟩ := merge_spec G a b A B (Built_inv h).1 hab hA hB
  obtain ⟨V, hV, heV⟩ := (Built_inv h).2.1 e E hE b hbE
  rw [hB] at hV; cases hV
  rw [hMe, mapGetD_of_find hE]
  simp [heV, hc]

/-- C9, witness: the triangle of S1; its edge 2 has 2 vertices, and its edge 1 = `{1,2}` is
deleted by `merge(1, 2)`. -/
theorem edge_arity_witness :
    2 ≤ ({ vertices := [2, 3], weight := 2 } : Edge).vertices.length ∧
    mapFind (triangle.merge 1 2).edges 1 = none :=
  ⟨(edge_arity triangle triangle_built).1 2 { vertices := [2, 3], weight := 2 } (by decide),
   (edge_arity triangle triangle_built).2 1 2 (by decide) (by decide) (by decide) 1
     { vertices := [1, 2], weight := 1 } (by decide) (by decide) (by decide)⟩

theorem all_ids_nodup {G0 G : HyperGraph} (h0 : AddEdges G0) (h : Merges G0 G) :
    G.all_ids.Nodup ∧ ∀ x, x ∈ G.all_ids ↔ x ∈ mapKeys G0.vertices := by
  have hp := Merges_all_ids (AddEdges_built h0) h
  rw [(AddEdges_all_ids h0)] at hp
  have hnd : (mapKeys G0.vertices).Nodup := SetWF_nodup (Built_inv (AddEdges_built h0)).1.1
  exact ⟨hp.symm.nodup_iff.mp hnd, fun x => hp.mem_iff⟩

/-- C10: merge histories.  After any sequence of `merge(a, b)` calls (two distinct keys)
applied to a graph built by `add_edge`, no VID of a vertex's `merged_with` is a key of
`vertices`, and every VID that was a key before the merges is a key of `vertices` or occurs
exactly once in the `merged_with` of exactly one vertex; `merge(a, b)` appends `b` and then the
`merged_with` of `b` to the `merged_with` of `a`, and removes `b` from `vertices`. -/
theorem merge_history (G0 G : HyperGraph) (h0 : AddEdges G0) (h : Merges G0 G) :
    (∀ v V x, mapFind G.vertices v = some V → x ∈ V.merged_with → x ∉ mapKeys G.vertices) ∧
    (∀ x ∈ mapKeys G0.vertices,
      x ∈ mapKeys G.vertices ∨
      ∃ v V, mapFind G.vertices v = some V ∧ V.merged_with.count x = 1 ∧
        ∀ v' V', mapFind G.vertices v' = some V' → x ∈ V'.merged_with → v' = v) ∧
    (∀ a b A B, a ≠ b → mapFind G.vertices a = some A → mapFind G.vertices b = some B →
      mapFind (G.merge a b).vertices b = none ∧
      ∃ Af, mapFind (G.merge a b).vertices a = some Af ∧
        Af.merged_with = A.merged_with ++ [b] ++ B.merged_with) := by
  obtain ⟨hnd, hmem⟩ := all_ids_nodup h0 h
  have hwf : G.WF := (Built_inv (Merges_built (AddEdges_built h0) h)).1
  have hnd1 := (List.nodup_flatMap.mp hnd).1
  refine ⟨?_, ?_, ?_⟩
  · intro v V x hV hx hk
    obtain ⟨X, hX⟩ := (mem_mapKeys _ _).mp hk
    by_cases hvx : v = x
    · subst hvx
      have := hnd1 (v, V) (mem_of_mapFind hV)
      exact (List.nodup_cons.mp this).1 hx
    · exact disjoint_histories hnd hV hX hvx (List.mem_cons_of_mem _ hx) (List.mem_cons_self _ _)
  · intro x hx
    have hx' : x ∈ G.all_ids := (hmem x).mpr hx
    obtain ⟨it, hit, hxit⟩ := List.mem_flatMap.mp hx'
    have hf : mapFind G.vertices it.1 = some it.2 := mapFind_of_mem hwf.1 hit
    rcases List.mem_cons.mp hxit with hx1 | hx1
    · left
      exact (mem_mapKeys _ _).mpr ⟨it.2, hx1 ▸ hf⟩
    · right
      refine ⟨it.1, it.2, hf, ?_, ?_⟩
      · exact List.count_eq_one_of_mem (List.nodup_cons.mp (hnd1 it hit)).2 hx1
      · intro v' V' hV' hxV'
        by_contra hne
        exact disjoint_histories hnd hV' hf hne (List.mem_cons_of_mem _ hxV')
          (List.mem_cons_of_mem _ hx1)
  · intro a b A B hab hA hB
    obtain ⟨Af, hAf, hmw, -, hMb, -⟩ := merge_spec G a b A B hwf hab hA hB
    exact ⟨hMb, Af, hAf, hmw⟩

theorem triangle_add_edges : AddEdges triangle :=
  AddEdges.add_edge _ 3 [1, 3] 3
    (AddEdges.add_edge _ 2 [2, 3] 2
      (AddEdges.add_edge _ 1 [1, 2] 1 AddEdges.empty (by decide) (by decide) (by decide))
      (by decide) (by decide) (by decide))
    (by decide) (by decide) (by decide)

/-- C10, witness: the triangle of S1 after `merge(1, 2)`; the VID 2 of the history of vertex 1
is no key of `vertices`. -/
theorem merge_history_witness : 2 ∉ mapKeys (triangle.merge 1 2).vertices :=
  (merge_history triangle (triangle.merge 1 2) triangle_add_edges
    (Merges.merge _ 1 2 Merges.refl (by decide) (by decide) (by decide))).1 1
    { edges := [1, 2, 3], merged_with := [2] } 2 (by decide) (by decide)


/-! ## Scenarios, the heap interface and the run -/

/-- C11, counterexample: on the triangle of S1, `merge(1, 2)`, then `cut({3})`, then `unmerge`
yields a cut of value 5 (the edges `e2` and `e3` cross), not 3. -/
theorem scenario_S4_value_not_three :
    ¬ ((((triangle.merge 1 2).cut [3]).1.unmerge ((triangle.merge 1 2).cut [3]).2).1.value = 3 ∧
       (((triangle.merge 1 2).cut [3]).1.unmerge ((triangle.merge 1 2).cut [3]).2).1.left = [3] ∧
       (((triangle.merge 1 2).cut [3]).1.unmerge ((triangle.merge 1 2).cut [3]).2).1.right
         = [1, 2]) := by
  decide

/-- C11, amended: on the triangle of S1, `merge(1, 2)`, then `cut({3})`, then `unmerge` yields
a cut with `value == 5`, `left == {3}` and `right == {1, 2}`. -/
theorem scenario_S4 :
    (((triangle.merge 1 2).cut [3]).1.unmerge ((triangle.merge 1 2).cut [3]).2).1
      = { value := 5, left := [3], right := [1, 2] } := by
  decide

set_option maxRecDepth 100000 in
/-- C12: scenario S1.  On the triangle with the edges `e1 = {1,2}` of weight 1, `e2 = {2,3}`
of weight 2 and `e3 = {1,3}` of weight 3, `mincut` returns a cut with value 3, `left = {2}`
and `right = {1, 3}`. -/
theorem scenario_S1 :
    (mincut triangle).map Prod.fst = some { value := 3, left := [2], right := [1, 3] } := by
  decide

/-- C14: the replacement test of the driver is the lexicographic comparison on
`(value, balance)`.  For a candidate cut `c`, its unmerged form `u` (which has the value of
`c`) and an incumbent `b`, the condition `c.value <= b.value and u < b` holds iff
`u.value < b.value`, or `u.value = b.value` and `u.count_balance() < b.count_balance()`; and
the statements of `phase` after its loop replace `best_cut` by the unmerged cut of the phase
exactly under this condition. -/
theorem replacement_is_lexicographic (c b : Cut) (G : HyperGraph) (mc : MinCut) (s t : VID) :
    (c.unmerge G).1.value = c.value ∧
    ((c.value ≤ b.value ∧ (c.unmerge G).1.lt b = true) ↔
      ((c.unmerge G).1.value < b.value ∨
        ((c.unmerge G).1.value = b.value ∧
          (c.unmerge G).1.count_balance < b.count_balance))) ∧
    (MinCut.phase_end mc G s t).best_cut =
      (if (phase_cut G t).value < mc.best_cut.value ∨
          ((phase_cut G t).value = mc.best_cut.value ∧
            (phase_cut G t).count_balance < mc.best_cut.count_balance)
       then phase_cut G t else mc.best_cut) := by
  have key : ∀ u b : Cut, (u.value ≤ b.value ∧ u.lt b = true) ↔
      (u.value < b.value ∨ (u.value = b.value ∧ u.count_balance < b.count_balance)) := by
    intro u b
    simp only [Cut.lt, Bool.or_eq_true, decide_eq_true_eq]
    constructor
    · rintro ⟨h1, h2 | h2⟩
      · exact Or.inl h2
      · by_cases h3 : u.value < b.value
        · exact Or.inl h3
        · exact Or.inr ⟨by omega, h2⟩
    · rintro (h | ⟨h1, h2⟩)
      · exact ⟨by omega, Or.inl h⟩
      · exact ⟨by omega, Or.inr h2⟩
  refine ⟨rfl, key (c.unmerge G).1 b, ?_⟩
  rw [phase_end_best]
  by_cases h : (phase_cut G t).value ≤ mc.best_cut.value ∧ (phase_cut G t).lt mc.best_cut = true
  · rw [if_pos h, if_pos ((key _ _).mp h)]
  · rw [if_neg h, if_neg (fun h' => h ((key _ _).mpr h'))]

theorem heap_5_7_ops : HeapOps heap_5_7 :=
  HeapOps.push _ 7 2 ((FibHeap.push ((FibHeap.push {} 5 1).getD ({}, 0)).1 7 2).getD ({}, 0))
    (HeapOps.push _ 5 1 ((FibHeap.push {} 5 1).getD ({}, 0)) HeapOps.empty rfl) rfl

theorem heap_max_5_ops : HeapOps heap_max_5 :=
  HeapOps.push _ 5 2
    ((FibHeap.push ((FibHeap.push {} INT_MAX 1).getD ({}, 0)).1 5 2).getD ({}, 0))
    (HeapOps.push _ INT_MAX 1 ((FibHeap.push {} INT_MAX 1).getD ({}, 0)) HeapOps.empty rfl) rfl

theorem heap_5_7_keys (v : Nat) (nd : FibNode) (hv : heap_5_7.mem v = some nd) :
    nd.key < INT_MAX := by
  have hlt : v < 2 := ((HeapOps_Inv heap_5_7_ops).2.2.1 v (by rw [hv]; simp)).1
  have h0 : (heap_5_7.mem 0).map (fun n => n.key) = some 5 := by decide
  have h1 : (heap_5_7.mem 1).map (fun n => n.key) = some 7 := by decide
  interval_cases v
  · rw [hv] at h0
    simp only [Option.map_some', Option.some.injEq] at h0
    rw [h0]; decide
  · rw [hv] at h1
    simp only [Option.map_some', Option.some.injEq] at h1
    rw [h1]; decide

/-- C16: the heap always exposes a maximum.  On a heap obtained from the empty heap by calls
of `push`, `increase_key` (on handles of nodes of the heap) and `pop` that is not empty,
`top_node()` returns a node whose key is greater than or equal to the key of every node of the
heap, and `pop` removes exactly that node: no other node changes its key or payload, the
`(key, payload)` pairs before the call are those after it together with the pair of the
removed node, and `size()`, the number of nodes, is one smaller. -/
theorem heap_exposes_maximum (h : FibHeap) (hO : HeapOps h) (hne : h.empty = false) :
    ∃ m nm h', h.top_node = some m ∧ h.mem m = some nm ∧
      (∀ v nv, h.mem v = some nv → nv.key ≤ nm.key) ∧
      h.pop = some h' ∧ h'.mem m = none ∧
      (∀ v, v ≠ m → FibHeap.data h'.mem v = FibHeap.data h.mem v) ∧
      (h.pairs).Perm ((nm.key, nm.payload) :: h'.pairs) ∧
      h'.size = h.size - 1 ∧ h.size = h.pairs.length ∧ h'.size = h'.pairs.length := by
  have hI := HeapOps_Inv hO
  obtain ⟨m, nm, h', h1, h2, h3, h4, hI', h5, h6, h7, h8⟩ := top_pop_spec h hI hne
  exact ⟨m, nm, h', h1, h2, h3, h4, h5, h6, h7, h8, Inv_size hI, Inv_size hI'⟩

/-- C16, witness: the heap after `push(5, 1)` and `push(7, 2)`. -/
theorem heap_exposes_maximum_witness :
    HeapOps heap_5_7 ∧ heap_5_7.empty = false ∧
    ∃ m nm h', heap_5_7.top_node = some m ∧ heap_5_7.mem m = some nm ∧
      (∀ v nv, heap_5_7.mem v = some nv → nv.key ≤ nm.key) ∧
      heap_5_7.pop = some h' ∧ h'.mem m = none ∧
      (∀ v, v ≠ m → FibHeap.data h'.mem v = FibHeap.data heap_5_7.mem v) ∧
      (heap_5_7.pairs).Perm ((nm.key, nm.payload) :: h'.pairs) ∧
      h'.size = heap_5_7.size - 1 ∧ heap_5_7.size = heap_5_7.pairs.length ∧
      h'.size = h'.pairs.length :=
  ⟨heap_5_7_ops, by decide, heap_exposes_maximum heap_5_7 heap_5_7_ops (by decide)⟩

/-- C17, counterexample: on the heap after `push(INT_MAX, 1)` and `push(5, 2)`,
`remove_fibnode` on the handle of the second node, which holds `(5, 2)`, deletes the first
node: the heap is left with one node, of payload 2. -/
theorem remove_deletes_other_node :
    HeapOps heap_max_5 ∧ heap_max_5.empty = false ∧
    FibHeap.data heap_max_5.mem 1 = some (5, 2) ∧
    heap_max_5.pairs = [(INT_MAX, 1), (5, 2)] ∧
    (heap_max_5.remove_fibnode 1).map FibHeap.pairs = some [(INT_MAX, 2)] ∧
    (heap_max_5.remove_fibnode 1).map (fun h' => FibHeap.data h'.mem 1)
      = some (some (INT_MAX, 2)) :=
  ⟨heap_max_5_ops, by decide, by decide, by decide, by decide, by decide⟩

/-- C17, amended: `remove_fibnode` deletes the node it is given when no other key is
`INT_MAX`.  On a heap obtained from the empty heap by calls of `push`, `increase_key` and
`pop`, for every handle `x` of a node of the heap whose key is an int, if every other node has
a key below `INT_MAX`, then `remove_fibnode(x)` removes exactly the node `x`: no other node
changes its key or payload, the `(key, payload)` pairs before the call are those after it
together with the pair of `x`, and `size()` is one smaller. -/
theorem remove_deletes_handle (h : FibHeap) (hO : HeapOps h) (x : Nat) (xn : FibNode)
    (hx : h.mem x = some xn) (hxk : xn.key ≤ INT_MAX)
    (hkeys : ∀ v nd, v ≠ x → h.mem v = some nd → nd.key < INT_MAX) :
    ∃ h', h.remove_fibnode x = some h' ∧ h'.mem x = none ∧
      (∀ v, v ≠ x → FibHeap.data h'.mem v = FibHeap.data h.mem v) ∧
      (h.pairs).Perm ((xn.key, xn.payload) :: h'.pairs) ∧
      h'.size = h.size - 1 := by
  obtain ⟨h', h1, -, h2, h3, h4, h5⟩ := remove_spec h (HeapOps_Inv hO) hx hxk hkeys
  exact ⟨h', h1, h2, h3, h4, h5⟩

/-- C17, witness: the heap after `push(5, 1)` and `push(7, 2)`, and the handle 0 of its first
node. -/
theorem remove_deletes_handle_witness :
    HeapOps heap_5_7 ∧
    heap_5_7.mem 0 = some { key := 5, payload := 1 } ∧
    (∀ v nd, v ≠ 0 → heap_5_7.mem v = some nd → nd.key < INT_MAX) ∧
    ∃ h', heap_5_7.remove_fibnode 0 = some h' ∧ h'.mem 0 = none ∧
      (∀ v, v ≠ 0 → FibHeap.data h'.mem v = FibHeap.data heap_5_7.mem v) ∧
      (heap_5_7.pairs).Perm ((5, 1) :: h'.pairs) ∧
      h'.size = heap_5_7.size - 1 :=
  ⟨heap_5_7_ops, by decide, fun v nd _ hv => heap_5_7_keys v nd hv,
    remove_deletes_handle heap_5_7 heap_5_7_ops 0 { key := 5, payload := 1 } (by decide)
      (by decide) (fun v nd _ hv => heap_5_7_keys v nd hv)⟩

/-- C13: `run` terminates after exactly `V - 1` phases.  For every valid input graph with
`V >= 2` vertices, `run` returns the state reached by `V - 1` calls of `phase`, which has one
vertex left; before each of these calls more than one vertex is left, so the loop continues,
and each call leaves the keys of `G.vertices` with exactly one of them removed and none
added. -/
theorem run_makes_all_but_one_phases (G : HyperGraph) (hG : InputGraph G)
    (hT : total_weight G.edges < INT_MAX) (hn : 2 ≤ G.vertices.length) :
    ∃ mc0 final, MinCut.construct G = some mc0 ∧ mc0.run = some final ∧
      phases (G.vertices.length - 1) mc0 = some final ∧ final.G.vertices.length = 1 ∧
      ∀ k, k < G.vertices.length - 1 →
        ∃ m m', phases k mc0 = some m ∧ m.G.vertices.length = G.vertices.length - k ∧
          1 < m.G.vertices.length ∧ MinCut.phase m = some m' ∧
          phases (k + 1) mc0 = some m' ∧
          m'.G.vertices.length + 1 = m.G.vertices.length ∧
          ∃ t, t ∈ mapKeys m.G.vertices ∧
            mapKeys m'.G.vertices = setErase t (mapKeys m.G.vertices) := by
  obtain ⟨mc0, hc, hG0, hI, -, -, -⟩ := construct_spec G hG hn
  have hK0 : (mapKeys G.vertices).Nodup := MapWF_keys_nodup (InputGraph_RunInv hG).1.1
  obtain ⟨final, hr, hph, hfl, hall⟩ :=
    run_loop_phases G hT hK0 mc0.G.vertices.length mc0 hI (by omega)
  rw [hG0] at hph hall
  refine ⟨mc0, final, hc, hr, hph, hfl, ?_⟩
  intro k hk
  obtain ⟨m, m', a1, a2, a3, a4, a5, t, a6, a7⟩ := hall k hk
  obtain ⟨hIm, -⟩ := RunsThrough_inv G hT hK0 hI a2
  refine ⟨m, m', a1, a3, by omega, a4, a5, ?_, t, a6, a7⟩
  have h1 : m'.G.vertices.length = (mapKeys m'.G.vertices).length := by simp [mapKeys]
  have h2 : m.G.vertices.length = (mapKeys m.G.vertices).length := by simp [mapKeys]
  rw [h1, h2, a7]
  exact length_setErase (MapWF_keys_nodup hIm.1.1.1) a6

/-- C13, witness: the path `2 - 1 - 3 - 4`, with 4 vertices and 3 phases. -/
theorem run_makes_all_but_one_phases_witness :
    InputGraph path4 ∧ total_weight path4.edges < INT_MAX ∧ 2 ≤ path4.vertices.length ∧
    ∃ mc0 final, MinCut.construct path4 = some mc0 ∧ mc0.run = some final ∧
      phases (path4.vertices.length - 1) mc0 = some final ∧ final.G.vertices.length = 1 ∧
      ∀ k, k < path4.vertices.length - 1 →
        ∃ m m', phases k mc0 = some m ∧ m.G.vertices.length = path4.vertices.length - k ∧
          1 < m.G.vertices.length ∧ MinCut.phase m = some m' ∧
          phases (k + 1) mc0 = some m' ∧
          m'.G.vertices.length + 1 = m.G.vertices.length ∧
          ∃ t, t ∈ mapKeys m.G.vertices ∧
            mapKeys m'.G.vertices = setErase t (mapKeys m.G.vertices) :=
  ⟨path4_input, by decide, by decide,
    run_makes_all_but_one_phases path4 path4_input (by decide) (by decide)⟩

/-- C18: the start vertex is never absorbed.  For every valid input graph with at least two
vertices, the vertex `a` that the constructor chooses is the smallest vertex, and in every
state that `run` goes through it is still the start vertex and a key of `G.vertices`; a phase
started in such a state keeps the keys of `G.vertices` during its loop and then merges
`added_last`, which is not `a`, into `added_before`, which is `a` exactly when two vertices are
left: the keys after the phase are those before it without `added_last`. -/
theorem start_vertex_never_absorbed (G : HyperGraph) (hG : InputGraph G)
    (hT : total_weight G.edges < INT_MAX) (hn : 2 ≤ G.vertices.length) :
    ∃ mc0, MinCut.construct G = some mc0 ∧ mc0.a ∈ mapKeys G.vertices ∧
      (∀ v ∈ mapKeys G.vertices, mc0.a ≤ v) ∧
      ∀ m, RunsThrough mc0 m →
        m.a = mc0.a ∧ m.a ∈ mapKeys m.G.vertices ∧
        (1 < m.G.vertices.length →
          ∃ st s t m', MinCut.phase_order m = some (st, s, t) ∧ MinCut.phase m = some m' ∧
            st.G.vertices = m.G.vertices ∧ m'.G = st.G.merge s t ∧ m'.a = m.a ∧
            t ≠ m.a ∧ s ≠ t ∧ (s = m.a ↔ m.G.vertices.length = 2) ∧
            mapKeys m'.G.vertices = setErase t (mapKeys m.G.vertices)) := by
  obtain ⟨mc0, hc, hG0, hI, ha, hmin, -⟩ := construct_spec G hG hn
  have hK0 : (mapKeys G.vertices).Nodup := MapWF_keys_nodup (InputGraph_RunInv hG).1.1
  refine ⟨mc0, hc, ha, hmin, ?_⟩
  intro m hm
  obtain ⟨hIm, hma⟩ := RunsThrough_inv G hT hK0 hI hm
  refine ⟨hma, hIm.2.2.1, ?_⟩
  intro hlen
  obtain ⟨st, init, s, t, hpo, hp, hea, heG, -, hv, -, hnd, -, hhead, -, hst, hta, -, -, hk,
    hl⟩ := phase_shape G hT m hIm hlen
  refine ⟨st, s, t, _, hpo, hp, hv, heG, hea, hta, hst, ?_, by rw [heG]; exact hk⟩
  rw [← hl]
  cases init with
  | nil =>
    simp only [List.nil_append, List.head?_cons, Option.some.injEq] at hhead
    simp [hhead]
  | cons x xs =>
    simp only [List.cons_append, List.head?_cons, Option.some.injEq] at hhead
    have hne : s ≠ x := by
      intro e
      rw [List.cons_append, List.nodup_cons] at hnd
      exact hnd.1 (by simp [e])
    rw [← hhead]
    simp [hne]

/-- C18, witness: the path `2 - 1 - 3 - 4`. -/
theorem start_vertex_never_absorbed_witness :
    InputGraph path4 ∧ total_weight path4.edges < INT_MAX ∧ 2 ≤ path4.vertices.length ∧
    ∃ mc0, MinCut.construct path4 = some mc0 ∧ mc0.a ∈ mapKeys path4.vertices ∧
      (∀ v ∈ mapKeys path4.vertices, mc0.a ≤ v) ∧
      ∀ m, RunsThrough mc0 m →
        m.a = mc0.a ∧ m.a ∈ mapKeys m.G.vertices ∧
        (1 < m.G.vertices.length →
          ∃ st s t m', MinCut.phase_order m = some (st, s, t) ∧ MinCut.phase m = some m' ∧
            st.G.vertices = m.G.vertices ∧ m'.G = st.G.merge s t ∧ m'.a = m.a ∧
            t ≠ m.a ∧ s ≠ t ∧ (s = m.a ↔ m.G.vertices.length = 2) ∧
            mapKeys m'.G.vertices = setErase t (mapKeys m.G.vertices)) :=
  ⟨path4_input, by decide, by decide,
    start_vertex_never_absorbed path4 path4_input (by decide) (by decide)⟩

/-- C15: the keys of a phase.  For every valid input graph with at least two vertices, in
every phase of the run, the loop of the phase is entered and returns, and at the head of each
of its iterations, with `A` the vertices added so far, the heap stores exactly the vertices
not in `A`, and the key of each such vertex `u` is the sum of the weights of the edges that
contain `u` and at least one vertex of `A`, each such edge counted once; the vertex that the
iteration pops is one of the largest such sum. -/
theorem keys_are_tightness (G : HyperGraph) (hG : InputGraph G)
    (hT : total_weight G.edges < INT_MAX) (hn : 2 ≤ G.vertices.length) :
    ∃ mc0, MinCut.construct G = some mc0 ∧
      ∀ m, RunsThrough mc0 m → 1 < m.G.vertices.length →
        (∃ res A, MinCut.phase_order m = some res ∧ LoopState m res.1 A) ∧
        ∀ st A, LoopState m st A →
          (∀ u, u ∈ mapKeys m.G.vertices → u ∉ A →
            ∃ n nd, mapFind st.nodes u = some n ∧ st.heap.mem n = some nd ∧
              nd.payload = u ∧ nd.key = tightness m.G.edges A u) ∧
          (∀ x nd, st.heap.mem x = some nd →
            nd.payload ∈ mapKeys m.G.vertices ∧ nd.payload ∉ A ∧
              mapFind st.nodes nd.payload = some x) ∧
          (A.length - 1 < st.G.vertices.length - 1 →
            ∃ top tn, st.heap.top_node = some top ∧ st.heap.mem top = some tn ∧
              ∀ u, u ∈ mapKeys m.G.vertices → u ∉ A →
                tightness m.G.edges A u ≤ tightness m.G.edges A tn.payload) := by
  obtain ⟨mc0, hc, hG0, hI, -, -, -⟩ := construct_spec G hG hn
  have hK0 : (mapKeys G.vertices).Nodup := MapWF_keys_nodup (InputGraph_RunInv hG).1.1
  refine ⟨mc0, hc, ?_⟩
  intro m hm hlen
  obtain ⟨hIm, -⟩ := RunsThrough_inv G hT hK0 hI hm
  obtain ⟨hGm, hTotm, ham, hrest⟩ := hIm
  constructor
  · obtain ⟨st, init, s, t, hpo, -⟩ := phase_shape G hT m ⟨hGm, hTotm, ham, hrest⟩ hlen
    obtain ⟨A, hA, -⟩ := phase_order_LoopState m _ hpo
    exact ⟨_, A, hpo, hA⟩
  · intro st A hL
    obtain ⟨⟨-, -, -, -, hR⟩, -, -, -, hs, -⟩ :=
      LoopState_inv (total_weight G.edges) hT m hGm hTotm ham hL
    refine ⟨?_, ?_, ?_⟩
    · intro u huK huA
      obtain ⟨n, nd, c1, c2, c3, c4⟩ := hR.2.1 u ⟨huK, huA⟩
      exact ⟨n, nd, c1, c2, c3, c4.trans (tightness_transfer hs A u)⟩
    · intro x nd hx
      obtain ⟨r1, r2⟩ := hR.2.2 x nd hx
      exact ⟨r1.1, r1.2, r2⟩
    · intro hcond
      obtain ⟨-, top, tn, heap1, st1, h1, h2, -, -, -, -, h3, -⟩ :=
        LoopState_pop (total_weight G.edges) hT m hGm hTotm ham hL hcond
      exact ⟨top, tn, h1, h2, h3⟩

/-- C15, witness: the triangle of S1. -/
theorem keys_are_tightness_witness :
    InputGraph triangle ∧ total_weight triangle.edges < INT_MAX ∧ 2 ≤ triangle.vertices.length ∧
    ∃ mc0, MinCut.construct triangle = some mc0 ∧
      ∀ m, RunsThrough mc0 m → 1 < m.G.vertices.length →
        (∃ res A, MinCut.phase_order m = some res ∧ LoopState m res.1 A) ∧
        ∀ st A, LoopState m st A →
          (∀ u, u ∈ mapKeys m.G.vertices → u ∉ A →
            ∃ n nd, mapFind st.nodes u = some n ∧ st.heap.mem n = some nd ∧
              nd.payload = u ∧ nd.key = tightness m.G.edges A u) ∧
          (∀ x nd, st.heap.mem x = some nd →
            nd.payload ∈ mapKeys m.G.vertices ∧ nd.payload ∉ A ∧
              mapFind st.nodes nd.payload = some x) ∧
          (A.length - 1 < st.G.vertices.length - 1 →
            ∃ top tn, st.heap.top_node = some top ∧ st.heap.mem top = some tn ∧
              ∀ u, u ∈ mapKeys m.G.vertices → u ∉ A →
                tightness m.G.edges A u ≤ tightness m.G.edges A tn.payload) :=
  ⟨triangle_input, by decide, by decide,
    keys_are_tightness triangle triangle_input (by decide) (by decide)⟩

/-- C19: a phase never touches the heap handle of a vertex that has left the heap.  For every
valid input graph with at least two vertices, in every phase of the run: the phase returns;
when `a` is added, every vertex of an edge of `a` other than `a` has its node in the heap; at
the head of each iteration of the loop the heap is not empty, so `top_node` and `pop` act on a
live node, and when the popped vertex `v` is added, every vertex `u` other than `v` of an edge
of `v` that is not marked is a vertex not added before (neither `a` nor a popped vertex)
whose handle `nodes[u]` is a node of the heap; the addition deletes no node. -/
theorem phase_handles_are_live (G : HyperGraph) (hG : InputGraph G)
    (hT : total_weight G.edges < INT_MAX) (hn : 2 ≤ G.vertices.length) :
    ∃ mc0, MinCut.construct G = some mc0 ∧
      ∀ m, RunsThrough mc0 m → 1 < m.G.vertices.length →
        (∃ res, MinCut.phase_order m = some res) ∧
        (∃ r, MinCut.push_all (mapKeys m.G.vertices) {} [] = some r ∧
          ∀ e ∈ (mapGetD m.G.vertices m.a).edges,
            ∀ u ∈ (mapGetD m.G.edges e).vertices, u ≠ m.a →
              ∃ n nd, mapFind r.2 u = some n ∧ r.1.mem n = some nd ∧ nd.payload = u) ∧
        ∀ st A, LoopState m st A → A.length - 1 < st.G.vertices.length - 1 →
          st.heap.empty = false ∧
          ∃ top tn heap1 st1, st.heap.top_node = some top ∧ st.heap.mem top = some tn ∧
            st.heap.pop = some heap1 ∧
            MinCut.add_vertex_to_A tn.payload { st with heap := heap1 } = some st1 ∧
            tn.payload ∉ A ∧
            (∀ e ∈ (mapGetD st.G.vertices tn.payload).edges, e ∉ st.marked →
              ∀ u ∈ (mapGetD st.G.edges e).vertices, u ≠ tn.payload →
                u ∉ A ∧
                ∃ n nd, mapFind st.nodes u = some n ∧ heap1.mem n = some nd ∧
                  nd.payload = u) ∧
            (∀ x, st1.heap.mem x ≠ none ↔ heap1.mem x ≠ none) ∧
            (∀ x, heap1.mem x ≠ none ↔ (st.heap.mem x ≠ none ∧ x ≠ top)) := by
  obtain ⟨mc0, hc, hG0, hI, -, -, -⟩ := construct_spec G hG hn
  have hK0 : (mapKeys G.vertices).Nodup := MapWF_keys_nodup (InputGraph_RunInv hG).1.1
  refine ⟨mc0, hc, ?_⟩
  intro m hm hlen
  obtain ⟨hIm, -⟩ := RunsThrough_inv G hT hK0 hI hm
  obtain ⟨hGm, hTotm, ham, hrest⟩ := hIm
  refine ⟨?_, ?_, ?_⟩
  · obtain ⟨st, init, s, t, hpo, -⟩ := phase_shape G hT m ⟨hGm, hTotm, ham, hrest⟩ hlen
    exact ⟨_, hpo⟩
  · obtain ⟨h0, nodes0, hpush, hR0⟩ := push_all_spec (mapKeys m.G.vertices)
      (MapWF_keys_nodup hGm.1.1) {} [] (fun _ => False) (fun _ => 0) HeapRep_empty
      (fun _ _ h => h)
    refine ⟨(h0, nodes0), hpush, ?_⟩
    intro e _ u hu _
    obtain ⟨E, hE, huE⟩ := mapGetD_default_edges hu
    obtain ⟨U, hU, -⟩ := hGm.2.1 e E hE u huE
    obtain ⟨n, nd, c1, c2, c3, -⟩ := hR0.2.1 u (Or.inr ((mem_mapKeys _ _).mpr ⟨U, hU⟩))
    exact ⟨n, nd, c1, c2, c3⟩
  · intro st A hL hcond
    obtain ⟨h1, top, tn, heap1, st1, h2, h3, h4, h5, -, h6, -, h7, h8, h9⟩ :=
      LoopState_pop (total_weight G.edges) hT m hGm hTotm ham hL hcond
    refine ⟨h1, top, tn, heap1, st1, h2, h3, h4, h5, h6, ?_, h8, h9⟩
    intro e he hne u hu huv
    obtain ⟨-, a2, a3⟩ := h7 e he hne u hu huv
    exact ⟨a2, a3⟩

/-- C19, witness: the path `2 - 1 - 3 - 4`. -/
theorem phase_handles_are_live_witness :
    InputGraph path4 ∧ total_weight path4.edges < INT_MAX ∧ 2 ≤ path4.vertices.length ∧
    ∃ mc0, MinCut.construct path4 = some mc0 ∧
      ∀ m, RunsThrough mc0 m → 1 < m.G.vertices.length →
        (∃ res, MinCut.phase_order m = some res) ∧
        (∃ r, MinCut.push_all (mapKeys m.G.vertices) {} [] = some r ∧
          ∀ e ∈ (mapGetD m.G.vertices m.a).edges,
            ∀ u ∈ (mapGetD m.G.edges e).vertices, u ≠ m.a →
              ∃ n nd, mapFind r.2 u = some n ∧ r.1.mem n = some nd ∧ nd.payload = u) ∧
        ∀ st A, LoopState m st A → A.length - 1 < st.G.vertices.length - 1 →
          st.heap.empty = false ∧
          ∃ top tn heap1 st1, st.heap.top_node = some top ∧ st.heap.mem top = some tn ∧
            st.heap.pop = some heap1 ∧
            MinCut.add_vertex_to_A tn.payload { st with heap := heap1 } = some st1 ∧
            tn.payload ∉ A ∧
            (∀ e ∈ (mapGetD st.G.vertices tn.payload).edges, e ∉ st.marked →
              ∀ u ∈ (mapGetD st.G.edges e).vertices, u ≠ tn.payload →
                u ∉ A ∧
                ∃ n nd, mapFind st.nodes u = some n ∧ heap1.mem n = some nd ∧
                  nd.payload = u) ∧
            (∀ x, st1.heap.mem x ≠ none ↔ heap1.mem x ≠ none) ∧
            (∀ x, heap1.mem x ≠ none ↔ (st.heap.mem x ≠ none ∧ x ≠ top)) :=
  ⟨path4_input, by decide, by decide,
    phase_handles_are_live path4 path4_input (by decide) (by decide)⟩

/-- C20: the final state of the consumed graph.  For every valid input graph with at least
two vertices, `mincut` returns and leaves a graph in which `G.vertices` has exactly one key,
the smallest vertex of the input graph, whose `merged_with` holds every other vertex of the
input graph exactly once, and in which `G.edges` is empty: every edge record, the empty
records created by `G.edges[e]` included, has been erased. -/
theorem final_graph_state (G : HyperGraph) (hG : InputGraph G)
    (hT : total_weight G.edges < INT_MAX) (hn : 2 ≤ G.vertices.length) :
    ∃ res G' a V, mincut G = some (res, G') ∧ G'.vertices = [(a, V)] ∧
      a ∈ mapKeys G.vertices ∧ (∀ v ∈ mapKeys G.vertices, a ≤ v) ∧
      V.merged_with.Nodup ∧ (∀ x, x ∈ V.merged_with ↔ (x ∈ mapKeys G.vertices ∧ x ≠ a)) ∧
      G'.edges = [] := by
  obtain ⟨res, G', a, V, h1, h2, h3, h4, h5, h6, h7⟩ := mincut_final G hG hT hn
  exact ⟨res, G', a, V, h1, h2, h3, h4, h5, h6, h7⟩

/-- C20, witness: the triangle of S1. -/
theorem final_graph_state_witness :
    InputGraph triangle ∧ total_weight triangle.edges < INT_MAX ∧ 2 ≤ triangle.vertices.length ∧
    ∃ res G' a V, mincut triangle = some (res, G') ∧ G'.vertices = [(a, V)] ∧
      a ∈ mapKeys triangle.vertices ∧ (∀ v ∈ mapKeys triangle.vertices, a ≤ v) ∧
      V.merged_with.Nodup ∧
      (∀ x, x ∈ V.merged_with ↔ (x ∈ mapKeys triangle.vertices ∧ x ≠ a)) ∧
      G'.edges = [] :=
  ⟨triangle_input, by decide, by decide,
    final_graph_state triangle triangle_input (by decide) (by decide)⟩

